import Mathlib

/-!
Shallow embedding of the graph-algorithms toolkit (Python sources under src/)
and proofs of the specification claims.

Modelling conventions, used consistently below:
* A Python dict is an insertion-ordered association list with distinct keys;
  assignment updates the first matching key in place or appends a fresh key.
* Floating point weights and distances are modelled as integers; the value
  float(inf) used as the unreachable sentinel is modelled as the value
  none of Option Int (so some n is a finite distance n).
* A Python set that is only tested for membership / accumulated is modelled
  as an insertion-ordered duplicate-free list.
* heapq is modelled by its contract: the heap is the list of its entries and
  heappop removes (the first occurrence of) the lexicographically least
  entry; entries here are (distance, vertex) pairs of integers, so the least
  entry is a uniquely determined value.
* Unbounded loops and recursion are given explicit fuel and return none when
  the fuel runs out; every top-level entry point is supplied enough fuel,
  which is proved where a claim needs it.
-/

namespace GT

/-- Python dict lookup: value at the first occurrence of key k, if any. -/
def dget {κ α : Type} [DecidableEq κ] : List (κ × α) → κ → Option α
  | [], _ => none
  | (k, v) :: rest, k0 => if k0 = k then some v else dget rest k0

/-- Python dict lookup with default: d.get(k, dflt). -/
def dgetD {κ α : Type} [DecidableEq κ] (d : List (κ × α)) (k : κ) (dflt : α) : α :=
  (dget d k).getD dflt

/-- Python dict assignment d[k] = v: update first matching key, else append. -/
def dset {κ α : Type} [DecidableEq κ] : List (κ × α) → κ → α → List (κ × α)
  | [], k0, v0 => [(k0, v0)]
  | (k, v) :: rest, k0, v0 =>
      if k0 = k then (k, v0) :: rest else (k, v) :: dset rest k0 v0

/-- The keys of a dict, in insertion order. -/
def dkeys {κ α : Type} (d : List (κ × α)) : List κ :=
  d.map Prod.fst

/-- set.add on an insertion-ordered set. -/
def addNode (vs : List Int) (v : Int) : List Int :=
  if v ∈ vs then vs else vs ++ [v]

/-- Weighted adjacency-list graph: {node: [(neighbor, weight), ...]}. -/
abbrev WGraph : Type := List (Int × List (Int × Int))

/-- Unweighted adjacency-list graph: {node: [neighbor, ...]}. -/
abbrev UGraph : Type := List (Int × List Int)

/-- The Python error kinds raised by the algorithms. -/
inductive PyErr : Type
  | keyError : PyErr
  | valueError : PyErr
deriving DecidableEq

/-- A distance value: some n is the finite distance n, none is float(inf). -/
abbrev EDist : Type := Option Int

/-- d + w for a distance d and finite weight w (inf + w = inf). -/
def eadd (d : EDist) (w : Int) : EDist :=
  d.map (· + w)

/-- d < e on distances with none = inf (inf < inf is false, n < inf is true). -/
def eltB : EDist → EDist → Bool
  | some _, none => true
  | none, _ => false
  | some a, some b => a < b

/-- Total edge-entry count of a weighted graph (used to size loop fuel). -/
def totalEdges (g : WGraph) : Nat :=
  (g.map (fun p => p.2.length)).sum

/-! ## Dijkstra (src/dijkstras_algorithm.py) -/

/-- Inner loop of vertex collection in dijkstra: walk one adjacency list,
raising ValueError at the first negative weight, else adding each target. -/
def collectEdgesChecked : List Int → List (Int × Int) → Except PyErr (List Int)
  | vs, [] => Except.ok vs
  | vs, (v, w) :: rest =>
      if w < 0 then Except.error PyErr.valueError
      else collectEdgesChecked (addNode vs v) rest

/-- Vertex collection in dijkstra: start from the key set, scan every
adjacency list for targets, raising ValueError on a negative weight. -/
def collectChecked : List Int → List (Int × List (Int × Int)) → Except PyErr (List Int)
  | vs, [] => Except.ok vs
  | vs, (_, adj) :: rest =>
      match collectEdgesChecked vs adj with
      | Except.error e => Except.error e
      | Except.ok vs2 => collectChecked vs2 rest

/-- Relax all edges out of u, at recorded distance du re-read per edge:
new_distance = distances[u] + weight; on improvement write it and push
(new_distance, v). Threads (distances, pq). -/
def relaxAll (u : Int) : List (Int × EDist) → List (Int × Int) → List (Int × Int) →
    List (Int × EDist) × List (Int × Int)
  | dist, pq, [] => (dist, pq)
  | dist, pq, (v, w) :: rest =>
      match eadd (dgetD dist u none) w with
      | none => relaxAll u dist pq rest
      | some nd =>
          if eltB (some nd) (dgetD dist v none) then
            relaxAll u (dset dist v (some nd)) (pq ++ [(nd, v)]) rest
          else
            relaxAll u dist pq rest

/-- Lexicographic minimum of a list of (distance, vertex) heap entries. -/
def heapMin : List (Int × Int) → Option (Int × Int)
  | [] => none
  | e :: rest =>
      match heapMin rest with
      | none => some e
      | some m => if e.1 < m.1 ∨ (e.1 = m.1 ∧ e.2 ≤ m.2) then some e else some m

/-- Remove the first occurrence of an entry from the heap. -/
def heapErase : List (Int × Int) → Int × Int → List (Int × Int)
  | [], _ => []
  | e :: rest, m => if e = m then rest else e :: heapErase rest m

/-- heapq.heappop modelled by contract: remove and return the least entry. -/
def heapPop (pq : List (Int × Int)) : Option ((Int × Int) × List (Int × Int)) :=
  match heapMin pq with
  | none => none
  | some m => some (m, heapErase pq m)

/-- The main dijkstra loop: pop, skip visited, skip stale, else relax.
Returns none only on fuel exhaustion. -/
def dloop (g : WGraph) : Nat → List (Int × Int) → List Int → List (Int × EDist) →
    Option (List (Int × EDist))
  | 0, _, _, _ => none
  | _ + 1, [], _, dist => some dist
  | fuel + 1, pq, visited, dist =>
      match heapPop pq with
      | none => some dist
      | some ((cd, u), pq2) =>
          if u ∈ visited then dloop g fuel pq2 visited dist
          else
            let visited2 := visited ++ [u]
            if eltB (dgetD dist u none) (some cd) then dloop g fuel pq2 visited2 dist
            else
              match relaxAll u dist pq2 (dgetD g u []) with
              | (dist2, pq3) => dloop g fuel pq3 visited2 dist2

/-- dijkstra(graph, start_node). The outer Option is the fuel artifact of the
embedding (none = fuel ran out, proved not to happen where needed); inside it,
Except carries the raised error (KeyError / ValueError) or the distances dict. -/
def dijkstra (g : WGraph) (start : Int) : Option (Except PyErr (List (Int × EDist))) :=
  if start ∉ dkeys g then some (Except.error PyErr.keyError)
  else
    match collectChecked (dkeys g) g with
    | Except.error e => some (Except.error e)
    | Except.ok vertices =>
        let dist0 := dset (vertices.map (fun v => (v, (none : EDist)))) start (some 0)
        match dloop g (totalEdges g + 2) [(0, start)] [] dist0 with
        | none => none
        | some d => some (Except.ok d)

/-! ## BFS and DFS (src/breadth_first_search.py, src/depth_first_search.py) -/

/-- All nodes of an unweighted graph: keys and edge targets, insertion order. -/
def allNodesU (g : UGraph) : List Int :=
  g.foldl (fun vs p => p.2.foldl addNode vs) (dkeys g)

/-- One BFS expansion: push the unvisited neighbors, marking them visited
at enqueue time. Threads (visited, queue). -/
def bfsPush : List Int → List Int → List Int → List Int × List Int
  | visited, queue, [] => (visited, queue)
  | visited, queue, nb :: rest =>
      if nb ∈ visited then bfsPush visited queue rest
      else bfsPush (visited ++ [nb]) (queue ++ [nb]) rest

/-- The BFS while-loop over the queue; none only on fuel exhaustion. -/
def bfsLoop (g : UGraph) : Nat → List Int → List Int → List Int → Option (List Int)
  | 0, _, _, _ => none
  | _ + 1, [], _, order => some order
  | fuel + 1, u :: qrest, visited, order =>
      match bfsPush visited qrest (dgetD g u []) with
      | (visited2, q2) => bfsLoop g fuel q2 visited2 (order ++ [u])

/-- breadth_first_search(graph, start_node): visitation order. -/
def breadth_first_search (g : UGraph) (start : Int) : Option (List Int) :=
  bfsLoop g ((allNodesU g).length + 2) [start] [start] []

/-- depth_first_search(graph, start_node, visited): the recursive DFS, with
fuel bounding the recursion depth; the visited set is threaded through. -/
def dfsAux (g : UGraph) : Nat → Int → List Int → Option (List Int)
  | 0, _, _ => none
  | fuel + 1, node, visited =>
      let visited2 := if node ∈ visited then visited else visited ++ [node]
      (dgetD g node []).foldlM
        (fun vis nb => if nb ∈ vis then some vis else dfsAux g fuel nb vis) visited2

/-- depth_first_search(graph, start_node) with the default fresh visited set. -/
def depth_first_search (g : UGraph) (start : Int) : Option (List Int) :=
  dfsAux g ((allNodesU g).length + 2) start []

/-! ## First claim-level facts -/

/-- Some adjacency list of g contains an edge of negative weight. -/
def hasNegativeEdge (g : WGraph) : Prop :=
  ∃ p ∈ g, ∃ e ∈ p.2, e.2 < 0

instance (g : WGraph) : Decidable (hasNegativeEdge g) := by
  unfold hasNegativeEdge; infer_instance

theorem collectEdgesChecked_neg (vs : List Int) (adj : List (Int × Int))
    (h : ∃ e ∈ adj, e.2 < 0) :
    collectEdgesChecked vs adj = Except.error PyErr.valueError := by
  induction adj generalizing vs with
  | nil => simp at h
  | cons e rest ih =>
      obtain ⟨e0, he0, hneg⟩ := h
      rcases e with ⟨v, w⟩
      by_cases hw : w < 0
      · simp [collectEdgesChecked, hw]
      · rcases List.mem_cons.mp he0 with h1 | h1
        · subst h1; exact absurd hneg hw
        · simp only [collectEdgesChecked, hw, if_false]
          exact ih _ ⟨e0, h1, hneg⟩

theorem collectEdgesChecked_ok (vs vs2 : List Int) (adj : List (Int × Int))
    (h : collectEdgesChecked vs adj = Except.ok vs2) :
    ∀ e ∈ adj, ¬ e.2 < 0 := by
  induction adj generalizing vs with
  | nil => simp
  | cons e rest ih =>
      rcases e with ⟨v, w⟩
      by_cases hw : w < 0
      · simp [collectEdgesChecked, hw] at h
      · intro e0 he0
        rcases List.mem_cons.mp he0 with h1 | h1
        · subst h1; exact hw
        · simp only [collectEdgesChecked, hw, if_false] at h
          exact ih _ h e0 h1

theorem collectEdgesChecked_not_keyError (vs : List Int) (adj : List (Int × Int)) :
    collectEdgesChecked vs adj ≠ Except.error PyErr.keyError := by
  induction adj generalizing vs with
  | nil => simp [collectEdgesChecked]
  | cons e rest ih =>
      rcases e with ⟨v, w⟩
      by_cases hw : w < 0
      · simp [collectEdgesChecked, hw]
      · simp only [collectEdgesChecked, hw, if_false]
        exact ih _

theorem collectChecked_neg (vs : List Int) (g : List (Int × List (Int × Int)))
    (h : ∃ p ∈ g, ∃ e ∈ p.2, e.2 < 0) :
    collectChecked vs g = Except.error PyErr.valueError := by
  induction g generalizing vs with
  | nil => simp at h
  | cons p rest ih =>
      obtain ⟨p0, hp0, he⟩ := h
      rcases List.mem_cons.mp hp0 with h1 | h1
      · subst h1
        simp only [collectChecked]
        rw [collectEdgesChecked_neg _ _ he]
      · simp only [collectChecked]
        cases hc : collectEdgesChecked vs p.2 with
        | error e =>
            rcases e with _ | _
            · exact absurd hc (collectEdgesChecked_not_keyError _ _)
            · rfl
        | ok vs2 => exact ih _ ⟨p0, h1, he⟩

theorem dget_eq_none_of_not_mem {κ α : Type} [DecidableEq κ] (d : List (κ × α)) (k : κ)
    (h : k ∉ dkeys d) : dget d k = none := by
  induction d with
  | nil => rfl
  | cons p rest ih =>
      simp only [dkeys, List.map_cons, List.mem_cons, not_or] at h
      simp only [dget, if_neg h.1]
      exact ih (by simpa [dkeys] using h.2)

/-- C3: with a negative-weight edge anywhere in the adjacency lists (reachable
from the start node or not) and the start node a key of the graph, dijkstra
raises ValueError during vertex collection and produces no distance result. -/
theorem dijkstra_raises_on_negative_edge (g : WGraph) (start : Int)
    (hstart : start ∈ dkeys g) (hneg : hasNegativeEdge g) :
    dijkstra g start = some (Except.error PyErr.valueError) := by
  have h1 : ¬ start ∉ dkeys g := not_not_intro hstart
  simp only [dijkstra, h1, if_false]
  rw [collectChecked_neg _ _ hneg]

/-- Witness for C3 on the graph {0: [(1, 5)], 1: [(2, -3)]} with start 0. -/
theorem dijkstra_raises_on_negative_edge_witness :
    (0 : Int) ∈ dkeys [((0 : Int), [((1 : Int), (5 : Int))]), (1, [(2, -3)])] ∧
    hasNegativeEdge [((0 : Int), [((1 : Int), (5 : Int))]), (1, [(2, -3)])] ∧
    dijkstra [((0 : Int), [((1 : Int), (5 : Int))]), (1, [(2, -3)])] 0 =
      some (Except.error PyErr.valueError) :=
  ⟨by decide, by decide,
    dijkstra_raises_on_negative_edge _ 0 (by decide) (by decide)⟩

/-- C7: on a start node that is not a key of the graph, BFS returns the
one-element visitation order [start] and DFS the one-element visited set
{start}; neither raises. -/
theorem bfs_dfs_missing_start_singleton (g : UGraph) (start : Int)
    (h : start ∉ dkeys g) :
    breadth_first_search g start = some [start] ∧
    depth_first_search g start = some [start] := by
  have hd : dget g start = none := dget_eq_none_of_not_mem g start h
  constructor
  · show bfsLoop g ((allNodesU g).length + 2) [start] [start] [] = some [start]
    simp [bfsLoop, bfsPush, dgetD, hd]
  · show dfsAux g ((allNodesU g).length + 2) start [] = some [start]
    simp [dfsAux, dgetD, hd]

/-- Witness for C7 on the graph {1: [2, 3]} with absent start node 0. -/
theorem bfs_dfs_missing_start_singleton_witness :
    (0 : Int) ∉ dkeys [((1 : Int), [(2 : Int), 3])] ∧
    (breadth_first_search [((1 : Int), [(2 : Int), 3])] 0 = some [0] ∧
     depth_first_search [((1 : Int), [(2 : Int), 3])] 0 = some [0]) :=
  ⟨by decide, bfs_dfs_missing_start_singleton _ 0 (by decide)⟩

/-! ## Kruskal and the DisjointSet (src/kruskals_algorithm.py)

Python's list.sort(key=lambda x: x[2]) is a stable sort by the weight
component; it is modelled as a stable insertion sort by weight.  Since
kruskals_algorithm sorts the caller's list in place, the embedding of
kruskals_algorithm returns the pair (mst_edges, final state of the caller's
edge list). -/

/-- An undirected weighted edge (u, v, weight). -/
abbrev KEdge : Type := Nat × Nat × Int

/-- Stable insertion of an edge into a weight-sorted list: the new element
goes after every element of smaller-or-equal weight. -/
def weightInsert (e : KEdge) : List KEdge → List KEdge
  | [] => [e]
  | f :: rest => if e.2.2 < f.2.2 then e :: f :: rest else f :: weightInsert e rest

/-- Stable sort by weight (the effect of edges.sort(key=lambda x: x[2])). -/
def weightSort : List KEdge → List KEdge
  | [] => []
  | e :: rest => weightInsert e (weightSort rest)

/-- State of DisjointSet(n): the parent and rank arrays. -/
structure DSU : Type where
  parent : List Nat
  rank : List Nat
deriving DecidableEq

/-- DisjointSet.__init__: parent = [0..n-1], rank = n zeros. -/
def dsuInit (n : Nat) : DSU :=
  { parent := List.range n, rank := List.replicate n 0 }

/-- DisjointSet.find with path compression; fuel bounds the recursion depth
(the parent chain), none only on fuel exhaustion. Returns the new state and
the representative. -/
def dsuFind : Nat → DSU → Nat → Option (DSU × Nat)
  | 0, _, _ => none
  | fuel + 1, d, u =>
      let pu := d.parent.getD u u
      if pu = u then some (d, u)
      else
        match dsuFind fuel d pu with
        | none => none
        | some (d2, r) => some ({ d2 with parent := d2.parent.set u r }, r)

/-- DisjointSet.union by rank (calling find on both arguments first). -/
def dsuUnion (fuel : Nat) (d : DSU) (u v : Nat) : Option DSU :=
  match dsuFind fuel d u with
  | none => none
  | some (d1, ru) =>
      match dsuFind fuel d1 v with
      | none => none
      | some (d2, rv) =>
          if ru ≠ rv then
            if d2.rank.getD rv 0 < d2.rank.getD ru 0 then
              some { d2 with parent := d2.parent.set rv ru }
            else if d2.rank.getD ru 0 < d2.rank.getD rv 0 then
              some { d2 with parent := d2.parent.set ru rv }
            else
              some { parent := d2.parent.set rv ru,
                     rank := d2.rank.set ru (d2.rank.getD ru 0 + 1) }
          else some d2

/-- The greedy edge scan of kruskals_algorithm: accept an edge whenever its
endpoints have different representatives, and union them. -/
def kruskalScan (fuel : Nat) : DSU → List KEdge → List KEdge → Option (List KEdge)
  | _, [], mst => some mst
  | d, (u, v, w) :: rest, mst =>
      match dsuFind fuel d u with
      | none => none
      | some (d1, ru) =>
          match dsuFind fuel d1 v with
          | none => none
          | some (d2, rv) =>
              if ru ≠ rv then
                match dsuUnion fuel d2 u v with
                | none => none
                | some d3 => kruskalScan fuel d3 rest (mst ++ [(u, v, w)])
              else kruskalScan fuel d2 rest mst

/-- kruskals_algorithm(num_nodes, edges). Returns (mst_edges, caller's edge
list after the call); the latter records the in-place edges.sort. -/
def kruskals_algorithm (num_nodes : Nat) (edges : List KEdge) :
    Option (List KEdge × List KEdge) :=
  let sorted := weightSort edges
  match kruskalScan (num_nodes + 1) (dsuInit num_nodes) sorted [] with
  | none => none
  | some mst => some (mst, sorted)

/-- C9 (refuted, code bug): kruskals_algorithm sorts the caller's edge list
in place, so after the call the caller's list [(0,1,10), (0,2,6)] has become
[(0,2,6), (0,1,10)] — not the original order the claim requires. -/
theorem kruskals_algorithm_mutates_caller_list :
    ∃ r, kruskals_algorithm 3 [(0, 1, 10), (0, 2, 6)] = some r ∧
      r.2 = [(0, 2, 6), (0, 1, 10)] ∧ r.2 ≠ [(0, 1, 10), (0, 2, 6)] := by
  decide

/-! ## Floyd-Warshall (src/floyd_warshall.py) -/

/-- Sum of two distances (inf absorbs, as for float inf). -/
def eadd2 : EDist → EDist → EDist
  | some a, some b => some (a + b)
  | _, _ => none

/-- All-pairs distance dict keyed by (i, j). -/
abbrev PairDist : Type := List ((Int × Int) × EDist)

/-- Seeding: for each adjacency entry set the self-distance to 0 and each
direct edge to its weight (later duplicate edges overwrite earlier ones). -/
def fwSeed : PairDist → List (Int × List (Int × Int)) → PairDist
  | d, [] => d
  | d, (node, adj) :: rest =>
      fwSeed (adj.foldl (fun acc e => dset acc (node, e.1) (some e.2))
        (dset d (node, node) (some 0))) rest

/-- The body of the innermost floyd_warshall loop: relax (i, j) through k
(the sum is recomputed in the assignment, as in the source). -/
def fwStepJ (i k : Int) (d : PairDist) (j : Int) : PairDist :=
  if eltB (eadd2 (dgetD d (i, k) none) (dgetD d (k, j) none)) (dgetD d (i, j) none) then
    dset d (i, j) (eadd2 (dgetD d (i, k) none) (dgetD d (k, j) none))
  else d

/-- The middle floyd_warshall loop: for fixed k and i, run over all j. -/
def fwStepI (nodes : List Int) (k : Int) (d : PairDist) (i : Int) : PairDist :=
  nodes.foldl (fwStepJ i k) d

/-- The outer floyd_warshall loop body for one intermediate vertex k. -/
def fwStepK (nodes : List Int) (d : PairDist) (k : Int) : PairDist :=
  nodes.foldl (fwStepI nodes k) d

/-- The triple-nested relaxation of floyd_warshall. -/
def fwRelax (nodes : List Int) (d : PairDist) : PairDist :=
  nodes.foldl (fwStepK nodes) d

/-- The final negative-cycle check: some self-distance dropped below 0. -/
def fwHasNegSelf (nodes : List Int) (d : PairDist) : Bool :=
  nodes.any fun node => eltB (dgetD d (node, node) none) (some 0)

/-- The initial all-pairs dict {(i, j): inf for i in nodes for j in nodes}. -/
def fwInit (nodes : List Int) : PairDist :=
  nodes.flatMap (fun i => nodes.map (fun j => ((i, j), (none : EDist))))

/-- floyd_warshall(graph): all-pairs distances over the adjacency keys, or
ValueError when a negative self-distance remains. -/
def floyd_warshall (g : WGraph) : Except PyErr PairDist :=
  if fwHasNegSelf (dkeys g) (fwRelax (dkeys g) (fwSeed (fwInit (dkeys g)) g)) then
    Except.error PyErr.valueError
  else Except.ok (fwRelax (dkeys g) (fwSeed (fwInit (dkeys g)) g))

/-! ## Dict key lemmas -/

theorem dget_isSome_iff {κ α : Type} [DecidableEq κ] (d : List (κ × α)) (k : κ) :
    (dget d k).isSome ↔ k ∈ dkeys d := by
  induction d with
  | nil => simp [dget, dkeys]
  | cons p rest ih =>
      by_cases h : k = p.1
      · subst h; simp [dget, dkeys]
      · simp only [dkeys, List.map_cons, List.mem_cons]
        rcases p with ⟨k1, v1⟩
        simp only [dget, if_neg h]
        simp only [dkeys] at ih
        simp [ih, h]

@[simp]
theorem dkeys_nil {κ α : Type} : dkeys ([] : List (κ × α)) = [] := rfl

@[simp]
theorem dkeys_cons {κ α : Type} (p : κ × α) (d : List (κ × α)) :
    dkeys (p :: d) = p.1 :: dkeys d := rfl

theorem mem_dkeys_dset {κ α : Type} [DecidableEq κ] (d : List (κ × α)) (k k0 : κ) (v : α) :
    k ∈ dkeys (dset d k0 v) ↔ k = k0 ∨ k ∈ dkeys d := by
  induction d with
  | nil => simp [dset]
  | cons p rest ih =>
      rcases p with ⟨k1, v1⟩
      by_cases h : k0 = k1
      · subst h
        rw [show dset ((k0, v1) :: rest) k0 v = (k0, v) :: rest from by simp [dset]]
        simp only [dkeys_cons, List.mem_cons]
        tauto
      · rw [show dset ((k1, v1) :: rest) k0 v = (k1, v1) :: dset rest k0 v from by
          simp [dset, h]]
        simp only [dkeys_cons, List.mem_cons]
        rw [ih]
        tauto

theorem mem_dkeys_fwSeed (d : PairDist) (g : List (Int × List (Int × Int)))
    (p : Int × Int) :
    p ∈ dkeys (fwSeed d g) ↔
      p ∈ dkeys d ∨ (∃ q ∈ g, p = (q.1, q.1)) ∨
        (∃ q ∈ g, ∃ e ∈ q.2, p = (q.1, e.1)) := by
  induction g generalizing d with
  | nil => simp [fwSeed]
  | cons q rest ih =>
      rcases q with ⟨node, adj⟩
      have hfold : ∀ (adj2 : List (Int × Int)) (acc : PairDist),
          p ∈ dkeys (adj2.foldl (fun acc e => dset acc (node, e.1) (some e.2)) acc) ↔
            p ∈ dkeys acc ∨ ∃ e ∈ adj2, p = (node, e.1) := by
        intro adj2
        induction adj2 with
        | nil => simp
        | cons e rest2 ih2 =>
            intro acc
            simp only [List.foldl_cons]
            rw [ih2, mem_dkeys_dset]
            simp only [List.mem_cons, exists_eq_or_imp]
            tauto
      show p ∈ dkeys (fwSeed _ rest) ↔ _
      rw [ih, hfold, mem_dkeys_dset]
      constructor
      · rintro (((rfl | h) | ⟨e, he, rfl⟩) | ⟨q, hq, rfl⟩ | ⟨q, hq, e, he, rfl⟩)
        · exact Or.inr (Or.inl ⟨(node, adj), List.mem_cons_self _ _, rfl⟩)
        · exact Or.inl h
        · exact Or.inr (Or.inr ⟨(node, adj), List.mem_cons_self _ _, e, he, rfl⟩)
        · exact Or.inr (Or.inl ⟨q, List.mem_cons_of_mem _ hq, rfl⟩)
        · exact Or.inr (Or.inr ⟨q, List.mem_cons_of_mem _ hq, e, he, rfl⟩)
      · rintro (h | ⟨q, hq, rfl⟩ | ⟨q, hq, e, he, rfl⟩)
        · exact Or.inl (Or.inl (Or.inr h))
        · rcases List.mem_cons.mp hq with rfl | hq
          · exact Or.inl (Or.inl (Or.inl rfl))
          · exact Or.inr (Or.inl ⟨q, hq, rfl⟩)
        · rcases List.mem_cons.mp hq with rfl | hq
          · exact Or.inl (Or.inr ⟨e, he, rfl⟩)
          · exact Or.inr (Or.inr ⟨q, hq, e, he, rfl⟩)

theorem dkeys_mono_foldl {κ α β : Type} [DecidableEq κ]
    (f : List (κ × α) → β → List (κ × α))
    (hf : ∀ d x q, q ∈ dkeys d → q ∈ dkeys (f d x)) :
    ∀ (l : List β) (d : List (κ × α)) (q : κ), q ∈ dkeys d → q ∈ dkeys (l.foldl f d) := by
  intro l
  induction l with
  | nil => intro d q hq; simpa using hq
  | cons x rest ih =>
      intro d q hq
      simpa using ih (f d x) q (hf d x q hq)

theorem dkeys_foldl_bound {κ α β : Type} [DecidableEq κ]
    (f : List (κ × α) → β → List (κ × α)) (P : β → κ → Prop)
    (hf : ∀ d x q, q ∈ dkeys (f d x) → q ∈ dkeys d ∨ P x q) :
    ∀ (l : List β) (d : List (κ × α)) (q : κ),
      q ∈ dkeys (l.foldl f d) → q ∈ dkeys d ∨ ∃ x ∈ l, P x q := by
  intro l
  induction l with
  | nil => intro d q hq; exact Or.inl (by simpa using hq)
  | cons x rest ih =>
      intro d q hq
      rcases ih (f d x) q (by simpa using hq) with h | ⟨y, hy, hP⟩
      · rcases hf d x q h with h2 | h2
        · exact Or.inl h2
        · exact Or.inr ⟨x, List.mem_cons_self _ _, h2⟩
      · exact Or.inr ⟨y, List.mem_cons_of_mem _ hy, hP⟩

theorem dkeys_fwStepJ_mono (i k : Int) (d : PairDist) (j : Int) (q : Int × Int)
    (hq : q ∈ dkeys d) : q ∈ dkeys (fwStepJ i k d j) := by
  unfold fwStepJ
  split
  · exact (mem_dkeys_dset _ _ _ _).mpr (Or.inr hq)
  · exact hq

theorem dkeys_fwStepJ_sub (i k : Int) (d : PairDist) (j : Int) (q : Int × Int)
    (hq : q ∈ dkeys (fwStepJ i k d j)) : q ∈ dkeys d ∨ q = (i, j) := by
  unfold fwStepJ at hq
  split at hq
  · rcases (mem_dkeys_dset _ _ _ _).mp hq with h | h
    · exact Or.inr h
    · exact Or.inl h
  · exact Or.inl hq

theorem dkeys_fwRelax_mono (nodes : List Int) (d : PairDist) (q : Int × Int)
    (hq : q ∈ dkeys d) : q ∈ dkeys (fwRelax nodes d) := by
  unfold fwRelax fwStepK fwStepI
  exact dkeys_mono_foldl _
    (fun d k q hq => dkeys_mono_foldl _
      (fun d i q hq => dkeys_mono_foldl _
        (fun d j q hq => dkeys_fwStepJ_mono i k d j q hq) nodes d q hq) nodes d q hq)
    nodes d q hq

theorem dkeys_fwRelax_sub (nodes : List Int) (d : PairDist) (q : Int × Int)
    (hq : q ∈ dkeys (fwRelax nodes d)) :
    q ∈ dkeys d ∨ (q.1 ∈ nodes ∧ q.2 ∈ nodes) := by
  unfold fwRelax fwStepK fwStepI at hq
  have h1 := dkeys_foldl_bound _ (fun k q => q.1 ∈ nodes ∧ q.2 ∈ nodes)
    (fun d k q hk => by
      have h2 := dkeys_foldl_bound _ (fun i (q : Int × Int) => q.1 = i ∧ q.2 ∈ nodes)
        (fun d i q hi => by
          have h3 := dkeys_foldl_bound (fwStepJ i k) (fun j (q : Int × Int) => q = (i, j))
            (fun d j q hj => dkeys_fwStepJ_sub i k d j q hj) nodes d q hi
          rcases h3 with h3 | ⟨j, hj, rfl⟩
          · exact Or.inl h3
          · exact Or.inr ⟨rfl, hj⟩) nodes d q hk
      rcases h2 with h2 | ⟨i, hi, h2⟩
      · exact Or.inl h2
      · exact Or.inr ⟨h2.1 ▸ hi, h2.2⟩) nodes d q hq
  rcases h1 with h1 | ⟨k, hk, h1⟩
  · exact Or.inl h1
  · exact Or.inr h1

theorem mem_dkeys_fwInit (nodes : List Int) (q : Int × Int) :
    q ∈ dkeys (fwInit nodes) ↔ q.1 ∈ nodes ∧ q.2 ∈ nodes := by
  constructor
  · intro h
    change q ∈ List.map Prod.fst (fwInit nodes) at h
    rw [List.mem_map] at h
    obtain ⟨pr, hpr, rfl⟩ := h
    rw [fwInit, List.mem_flatMap] at hpr
    obtain ⟨i, hi, hpr⟩ := hpr
    rw [List.mem_map] at hpr
    obtain ⟨j, hj, rfl⟩ := hpr
    exact ⟨hi, hj⟩
  · rintro ⟨h1, h2⟩
    change q ∈ List.map Prod.fst (fwInit nodes)
    rw [List.mem_map]
    refine ⟨((q.1, q.2), none), ?_, rfl⟩
    rw [fwInit, List.mem_flatMap]
    exact ⟨q.1, h1, List.mem_map.mpr ⟨q.2, h2, rfl⟩⟩

theorem mem_dkeys_of_mem {κ α : Type} (d : List (κ × α)) (p : κ × α) (hp : p ∈ d) :
    p.1 ∈ dkeys d := by
  simp only [dkeys, List.mem_map]
  exact ⟨p, hp, rfl⟩

instance {ε α : Type} [DecidableEq ε] [DecidableEq α] : DecidableEq (Except ε α) :=
  fun a b =>
    match a, b with
    | Except.error a, Except.error b =>
        if h : a = b then isTrue (congrArg Except.error h)
        else isFalse (fun hh => h (by cases hh; rfl))
    | Except.error _, Except.ok _ => isFalse (fun hh => by cases hh)
    | Except.ok _, Except.error _ => isFalse (fun hh => by cases hh)
    | Except.ok a, Except.ok b =>
        if h : a = b then isTrue (congrArg Except.ok h)
        else isFalse (fun hh => h (by cases hh; rfl))

/-- C8 (refuted): on the graph {0: [(1, 5)]} the node 1 appears as an edge
target but is not an adjacency key, and the floyd_warshall result has no
entry for the pair (1, 1) — dangling targets get no default state. -/
theorem floyd_warshall_dangling_counterexample :
    floyd_warshall [((0 : Int), [((1 : Int), (5 : Int))])] =
      Except.ok [(((0 : Int), (0 : Int)), (some 0 : EDist)), ((0, 1), some 5)] ∧
    (1, 1) ∉ dkeys [(((0 : Int), (0 : Int)), (some 0 : EDist)), ((0, 1), some 5)] := by
  decide

/-- C8 as amended: the floyd_warshall result has an entry for every ordered
pair of adjacency keys; every entry's pair has an adjacency key as first
component, and its second component is either an adjacency key or the target
of a direct edge out of the first component (so a node appearing only as an
edge target gets no self-distance entry and no row of its own). -/
theorem floyd_warshall_key_pairs (g : WGraph) (d : PairDist)
    (hok : floyd_warshall g = Except.ok d) :
    (∀ i ∈ dkeys g, ∀ j ∈ dkeys g, (i, j) ∈ dkeys d) ∧
    (∀ q : Int × Int, q ∈ dkeys d → q.1 ∈ dkeys g ∧
      (q.2 ∈ dkeys g ∨ ∃ p ∈ g, p.1 = q.1 ∧ ∃ e ∈ p.2, e.1 = q.2)) := by
  unfold floyd_warshall at hok
  split at hok
  · cases hok
  · rw [Except.ok.injEq] at hok
    subst hok
    rw [show fwInit (dkeys g) =
      (dkeys g).flatMap (fun i => (dkeys g).map (fun j => ((i, j), (none : EDist)))) from rfl]
    constructor
    · intro i hi j hj
      apply dkeys_fwRelax_mono
      rw [mem_dkeys_fwSeed]
      exact Or.inl ((mem_dkeys_fwInit (dkeys g) (i, j)).mpr ⟨hi, hj⟩)
    · intro q hq
      rcases dkeys_fwRelax_sub _ _ _ hq with h | h
      · rw [mem_dkeys_fwSeed] at h
        rcases h with h | ⟨p, hp, rfl⟩ | ⟨p, hp, e, he, rfl⟩
        · have := (mem_dkeys_fwInit (dkeys g) q).mp h
          exact ⟨this.1, Or.inl this.2⟩
        · exact ⟨mem_dkeys_of_mem g p hp, Or.inl (mem_dkeys_of_mem g p hp)⟩
        · exact ⟨mem_dkeys_of_mem g p hp, Or.inr ⟨p, hp, rfl, e, he, rfl⟩⟩
      · exact ⟨h.1, Or.inl h.2⟩

/-- Witness for the amended C8 on the graph {0: [(1, 5)]}. -/
theorem floyd_warshall_key_pairs_witness :
    (∀ i ∈ dkeys [((0 : Int), [((1 : Int), (5 : Int))])],
      ∀ j ∈ dkeys [((0 : Int), [((1 : Int), (5 : Int))])],
        (i, j) ∈ dkeys [(((0 : Int), (0 : Int)), (some 0 : EDist)), ((0, 1), some 5)]) ∧
    (∀ q : Int × Int,
      q ∈ dkeys [(((0 : Int), (0 : Int)), (some 0 : EDist)), ((0, 1), some 5)] →
        q.1 ∈ dkeys [((0 : Int), [((1 : Int), (5 : Int))])] ∧
        (q.2 ∈ dkeys [((0 : Int), [((1 : Int), (5 : Int))])] ∨
          ∃ p ∈ [((0 : Int), [((1 : Int), (5 : Int))])], p.1 = q.1 ∧
            ∃ e ∈ p.2, e.1 = q.2)) :=
  floyd_warshall_key_pairs _ _ (by decide)


/-! ## 2-SAT (src/2SAT_proble.py): implication graph, its local Kosaraju,
and the solver. -/

/-- defaultdict(list) append: graph[k].append(x). -/
def dAppend (d : UGraph) (k : Int) (x : Int) : UGraph :=
  match dget d k with
  | some l => dset d k (l ++ [x])
  | none => d ++ [(k, [x])]

/-- implication_graph(clauses, num_vars): clause (a, b) adds -a -> b and
-b -> a (num_vars is unused by the source). -/
def implication_graph (clauses : List (Int × Int)) : UGraph :=
  clauses.foldl (fun g c => dAppend (dAppend g (-c.1) c.2) (-c.2) c.1) []

/-- dfs_first of the 2-SAT kosaraju_scc: post-order DFS on (visited, stack);
fuel bounds the recursion depth. -/
def dfs1 (g : UGraph) : Nat → Int → List Int × List Int → Option (List Int × List Int)
  | 0, _, _ => none
  | fuel + 1, node, st =>
      match (dgetD g node []).foldlM
          (fun st2 nb => if nb ∈ st2.1 then some st2 else dfs1 g fuel nb st2)
          (addNode st.1 node, st.2) with
      | none => none
      | some st3 => some (st3.1, st3.2 ++ [node])

/-- dfs_second of the 2-SAT kosaraju_scc: collect one component on the
reversed graph, threading (visited, component). -/
def dfs2 (rg : UGraph) : Nat → Int → List Int × List Int → Option (List Int × List Int)
  | 0, _, _ => none
  | fuel + 1, node, st =>
      (dgetD rg node []).foldlM
        (fun st2 nb => if nb ∈ st2.1 then some st2 else dfs2 rg fuel nb st2)
        (addNode st.1 node, st.2 ++ [node])

/-- reverse_graph of the 2-SAT kosaraju_scc: a fresh defaultdict(list) with
every edge reversed (keys appear in first-touch order, no pre-seeding). -/
def reverse_graph_sat (g : UGraph) : UGraph :=
  g.foldl (fun rg p => p.2.foldl (fun rg nb => dAppend rg nb p.1) rg) []

/-- First pass of the 2-SAT kosaraju_scc over the adjacency keys. -/
def kosarajuPass1 (g : UGraph) (fuel : Nat) : Option (List Int × List Int) :=
  (dkeys g).foldlM
    (fun st node => if node ∈ st.1 then some st else dfs1 g fuel node st) ([], [])

/-- Second pass: pop the finish stack (given here already in pop order) and
grow one component per unvisited node. -/
def kosarajuPass2 (rg : UGraph) (fuel : Nat) :
    List Int → List Int × List (List Int) → Option (List Int × List (List Int))
  | [], st => some st
  | node :: rest, (visited, sccs) =>
      if node ∈ visited then kosarajuPass2 rg fuel rest (visited, sccs)
      else
        match dfs2 rg fuel node (visited, []) with
        | none => none
        | some (v2, comp) => kosarajuPass2 rg fuel rest (v2, sccs ++ [comp])

/-- kosaraju_scc as defined inside src/2SAT_proble.py. -/
def kosaraju_scc_sat (g : UGraph) (fuel : Nat) : Option (List (List Int)) :=
  match kosarajuPass1 g fuel with
  | none => none
  | some st =>
      match kosarajuPass2 (reverse_graph_sat g) fuel st.2.reverse ([], []) with
      | none => none
      | some st2 => some st2.2

/-- component_id: map every node of every component to the component index. -/
def componentIds : List (List Int) → Int → List (Int × Int) → List (Int × Int)
  | [], _, cid => cid
  | comp :: rest, idx, cid =>
      componentIds rest (idx + 1) (comp.foldl (fun cid node => dset cid node idx) cid)

/-- The final contradiction scan of two_sat_solver over the variables. -/
def twoSatCheck (cid : List (Int × Int)) : List Int → Bool
  | [] => true
  | v :: rest =>
      if dgetD cid v (-1) ≠ -1 ∧ dgetD cid v (-1) = dgetD cid (-v) (-1) then false
      else twoSatCheck cid rest

/-- two_sat_solver(clauses, num_vars). -/
def two_sat_solver (clauses : List (Int × Int)) (num_vars : Nat) : Option Bool :=
  match kosaraju_scc_sat (implication_graph clauses)
      ((allNodesU (implication_graph clauses)).length + 1) with
  | none => none
  | some sccs =>
      some (twoSatCheck (componentIds sccs 0 [])
        ((List.range num_vars).map (fun (i : Nat) => ((i : Int) + 1))))

/-! ## C10 support: the 2-SAT solver blames only occurring variables -/

/-- x is a node of the unweighted graph: a key or an edge target. -/
def isNodeU (g : UGraph) (x : Int) : Prop :=
  x ∈ dkeys g ∨ ∃ p ∈ g, x ∈ p.2

/-- Variable v (positive) occurs in some clause, in either polarity. -/
def occursVar (v : Int) (clauses : List (Int × Int)) : Prop :=
  ∃ c ∈ clauses, c.1 = v ∨ c.1 = -v ∨ c.2 = v ∨ c.2 = -v

theorem foldl_preserve {β σ : Type} (f : σ → β → σ) (Q : σ → Prop) :
    ∀ (l : List β) (s : σ), Q s → (∀ s x, x ∈ l → Q s → Q (f s x)) → Q (l.foldl f s) := by
  intro l
  induction l with
  | nil => intro s hQ _; simpa using hQ
  | cons x rest ih =>
      intro s hQ hstep
      simp only [List.foldl_cons]
      exact ih (f s x) (hstep s x (List.mem_cons_self _ _) hQ)
        (fun s y hy => hstep s y (List.mem_cons_of_mem _ hy))

theorem foldlM_option_preserve {β σ : Type} (f : σ → β → Option σ) (Q : σ → Prop) :
    ∀ (l : List β) (s s2 : σ), l.foldlM f s = some s2 → Q s →
      (∀ s x s3, x ∈ l → f s x = some s3 → Q s → Q s3) → Q s2 := by
  intro l
  induction l with
  | nil =>
      intro s s2 h hQ _
      simp only [List.foldlM_nil] at h
      cases h
      exact hQ
  | cons x rest ih =>
      intro s s2 h hQ hstep
      rw [List.foldlM_cons] at h
      cases hf : f s x with
      | none => rw [hf] at h; simp at h
      | some s1 =>
          rw [hf] at h
          simp only [Option.bind_eq_bind, Option.some_bind] at h
          exact ih s1 s2 h (hstep s x s1 (List.mem_cons_self _ _) hf hQ)
            (fun s y s3 hy => hstep s y s3 (List.mem_cons_of_mem _ hy))

theorem dget_some_mem {κ α : Type} [DecidableEq κ] :
    ∀ (d : List (κ × α)) (k : κ) (v : α), dget d k = some v → (k, v) ∈ d := by
  intro d
  induction d with
  | nil => intro k v h; cases h
  | cons p rest ih =>
      intro k v h
      rcases p with ⟨k1, v1⟩
      by_cases hk : k = k1
      · subst hk
        have h2 : v1 = v := by simpa [dget] using h
        subst h2
        exact List.mem_cons_self _ _
      · simp only [dget, if_neg hk] at h
        exact List.mem_cons_of_mem _ (ih k v h)

theorem mem_dset_sub {κ α : Type} [DecidableEq κ] :
    ∀ (d : List (κ × α)) (k0 : κ) (v0 : α) (p : κ × α),
      p ∈ dset d k0 v0 → p ∈ d ∨ p = (k0, v0) := by
  intro d
  induction d with
  | nil => intro k0 v0 p hp; simp [dset] at hp; exact Or.inr hp
  | cons q rest ih =>
      intro k0 v0 p hp
      rcases q with ⟨k1, v1⟩
      by_cases hk : k0 = k1
      · subst hk
        rw [show dset ((k0, v1) :: rest) k0 v0 = (k0, v0) :: rest from by simp [dset]] at hp
        rcases List.mem_cons.mp hp with rfl | hp
        · exact Or.inr rfl
        · exact Or.inl (List.mem_cons_of_mem _ hp)
      · rw [show dset ((k1, v1) :: rest) k0 v0 = (k1, v1) :: dset rest k0 v0 from by
          simp [dset, hk]] at hp
        rcases List.mem_cons.mp hp with rfl | hp
        · exact Or.inl (List.mem_cons_self _ _)
        · rcases ih k0 v0 p hp with h | h
          · exact Or.inl (List.mem_cons_of_mem _ h)
          · exact Or.inr h

theorem isNodeU_dAppend (d : UGraph) (k v x : Int)
    (h : isNodeU (dAppend d k v) x) : x = k ∨ x = v ∨ isNodeU d x := by
  unfold dAppend at h
  cases hg : dget d k with
  | some l =>
      rw [hg] at h
      rcases h with h | ⟨p, hp, hx⟩
      · rcases (mem_dkeys_dset _ _ _ _).mp h with h | h
        · exact Or.inl h
        · exact Or.inr (Or.inr (Or.inl h))
      · rcases mem_dset_sub _ _ _ _ hp with h2 | rfl
        · exact Or.inr (Or.inr (Or.inr ⟨p, h2, hx⟩))
        · rcases List.mem_append.mp hx with h3 | h3
          · exact Or.inr (Or.inr (Or.inr ⟨(k, l), dget_some_mem d k l hg, h3⟩))
          · simp only [List.mem_singleton] at h3
            exact Or.inr (Or.inl h3)
  | none =>
      rw [hg] at h
      rcases h with h | ⟨p, hp, hx⟩
      · rw [show dkeys (d ++ [(k, [v])]) = dkeys d ++ [k] from by simp [dkeys]] at h
        rcases List.mem_append.mp h with h | h
        · exact Or.inr (Or.inr (Or.inl h))
        · simp only [List.mem_singleton] at h
          exact Or.inl h
      · rcases List.mem_append.mp hp with h2 | h2
        · exact Or.inr (Or.inr (Or.inr ⟨p, h2, hx⟩))
        · simp only [List.mem_singleton] at h2
          subst h2
          simp only [List.mem_singleton] at hx
          exact Or.inr (Or.inl hx)

theorem isNodeU_implication_graph (clauses : List (Int × Int)) (x : Int)
    (h : isNodeU (implication_graph clauses) x) :
    ∃ c ∈ clauses, x = -c.1 ∨ x = -c.2 ∨ x = c.1 ∨ x = c.2 := by
  unfold implication_graph at h
  revert h
  refine foldl_preserve _
    (fun g => ∀ y, isNodeU g y → ∃ c ∈ clauses, y = -c.1 ∨ y = -c.2 ∨ y = c.1 ∨ y = c.2)
    clauses [] ?_ ?_ x
  · rintro y (hy | ⟨p, hp, -⟩)
    · simp [dkeys] at hy
    · simp at hp
  · intro g c hc hQ y hy
    rcases isNodeU_dAppend _ _ _ _ hy with h1 | h1 | h1
    · exact ⟨c, hc, Or.inr (Or.inl h1)⟩
    · exact ⟨c, hc, Or.inr (Or.inr (Or.inl h1))⟩
    · rcases isNodeU_dAppend _ _ _ _ h1 with h2 | h2 | h2
      · exact ⟨c, hc, Or.inl h2⟩
      · exact ⟨c, hc, Or.inr (Or.inr (Or.inr h2))⟩
      · exact hQ y h2

theorem mem_dgetD_values {κ β : Type} [DecidableEq κ] (d : List (κ × List β)) (k : κ)
    (x : β) (h : x ∈ dgetD d k []) : ∃ p ∈ d, x ∈ p.2 := by
  unfold dgetD at h
  cases hd : dget d k with
  | none => rw [hd] at h; simp at h
  | some adj => rw [hd] at h; exact ⟨(k, adj), dget_some_mem _ _ _ hd, h⟩

theorem dfs1_stack (g : UGraph) (S : Int → Prop)
    (hT : ∀ p ∈ g, ∀ x ∈ p.2, S x) :
    ∀ (fuel : Nat) (node : Int) (st st2 : List Int × List Int),
      dfs1 g fuel node st = some st2 → S node → (∀ x ∈ st.2, S x) →
      ∀ x ∈ st2.2, S x := by
  intro fuel
  induction fuel with
  | zero => intro node st st2 h; cases h
  | succ fuel ih =>
      intro node st st2 h hnode hst
      simp only [dfs1] at h
      split at h
      · cases h
      · rename_i st3 hf
        rw [Option.some.injEq] at h
        subst h
        have hQ : ∀ y ∈ st3.2, S y := by
          apply foldlM_option_preserve _ (fun st4 => ∀ y ∈ st4.2, S y) _ _ _ hf hst
          intro s x s3 hx hcall hQ4
          by_cases hmem : x ∈ s.1
          · rw [if_pos hmem] at hcall; cases hcall; exact hQ4
          · rw [if_neg hmem] at hcall
            have hSx : S x := by
              obtain ⟨p, hp, hxp⟩ := mem_dgetD_values g node x hx
              exact hT p hp x hxp
            exact ih x s s3 hcall hSx hQ4
        intro x hx
        rcases List.mem_append.mp hx with hx | hx
        · exact hQ x hx
        · simp only [List.mem_singleton] at hx
          subst hx
          exact hnode

theorem dfs2_comp (rg : UGraph) (S : Int → Prop)
    (hT : ∀ p ∈ rg, ∀ x ∈ p.2, S x) :
    ∀ (fuel : Nat) (node : Int) (st st2 : List Int × List Int),
      dfs2 rg fuel node st = some st2 → S node → (∀ x ∈ st.2, S x) →
      ∀ x ∈ st2.2, S x := by
  intro fuel
  induction fuel with
  | zero => intro node st st2 h; cases h
  | succ fuel ih =>
      intro node st st2 h hnode hst
      simp only [dfs2] at h
      apply foldlM_option_preserve _ (fun st4 => ∀ y ∈ st4.2, S y) _ _ _ h
      · intro y hy
        rcases List.mem_append.mp hy with hy | hy
        · exact hst y hy
        · simp only [List.mem_singleton] at hy
          subst hy
          exact hnode
      · intro s x s3 hx hcall hQ4
        by_cases hmem : x ∈ s.1
        · rw [if_pos hmem] at hcall; cases hcall; exact hQ4
        · rw [if_neg hmem] at hcall
          have hSx : S x := by
            obtain ⟨p, hp, hxp⟩ := mem_dgetD_values rg node x hx
            exact hT p hp x hxp
          exact ih x s s3 hcall hSx hQ4

theorem kosarajuPass1_stack (g : UGraph) (fuel : Nat) (st : List Int × List Int)
    (h : kosarajuPass1 g fuel = some st) :
    ∀ x ∈ st.2, isNodeU g x := by
  unfold kosarajuPass1 at h
  apply foldlM_option_preserve _ (fun st4 => ∀ y ∈ st4.2, isNodeU g y) _ _ _ h (by simp)
  intro s x s3 hx hcall hQ
  by_cases hmem : x ∈ s.1
  · rw [if_pos hmem] at hcall; cases hcall; exact hQ
  · rw [if_neg hmem] at hcall
    exact dfs1_stack g (isNodeU g) (fun p hp y hy => Or.inr ⟨p, hp, hy⟩) fuel x s s3 hcall
      (Or.inl hx) hQ

theorem dAppend_values (d : UGraph) (k v : Int) (p : Int × List Int)
    (hp : p ∈ dAppend d k v) (x : Int) (hx : x ∈ p.2) :
    (∃ q ∈ d, x ∈ q.2) ∨ x = v := by
  unfold dAppend at hp
  cases hg : dget d k with
  | some l =>
      rw [hg] at hp
      rcases mem_dset_sub _ _ _ _ hp with h2 | rfl
      · exact Or.inl ⟨p, h2, hx⟩
      · rcases List.mem_append.mp hx with h3 | h3
        · exact Or.inl ⟨(k, l), dget_some_mem d k l hg, h3⟩
        · simp only [List.mem_singleton] at h3
          exact Or.inr h3
  | none =>
      rw [hg] at hp
      rcases List.mem_append.mp hp with h2 | h2
      · exact Or.inl ⟨p, h2, hx⟩
      · simp only [List.mem_singleton] at h2
        subst h2
        simp only [List.mem_singleton] at hx
        exact Or.inr hx

theorem reverse_graph_sat_values (g : UGraph) :
    ∀ p ∈ reverse_graph_sat g, ∀ x ∈ p.2, x ∈ dkeys g := by
  unfold reverse_graph_sat
  refine foldl_preserve _
    (fun rg : UGraph => ∀ p ∈ rg, ∀ x ∈ p.2, x ∈ dkeys g) g [] (by simp) ?_
  intro rg q hq hQ
  refine foldl_preserve _
    (fun rg : UGraph => ∀ p ∈ rg, ∀ x ∈ p.2, x ∈ dkeys g) q.2 rg hQ ?_
  intro rg2 nb hnb hQ2 p hp x hx
  rcases dAppend_values rg2 nb q.1 p hp x hx with h2 | rfl
  · obtain ⟨q2, hq2, hxq⟩ := h2
    exact hQ2 q2 hq2 x hxq
  · exact mem_dkeys_of_mem g q hq

theorem kosarajuPass2_comps (rg : UGraph) (S : Int → Prop)
    (hT : ∀ p ∈ rg, ∀ x ∈ p.2, S x) (fuel : Nat) :
    ∀ (stack visited : List Int) (sccs : List (List Int))
      (res : List Int × List (List Int)),
      kosarajuPass2 rg fuel stack (visited, sccs) = some res →
      (∀ x ∈ stack, S x) → (∀ comp ∈ sccs, ∀ x ∈ comp, S x) →
      ∀ comp ∈ res.2, ∀ x ∈ comp, S x := by
  intro stack
  induction stack with
  | nil =>
      intro visited sccs res h h1 h2
      simp only [kosarajuPass2, Option.some.injEq] at h
      subst h
      exact h2
  | cons node rest ih =>
      intro visited sccs res h h1 h2
      simp only [kosarajuPass2] at h
      by_cases hv : node ∈ visited
      · rw [if_pos hv] at h
        exact ih _ _ _ h (fun x hx => h1 x (List.mem_cons_of_mem _ hx)) h2
      · rw [if_neg hv] at h
        split at h
        · cases h
        · rename_i v2 comp heq
          refine ih _ _ _ h (fun x hx => h1 x (List.mem_cons_of_mem _ hx)) ?_
          intro c hc x hx
          rcases List.mem_append.mp hc with hc | hc
          · exact h2 c hc x hx
          · simp only [List.mem_singleton] at hc
            subst hc
            exact dfs2_comp rg S hT fuel node (visited, []) (v2, c) heq
              (h1 node (List.mem_cons_self _ _)) (by simp) x hx

theorem kosaraju_scc_sat_nodes (g : UGraph) (fuel : Nat) (sccs : List (List Int))
    (h : kosaraju_scc_sat g fuel = some sccs) :
    ∀ comp ∈ sccs, ∀ x ∈ comp, isNodeU g x := by
  unfold kosaraju_scc_sat at h
  split at h
  · cases h
  · rename_i st hp1
    split at h
    · cases h
    · rename_i st2 hp2
      rw [Option.some.injEq] at h
      subst h
      refine kosarajuPass2_comps (reverse_graph_sat g) (isNodeU g) ?_ fuel
        st.2.reverse [] [] st2 hp2 ?_ (by simp)
      · intro p hp x hx
        exact Or.inl (reverse_graph_sat_values g p hp x hx)
      · intro x hx
        exact kosarajuPass1_stack g fuel st hp1 x (List.mem_reverse.mp hx)

theorem componentIds_keys (sccs : List (List Int)) :
    ∀ (idx : Int) (cid : List (Int × Int)) (q : Int),
      q ∈ dkeys (componentIds sccs idx cid) → q ∈ dkeys cid ∨ ∃ comp ∈ sccs, q ∈ comp := by
  induction sccs with
  | nil => intro idx cid q h; exact Or.inl (by simpa [componentIds] using h)
  | cons comp rest ih =>
      intro idx cid q h
      simp only [componentIds] at h
      rcases ih _ _ _ h with h1 | ⟨c, hc, hq⟩
      · have h2 := dkeys_foldl_bound (fun cid node => dset cid node idx)
          (fun node q => q = node)
          (fun d x q hq => by
            rcases (mem_dkeys_dset _ _ _ _).mp hq with h | h
            exacts [Or.inr h, Or.inl h]) comp cid q h1
        rcases h2 with h2 | ⟨x, hx, rfl⟩
        · exact Or.inl h2
        · exact Or.inr ⟨comp, List.mem_cons_self _ _, hx⟩
      · exact Or.inr ⟨c, List.mem_cons_of_mem _ hc, hq⟩

theorem twoSatCheck_false (cid : List (Int × Int)) :
    ∀ l, twoSatCheck cid l = false →
      ∃ v ∈ l, dgetD cid v (-1) ≠ -1 ∧ dgetD cid v (-1) = dgetD cid (-v) (-1) := by
  intro l
  induction l with
  | nil => intro h; simp [twoSatCheck] at h
  | cons v rest ih =>
      intro h
      simp only [twoSatCheck] at h
      by_cases hc : dgetD cid v (-1) ≠ -1 ∧ dgetD cid v (-1) = dgetD cid (-v) (-1)
      · exact ⟨v, List.mem_cons_self _ _, hc⟩
      · rw [if_neg hc] at h
        obtain ⟨v2, hv2, hc2⟩ := ih h
        exact ⟨v2, List.mem_cons_of_mem _ hv2, hc2⟩

theorem twoSatCheck_nil_cid : ∀ l, twoSatCheck ([] : List (Int × Int)) l = true := by
  intro l
  induction l with
  | nil => rfl
  | cons v rest ih => simpa [twoSatCheck, dgetD, dget] using ih

theorem mem_dkeys_of_dgetD_ne {κ α : Type} [DecidableEq κ] (d : List (κ × α)) (k : κ)
    (dflt : α) (h : dgetD d k dflt ≠ dflt) : k ∈ dkeys d := by
  by_contra h2
  rw [dgetD, dget_eq_none_of_not_mem d k h2] at h
  exact h rfl

/-- C10: a variable occurring in no clause never makes two_sat_solver report
unsatisfiable: on the empty clause list the solver returns True for every
num_vars, and whenever the solver returns False, the variable that triggered
the contradiction is in range 1..num_vars and occurs in some clause. -/
theorem two_sat_solver_blames_occurring_variable (clauses : List (Int × Int)) (n : Nat) :
    two_sat_solver [] n = some true ∧
    (two_sat_solver clauses n = some false →
      ∃ v : Int, 1 ≤ v ∧ v ≤ (n : Int) ∧ occursVar v clauses) := by
  constructor
  · rw [show two_sat_solver [] n =
        some (twoSatCheck [] ((List.range n).map (fun (i : Nat) => ((i : Int) + 1)))) from rfl]
    rw [twoSatCheck_nil_cid]
  · intro h
    unfold two_sat_solver at h
    split at h
    · cases h
    · rename_i sccs hk
      rw [Option.some.injEq] at h
      obtain ⟨v, hv, hne, -⟩ := twoSatCheck_false _ _ h
      obtain ⟨i, hi, rfl⟩ := List.mem_map.mp hv
      have hvk : (i : Int) + 1 ∈ dkeys (componentIds sccs 0 []) :=
        mem_dkeys_of_dgetD_ne _ _ _ hne
      rcases componentIds_keys sccs 0 [] _ hvk with h2 | ⟨comp, hcomp, hmem⟩
      · simp at h2
      · have hnode := kosaraju_scc_sat_nodes _ _ _ hk comp hcomp _ hmem
        obtain ⟨c, hc, hcase⟩ := isNodeU_implication_graph clauses _ hnode
        have hin : i < n := List.mem_range.mp hi
        have hge : (1 : Int) ≤ (i : Int) + 1 := by omega
        have hle : (i : Int) + 1 ≤ (n : Int) := by omega
        refine ⟨(i : Int) + 1, hge, hle, ?_⟩
        unfold occursVar
        refine ⟨c, hc, ?_⟩
        rcases hcase with h3 | h3 | h3 | h3
        · exact Or.inr (Or.inl (by omega))
        · exact Or.inr (Or.inr (Or.inr (by omega)))
        · exact Or.inl (by omega)
        · exact Or.inr (Or.inr (Or.inl (by omega)))

/-! ## Bellman-Ford (src/bellman_ford.py) -/

/-- The distances dict of the single-source algorithms. -/
abbrev DistMap : Type := List (Int × EDist)

/-- Vertex collection without a weight check, as in bellman_ford and spfa:
keys plus every edge target. -/
def collectNodes : List Int → List (Int × List (Int × Int)) → List Int
  | vs, [] => vs
  | vs, (_, adj) :: rest => collectNodes (adj.foldl (fun vs e => addNode vs e.1) vs) rest

/-- Initial distances: every vertex at inf, the start node at 0. -/
def bfInit (vertices : List Int) (start : Int) : DistMap :=
  dset (vertices.map (fun v => (v, (none : EDist)))) start (some 0)

/-- Relax the adjacency list of u once (distances[u] re-read per edge),
threading (distances, updated flag). -/
def bfRelaxEdges (u : Int) : DistMap → Bool → List (Int × Int) → DistMap × Bool
  | dist, upd, [] => (dist, upd)
  | dist, upd, (v, w) :: rest =>
      if eltB (eadd (dgetD dist u none) w) (dgetD dist v none) then
        bfRelaxEdges u (dset dist v (eadd (dgetD dist u none) w)) true rest
      else bfRelaxEdges u dist upd rest

/-- One full relaxation round over all adjacency entries, skipping entries
whose source distance is still inf. -/
def bfRound : DistMap → Bool → List (Int × List (Int × Int)) → DistMap × Bool
  | dist, upd, [] => (dist, upd)
  | dist, upd, (u, adj) :: rest =>
      if dgetD dist u none = none then bfRound dist upd rest
      else
        match bfRelaxEdges u dist upd adj with
        | (dist2, upd2) => bfRound dist2 upd2 rest

/-- Up to n relaxation rounds with early break when a round changed nothing. -/
def bfRounds (g : WGraph) : Nat → DistMap → DistMap
  | 0, dist => dist
  | n + 1, dist =>
      match bfRound dist false g with
      | (dist2, upd) => if upd then bfRounds g n dist2 else dist2

/-- The final scan: true iff some edge from a finite-distance source can
still be relaxed (Python raises at the first such edge). -/
def bfCheck (dist : DistMap) : List (Int × List (Int × Int)) → Bool
  | [] => false
  | (u, adj) :: rest =>
      if dgetD dist u none = none then bfCheck dist rest
      else if adj.any (fun e => eltB (eadd (dgetD dist u none) e.2) (dgetD dist e.1 none)) then
        true
      else bfCheck dist rest

/-- The distances computed by the relaxation phase of bellman_ford. -/
def bfRun (g : WGraph) (start : Int) : DistMap :=
  bfRounds g ((collectNodes (dkeys g) g).length - 1)
    (bfInit (collectNodes (dkeys g) g) start)

/-- bellman_ford(graph, start_node). -/
def bellman_ford (g : WGraph) (start : Int) : Except PyErr DistMap :=
  if start ∉ dkeys g then Except.error PyErr.keyError
  else if bfCheck (bfRun g start) g then Except.error PyErr.valueError
  else Except.ok (bfRun g start)

/-! ## Walks (the graph-theoretic spec vocabulary) -/

/-- There is an adjacency entry for u whose list contains the edge (v, w). -/
def Edge (g : WGraph) (u v w : Int) : Prop :=
  ∃ p ∈ g, p.1 = u ∧ (v, w) ∈ p.2

instance (g : WGraph) (u v w : Int) : Decidable (Edge g u v w) := by
  unfold Edge; infer_instance

/-- The edge list es (target, weight pairs) is a walk in g from u to v. -/
def IsWalk (g : WGraph) : Int → List (Int × Int) → Int → Prop
  | u, [], v => u = v
  | u, (x, w) :: rest, v => Edge g u x w ∧ IsWalk g x rest v

instance isWalkDecidable (g : WGraph) :
    (u : Int) → (es : List (Int × Int)) → (v : Int) → Decidable (IsWalk g u es v)
  | u, [], v => decidable_of_iff (u = v) (by simp [IsWalk])
  | u, (x, w) :: rest, v =>
      have : Decidable (IsWalk g x rest v) := isWalkDecidable g x rest v
      decidable_of_iff (Edge g u x w ∧ IsWalk g x rest v) (by simp [IsWalk])

/-- Total weight of a walk given as an edge list. -/
def walkWeight (es : List (Int × Int)) : Int :=
  (es.map Prod.snd).sum

/-- The graph contains a negative cycle (a nonempty closed walk of negative
total weight whose start and intermediate nodes are pairwise distinct)
at node v, given by the edge list es. -/
def SimpleNegCycle (g : WGraph) (v : Int) (es : List (Int × Int)) : Prop :=
  IsWalk g v es v ∧ es ≠ [] ∧ walkWeight es < 0 ∧
    (v :: (es.map Prod.fst).dropLast).Nodup

instance (g : WGraph) (v : Int) (es : List (Int × Int)) :
    Decidable (SimpleNegCycle g v es) := by
  unfold SimpleNegCycle; infer_instance

/-- a ≤ b on distances with none as infinity. -/
def edle (a b : EDist) : Prop :=
  ∀ y, b = some y → ∃ x, a = some x ∧ x ≤ y

theorem edle_refl (a : EDist) : edle a a :=
  fun y hy => ⟨y, hy, le_refl y⟩

theorem edle_trans {a b c : EDist} (h1 : edle a b) (h2 : edle b c) : edle a c := by
  intro y hy
  obtain ⟨x, hx, hxy⟩ := h2 y hy
  obtain ⟨x2, hx2, hx2x⟩ := h1 x hx
  exact ⟨x2, hx2, le_trans hx2x hxy⟩

theorem edle_none (a : EDist) : edle a none :=
  fun y hy => by cases hy

theorem eltB_false_edle {a b : EDist} (h : eltB a b = false) : edle b a := by
  intro y hy
  subst hy
  cases b with
  | none => simp [eltB] at h
  | some t =>
      simp only [eltB, decide_eq_false_iff_not, not_lt] at h
      exact ⟨t, rfl, h⟩

theorem eltB_true_lt {a b : EDist} {s : Int} (h : eltB a b = true) (ha : a = some s) :
    ∀ t, b = some t → s < t := by
  intro t hb
  subst ha; subst hb
  simpa [eltB] using h

/-! ## Generic closure/telescope reasoning shared by the shortest-path
algorithms: a distance map closed under edge relaxation bounds every walk. -/

/-- dist is closed under relaxation: along every edge, the target's distance
is at most the source's distance plus the weight. -/
def RelaxClosed (g : WGraph) (dist : DistMap) : Prop :=
  ∀ u v w, Edge g u v w → edle (dgetD dist v none) (eadd (dgetD dist u none) w)

theorem relaxClosed_walk (g : WGraph) (dist : DistMap) (hc : RelaxClosed g dist) :
    ∀ (es : List (Int × Int)) (u v : Int), IsWalk g u es v →
      ∀ a, dgetD dist u none = some a →
        ∃ b, dgetD dist v none = some b ∧ b ≤ a + walkWeight es := by
  intro es
  induction es with
  | nil =>
      intro u v hw a ha
      cases hw
      exact ⟨a, ha, by simp [walkWeight]⟩
  | cons e rest ih =>
      rcases e with ⟨x, w⟩
      intro u v hw a ha
      obtain ⟨he, hrest⟩ := hw
      obtain ⟨b1, hb1, hble⟩ := hc u x w he (a + w) (by rw [ha]; rfl)
      obtain ⟨b, hb, hble2⟩ := ih x v hrest b1 hb1
      refine ⟨b, hb, ?_⟩
      have : walkWeight ((x, w) :: rest) = w + walkWeight rest := by
        simp [walkWeight]
      rw [this]
      omega

/-- A closed distance map with a finite value somewhere on a negative cycle
is impossible unless the cycle weight is nonnegative. -/
theorem relaxClosed_no_neg_cycle (g : WGraph) (dist : DistMap)
    (hc : RelaxClosed g dist) (v : Int) (es : List (Int × Int))
    (hw : IsWalk g v es v) (a : Int) (ha : dgetD dist v none = some a) :
    0 ≤ walkWeight es := by
  obtain ⟨b, hb, hble⟩ := relaxClosed_walk g dist hc es v v hw a ha
  rw [ha] at hb
  cases hb
  omega

/-! ## Bellman-Ford raises on reachable negative cycles -/

theorem dget_dset_self {κ α : Type} [DecidableEq κ] :
    ∀ (d : List (κ × α)) (k : κ) (v : α), dget (dset d k v) k = some v := by
  intro d
  induction d with
  | nil => intro k v; simp [dset, dget]
  | cons p rest ih =>
      intro k v
      rcases p with ⟨k1, v1⟩
      by_cases h : k = k1
      · subst h; simp [dset, dget]
      · simp [dset, dget, h]
        exact ih k v

theorem dget_dset_ne {κ α : Type} [DecidableEq κ] :
    ∀ (d : List (κ × α)) (k k2 : κ) (v : α), k2 ≠ k →
      dget (dset d k v) k2 = dget d k2 := by
  intro d
  induction d with
  | nil => intro k k2 v h; simp [dset, dget, h]
  | cons p rest ih =>
      intro k k2 v h
      rcases p with ⟨k1, v1⟩
      by_cases h1 : k = k1
      · subst h1
        simp only [dset, if_pos rfl]
        simp [dget, h]
      · simp only [dset, if_neg h1]
        by_cases h2 : k2 = k1
        · subst h2; simp [dget]
        · simp only [dget, if_neg h2]
          exact ih k k2 v h

theorem edge_source_mem_dkeys (g : WGraph) (u v w : Int) (h : Edge g u v w) :
    u ∈ dkeys g := by
  obtain ⟨p, hp, h1, -⟩ := h
  subst h1
  exact mem_dkeys_of_mem g p hp

theorem bfRelaxEdges_mono (u : Int) :
    ∀ (adj : List (Int × Int)) (dist : DistMap) (upd : Bool) (k : Int),
      edle (dgetD (bfRelaxEdges u dist upd adj).1 k none) (dgetD dist k none) := by
  intro adj
  induction adj with
  | nil => intro dist upd k; exact edle_refl _
  | cons e rest ih =>
      rcases e with ⟨v, w⟩
      intro dist upd k
      simp only [bfRelaxEdges]
      by_cases hrel : eltB (eadd (dgetD dist u none) w) (dgetD dist v none) = true
      · rw [if_pos hrel]
        refine edle_trans (ih _ _ k) ?_
        by_cases hk : k = v
        · subst hk
          rw [show dgetD (dset dist k (eadd (dgetD dist u none) w)) k none =
            eadd (dgetD dist u none) w from by rw [dgetD, dget_dset_self]; rfl]
          cases hd : eadd (dgetD dist u none) w with
          | none => rw [hd] at hrel; simp [eltB] at hrel
          | some s =>
              intro y hy
              refine ⟨s, rfl, ?_⟩
              have := eltB_true_lt hrel hd y hy
              omega
        · rw [show dgetD (dset dist v (eadd (dgetD dist u none) w)) k none =
            dgetD dist k none from by rw [dgetD, dget_dset_ne _ _ _ _ hk]; rfl]
          exact edle_refl _
      · rw [if_neg hrel]
        exact ih _ _ k

theorem bfRound_mono :
    ∀ (gl : List (Int × List (Int × Int))) (dist : DistMap) (upd : Bool) (k : Int),
      edle (dgetD (bfRound dist upd gl).1 k none) (dgetD dist k none) := by
  intro gl
  induction gl with
  | nil => intro dist upd k; exact edle_refl _
  | cons p rest ih =>
      rcases p with ⟨u, adj⟩
      intro dist upd k
      simp only [bfRound]
      by_cases hinf : dgetD dist u none = none
      · rw [if_pos hinf]; exact ih _ _ k
      · rw [if_neg hinf]
        cases hrel : bfRelaxEdges u dist upd adj with
        | mk dist2 upd2 =>
            refine edle_trans (ih _ _ k) ?_
            have := bfRelaxEdges_mono u adj dist upd k
            rw [hrel] at this
            exact this

theorem bfRounds_mono (g : WGraph) :
    ∀ (n : Nat) (dist : DistMap) (k : Int),
      edle (dgetD (bfRounds g n dist) k none) (dgetD dist k none) := by
  intro n
  induction n with
  | zero => intro dist k; exact edle_refl _
  | succ n ih =>
      intro dist k
      simp only [bfRounds]
      cases hr : bfRound dist false g with
      | mk dist2 upd =>
          have h1 : edle (dgetD dist2 k none) (dgetD dist k none) := by
            have := bfRound_mono g dist false k
            rw [hr] at this
            exact this
          by_cases hupd : upd = true
          · rw [hupd]
            simp only [if_pos rfl]
            exact edle_trans (ih dist2 k) h1
          · rw [eq_false_of_ne_true hupd]
            simpa using h1

theorem bfInit_start (vertices : List Int) (start : Int) :
    dgetD (bfInit vertices start) start none = some 0 := by
  rw [bfInit, dgetD, dget_dset_self]
  rfl

theorem bfCheck_false_closed (dist : DistMap) :
    ∀ gl, bfCheck dist gl = false →
      ∀ u v w, (∃ p ∈ gl, p.1 = u ∧ (v, w) ∈ p.2) →
        edle (dgetD dist v none) (eadd (dgetD dist u none) w) := by
  intro gl
  induction gl with
  | nil => intro h u v w hE; simp at hE
  | cons p rest ih =>
      rcases p with ⟨u0, adj⟩
      intro h u v w hE
      simp only [bfCheck] at h
      obtain ⟨p, hp, hp1, hvw⟩ := hE
      by_cases hinf : dgetD dist u0 none = none
      · rw [if_pos hinf] at h
        rcases List.mem_cons.mp hp with rfl | hp2
        · simp only at hp1
          subst hp1
          rw [hinf]
          exact fun y hy => by simp [eadd] at hy
        · exact ih h u v w ⟨p, hp2, hp1, hvw⟩
      · rw [if_neg hinf] at h
        by_cases hany : adj.any
            (fun e => eltB (eadd (dgetD dist u0 none) e.2) (dgetD dist e.1 none)) = true
        · rw [if_pos hany] at h; cases h
        · rw [if_neg hany] at h
          rcases List.mem_cons.mp hp with rfl | hp2
          · simp only at hp1
            subst hp1
            have := List.any_eq_false.mp (eq_false_of_ne_true hany) (v, w) hvw
            exact eltB_false_edle (eq_false_of_ne_true this)
          · exact ih h u v w ⟨p, hp2, hp1, hvw⟩

/-- The relaxation phase keeps the start distance finite. -/
theorem bfRun_start_finite (g : WGraph) (start : Int) :
    ∃ a, dgetD (bfRun g start) start none = some a := by
  have h1 := bfRounds_mono g ((collectNodes (dkeys g) g).length - 1)
    (bfInit (collectNodes (dkeys g) g) start) start
  rw [bfInit_start] at h1
  obtain ⟨a, ha, -⟩ := h1 0 rfl
  exact ⟨a, ha⟩

/-- C2, Bellman-Ford part: a negative cycle reachable from the start node
forces the final edge scan to find a relaxable edge, so bellman_ford raises
ValueError. -/
theorem bellman_ford_raises_on_reachable_neg_cycle (g : WGraph) (start v : Int)
    (esr es : List (Int × Int)) (hreach : IsWalk g start esr v)
    (hcyc : SimpleNegCycle g v es) :
    bellman_ford g start = Except.error PyErr.valueError := by
  obtain ⟨hwalk, hne, hneg, -⟩ := hcyc
  have hstart : start ∈ dkeys g := by
    cases esr with
    | nil =>
        have hv : start = v := hreach
        subst hv
        cases es with
        | nil => exact absurd rfl hne
        | cons e rest => exact edge_source_mem_dkeys _ _ e.1 e.2 hwalk.1
    | cons e rest => exact edge_source_mem_dkeys g start e.1 e.2 hreach.1
  unfold bellman_ford
  rw [if_neg (not_not_intro hstart)]
  by_cases hchk : bfCheck (bfRun g start) g = true
  · rw [if_pos hchk]
  · exfalso
    have hclosed : RelaxClosed g (bfRun g start) :=
      fun u v2 w hE => bfCheck_false_closed _ g (eq_false_of_ne_true hchk) u v2 w hE
    obtain ⟨a, ha⟩ := bfRun_start_finite g start
    obtain ⟨b, hb, -⟩ := relaxClosed_walk g (bfRun g start) hclosed esr start v hreach a ha
    have := relaxClosed_no_neg_cycle g (bfRun g start) hclosed v es hwalk b hb
    omega

/-! ## SPFA (src/spfa.py) -/

/-- The loop state of spfa: distances, the work queue, the in_queue dict and
the per-node relaxation counters. -/
structure SpfaSt : Type where
  dist : DistMap
  queue : List Int
  inq : List (Int × Bool)
  cnt : List (Int × Nat)
deriving DecidableEq

/-- The inner edge loop of spfa for the popped node u: relax, bump the
counter (raising ValueError past max_relax), and enqueue the target if it is
not queued. -/
def spfaEdges (u : Int) (maxR : Nat) : SpfaSt → List (Int × Int) → Except PyErr SpfaSt
  | s, [] => Except.ok s
  | s, (v, w) :: rest =>
      if eltB (eadd (dgetD s.dist u none) w) (dgetD s.dist v none) then
        if maxR < dgetD s.cnt v 0 + 1 then Except.error PyErr.valueError
        else if dgetD s.inq v false then
          spfaEdges u maxR
            { s with dist := dset s.dist v (eadd (dgetD s.dist u none) w),
                     cnt := dset s.cnt v (dgetD s.cnt v 0 + 1) } rest
        else
          spfaEdges u maxR
            { dist := dset s.dist v (eadd (dgetD s.dist u none) w),
              queue := s.queue ++ [v],
              inq := dset s.inq v true,
              cnt := dset s.cnt v (dgetD s.cnt v 0 + 1) } rest
      else spfaEdges u maxR s rest

/-- The while-queue loop of spfa; none only on fuel exhaustion. -/
def spfaLoop (g : WGraph) (maxR : Nat) : Nat → SpfaSt → Option (Except PyErr DistMap)
  | 0, _ => none
  | fuel + 1, s =>
      match s.queue with
      | [] => some (Except.ok s.dist)
      | u :: qrest =>
          match spfaEdges u maxR
              { s with queue := qrest, inq := dset s.inq u false } (dgetD g u []) with
          | Except.error e => some (Except.error e)
          | Except.ok s2 => spfaLoop g maxR fuel s2

/-- The initial spfa state for a given node list and start node. -/
def spfaInit (nodes : List Int) (start : Int) : SpfaSt :=
  { dist := dset (nodes.map (fun v => (v, (none : EDist)))) start (some 0),
    queue := [start],
    inq := dset (nodes.map (fun v => (v, false))) start true,
    cnt := nodes.map (fun v => (v, (0 : Nat))) }

/-- spfa(graph, start_node), with fuel for the work-queue loop. -/
def spfa (g : WGraph) (start : Int) (fuel : Nat) : Option (Except PyErr DistMap) :=
  if start ∉ collectNodes (dkeys g) g then some (Except.error PyErr.valueError)
  else
    spfaLoop g ((collectNodes (dkeys g) g).length - 1) fuel
      (spfaInit (collectNodes (dkeys g) g) start)

/-- Edge u -> v (weight w) can still shorten v's distance. -/
def Relaxable (dist : DistMap) (u v w : Int) : Prop :=
  eltB (eadd (dgetD dist u none) w) (dgetD dist v none) = true

/-- The spfa loop invariant: every relaxable edge's source is queued, the
in_queue dict tracks queue membership, and the queue has no duplicates. -/
def SpfaInv (g : WGraph) (s : SpfaSt) : Prop :=
  (∀ u v w, Edge g u v w → Relaxable s.dist u v w → u ∈ s.queue) ∧
  (∀ x, dgetD s.inq x false = true ↔ x ∈ s.queue) ∧
  s.queue.Nodup

theorem dget_of_mem_nodup {κ α : Type} [DecidableEq κ] :
    ∀ (d : List (κ × α)), (dkeys d).Nodup → ∀ p ∈ d, dget d p.1 = some p.2 := by
  intro d
  induction d with
  | nil => intro _ p hp; simp at hp
  | cons q rest ih =>
      intro hnd p hp
      simp only [dkeys_cons, List.nodup_cons] at hnd
      rcases List.mem_cons.mp hp with rfl | hp2
      · rcases p with ⟨k, v⟩
        simp [dget]
      · rcases q with ⟨k1, v1⟩
        have hne : p.1 ≠ k1 := by
          intro hh
          exact hnd.1 (hh ▸ mem_dkeys_of_mem rest p hp2)
        simp only [dget, if_neg hne]
        exact ih hnd.2 p hp2

theorem eadd_some {d : EDist} {w n : Int} (h : eadd d w = some n) :
    ∃ a, d = some a ∧ n = a + w := by
  cases d with
  | none => cases h
  | some a =>
      simp only [eadd, Option.map_some] at h
      cases h
      exact ⟨a, rfl, rfl⟩

theorem eltB_some_left {a b : EDist} (h : eltB a b = true) : ∃ s, a = some s := by
  cases a with
  | none => simp [eltB] at h
  | some s => exact ⟨s, rfl⟩

theorem spfaEdges_dist_finite (u : Int) (maxR : Nat) :
    ∀ (adj : List (Int × Int)) (s s2 : SpfaSt),
      spfaEdges u maxR s adj = Except.ok s2 →
      ∀ k a, dgetD s.dist k none = some a → ∃ b, dgetD s2.dist k none = some b := by
  intro adj
  induction adj with
  | nil =>
      intro s s2 h k a ha
      cases h
      exact ⟨a, ha⟩
  | cons e rest ih =>
      rcases e with ⟨v, w⟩
      intro s s2 h k a ha
      simp only [spfaEdges] at h
      by_cases hrel : eltB (eadd (dgetD s.dist u none) w) (dgetD s.dist v none) = true
      · rw [if_pos hrel] at h
        obtain ⟨n, hn⟩ := eltB_some_left hrel
        by_cases hmax : maxR < dgetD s.cnt v 0 + 1
        · rw [if_pos hmax] at h; cases h
        · rw [if_neg hmax] at h
          have hnext : ∀ (s3 : SpfaSt),
              s3.dist = dset s.dist v (eadd (dgetD s.dist u none) w) →
              spfaEdges u maxR s3 rest = Except.ok s2 →
              ∃ b, dgetD s2.dist k none = some b := by
            intro s3 hs3 hrun
            by_cases hk : k = v
            · subst hk
              refine ih s3 s2 hrun k n ?_
              rw [hs3, dgetD, dget_dset_self]
              simp [hn]
            · refine ih s3 s2 hrun k a ?_
              rw [hs3, dgetD, dget_dset_ne _ _ _ _ hk]
              exact ha
          by_cases hq : dgetD s.inq v false = true
          · rw [if_pos hq] at h
            exact hnext _ rfl h
          · rw [if_neg hq] at h
            exact hnext _ rfl h
      · rw [if_neg hrel] at h
        exact ih s s2 h k a ha

theorem spfaEdges_inv (g : WGraph) (u : Int) (maxR : Nat) :
    ∀ (adj : List (Int × Int)) (s s2 : SpfaSt),
      spfaEdges u maxR s adj = Except.ok s2 →
      (∀ u2 v w, Edge g u2 v w → Relaxable s.dist u2 v w →
        u2 ∈ s.queue ∨ (u2 = u ∧ (v, w) ∈ adj)) →
      (∀ x, dgetD s.inq x false = true ↔ x ∈ s.queue) →
      s.queue.Nodup →
      (∀ u2 v w, Edge g u2 v w → Relaxable s2.dist u2 v w → u2 ∈ s2.queue) ∧
      (∀ x, dgetD s2.inq x false = true ↔ x ∈ s2.queue) ∧
      s2.queue.Nodup := by
  intro adj
  induction adj with
  | nil =>
      intro s s2 h hP hC hN
      cases h
      refine ⟨?_, hC, hN⟩
      intro u2 v w hE hR
      rcases hP u2 v w hE hR with h1 | ⟨-, h1⟩
      · exact h1
      · simp at h1
  | cons e rest ih =>
      rcases e with ⟨v, w⟩
      intro s s2 h hP hC hN
      simp only [spfaEdges] at h
      by_cases hrel : eltB (eadd (dgetD s.dist u none) w) (dgetD s.dist v none) = true
      case neg =>
        rw [if_neg hrel] at h
        refine ih s s2 h ?_ hC hN
        intro u2 v2 w2 hE hR
        rcases hP u2 v2 w2 hE hR with h1 | ⟨rfl, h1⟩
        · exact Or.inl h1
        · rcases List.mem_cons.mp h1 with heq | h1
          · cases heq
            exact absurd hR hrel
          · exact Or.inr ⟨rfl, h1⟩
      case pos =>
        rw [if_pos hrel] at h
        by_cases hmax : maxR < dgetD s.cnt v 0 + 1
        · rw [if_pos hmax] at h; cases h
        · rw [if_neg hmax] at h
          obtain ⟨n, hn⟩ := eltB_some_left hrel
          have hstep : ∀ (s3 : SpfaSt),
              s3.dist = dset s.dist v (eadd (dgetD s.dist u none) w) →
              v ∈ s3.queue →
              (∀ x, x ∈ s.queue → x ∈ s3.queue) →
              spfaEdges u maxR s3 rest = Except.ok s2 →
              (∀ x, dgetD s3.inq x false = true ↔ x ∈ s3.queue) →
              s3.queue.Nodup →
              (∀ u2 v2 w2, Edge g u2 v2 w2 → Relaxable s2.dist u2 v2 w2 → u2 ∈ s2.queue) ∧
              (∀ x, dgetD s2.inq x false = true ↔ x ∈ s2.queue) ∧
              s2.queue.Nodup := by
            intro s3 hs3 hvq hsub hrun hC3 hN3
            refine ih s3 s2 hrun ?_ hC3 hN3
            intro u2 v2 w2 hE hR3
            by_cases hu2v : u2 = v
            · exact Or.inl (by rw [hu2v]; exact hvq)
            · have hdu2 : dgetD s3.dist u2 none = dgetD s.dist u2 none := by
                rw [hs3, dgetD, dget_dset_ne _ _ _ _ hu2v]
                rfl
              have hd3v : dgetD s3.dist v none = eadd (dgetD s.dist u none) w := by
                rw [hs3, dgetD, dget_dset_self]
                rfl
              by_cases hv2 : v2 = v
              · rw [hv2] at hE hR3 ⊢
                have hR : Relaxable s.dist u2 v w2 := by
                  unfold Relaxable at hR3 ⊢
                  rw [hdu2, hd3v, hn] at hR3
                  obtain ⟨m, hm⟩ := eltB_some_left hR3
                  have hmn : m < n := eltB_true_lt hR3 hm n rfl
                  rw [hm]
                  rw [hn] at hrel
                  cases hdv : dgetD s.dist v none with
                  | none => simp [eltB]
                  | some t =>
                      have hlt : n < t := eltB_true_lt hrel rfl t hdv
                      simp only [eltB, decide_eq_true_eq]
                      omega
                rcases hP u2 v w2 hE hR with h1 | ⟨rfl, h1⟩
                · exact Or.inl (hsub _ h1)
                · rcases List.mem_cons.mp h1 with heq | h1
                  · cases heq
                    unfold Relaxable at hR3
                    rw [hdu2, hd3v] at hR3
                    simp [eltB, hn] at hR3
                  · exact Or.inr ⟨rfl, h1⟩
              · have hR : Relaxable s.dist u2 v2 w2 := by
                  unfold Relaxable at hR3 ⊢
                  rwa [hdu2, show dgetD s3.dist v2 none = dgetD s.dist v2 none from by
                    rw [hs3, dgetD, dget_dset_ne _ _ _ _ hv2]; rfl] at hR3
                rcases hP u2 v2 w2 hE hR with h1 | ⟨rfl, h1⟩
                · exact Or.inl (hsub _ h1)
                · rcases List.mem_cons.mp h1 with heq | h1
                  · cases heq
                    exact absurd rfl hv2
                  · exact Or.inr ⟨rfl, h1⟩
          by_cases hq : dgetD s.inq v false = true
          · rw [if_pos hq] at h
            exact hstep
              { s with dist := dset s.dist v (eadd (dgetD s.dist u none) w),
                       cnt := dset s.cnt v (dgetD s.cnt v 0 + 1) }
              rfl ((hC v).mp hq) (fun x hx => hx) h hC hN
          · rw [if_neg hq] at h
            have hvq : v ∉ s.queue := fun hh => hq ((hC v).mpr hh)
            refine hstep
              { dist := dset s.dist v (eadd (dgetD s.dist u none) w),
                queue := s.queue ++ [v],
                inq := dset s.inq v true,
                cnt := dset s.cnt v (dgetD s.cnt v 0 + 1) }
              rfl (by simp) (fun x hx => List.mem_append_left _ hx) h ?_ ?_
            · intro x
              by_cases hx : x = v
              · rw [hx]
                rw [show dgetD (dset s.inq v true) v false = true from by
                  rw [dgetD, dget_dset_self]; rfl]
                simp
              · rw [show dgetD (dset s.inq v true) x false = dgetD s.inq x false from by
                  rw [dgetD, dget_dset_ne _ _ _ _ hx]; rfl]
                rw [hC x]
                simp only [List.mem_append, List.mem_singleton]
                exact ⟨fun hh => Or.inl hh, fun hh => hh.resolve_right hx⟩
            · simp only [List.nodup_append, List.nodup_singleton]
              exact ⟨hN, by simpa using hvq⟩

theorem spfaLoop_ok (g : WGraph) (hnd : (dkeys g).Nodup) (maxR : Nat) :
    ∀ (fuel : Nat) (s : SpfaSt) (d : DistMap),
      spfaLoop g maxR fuel s = some (Except.ok d) →
      SpfaInv g s →
      RelaxClosed g d ∧
      (∀ k a, dgetD s.dist k none = some a → ∃ b, dgetD d k none = some b) := by
  intro fuel
  induction fuel with
  | zero => intro s d h _; cases h
  | succ fuel ih =>
      intro s d h hInv
      obtain ⟨hQ, hC, hN⟩ := hInv
      rcases s with ⟨sd, sq, si, sc⟩
      cases sq with
      | nil =>
          simp only [spfaLoop] at h
          simp only [Option.some.injEq, Except.ok.injEq] at h
          subst h
          constructor
          · intro u v w hE
            have hnr : ¬ Relaxable sd u v w := fun hR => by
              have := hQ u v w hE hR
              simp at this
            exact eltB_false_edle (eq_false_of_ne_true hnr)
          · intro k a ha
            exact ⟨a, ha⟩
      | cons u qrest =>
          have hNq : (u :: qrest).Nodup := hN
          simp only [spfaLoop] at h
          split at h
          · exact Option.noConfusion h (fun hh => Except.noConfusion hh)
          · rename_i s2 hrun
            have hP1 : ∀ u2 v w, Edge g u2 v w → Relaxable sd u2 v w →
                u2 ∈ qrest ∨ (u2 = u ∧ (v, w) ∈ dgetD g u []) := by
              intro u2 v w hE hR
              have hmem : u2 ∈ u :: qrest := hQ u2 v w hE hR
              rcases List.mem_cons.mp hmem with rfl | h2
              · right
                refine ⟨rfl, ?_⟩
                obtain ⟨p, hp, hp1, hvw⟩ := hE
                have hget := dget_of_mem_nodup g hnd p hp
                rw [hp1] at hget
                rw [dgetD, hget]
                exact hvw
              · exact Or.inl h2
            have hC1 : ∀ x, dgetD (dset si u false) x false = true ↔ x ∈ qrest := by
              intro x
              by_cases hx : x = u
              · rw [hx]
                rw [show dgetD (dset si u false) u false = false from by
                  rw [dgetD, dget_dset_self]; rfl]
                simp only [List.nodup_cons] at hNq
                constructor
                · intro hh; cases hh
                · intro hh; exact absurd hh hNq.1
              · rw [show dgetD (dset si u false) x false = dgetD si x false from by
                  rw [dgetD, dget_dset_ne _ _ _ _ hx]; rfl]
                have hCx : dgetD si x false = true ↔ x ∈ u :: qrest := hC x
                rw [hCx]
                simp only [List.mem_cons]
                exact ⟨fun hh => hh.resolve_left hx, fun hh => Or.inr hh⟩
            have hN1 : qrest.Nodup := (List.nodup_cons.mp hNq).2
            obtain ⟨hQ2, hC2, hN2⟩ :=
              spfaEdges_inv g u maxR (dgetD g u []) ⟨sd, qrest, dset si u false, sc⟩
                s2 hrun hP1 hC1 hN1
            obtain ⟨hcl, hfin⟩ := ih s2 d h ⟨hQ2, hC2, hN2⟩
            refine ⟨hcl, ?_⟩
            intro k a ha
            obtain ⟨b, hb⟩ := spfaEdges_dist_finite u maxR (dgetD g u [])
              ⟨sd, qrest, dset si u false, sc⟩ s2 hrun k a ha
            exact hfin k b hb

theorem dget_map_const {α : Type} (nodes : List Int) (x : Int) (c : α) :
    dget (nodes.map (fun v => (v, c))) x = some c ∨
      dget (nodes.map (fun v => (v, c))) x = none := by
  induction nodes with
  | nil => exact Or.inr rfl
  | cons y rest ih =>
      by_cases hx : x = y
      · left; simp [dget, hx]
      · simpa [dget, hx] using ih

theorem spfaInit_inv (g : WGraph) (nodes : List Int) (start : Int) :
    SpfaInv g (spfaInit nodes start) := by
  refine ⟨?_, ?_, List.nodup_singleton _⟩
  · intro u v w hE hR
    show u ∈ [start]
    by_cases hu : u = start
    · simp [hu]
    · exfalso
      unfold Relaxable spfaInit at hR
      rw [show dgetD (dset (nodes.map (fun v => (v, (none : EDist)))) start (some 0)) u none
          = none from by
        rw [dgetD, dget_dset_ne _ _ _ _ hu]
        rcases dget_map_const nodes u (none : EDist) with hh | hh <;> simp [hh]] at hR
      simp [eadd, eltB] at hR
  · intro x
    show dgetD (dset (nodes.map (fun v => (v, false))) start true) x false = true ↔ x ∈ [start]
    by_cases hx : x = start
    · rw [hx]
      rw [show dgetD (dset (nodes.map (fun v => (v, false))) start true) start false = true from by
        rw [dgetD, dget_dset_self]; rfl]
      simp
    · rw [show dgetD (dset (nodes.map (fun v => (v, false))) start true) x false = false from by
        rw [dgetD, dget_dset_ne _ _ _ _ hx]
        rcases dget_map_const nodes x false with hh | hh <;> simp [hh]]
      simp [hx]

/-- C2, SPFA part (a): with a negative cycle reachable from the start node,
spfa never returns a distance mapping, whatever the fuel. -/
theorem spfa_never_ok (g : WGraph) (start v : Int) (esr es : List (Int × Int))
    (hnd : (dkeys g).Nodup) (hreach : IsWalk g start esr v)
    (hcyc : SimpleNegCycle g v es) :
    ∀ (fuel : Nat) (d : DistMap), spfa g start fuel ≠ some (Except.ok d) := by
  obtain ⟨hwalk, hne, hneg, -⟩ := hcyc
  intro fuel d h
  unfold spfa at h
  by_cases hs : start ∉ collectNodes (dkeys g) g
  · rw [if_pos hs] at h
    simp at h
  · rw [if_neg hs] at h
    obtain ⟨hcl, hfin⟩ := spfaLoop_ok g hnd _ fuel _ d h
      (spfaInit_inv g (collectNodes (dkeys g) g) start)
    obtain ⟨a, ha⟩ := hfin start 0 (by
      show dgetD (dset ((collectNodes (dkeys g) g).map (fun v => (v, (none : EDist))))
        start (some 0)) start none = some 0
      rw [dgetD, dget_dset_self]
      rfl)
    obtain ⟨b, hb, -⟩ := relaxClosed_walk g d hcl esr start v hreach a ha
    have := relaxClosed_no_neg_cycle g d hcl v es hwalk b hb
    omega

/-- Fuel budget for the spfa loop: total remaining counter headroom. -/
def cntBudget (maxR : Nat) (cnt : List (Int × Nat)) : Nat :=
  (cnt.map (fun p => maxR + 1 - p.2)).sum

theorem cntBudget_dset (maxR : Nat) :
    ∀ (cnt : List (Int × Nat)) (v : Int) (c : Nat), dget cnt v = some c →
      c < maxR + 1 → cntBudget maxR (dset cnt v (c + 1)) + 1 = cntBudget maxR cnt := by
  intro cnt
  induction cnt with
  | nil => intro v c h; cases h
  | cons p rest ih =>
      rcases p with ⟨k1, c1⟩
      intro v c h hc
      by_cases hv : v = k1
      · subst hv
        have hc1 : c1 = c := by simpa [dget] using h
        subst hc1
        rw [show dset ((v, c1) :: rest) v (c1 + 1) = (v, c1 + 1) :: rest from by simp [dset]]
        simp only [cntBudget, List.map_cons, List.sum_cons]
        omega
      · rw [show dset ((k1, c1) :: rest) v (c + 1) = (k1, c1) :: dset rest v (c + 1) from by
          simp [dset, hv]]
        simp only [dget, if_neg hv] at h
        simp only [cntBudget, List.map_cons, List.sum_cons]
        have := ih v c h hc
        simp only [cntBudget] at this
        omega

theorem dgetD_of_dget {κ α : Type} [DecidableEq κ] {d : List (κ × α)} {k : κ} {v dflt : α}
    (h : dget d k = some v) : dgetD d k dflt = v := by
  rw [dgetD, h]
  rfl

theorem mem_dkeys_dget_isSome {κ α : Type} [DecidableEq κ] {d : List (κ × α)} {k : κ}
    (h : k ∈ dkeys d) : ∃ v, dget d k = some v := by
  have := (dget_isSome_iff d k).mpr h
  cases hv : dget d k with
  | none => rw [hv] at this; cases this
  | some v => exact ⟨v, rfl⟩

theorem spfaEdges_measure (u : Int) (maxR : Nat) :
    ∀ (adj : List (Int × Int)) (s s2 : SpfaSt),
      spfaEdges u maxR s adj = Except.ok s2 →
      (∀ e ∈ adj, e.1 ∈ dkeys s.cnt) →
      (cntBudget maxR s2.cnt + s2.queue.length ≤
        cntBudget maxR s.cnt + s.queue.length) ∧
      (∀ x, x ∈ dkeys s.cnt → x ∈ dkeys s2.cnt) := by
  intro adj
  induction adj with
  | nil =>
      intro s s2 h _
      cases h
      exact ⟨le_refl _, fun x hx => hx⟩
  | cons e rest ih =>
      rcases e with ⟨v, w⟩
      intro s s2 h hTC
      simp only [spfaEdges] at h
      by_cases hrel : eltB (eadd (dgetD s.dist u none) w) (dgetD s.dist v none) = true
      · rw [if_pos hrel] at h
        by_cases hmax : maxR < dgetD s.cnt v 0 + 1
        · rw [if_pos hmax] at h; cases h
        · rw [if_neg hmax] at h
          obtain ⟨c, hc⟩ := mem_dkeys_dget_isSome (hTC (v, w) (List.mem_cons_self _ _))
          have hcd : dgetD s.cnt v 0 = c := dgetD_of_dget hc
          have hclt : c < maxR + 1 := by omega
          have hbud : cntBudget maxR (dset s.cnt v (dgetD s.cnt v 0 + 1)) + 1 =
              cntBudget maxR s.cnt := by
            rw [hcd]
            exact cntBudget_dset maxR s.cnt v c hc hclt
          have hkeys : ∀ x, x ∈ dkeys s.cnt →
              x ∈ dkeys (dset s.cnt v (dgetD s.cnt v 0 + 1)) :=
            fun x hx => (mem_dkeys_dset _ _ _ _).mpr (Or.inr hx)
          by_cases hq : dgetD s.inq v false = true
          · rw [if_pos hq] at h
            obtain ⟨h1, h2⟩ := ih _ s2 h (fun e he => hkeys _ (hTC e (List.mem_cons_of_mem _ he)))
            constructor
            · refine le_trans h1 ?_
              simp only
              omega
            · exact fun x hx => h2 x (hkeys x hx)
          · rw [if_neg hq] at h
            obtain ⟨h1, h2⟩ := ih _ s2 h (fun e he => hkeys _ (hTC e (List.mem_cons_of_mem _ he)))
            constructor
            · refine le_trans h1 ?_
              simp only [List.length_append, List.length_singleton]
              omega
            · exact fun x hx => h2 x (hkeys x hx)
      · rw [if_neg hrel] at h
        exact ih s s2 h (fun e he => hTC e (List.mem_cons_of_mem _ he))

theorem spfaEdges_error_value (u : Int) (maxR : Nat) :
    ∀ (adj : List (Int × Int)) (s : SpfaSt) (e : PyErr),
      spfaEdges u maxR s adj = Except.error e → e = PyErr.valueError := by
  intro adj
  induction adj with
  | nil => intro s e h; cases h
  | cons ed rest ih =>
      rcases ed with ⟨v, w⟩
      intro s e h
      simp only [spfaEdges] at h
      by_cases hrel : eltB (eadd (dgetD s.dist u none) w) (dgetD s.dist v none) = true
      · rw [if_pos hrel] at h
        by_cases hmax : maxR < dgetD s.cnt v 0 + 1
        · rw [if_pos hmax] at h
          cases h
          rfl
        · rw [if_neg hmax] at h
          by_cases hq : dgetD s.inq v false = true
          · rw [if_pos hq] at h; exact ih _ e h
          · rw [if_neg hq] at h; exact ih _ e h
      · rw [if_neg hrel] at h
        exact ih s e h

theorem spfaLoop_no_none (g : WGraph) (maxR : Nat) :
    ∀ (fuel : Nat) (s : SpfaSt),
      (∀ u2 : Int, ∀ e ∈ dgetD g u2 [], e.1 ∈ dkeys s.cnt) →
      cntBudget maxR s.cnt + s.queue.length < fuel →
      spfaLoop g maxR fuel s ≠ none := by
  intro fuel
  induction fuel with
  | zero => intro s _ h; omega
  | succ fuel ih =>
      intro s hTC hM
      rcases s with ⟨sd, sq, si, sc⟩
      cases sq with
      | nil => simp [spfaLoop]
      | cons u qrest =>
          simp only [spfaLoop]
          split
          · simp
          · rename_i s2 hrun
            obtain ⟨h1, h2⟩ := spfaEdges_measure u maxR (dgetD g u [])
              ⟨sd, qrest, dset si u false, sc⟩ s2 hrun (fun e he => hTC u e he)
            refine ih s2 (fun u2 e he => h2 _ (hTC u2 e he)) ?_
            simp only [List.length_cons] at hM
            simp only at h1
            omega

theorem spfaLoop_error_value (g : WGraph) (maxR : Nat) :
    ∀ (fuel : Nat) (s : SpfaSt) (e : PyErr),
      spfaLoop g maxR fuel s = some (Except.error e) → e = PyErr.valueError := by
  intro fuel
  induction fuel with
  | zero => intro s e h; cases h
  | succ fuel ih =>
      intro s e h
      rcases s with ⟨sd, sq, si, sc⟩
      cases sq with
      | nil =>
          simp only [spfaLoop] at h
          simp at h
      | cons u qrest =>
          simp only [spfaLoop] at h
          split at h
          · rename_i e2 hrun
            simp only [Option.some.injEq, Except.error.injEq] at h
            rw [← h]
            exact spfaEdges_error_value u maxR (dgetD g u []) _ e2 hrun
          · rename_i s2 hrun
            exact ih s2 e h

theorem foldl_addNode_mem (adj : List (Int × Int)) :
    ∀ (vs : List Int) (x : Int), x ∈ vs →
      x ∈ adj.foldl (fun vs e => addNode vs e.1) vs := by
  induction adj with
  | nil => intro vs x hx; simpa using hx
  | cons e rest ih =>
      intro vs x hx
      simp only [List.foldl_cons]
      refine ih _ x ?_
      unfold addNode
      split
      · exact hx
      · exact List.mem_append_left _ hx

theorem foldl_addNode_target (adj : List (Int × Int)) :
    ∀ (vs : List Int) (e : Int × Int), e ∈ adj →
      e.1 ∈ adj.foldl (fun vs e => addNode vs e.1) vs := by
  induction adj with
  | nil => intro vs e he; simp at he
  | cons e0 rest ih =>
      intro vs e he
      simp only [List.foldl_cons]
      rcases List.mem_cons.mp he with rfl | he2
      · refine foldl_addNode_mem rest _ e.1 ?_
        unfold addNode
        split
        · assumption
        · exact List.mem_append_right _ (List.mem_singleton.mpr rfl)
      · exact ih _ e he2

theorem mem_collectNodes_mono :
    ∀ (gl : List (Int × List (Int × Int))) (vs : List Int) (x : Int),
      x ∈ vs → x ∈ collectNodes vs gl := by
  intro gl
  induction gl with
  | nil => intro vs x hx; exact hx
  | cons p rest ih =>
      intro vs x hx
      simp only [collectNodes]
      exact ih _ x (foldl_addNode_mem p.2 vs x hx)

theorem mem_collectNodes_target :
    ∀ (gl : List (Int × List (Int × Int))) (vs : List Int) (p : Int × List (Int × Int)),
      p ∈ gl → ∀ e ∈ p.2, e.1 ∈ collectNodes vs gl := by
  intro gl
  induction gl with
  | nil => intro vs p hp; simp at hp
  | cons q rest ih =>
      intro vs p hp e he
      simp only [collectNodes]
      rcases List.mem_cons.mp hp with rfl | hp2
      · exact mem_collectNodes_mono rest _ e.1 (foldl_addNode_target p.2 vs e he)
      · exact ih _ p hp2 e he

theorem dkeys_map_pair {α : Type} (nodes : List Int) (f : Int → α) :
    dkeys (nodes.map (fun v => (v, f v))) = nodes := by
  induction nodes with
  | nil => rfl
  | cons v rest ih => simp [dkeys] at ih ⊢; exact ih

/-- C2, SPFA part (b): with a negative cycle reachable from the start node
there is enough fuel for spfa to terminate, and it terminates by raising
ValueError. -/
theorem spfa_raises_on_reachable_neg_cycle (g : WGraph) (start v : Int)
    (esr es : List (Int × Int)) (hnd : (dkeys g).Nodup)
    (hreach : IsWalk g start esr v) (hcyc : SimpleNegCycle g v es) :
    ∃ fuel, spfa g start fuel = some (Except.error PyErr.valueError) := by
  by_cases hs : start ∉ collectNodes (dkeys g) g
  · exact ⟨0, by unfold spfa; rw [if_pos hs]⟩
  · refine ⟨cntBudget ((collectNodes (dkeys g) g).length - 1)
      ((collectNodes (dkeys g) g).map (fun v => (v, (0 : Nat)))) + 2, ?_⟩
    have hTC : ∀ u2 : Int, ∀ e ∈ dgetD g u2 [],
        e.1 ∈ dkeys ((spfaInit (collectNodes (dkeys g) g) start).cnt) := by
      intro u2 e he
      obtain ⟨p, hp, hep⟩ := mem_dgetD_values g u2 e he
      show e.1 ∈ dkeys ((collectNodes (dkeys g) g).map (fun v => (v, (0 : Nat))))
      rw [dkeys_map_pair]
      exact mem_collectNodes_target g (dkeys g) p hp e hep
    have hM : cntBudget ((collectNodes (dkeys g) g).length - 1)
        ((spfaInit (collectNodes (dkeys g) g) start).cnt) +
        (spfaInit (collectNodes (dkeys g) g) start).queue.length <
        cntBudget ((collectNodes (dkeys g) g).length - 1)
          ((collectNodes (dkeys g) g).map (fun v => (v, (0 : Nat)))) + 2 := by
      show cntBudget _ ((collectNodes (dkeys g) g).map (fun v => (v, (0 : Nat)))) +
        ([start] : List Int).length < _
      simp
    have hnn := spfaLoop_no_none g ((collectNodes (dkeys g) g).length - 1) _
      (spfaInit (collectNodes (dkeys g) g) start) hTC hM
    unfold spfa
    rw [if_neg hs]
    cases ho : spfaLoop g ((collectNodes (dkeys g) g).length - 1)
        (cntBudget ((collectNodes (dkeys g) g).length - 1)
          ((collectNodes (dkeys g) g).map (fun v => (v, (0 : Nat)))) + 2)
        (spfaInit (collectNodes (dkeys g) g) start) with
    | none => exact absurd ho hnn
    | some r =>
        cases r with
        | ok d =>
            exfalso
            have := spfa_never_ok g start v esr es hnd hreach hcyc
              (cntBudget ((collectNodes (dkeys g) g).length - 1)
                ((collectNodes (dkeys g) g).map (fun v => (v, (0 : Nat)))) + 2) d
            apply this
            unfold spfa
            rw [if_neg hs]
            exact ho
        | error e =>
            have he := spfaLoop_error_value g _ _ _ e ho
            subst he
            rfl

/-- C2 (refuted as stated, Floyd-Warshall part): in the graph
{0: [(1, -5), (1, 5)], 1: [(0, 0)]} the cycle 0 -> 1 -> 0 through the first
parallel edge has weight -5, yet floyd_warshall does not raise: the seeding
distances[(0, 1)] = weight lets the later parallel edge (1, 5) overwrite the
cheaper (1, -5), so no negative self-distance is ever found. -/
theorem floyd_warshall_misses_parallel_edge_neg_cycle :
    SimpleNegCycle [((0 : Int), [((1 : Int), (-5 : Int)), (1, 5)]), (1, [(0, 0)])]
      0 [(1, -5), (0, 0)] ∧
    floyd_warshall [((0 : Int), [((1 : Int), (-5 : Int)), (1, 5)]), (1, [(0, 0)])] ≠
      Except.error PyErr.valueError := by
  decide

/-! ## Floyd-Warshall detects simple negative cycles (no parallel edges) -/

theorem edle_of_eltB_true {a b : EDist} (h : eltB a b = true) : edle a b := by
  obtain ⟨s, hs⟩ := eltB_some_left h
  intro y hy
  refine ⟨s, hs, ?_⟩
  have := eltB_true_lt h hs y hy
  omega

theorem eadd2_mono {a a2 b b2 : EDist} (ha : edle a a2) (hb : edle b b2) :
    edle (eadd2 a b) (eadd2 a2 b2) := by
  intro y hy
  cases ha2 : a2 with
  | none => rw [ha2] at hy; cases hy
  | some x2 =>
      cases hb2 : b2 with
      | none => rw [ha2, hb2] at hy; cases hy
      | some y2 =>
          rw [ha2, hb2] at hy
          simp only [eadd2, Option.some.injEq] at hy
          obtain ⟨x, hx, hxle⟩ := ha x2 ha2
          obtain ⟨z, hz, hzle⟩ := hb y2 hb2
          rw [hx, hz]
          exact ⟨x + z, rfl, by omega⟩

theorem fwStepJ_mono (i k : Int) (d : PairDist) (j : Int) (p : Int × Int) :
    edle (dgetD (fwStepJ i k d j) p none) (dgetD d p none) := by
  unfold fwStepJ
  split
  · rename_i hrel
    by_cases hp : p = (i, j)
    · rw [hp]
      rw [show dgetD (dset d (i, j) (eadd2 (dgetD d (i, k) none) (dgetD d (k, j) none)))
        (i, j) none = eadd2 (dgetD d (i, k) none) (dgetD d (k, j) none) from by
        rw [dgetD, dget_dset_self]; rfl]
      exact edle_of_eltB_true hrel
    · rw [show dgetD (dset d (i, j) (eadd2 (dgetD d (i, k) none) (dgetD d (k, j) none)))
        p none = dgetD d p none from by rw [dgetD, dget_dset_ne _ _ _ _ hp]; rfl]
      exact edle_refl _
  · exact edle_refl _

theorem foldl_edle_mono {β : Type} (f : PairDist → β → PairDist)
    (hf : ∀ d x p, edle (dgetD (f d x) p none) (dgetD d p none)) :
    ∀ (l : List β) (d : PairDist) (p : Int × Int),
      edle (dgetD (l.foldl f d) p none) (dgetD d p none) := by
  intro l
  induction l with
  | nil => intro d p; exact edle_refl _
  | cons x rest ih =>
      intro d p
      simp only [List.foldl_cons]
      exact edle_trans (ih (f d x) p) (hf d x p)

theorem fwStepI_mono (nodes : List Int) (k : Int) (d : PairDist) (i : Int) (p : Int × Int) :
    edle (dgetD (fwStepI nodes k d i) p none) (dgetD d p none) :=
  foldl_edle_mono (fwStepJ i k) (fwStepJ_mono i k) nodes d p

theorem fwStepK_mono (nodes : List Int) (d : PairDist) (k : Int) (p : Int × Int) :
    edle (dgetD (fwStepK nodes d k) p none) (dgetD d p none) :=
  foldl_edle_mono (fwStepI nodes k) (fun d i p => fwStepI_mono nodes k d i p) nodes d p

theorem fwStepJ_self_bound (i k : Int) (d : PairDist) (j : Int) :
    edle (dgetD (fwStepJ i k d j) (i, j) none)
      (eadd2 (dgetD d (i, k) none) (dgetD d (k, j) none)) := by
  unfold fwStepJ
  split
  · rw [show dgetD (dset d (i, j) (eadd2 (dgetD d (i, k) none) (dgetD d (k, j) none)))
      (i, j) none = eadd2 (dgetD d (i, k) none) (dgetD d (k, j) none) from by
      rw [dgetD, dget_dset_self]; rfl]
    exact edle_refl _
  · rename_i hrel
    exact eltB_false_edle (eq_false_of_ne_true hrel)

theorem fwStepI_bound (nodes : List Int) (k : Int) (d : PairDist) (i j : Int)
    (hj : j ∈ nodes) :
    edle (dgetD (fwStepI nodes k d i) (i, j) none)
      (eadd2 (dgetD d (i, k) none) (dgetD d (k, j) none)) := by
  obtain ⟨l1, l2, hsplit⟩ := List.append_of_mem hj
  unfold fwStepI
  rw [hsplit, List.foldl_append, List.foldl_cons]
  refine edle_trans (foldl_edle_mono (fwStepJ i k) (fwStepJ_mono i k) l2 _ _) ?_
  refine edle_trans (fwStepJ_self_bound i k (l1.foldl (fwStepJ i k) d) j) ?_
  exact eadd2_mono (foldl_edle_mono (fwStepJ i k) (fwStepJ_mono i k) l1 d (i, k))
    (foldl_edle_mono (fwStepJ i k) (fwStepJ_mono i k) l1 d (k, j))

theorem fwStepK_bound (nodes : List Int) (d : PairDist) (k i j : Int)
    (hi : i ∈ nodes) (hj : j ∈ nodes) :
    edle (dgetD (fwStepK nodes d k) (i, j) none)
      (eadd2 (dgetD d (i, k) none) (dgetD d (k, j) none)) := by
  obtain ⟨l1, l2, hsplit⟩ := List.append_of_mem hi
  unfold fwStepK
  nth_rewrite 2 [hsplit]
  rw [List.foldl_append, List.foldl_cons]
  refine edle_trans
    (foldl_edle_mono (fwStepI nodes k) (fun d i p => fwStepI_mono nodes k d i p) l2 _ _) ?_
  refine edle_trans (fwStepI_bound nodes k (l1.foldl (fwStepI nodes k) d) i j hj) ?_
  exact eadd2_mono
    (foldl_edle_mono (fwStepI nodes k) (fun d i p => fwStepI_mono nodes k d i p) l1 d (i, k))
    (foldl_edle_mono (fwStepI nodes k) (fun d i p => fwStepI_mono nodes k d i p) l1 d (k, j))

theorem isWalk_append (g : WGraph) :
    ∀ (es1 es2 : List (Int × Int)) (u v : Int),
      IsWalk g u (es1 ++ es2) v ↔ ∃ m, IsWalk g u es1 m ∧ IsWalk g m es2 v := by
  intro es1
  induction es1 with
  | nil =>
      intro es2 u v
      simp only [List.nil_append]
      constructor
      · intro h; exact ⟨u, rfl, h⟩
      · rintro ⟨m, hm, h⟩
        have : u = m := hm
        rw [this]
        exact h
  | cons e rest ih =>
      intro es2 u v
      rcases e with ⟨x, w⟩
      simp only [List.cons_append]
      constructor
      · rintro ⟨hE, hrest⟩
        obtain ⟨m, h1, h2⟩ := (ih es2 x v).mp hrest
        exact ⟨m, ⟨hE, h1⟩, h2⟩
      · rintro ⟨m, ⟨hE, h1⟩, h2⟩
        exact ⟨hE, (ih es2 x v).mpr ⟨m, h1, h2⟩⟩

theorem walkWeight_append (es1 es2 : List (Int × Int)) :
    walkWeight (es1 ++ es2) = walkWeight es1 + walkWeight es2 := by
  simp [walkWeight]

theorem walk_intermediate_keys (g : WGraph) :
    ∀ (es : List (Int × Int)) (u v : Int), IsWalk g u es v →
      ∀ x ∈ (es.map Prod.fst).dropLast, x ∈ dkeys g := by
  intro es
  induction es with
  | nil => intro u v h x hx; simp at hx
  | cons e rest ih =>
      rcases e with ⟨t, w⟩
      intro u v h x hx
      obtain ⟨hE, hrest⟩ := h
      cases rest with
      | nil => simp at hx
      | cons e2 rest2 =>
          simp only [List.map_cons, List.dropLast_cons₂, List.mem_cons] at hx
          rcases hx with rfl | hx
          · exact edge_source_mem_dkeys g x e2.1 e2.2 (by
              rcases e2 with ⟨t2, w2⟩
              exact hrest.1)
          · exact ih t v hrest x (by simpa using hx)

theorem walk_source_mem_dkeys (g : WGraph) (u v : Int) (es : List (Int × Int))
    (h : IsWalk g u es v) (hne : es ≠ []) : u ∈ dkeys g := by
  cases es with
  | nil => exact absurd rfl hne
  | cons e rest => exact edge_source_mem_dkeys g u e.1 e.2 h.1

theorem dget_fold_no_touch (u : Int) :
    ∀ (adj : List (Int × Int)) (acc : PairDist) (v : Int),
      (∀ e ∈ adj, e.1 ≠ v) →
      dgetD (adj.foldl (fun acc e => dset acc (u, e.1) (some e.2)) acc) (u, v) none =
        dgetD acc (u, v) none := by
  intro adj
  induction adj with
  | nil => intro acc v _; rfl
  | cons e rest ih =>
      intro acc v hne
      simp only [List.foldl_cons]
      rw [ih _ v (fun e2 he2 => hne e2 (List.mem_cons_of_mem _ he2))]
      rw [dgetD, dget_dset_ne]
      · rfl
      · intro hh
        exact hne e (List.mem_cons_self _ _) (by
          have := congrArg Prod.snd hh
          simpa using this.symm)

theorem seedEntry_edge (u : Int) :
    ∀ (adj : List (Int × Int)) (acc : PairDist) (v w : Int),
      (v, w) ∈ adj → (adj.map Prod.fst).Nodup →
      dgetD (adj.foldl (fun acc e => dset acc (u, e.1) (some e.2)) acc) (u, v) none =
        some w := by
  intro adj
  induction adj with
  | nil => intro acc v w hvw; simp at hvw
  | cons e rest ih =>
      intro acc v w hvw hnd
      simp only [List.map_cons, List.nodup_cons] at hnd
      rcases List.mem_cons.mp hvw with heq | hvw2
      · cases heq
        simp only [List.foldl_cons]
        have hno : ∀ e2 ∈ rest, e2.1 ≠ v := by
          intro e2 he2 hh
          apply hnd.1
          show v ∈ List.map Prod.fst rest
          rw [← hh]
          exact List.mem_map_of_mem Prod.fst he2
        rw [dget_fold_no_touch u rest _ v hno]
        rw [dgetD, dget_dset_self]
        rfl
      · simp only [List.foldl_cons]
        exact ih _ v w hvw2 hnd.2

theorem dget_fold_other_key (node u x : Int) (hne : node ≠ u) :
    ∀ (adj : List (Int × Int)) (acc : PairDist),
      dgetD (adj.foldl (fun acc e => dset acc (node, e.1) (some e.2)) acc) (u, x) none =
        dgetD acc (u, x) none := by
  intro adj
  induction adj with
  | nil => intro acc; rfl
  | cons e rest ih =>
      intro acc
      simp only [List.foldl_cons]
      rw [ih]
      rw [dgetD, dget_dset_ne]
      · rfl
      · intro hh
        exact hne (by
          have := congrArg Prod.fst hh
          simpa using this.symm)

theorem fwSeed_no_touch (u x : Int) :
    ∀ (gl : List (Int × List (Int × Int))) (d : PairDist),
      (∀ q ∈ gl, q.1 ≠ u) →
      dgetD (fwSeed d gl) (u, x) none = dgetD d (u, x) none := by
  intro gl
  induction gl with
  | nil => intro d _; rfl
  | cons q rest ih =>
      rcases q with ⟨node, adj⟩
      intro d hne
      have hnode : node ≠ u := hne (node, adj) (List.mem_cons_self _ _)
      simp only [fwSeed]
      rw [ih _ (fun q2 hq2 => hne q2 (List.mem_cons_of_mem _ hq2))]
      rw [dget_fold_other_key node u x hnode]
      rw [dgetD, dget_dset_ne]
      · rfl
      · intro hh
        exact hnode (by
          have := congrArg Prod.fst hh
          simpa using this.symm)

theorem fwSeed_edge_val :
    ∀ (gl : List (Int × List (Int × Int))) (d : PairDist),
      (dkeys gl).Nodup →
      ∀ p ∈ gl, (p.2.map Prod.fst).Nodup →
        ∀ v w, (v, w) ∈ p.2 →
          dgetD (fwSeed d gl) (p.1, v) none = some w := by
  intro gl
  induction gl with
  | nil => intro d _ p hp; simp at hp
  | cons q rest ih =>
      rcases q with ⟨node, adj⟩
      intro d hnd p hp hnp v w hvw
      simp only [dkeys_cons, List.nodup_cons] at hnd
      rcases List.mem_cons.mp hp with rfl | hp2
      · simp only [fwSeed]
        have hno : ∀ q2 ∈ rest, q2.1 ≠ node := by
          intro q2 hq2 hh
          apply hnd.1
          rw [← hh]
          exact mem_dkeys_of_mem rest q2 hq2
        rw [fwSeed_no_touch node v rest _ hno]
        exact seedEntry_edge node adj _ v w hvw hnp
      · simp only [fwSeed]
        exact ih _ hnd.2 p hp2 hnp v w hvw

theorem map_dropLast {α β : Type} (f : α → β) :
    ∀ (l : List α), (l.map f).dropLast = l.dropLast.map f
  | [] => rfl
  | [_] => rfl
  | a :: b :: rest => by
      have ih := map_dropLast f (b :: rest)
      simp only [List.map_cons, List.dropLast_cons₂] at ih ⊢
      rw [ih]

/-- The floyd_warshall k-loop invariant: after processing the intermediate
vertices K, every nonempty walk to an adjacency key whose start and
intermediate nodes are pairwise distinct and whose intermediates lie in K
bounds the recorded distance. -/
def FwInv (g : WGraph) (K : List Int) (d : PairDist) : Prop :=
  ∀ (u : Int) (es : List (Int × Int)) (v : Int),
    IsWalk g u es v → es ≠ [] → v ∈ dkeys g →
    (u :: (es.map Prod.fst).dropLast).Nodup →
    (∀ x ∈ (es.map Prod.fst).dropLast, x ∈ K) →
    edle (dgetD d (u, v) none) (some (walkWeight es))

theorem fwInv_base (g : WGraph) (hnd : (dkeys g).Nodup)
    (hnp : ∀ p ∈ g, (p.2.map Prod.fst).Nodup) :
    FwInv g [] (fwSeed (fwInit (dkeys g)) g) := by
  intro u es v hw hne hv hnodup hsub
  cases es with
  | nil => exact absurd rfl hne
  | cons e rest =>
      cases rest with
      | nil =>
          rcases e with ⟨x, w⟩
          obtain ⟨hE, hend⟩ := hw
          have hx : x = v := hend
          subst hx
          obtain ⟨p, hp, hp1, hvw⟩ := hE
          have hval := fwSeed_edge_val g (fwInit (dkeys g)) hnd p hp (hnp p hp) x w hvw
          rw [hp1] at hval
          rw [hval]
          rw [show walkWeight [(x, w)] = w from by simp [walkWeight]]
          exact edle_refl _
      | cons e2 rest2 =>
          exfalso
          have hmem : e.1 ∈ ((e :: e2 :: rest2).map Prod.fst).dropLast := by
            simp [List.dropLast_cons₂]
          exact absurd (hsub e.1 hmem) (List.not_mem_nil _)

theorem fwInv_step (g : WGraph) (K : List Int) (k : Int) (d : PairDist)
    (hInv : FwInv g K d) :
    FwInv g (K ++ [k]) (fwStepK (dkeys g) d k) := by
  intro u es v hw hne hv hnodup hsub
  by_cases hk : k ∈ (es.map Prod.fst).dropLast
  case neg =>
    have hsub2 : ∀ x ∈ (es.map Prod.fst).dropLast, x ∈ K := by
      intro x hx
      rcases List.mem_append.mp (hsub x hx) with h | h
      · exact h
      · simp only [List.mem_singleton] at h
        rw [h] at hx
        exact absurd hx hk
    exact edle_trans (fwStepK_mono (dkeys g) d k (u, v))
      (hInv u es v hw hne hv hnodup hsub2)
  case pos =>
    have hu : u ∈ dkeys g := walk_source_mem_dkeys g u v es hw hne
    rw [map_dropLast] at hk
    obtain ⟨e, he, hek⟩ := List.mem_map.mp hk
    obtain ⟨A, B, hAB⟩ := List.append_of_mem he
    have hes : es = (A ++ [e]) ++ (B ++ [es.getLast hne]) := by
      conv_lhs => rw [← List.dropLast_append_getLast hne]
      rw [hAB]
      simp
    obtain ⟨m, hwA, hwB⟩ := (isWalk_append g (A ++ [e]) (B ++ [es.getLast hne]) u v).mp
      (hes ▸ hw)
    have hm : m = k := by
      obtain ⟨m2, h1, h2⟩ := (isWalk_append g A [e] u m).mp hwA
      rcases e with ⟨t, w0⟩
      obtain ⟨-, hend⟩ := h2
      have : t = m := hend
      rw [← hek, ← this]
    rw [hm] at hwA hwB
    have hinter : (es.map Prod.fst).dropLast = A.map Prod.fst ++ k :: B.map Prod.fst := by
      rw [map_dropLast, hAB]
      simp [hek]
    have hintA : ((A ++ [e]).map Prod.fst).dropLast = A.map Prod.fst := by
      rw [map_dropLast, List.dropLast_concat]
    have hintB : ((B ++ [es.getLast hne]).map Prod.fst).dropLast = B.map Prod.fst := by
      rw [map_dropLast, List.dropLast_concat]
    rw [hinter] at hnodup hsub
    have hkkey : k ∈ dkeys g :=
      walk_source_mem_dkeys g k v (B ++ [es.getLast hne]) hwB (by simp)
    have hnodA : (u :: A.map Prod.fst).Nodup := by
      refine hnodup.sublist ?_
      apply List.Sublist.cons₂
      exact List.sublist_append_left _ _
    have hnodB : (k :: B.map Prod.fst).Nodup := by
      refine hnodup.sublist ?_
      apply List.Sublist.cons
      exact List.sublist_append_right _ _
    have htail : (A.map Prod.fst ++ k :: B.map Prod.fst).Nodup := hnodup.of_cons
    have hdisjAB : List.Disjoint (A.map Prod.fst) (k :: B.map Prod.fst) :=
      (List.nodup_append.mp htail).2.2
    have hkA : k ∉ A.map Prod.fst := fun hh => hdisjAB hh (List.mem_cons_self k _)
    have hkBnd : (k :: B.map Prod.fst).Nodup := hnodB
    have hsubA : ∀ x ∈ A.map Prod.fst, x ∈ K := by
      intro x hx
      rcases List.mem_append.mp (hsub x (List.mem_append_left _ hx)) with h | h
      · exact h
      · simp only [List.mem_singleton] at h
        rw [h] at hx
        exact absurd hx hkA
    have hsubB : ∀ x ∈ B.map Prod.fst, x ∈ K := by
      intro x hx
      rcases List.mem_append.mp
          (hsub x (List.mem_append_right _ (List.mem_cons_of_mem _ hx))) with h | h
      · exact h
      · simp only [List.mem_singleton] at h
        rw [h] at hx
        simp only [List.nodup_cons] at hkBnd
        exact absurd hx hkBnd.1
    have hA := hInv u (A ++ [e]) k hwA (by simp) hkkey (by rw [hintA]; exact hnodA)
      (by rw [hintA]; exact hsubA)
    have hB := hInv k (B ++ [es.getLast hne]) v hwB (by simp) hv
      (by rw [hintB]; exact hnodB) (by rw [hintB]; exact hsubB)
    refine edle_trans (fwStepK_bound (dkeys g) d k u v hu hv) ?_
    intro y hy
    obtain ⟨a, ha, haw⟩ := hA (walkWeight (A ++ [e])) rfl
    obtain ⟨b, hb, hbw⟩ := hB (walkWeight (B ++ [es.getLast hne])) rfl
    have hwt : walkWeight es =
        walkWeight (A ++ [e]) + walkWeight (B ++ [es.getLast hne]) := by
      conv_lhs => rw [hes]
      rw [walkWeight_append]
    refine ⟨a + b, by rw [ha, hb]; rfl, ?_⟩
    simp only [Option.some.injEq] at hy
    omega

theorem fwInv_fold (g : WGraph) :
    ∀ (l : List Int) (K : List Int) (d : PairDist),
      FwInv g K d → FwInv g (K ++ l) (l.foldl (fwStepK (dkeys g)) d) := by
  intro l
  induction l with
  | nil => intro K d h; simpa using h
  | cons k rest ih =>
      intro K d h
      simp only [List.foldl_cons]
      rw [show K ++ k :: rest = (K ++ [k]) ++ rest from by simp]
      exact ih (K ++ [k]) (fwStepK (dkeys g) d k) (fwInv_step g K k d h)

/-- C2, Floyd-Warshall part as amended: on a graph with distinct adjacency
keys and no parallel edges inside an adjacency list, a negative cycle forces
a negative self-distance, so floyd_warshall raises ValueError. -/
theorem floyd_warshall_raises_on_simple_neg_cycle (g : WGraph)
    (hnd : (dkeys g).Nodup) (hnp : ∀ p ∈ g, (p.2.map Prod.fst).Nodup)
    (v : Int) (es : List (Int × Int)) (hcyc : SimpleNegCycle g v es) :
    floyd_warshall g = Except.error PyErr.valueError := by
  obtain ⟨hw, hne, hneg, hnodup⟩ := hcyc
  have hfin : FwInv g ([] ++ dkeys g)
      (fwRelax (dkeys g) (fwSeed (fwInit (dkeys g)) g)) :=
    fwInv_fold g (dkeys g) [] _ (fwInv_base g hnd hnp)
  have hv : v ∈ dkeys g := walk_source_mem_dkeys g v v es hw hne
  have hsub : ∀ x ∈ (es.map Prod.fst).dropLast, x ∈ [] ++ dkeys g := by
    simpa using walk_intermediate_keys g es v v hw
  obtain ⟨b, hb, hbw⟩ := hfin v es v hw hne hv hnodup hsub (walkWeight es) rfl
  have hchk : fwHasNegSelf (dkeys g)
      (fwRelax (dkeys g) (fwSeed (fwInit (dkeys g)) g)) = true := by
    unfold fwHasNegSelf
    rw [List.any_eq_true]
    refine ⟨v, hv, ?_⟩
    rw [hb]
    simp only [eltB, decide_eq_true_eq]
    omega
  unfold floyd_warshall
  rw [if_pos hchk]

/-- C2 (amended): when a negative-weight simple cycle is reachable from the
start node, bellman_ford raises ValueError and spfa never returns a distance
map and raises ValueError given enough loop fuel; floyd_warshall raises
ValueError provided the adjacency keys are distinct and no adjacency list
repeats a target node (with parallel edges into the same target it can
miss the cycle: the dict-comprehension seeding keeps only the last weight). -/
theorem neg_cycle_all_raise (g : WGraph) (start v : Int)
    (esr es : List (Int × Int)) (hnd : (dkeys g).Nodup)
    (hnp : ∀ p ∈ g, (p.2.map Prod.fst).Nodup)
    (hreach : IsWalk g start esr v) (hcyc : SimpleNegCycle g v es) :
    bellman_ford g start = Except.error PyErr.valueError ∧
    (∀ (fuel : Nat) (d : DistMap), spfa g start fuel ≠ some (Except.ok d)) ∧
    (∃ fuel, spfa g start fuel = some (Except.error PyErr.valueError)) ∧
    floyd_warshall g = Except.error PyErr.valueError :=
  ⟨bellman_ford_raises_on_reachable_neg_cycle g start v esr es hreach hcyc,
   spfa_never_ok g start v esr es hnd hreach hcyc,
   spfa_raises_on_reachable_neg_cycle g start v esr es hnd hreach hcyc,
   floyd_warshall_raises_on_simple_neg_cycle g hnd hnp v es hcyc⟩

theorem neg_cycle_all_raise_witness :
    (dkeys [((0 : Int), [((1 : Int), (5 : Int))]), (1, [(2, 3)]),
        (2, [(3, -2)]), (3, [(1, -8)])]).Nodup ∧
    (∀ p ∈ [((0 : Int), [((1 : Int), (5 : Int))]), (1, [(2, 3)]),
        (2, [(3, -2)]), (3, [(1, -8)])], (p.2.map Prod.fst).Nodup) ∧
    IsWalk [((0 : Int), [((1 : Int), (5 : Int))]), (1, [(2, 3)]),
        (2, [(3, -2)]), (3, [(1, -8)])] 0 [(1, 5)] 1 ∧
    SimpleNegCycle [((0 : Int), [((1 : Int), (5 : Int))]), (1, [(2, 3)]),
        (2, [(3, -2)]), (3, [(1, -8)])] 1 [(2, 3), (3, -2), (1, -8)] ∧
    (bellman_ford [((0 : Int), [((1 : Int), (5 : Int))]), (1, [(2, 3)]),
        (2, [(3, -2)]), (3, [(1, -8)])] 0 = Except.error PyErr.valueError ∧
     (∀ (fuel : Nat) (d : DistMap),
        spfa [((0 : Int), [((1 : Int), (5 : Int))]), (1, [(2, 3)]),
          (2, [(3, -2)]), (3, [(1, -8)])] 0 fuel ≠ some (Except.ok d)) ∧
     (∃ fuel, spfa [((0 : Int), [((1 : Int), (5 : Int))]), (1, [(2, 3)]),
        (2, [(3, -2)]), (3, [(1, -8)])] 0 fuel =
        some (Except.error PyErr.valueError)) ∧
     floyd_warshall [((0 : Int), [((1 : Int), (5 : Int))]), (1, [(2, 3)]),
        (2, [(3, -2)]), (3, [(1, -8)])] = Except.error PyErr.valueError) :=
  ⟨by decide, by decide, by decide, by decide,
   neg_cycle_all_raise
     [((0 : Int), [((1 : Int), (5 : Int))]), (1, [(2, 3)]),
       (2, [(3, -2)]), (3, [(1, -8)])] 0 1 [(1, 5)] [(2, 3), (3, -2), (1, -8)]
     (by decide) (by decide) (by decide) (by decide)⟩

/-! ## Topological sort (topological_sort.py) -/

/-- A directed edge of an unweighted adjacency-list graph. -/
def UEdgeP (g : UGraph) (u v : Int) : Prop :=
  ∃ p ∈ g, p.1 = u ∧ v ∈ p.2

instance uedgePDecidable (g : UGraph) (u v : Int) : Decidable (UEdgeP g u v) := by
  unfold UEdgeP
  infer_instance

/-- A directed walk along edge targets: UWalk g u es v holds when following
the successive targets in es leads from u to v. -/
def UWalk (g : UGraph) : Int → List Int → Int → Prop
  | u, [], v => u = v
  | u, x :: xs, v => UEdgeP g u x ∧ UWalk g x xs v

instance uwalkDecidable (g : UGraph) :
    ∀ (u : Int) (es : List Int) (v : Int), Decidable (UWalk g u es v)
  | u, [], v => decidable_of_iff (u = v) (by simp [UWalk])
  | u, x :: xs, v =>
      have : Decidable (UWalk g x xs v) := uwalkDecidable g x xs v
      decidable_of_iff (UEdgeP g u x ∧ UWalk g x xs v) (by simp [UWalk])

/-- The graph has no directed cycle (no nonempty closed walk). -/
def AcyclicU (g : UGraph) : Prop :=
  ¬ ∃ v es, es ≠ [] ∧ UWalk g v es v

theorem uwalk_append (g : UGraph) :
    ∀ (es1 es2 : List Int) (u v : Int),
      UWalk g u (es1 ++ es2) v ↔ ∃ m, UWalk g u es1 m ∧ UWalk g m es2 v := by
  intro es1
  induction es1 with
  | nil =>
      intro es2 u v
      constructor
      · intro h
        exact ⟨u, rfl, h⟩
      · rintro ⟨m, hm, h⟩
        have : u = m := hm
        rw [this]
        exact h
  | cons x xs ih =>
      intro es2 u v
      constructor
      · rintro ⟨he, hw⟩
        obtain ⟨m, h1, h2⟩ := (ih es2 x v).mp hw
        exact ⟨m, ⟨he, h1⟩, h2⟩
      · rintro ⟨m, ⟨he, h1⟩, h2⟩
        exact ⟨he, (ih es2 x v).mpr ⟨m, h1, h2⟩⟩

theorem uwalk_last (g : UGraph) :
    ∀ (es : List Int) (u t v : Int), UWalk g u (es ++ [t]) v → v = t := by
  intro es
  induction es with
  | nil =>
      intro u t v h
      obtain ⟨-, h2⟩ := h
      exact (h2 : t = v).symm
  | cons x xs ih =>
      intro u t v h
      obtain ⟨-, h2⟩ := h
      exact ih x t v h2

theorem exists_dup_split {α : Type} :
    ∀ (l : List α), ¬ l.Nodup → ∃ a l1 l2 l3, l = l1 ++ a :: l2 ++ a :: l3 := by
  intro l
  induction l with
  | nil => intro h; exact absurd List.nodup_nil h
  | cons x xs ih =>
      intro h
      by_cases hx : x ∈ xs
      · obtain ⟨l2, l3, hsp⟩ := List.append_of_mem hx
        exact ⟨x, [], l2, l3, by rw [hsp]; rfl⟩
      · have hxs : ¬ xs.Nodup := by
          intro hn
          exact h (List.nodup_cons.mpr ⟨hx, hn⟩)
        obtain ⟨a, l1, l2, l3, hsp⟩ := ih hxs
        exact ⟨a, x :: l1, l2, l3, by rw [hsp]; rfl⟩

/-- A walk whose vertex sequence repeats a vertex yields a nonempty closed
walk. -/
theorem cycle_of_dup_walk (g : UGraph) (u v : Int) (es : List Int)
    (hw : UWalk g u es v) (hdup : ¬ (u :: es).Nodup) :
    ∃ w cyc, cyc ≠ [] ∧ UWalk g w cyc w := by
  obtain ⟨a, l1, l2, l3, hsp⟩ := exists_dup_split (u :: es) hdup
  cases l1 with
  | nil =>
      simp only [List.nil_append] at hsp
      injection hsp with ha he
      rw [he] at hw
      simp only [List.append_eq] at hw
      rw [show l2 ++ a :: l3 = (l2 ++ [a]) ++ l3 from by simp] at hw
      obtain ⟨m, h1, -⟩ := (uwalk_append g (l2 ++ [a]) l3 u v).mp hw
      have hm : m = a := uwalk_last g l2 u a m h1
      rw [ha, hm] at h1
      exact ⟨a, l2 ++ [a], by simp, h1⟩
  | cons y l1t =>
      simp only [List.cons_append, List.cons.injEq] at hsp
      obtain ⟨-, hes⟩ := hsp
      rw [hes, show l1t ++ a :: l2 ++ a :: l3 = (l1t ++ [a]) ++ ((l2 ++ [a]) ++ l3)
        from by simp] at hw
      obtain ⟨m1, h1, h2⟩ := (uwalk_append g (l1t ++ [a]) _ u v).mp hw
      have hm1 : m1 = a := uwalk_last g l1t u a m1 h1
      obtain ⟨m2, h3, -⟩ := (uwalk_append g (l2 ++ [a]) l3 m1 v).mp h2
      have hm2 : m2 = a := uwalk_last g l2 m1 a m2 h3
      rw [hm1, hm2] at h3
      exact ⟨a, l2 ++ [a], by simp, h3⟩

/-- A rank function that strictly increases along every edge certifies
acyclicity. -/
theorem rank_acyclic (g : UGraph) (r : Int → Nat)
    (hr : ∀ p ∈ g, ∀ v ∈ p.2, r p.1 < r v) : AcyclicU g := by
  have hwalk : ∀ (es : List Int) (u v : Int), UWalk g u es v → es ≠ [] → r u < r v := by
    intro es
    induction es with
    | nil => intro u v h hne; exact absurd rfl hne
    | cons x xs ih =>
        intro u v h hne
        obtain ⟨⟨p, hp, hp1, hx⟩, hw⟩ := h
        have hux : r u < r x := by
          have := hr p hp x hx
          rw [hp1] at this
          exact this
        cases xs with
        | nil =>
            have : x = v := hw
            rw [← this]
            exact hux
        | cons y ys => exact Nat.lt_trans hux (ih x v hw (by simp))
  rintro ⟨v, es, hne, hw⟩
  exact absurd (hwalk es v v hw hne) (lt_irrefl _)

theorem addNode_nodup (vs : List Int) (v : Int) (h : vs.Nodup) :
    (addNode vs v).Nodup := by
  unfold addNode
  split
  · exact h
  · rename_i hnm
    simp [List.nodup_append, h, hnm]

theorem mem_addNode (vs : List Int) (v x : Int) :
    x ∈ addNode vs v ↔ x ∈ vs ∨ x = v := by
  unfold addNode
  split
  · rename_i hm
    constructor
    · exact Or.inl
    · rintro (h | h)
      · exact h
      · rw [h]; exact hm
  · simp

theorem foldl_addNode_nodup (l : List Int) :
    ∀ (vs : List Int), vs.Nodup → (l.foldl addNode vs).Nodup := by
  induction l with
  | nil => intro vs h; exact h
  | cons x xs ih => intro vs h; exact ih (addNode vs x) (addNode_nodup vs x h)

theorem mem_foldl_addNode (l : List Int) :
    ∀ (vs : List Int) (x : Int), x ∈ l.foldl addNode vs ↔ x ∈ vs ∨ x ∈ l := by
  induction l with
  | nil => intro vs x; simp
  | cons y ys ih =>
      intro vs x
      rw [List.foldl_cons, ih (addNode vs y) x, mem_addNode]
      constructor
      · rintro ((h | h) | h)
        · exact Or.inl h
        · exact Or.inr (by rw [h]; exact List.mem_cons_self y ys)
        · exact Or.inr (List.mem_cons_of_mem y h)
      · rintro (h | h)
        · exact Or.inl (Or.inl h)
        · rcases List.mem_cons.mp h with h | h
          · exact Or.inl (Or.inr h)
          · exact Or.inr h

theorem allNodesU_aux_nodup (gl : List (Int × List Int)) :
    ∀ (vs : List Int), vs.Nodup →
      (gl.foldl (fun vs p => p.2.foldl addNode vs) vs).Nodup := by
  induction gl with
  | nil => intro vs h; exact h
  | cons p rest ih =>
      intro vs h
      exact ih (p.2.foldl addNode vs) (foldl_addNode_nodup p.2 vs h)

theorem mem_allNodesU_aux (gl : List (Int × List Int)) :
    ∀ (vs : List Int) (x : Int),
      x ∈ gl.foldl (fun vs p => p.2.foldl addNode vs) vs ↔
        x ∈ vs ∨ ∃ p ∈ gl, x ∈ p.2 := by
  induction gl with
  | nil => intro vs x; simp
  | cons p rest ih =>
      intro vs x
      rw [List.foldl_cons, ih (p.2.foldl addNode vs) x, mem_foldl_addNode]
      constructor
      · rintro ((h | h) | ⟨q, hq, hx⟩)
        · exact Or.inl h
        · exact Or.inr ⟨p, List.mem_cons_self p rest, h⟩
        · exact Or.inr ⟨q, List.mem_cons_of_mem p hq, hx⟩
      · rintro (h | ⟨q, hq, hx⟩)
        · exact Or.inl (Or.inl h)
        · rcases List.mem_cons.mp hq with h | h
          · exact Or.inl (Or.inr (by rw [← h]; exact hx))
          · exact Or.inr ⟨q, h, hx⟩

theorem allNodesU_nodup (g : UGraph) (hnd : (dkeys g).Nodup) :
    (allNodesU g).Nodup :=
  allNodesU_aux_nodup g (dkeys g) hnd

theorem mem_allNodesU (g : UGraph) (x : Int) :
    x ∈ allNodesU g ↔ x ∈ dkeys g ∨ ∃ p ∈ g, x ∈ p.2 :=
  mem_allNodesU_aux g (dkeys g) x

theorem uedge_mem_allNodesU (g : UGraph) (u v : Int) (h : UEdgeP g u v) :
    u ∈ allNodesU g ∧ v ∈ allNodesU g := by
  obtain ⟨p, hp, hp1, hv⟩ := h
  constructor
  · exact (mem_allNodesU g u).mpr (Or.inl (by rw [← hp1]; exact mem_dkeys_of_mem g p hp))
  · exact (mem_allNodesU g v).mpr (Or.inr ⟨p, hp, hv⟩)

theorem dgetD_targets_mem_allNodesU (g : UGraph) (u v : Int)
    (h : v ∈ dgetD g u []) : v ∈ allNodesU g := by
  obtain ⟨p, hp, hv⟩ := mem_dgetD_values g u v h
  exact (mem_allNodesU g v).mpr (Or.inr ⟨p, hp, hv⟩)

/-- u occurs strictly before v in l. -/
def before (l : List Int) (u v : Int) : Prop :=
  ∃ l1 l2, l = l1 ++ v :: l2 ∧ u ∈ l1

theorem before_append_right (l t : List Int) (u v : Int) (h : before l u v) :
    before (l ++ t) u v := by
  obtain ⟨l1, l2, hsp, hu⟩ := h
  exact ⟨l1, l2 ++ t, by rw [hsp]; simp, hu⟩

theorem before_append_new (l : List Int) (u v : Int) (hu : u ∈ l) :
    before (l ++ [v]) u v :=
  ⟨l, [], rfl, hu⟩

theorem before_reverse (l : List Int) (u v : Int) (h : before l u v) :
    before l.reverse v u := by
  obtain ⟨l1, l2, hsp, hu⟩ := h
  obtain ⟨a1, a2, hsp2⟩ := List.append_of_mem hu
  refine ⟨l2.reverse ++ [v] ++ a2.reverse, a1.reverse, ?_, by simp⟩
  rw [hsp, hsp2]
  simp

theorem indexOf_lt_of_before (l : List Int) (u v : Int) (hnd : l.Nodup)
    (h : before l u v) : l.indexOf u < l.indexOf v := by
  obtain ⟨l1, l2, hsp, hu⟩ := h
  subst hsp
  induction l1 with
  | nil => exact absurd hu (List.not_mem_nil u)
  | cons a l1t ih =>
      simp only [List.cons_append] at hnd ⊢
      have hna : a ∉ l1t ++ v :: l2 := (List.nodup_cons.mp hnd).1
      have hnd2 : (l1t ++ v :: l2).Nodup := (List.nodup_cons.mp hnd).2
      have hva : v ≠ a := by
        intro hva
        exact hna (by rw [← hva]; simp)
      by_cases hua : u = a
      · rw [hua, List.indexOf_cons_self,
          List.indexOf_cons_ne _ (fun hh => hva hh.symm)]
        exact Nat.succ_pos _
      · rcases List.mem_cons.mp hu with h | h
        · exact absurd h hua
        · rw [List.indexOf_cons_ne _ (fun hh => hua hh.symm),
            List.indexOf_cons_ne _ (fun hh => hva hh.symm)]
          exact Nat.succ_lt_succ (ih h hnd2)

theorem before_irrefl (l : List Int) (v : Int) (hnd : l.Nodup)
    (h : before l v v) : False :=
  absurd (indexOf_lt_of_before l v v hnd h) (lt_irrefl _)

/-- Number of edges into v from sources not yet in done: the multiset
in-degree maintained by Kahn's algorithm. -/
def inCount (g : UGraph) (done : List Int) (v : Int) : Nat :=
  (g.map (fun p => if p.1 ∈ done then 0 else p.2.count v)).sum

/-- in_degree = {v: 0 for v in vertices} then += 1 per edge (u, v). -/
def indegrees (g : UGraph) (vs : List Int) : List (Int × Int) :=
  g.foldl (fun d p => p.2.foldl (fun d v => dset d v (dgetD d v 0 + 1)) d)
    (vs.map (fun v => (v, 0)))

/-- The inner neighbor loop of Kahn's while loop: decrement each target's
in-degree and enqueue it when the count reaches zero. -/
def kahnRelax : List (Int × Int) → List Int → List Int → List (Int × Int) × List Int
  | indeg, queue, [] => (indeg, queue)
  | indeg, queue, v :: rest =>
      if dgetD indeg v 0 - 1 = 0 then
        kahnRelax (dset indeg v (dgetD indeg v 0 - 1)) (queue ++ [v]) rest
      else
        kahnRelax (dset indeg v (dgetD indeg v 0 - 1)) queue rest

/-- Kahn's while loop, with fuel; returns the topo_order list built. -/
def kahnLoop (g : UGraph) : Nat → List (Int × Int) → List Int → List Int → Option (List Int)
  | 0, _, _, _ => none
  | _ + 1, _, [], topo => some topo
  | fuel + 1, indeg, u :: rest, topo =>
      kahnLoop g fuel (kahnRelax indeg rest (dgetD g u [])).1
        (kahnRelax indeg rest (dgetD g u [])).2 (topo ++ [u])

def topological_sort_kahn (g : UGraph) : Option (Option (List Int)) :=
  match kahnLoop g ((allNodesU g).length + 1) (indegrees g (allNodesU g))
      ((allNodesU g).filter (fun v => dgetD (indegrees g (allNodesU g)) v 0 == 0)) [] with
  | none => none
  | some topo =>
      if topo.length = (allNodesU g).length then some (some topo) else some none

/-- The mutable state of the DFS topological sort: the vertex color dict
(0 unvisited, 1 visiting, 2 visited), the topo_order list, and the
has_cycle flag. -/
structure DfsTSt : Type where
  state : List (Int × Int)
  topo : List Int
  flag : Bool
deriving DecidableEq

/-- The recursive dfs of topological_sort_dfs, with fuel (outer Option none
= fuel exhausted, an artifact of the embedding). -/
def dfsT (g : UGraph) : Nat → Int → DfsTSt → Option DfsTSt
  | 0, _, _ => none
  | fuel + 1, u, s =>
      if s.flag then some s
      else if dgetD s.state u 0 = 1 then some { s with flag := true }
      else if dgetD s.state u 0 = 2 then some s
      else
        match (dgetD g u []).foldlM (fun s2 v => dfsT g fuel v s2)
            { s with state := dset s.state u 1 } with
        | none => none
        | some s2 =>
            some { s2 with state := dset s2.state u 2, topo := s2.topo ++ [u] }

def topological_sort_dfs (g : UGraph) : Option (Option (List Int)) :=
  match (allNodesU g).foldlM
      (fun s v =>
        if dgetD s.state v 0 = 0 then dfsT g ((allNodesU g).length + 1) v s
        else some s)
      ⟨(allNodesU g).map (fun v => (v, 0)), [], false⟩ with
  | none => none
  | some s => if s.flag then some none else some (some s.topo.reverse)

/-- The recursive dfs of has_cycle, with fuel. -/
def hcDfs (g : UGraph) : Nat → Int → List (Int × Int) → Option (Bool × List (Int × Int))
  | 0, _, _ => none
  | fuel + 1, u, st =>
      if dgetD st u 0 = 1 then some (true, st)
      else if dgetD st u 0 = 2 then some (false, st)
      else
        match (dgetD g u []).foldlM
            (fun p v => if p.1 then some p else hcDfs g fuel v p.2)
            (false, dset st u 1) with
        | none => none
        | some p => if p.1 then some (true, p.2) else some (false, dset p.2 u 2)

def has_cycle (g : UGraph) : Option Bool :=
  match (allNodesU g).foldlM
      (fun p v =>
        if p.1 then some p
        else if dgetD p.2 v 0 = 0 then hcDfs g ((allNodesU g).length + 1) v p.2
        else some p)
      (false, (allNodesU g).map (fun v => (v, 0))) with
  | none => none
  | some p => some p.1

theorem nat_sum_zero (l : List Nat) : l.sum = 0 ↔ ∀ x ∈ l, x = 0 := by
  induction l with
  | nil => simp
  | cons x xs ih => simp [ih]

theorem nodup_length_le (l vs : List Int) (hnd : l.Nodup)
    (hsub : ∀ x ∈ l, x ∈ vs) : l.length ≤ vs.length := by
  have h1 : l.toFinset.card = l.length := List.toFinset_card_of_nodup hnd
  have h2 : l.toFinset ⊆ vs.toFinset := by
    intro x hx
    exact List.mem_toFinset.mpr (hsub x (List.mem_toFinset.mp hx))
  calc l.length = l.toFinset.card := h1.symm
    _ ≤ vs.toFinset.card := Finset.card_le_card h2
    _ ≤ vs.length := List.toFinset_card_le vs

theorem nodup_length_lt (l vs : List Int) (hnd : l.Nodup)
    (hsub : ∀ x ∈ l, x ∈ vs) (v : Int) (hv : v ∈ vs) (hnl : v ∉ l) :
    l.length < vs.length := by
  have h1 : l.toFinset.card = l.length := List.toFinset_card_of_nodup hnd
  have h2 : l.toFinset ⊆ vs.toFinset := by
    intro x hx
    exact List.mem_toFinset.mpr (hsub x (List.mem_toFinset.mp hx))
  have h3 : l.toFinset.card < vs.toFinset.card :=
    Finset.card_lt_card ((Finset.ssubset_iff_of_subset h2).mpr
      ⟨v, List.mem_toFinset.mpr hv, fun hh => hnl (List.mem_toFinset.mp hh)⟩)
  calc l.length = l.toFinset.card := h1.symm
    _ < vs.toFinset.card := h3
    _ ≤ vs.length := List.toFinset_card_le vs

theorem dgetD_dset_self {κ α : Type} [DecidableEq κ] (d : List (κ × α)) (k : κ)
    (v dflt : α) : dgetD (dset d k v) k dflt = v := by
  rw [dgetD, dget_dset_self]
  rfl

theorem dgetD_dset_ne {κ α : Type} [DecidableEq κ] (d : List (κ × α)) (k k2 : κ)
    (v dflt : α) (h : k2 ≠ k) : dgetD (dset d k v) k2 dflt = dgetD d k2 dflt := by
  rw [dgetD, dget_dset_ne _ _ _ _ h, dgetD]

theorem dgetD_map_zero (vs : List Int) (x : Int) :
    dgetD (vs.map (fun v => (v, (0 : Int)))) x 0 = 0 := by
  rcases dget_map_const vs x (0 : Int) with h | h <;> rw [dgetD, h] <;> rfl

theorem bump_fold (adj : List Int) :
    ∀ (m : List (Int × Int)) (v : Int),
      dgetD (adj.foldl (fun d x => dset d x (dgetD d x 0 + 1)) m) v 0 =
        dgetD m v 0 + (adj.count v : Int) := by
  induction adj with
  | nil => intro m v; simp
  | cons x rest ih =>
      intro m v
      rw [List.foldl_cons, ih (dset m x (dgetD m x 0 + 1)) v]
      by_cases hx : x = v
      · rw [hx, dgetD_dset_self, List.count_cons]
        simp
        omega
      · rw [dgetD_dset_ne m x v _ 0 (fun hh => hx hh.symm), List.count_cons]
        simp [hx]

theorem indeg_fold (gl : List (Int × List Int)) :
    ∀ (d : List (Int × Int)) (v : Int),
      dgetD (gl.foldl (fun d p => p.2.foldl (fun d v => dset d v (dgetD d v 0 + 1)) d) d) v 0 =
        dgetD d v 0 + ((gl.map (fun p => p.2.count v)).sum : Int) := by
  induction gl with
  | nil => intro d v; simp
  | cons p rest ih =>
      intro d v
      rw [List.foldl_cons, ih, bump_fold]
      simp
      omega

theorem indegrees_val (g : UGraph) (vs : List Int) (v : Int) :
    dgetD (indegrees g vs) v 0 = (inCount g [] v : Int) := by
  unfold indegrees inCount
  rw [indeg_fold, dgetD_map_zero]
  simp
  rfl

theorem inCount_irrel (gl : UGraph) :
    ∀ (done : List Int) (x v : Int), x ∉ dkeys gl →
      inCount gl (done ++ [x]) v = inCount gl done v := by
  induction gl with
  | nil => intro done x v h; rfl
  | cons p rest ih =>
      intro done x v h
      simp only [dkeys, List.map_cons, List.mem_cons, not_or] at h
      unfold inCount
      simp only [List.map_cons, List.sum_cons]
      have hme : p.1 ∈ done ++ [x] ↔ p.1 ∈ done := by
        simp only [List.mem_append, List.mem_singleton]
        constructor
        · rintro (hh | hh)
          · exact hh
          · exact absurd hh.symm h.1
        · exact Or.inl
      have hrest := ih done x v h.2
      unfold inCount at hrest
      rw [hrest]
      by_cases hd : p.1 ∈ done
      · rw [if_pos hd, if_pos (hme.mpr hd)]
      · rw [if_neg hd, if_neg (fun hh => hd (hme.mp hh))]

theorem inCount_move (gl : UGraph) :
    ∀ (done : List Int) (u v : Int), (dkeys gl).Nodup → u ∉ done →
      inCount gl done v = inCount gl (done ++ [u]) v + (dgetD gl u []).count v := by
  induction gl with
  | nil => intro done u v _ _; simp [inCount, dgetD, dget]
  | cons p rest ih =>
      intro done u v hnd hu
      obtain ⟨k, adj⟩ := p
      simp only [dkeys, List.map_cons, List.nodup_cons] at hnd
      unfold inCount
      simp only [List.map_cons, List.sum_cons]
      by_cases hpu : k = u
      · have hg : dgetD ((k, adj) :: rest) u [] = adj := by
          simp [dgetD, dget, hpu]
        rw [hg, if_neg (by show ¬ (k, adj).1 ∈ done; rw [show ((k, adj).1 = k) from rfl, hpu]; exact hu),
          if_pos (by show (k, adj).1 ∈ done ++ [u]; rw [show ((k, adj).1 = k) from rfl, hpu]; simp)]
        have hirr := inCount_irrel rest done u v (by rw [← hpu]; exact hnd.1)
        unfold inCount at hirr
        rw [hirr]
        omega
      · have hku : ¬ u = k := fun hh => hpu hh.symm
        have hg : dgetD ((k, adj) :: rest) u [] = dgetD rest u [] := by
          simp [dgetD, dget, hku]
        have hme : (k, adj).1 ∈ done ++ [u] ↔ (k, adj).1 ∈ done := by
          simp only [List.mem_append, List.mem_singleton]
          constructor
          · rintro (hh | hh)
            · exact hh
            · exact absurd hh hpu
          · exact Or.inl
        have hrest := ih done u v hnd.2 hu
        unfold inCount at hrest
        rw [hg, hrest]
        by_cases hd : (k, adj).1 ∈ done
        · rw [if_pos hd, if_pos (hme.mpr hd)]
          omega
        · rw [if_neg hd, if_neg (fun hh => hd (hme.mp hh))]
          omega

theorem inCount_zero_no_edge (g : UGraph) (done : List Int) (v : Int)
    (h : inCount g done v = 0) :
    ∀ p ∈ g, p.1 ∉ done → v ∉ p.2 := by
  intro p hp hpd hv
  have hall := (nat_sum_zero _).mp h
  have hterm := hall (if p.1 ∈ done then 0 else p.2.count v)
    (List.mem_map.mpr ⟨p, hp, rfl⟩)
  rw [if_neg hpd] at hterm
  exact absurd hterm (by simp [List.count_eq_zero]; exact hv)

theorem inCount_ne_zero_edge (g : UGraph) (done : List Int) (v : Int)
    (h : inCount g done v ≠ 0) :
    ∃ w, w ∉ done ∧ w ∈ dkeys g ∧ UEdgeP g w v := by
  by_contra hc
  push_neg at hc
  apply h
  unfold inCount
  rw [nat_sum_zero]
  intro x hx
  obtain ⟨p, hp, hpx⟩ := List.mem_map.mp hx
  by_cases hd : p.1 ∈ done
  · rw [if_pos hd] at hpx; exact hpx.symm
  · rw [if_neg hd] at hpx
    rw [← hpx, List.count_eq_zero]
    intro hv
    exact absurd ⟨p, hp, rfl, hv⟩ (hc p.1 hd (mem_dkeys_of_mem g p hp))

theorem nodup_append_singleton (l : List Int) (x : Int) (h : l.Nodup)
    (hx : x ∉ l) : (l ++ [x]).Nodup := by
  rw [List.nodup_append]
  refine ⟨h, List.nodup_singleton x, ?_⟩
  intro a ha hax
  rw [List.mem_singleton] at hax
  rw [hax] at ha
  exact hx ha

/-- The invariant of Kahn's while loop. -/
def KahnInv (g : UGraph) (indeg : List (Int × Int)) (queue topo : List Int) : Prop :=
  (topo ++ queue).Nodup ∧
  (∀ x ∈ topo ++ queue, x ∈ allNodesU g) ∧
  (∀ v, dgetD indeg v 0 = (inCount g topo v : Int)) ∧
  (∀ v ∈ allNodesU g, (v ∈ topo ∨ v ∈ queue) ↔ inCount g topo v = 0) ∧
  (∀ u v, UEdgeP g u v → v ∈ topo → u ∈ topo ∧ before topo u v)

theorem kahnRelax_inv (g : UGraph) (topo2 : List Int) :
    ∀ (adj : List Int) (indeg : List (Int × Int)) (queue : List Int),
      (∀ x ∈ adj, x ∈ allNodesU g) →
      (∀ v, dgetD indeg v 0 = (inCount g topo2 v : Int) + adj.count v) →
      (topo2 ++ queue).Nodup →
      (∀ x ∈ topo2 ++ queue, x ∈ allNodesU g) →
      (∀ v ∈ allNodesU g, (v ∈ topo2 ∨ v ∈ queue) ↔ inCount g topo2 v + adj.count v = 0) →
      (∀ v, dgetD (kahnRelax indeg queue adj).1 v 0 = (inCount g topo2 v : Int)) ∧
      (topo2 ++ (kahnRelax indeg queue adj).2).Nodup ∧
      (∀ x ∈ topo2 ++ (kahnRelax indeg queue adj).2, x ∈ allNodesU g) ∧
      (∀ v ∈ allNodesU g,
        (v ∈ topo2 ∨ v ∈ (kahnRelax indeg queue adj).2) ↔ inCount g topo2 v = 0) := by
  intro adj
  induction adj with
  | nil =>
      intro indeg queue h1 h2 h3 h4 h5
      refine ⟨fun v => by have := h2 v; simpa using this, h3, h4, fun v hv => ?_⟩
      have := h5 v hv
      simpa using this
  | cons x rest ih =>
      intro indeg queue hadj hval hnd hmem hiff
      have hxn : x ∈ allNodesU g := hadj x (List.mem_cons_self x rest)
      have hvx : dgetD indeg x 0 = (inCount g topo2 x : Int) + rest.count x + 1 := by
        rw [hval x, List.count_cons_self]
        omega
      have hval2 : ∀ v, dgetD (dset indeg x (dgetD indeg x 0 - 1)) v 0 =
          (inCount g topo2 v : Int) + rest.count v := by
        intro v
        by_cases hv : v = x
        · rw [hv, dgetD_dset_self, hvx]
          ring
        · rw [dgetD_dset_ne _ _ _ _ _ hv, hval v,
            List.count_cons_of_ne hv]
      have hxnotin : x ∉ topo2 ∧ x ∉ queue := by
        have := (hiff x hxn).symm
        rw [List.count_cons_self] at this
        have h0 : ¬ (inCount g topo2 x + (rest.count x + 1) = 0) := by omega
        constructor
        · intro hh
          exact h0 (this.mpr (Or.inl hh))
        · intro hh
          exact h0 (this.mpr (Or.inr hh))
      by_cases hc : dgetD indeg x 0 - 1 = 0
      · have hzero : inCount g topo2 x + rest.count x = 0 := by
          rw [hvx] at hc
          omega
        rw [show kahnRelax indeg queue (x :: rest) =
            kahnRelax (dset indeg x (dgetD indeg x 0 - 1)) (queue ++ [x]) rest from by
          rw [kahnRelax, if_pos hc]]
        refine ih (dset indeg x (dgetD indeg x 0 - 1)) (queue ++ [x])
          (fun y hy => hadj y (List.mem_cons_of_mem x hy)) hval2 ?_ ?_ ?_
        · rw [show topo2 ++ (queue ++ [x]) = (topo2 ++ queue) ++ [x] from by simp]
          refine nodup_append_singleton _ x hnd ?_
          intro ha
          rcases List.mem_append.mp ha with h | h
          · exact hxnotin.1 h
          · exact hxnotin.2 h
        · intro y hy
          rcases List.mem_append.mp hy with h | h
          · exact hmem y (List.mem_append_left _ h)
          · rcases List.mem_append.mp h with h | h
            · exact hmem y (List.mem_append_right _ h)
            · simp only [List.mem_singleton] at h
              rw [h]
              exact hxn
        · intro v hv
          by_cases hvx2 : v = x
          · rw [hvx2]
            simp only [List.mem_append, List.mem_singleton]
            exact ⟨fun _ => hzero, fun _ => by simp⟩
          · have := hiff v hv
            rw [List.count_cons_of_ne hvx2] at this
            simp only [List.mem_append, List.mem_singleton]
            rw [← this]
            constructor
            · rintro (h | (h | h))
              · exact Or.inl h
              · exact Or.inr h
              · exact absurd h hvx2
            · rintro (h | h)
              · exact Or.inl h
              · exact Or.inr (Or.inl h)
      · have hnz : inCount g topo2 x + rest.count x ≠ 0 := by
          rw [hvx] at hc
          intro hh
          apply hc
          have : ((inCount g topo2 x : Int)) + rest.count x = 0 := by
            omega
          omega
        rw [show kahnRelax indeg queue (x :: rest) =
            kahnRelax (dset indeg x (dgetD indeg x 0 - 1)) queue rest from by
          rw [kahnRelax, if_neg hc]]
        refine ih (dset indeg x (dgetD indeg x 0 - 1)) queue
          (fun y hy => hadj y (List.mem_cons_of_mem x hy)) hval2 hnd hmem ?_
        intro v hv
        by_cases hvx2 : v = x
        · rw [hvx2]
          constructor
          · intro hh
            rcases hh with h | h
            · exact absurd h hxnotin.1
            · exact absurd h hxnotin.2
          · intro hh
            exact absurd hh hnz
        · have := hiff v hv
          rw [List.count_cons_of_ne hvx2] at this
          exact this

theorem filter_not_mem_succ (vs : List Int) :
    ∀ (topo : List Int) (u : Int), vs.Nodup → u ∈ vs → u ∉ topo →
      (vs.filter (fun v => !(decide (v ∈ topo ++ [u])))).length + 1 =
        (vs.filter (fun v => !(decide (v ∈ topo)))).length := by
  induction vs with
  | nil => intro topo u _ hu _; exact absurd hu (List.not_mem_nil u)
  | cons x rest ih =>
      intro topo u hnd hu hut
      have hndr : rest.Nodup := (List.nodup_cons.mp hnd).2
      have hxr : x ∉ rest := (List.nodup_cons.mp hnd).1
      by_cases hxu : x = u
      · have hurest : u ∉ rest := by rw [← hxu]; exact hxr
        have hfeq : rest.filter (fun v => !(decide (v ∈ topo ++ [u]))) =
            rest.filter (fun v => !(decide (v ∈ topo))) := by
          apply List.filter_congr
          intro y hy
          have hyu : y ≠ u := fun hh => hurest (hh ▸ hy)
          simp only [List.mem_append, List.mem_singleton, hyu, or_false]
        rw [List.filter_cons, List.filter_cons]
        rw [show (!(decide (x ∈ topo ++ [u]))) = false from by
          simp [hxu]]
        rw [show (!(decide (x ∈ topo))) = true from by
          simp [hxu, hut]]
        rw [if_neg (by simp), if_pos rfl, hfeq, List.length_cons]
      · rw [List.filter_cons, List.filter_cons]
        have hcond : (x ∈ topo ++ [u]) ↔ (x ∈ topo) := by
          simp only [List.mem_append, List.mem_singleton, hxu, or_false]
        have hur : u ∈ rest := by
          rcases List.mem_cons.mp hu with h | h
          · exact absurd h.symm hxu
          · exact h
        by_cases hxt : x ∈ topo
        · rw [show (!(decide (x ∈ topo ++ [u]))) = false from by
            simp [hxt]]
          rw [show (!(decide (x ∈ topo))) = false from by simp [hxt]]
          simp only [Bool.false_eq_true, if_false]
          exact ih topo u hndr hur hut
        · rw [show (!(decide (x ∈ topo ++ [u]))) = true from by
            simp [hxt, hxu]]
          rw [show (!(decide (x ∈ topo))) = true from by simp [hxt]]
          simp only [if_true, List.length_cons]
          rw [← ih topo u hndr hur hut]

theorem kahnLoop_ok (g : UGraph) (hnd : (dkeys g).Nodup) :
    ∀ (fuel : Nat) (indeg : List (Int × Int)) (queue topo : List Int),
      KahnInv g indeg queue topo →
      ((allNodesU g).filter (fun v => !(decide (v ∈ topo)))).length < fuel →
      ∃ topoF, kahnLoop g fuel indeg queue topo = some topoF ∧
        topoF.Nodup ∧ (∀ x ∈ topoF, x ∈ allNodesU g) ∧
        (∀ v ∈ allNodesU g, v ∈ topoF ↔ inCount g topoF v = 0) ∧
        (∀ u v, UEdgeP g u v → v ∈ topoF → u ∈ topoF ∧ before topoF u v) := by
  intro fuel
  induction fuel with
  | zero =>
      intro indeg queue topo _ hlen
      exact absurd hlen (Nat.not_lt_zero _)
  | succ fuel ih =>
      intro indeg queue topo hinv hlen
      obtain ⟨hnd2, hmem, hval, hiff, hord⟩ := hinv
      cases queue with
      | nil =>
          refine ⟨topo, by rw [kahnLoop], ?_, ?_, ?_, hord⟩
          · rw [List.append_nil] at hnd2
            exact hnd2
          · intro x hx
            exact hmem x (by rw [List.append_nil]; exact hx)
          · intro v hv
            have := hiff v hv
            simpa using this
      | cons u rest =>
          have hu_vs : u ∈ allNodesU g := hmem u (by simp)
          have hu_topo : u ∉ topo := by
            intro hh
            exact (List.nodup_append.mp hnd2).2.2 hh (by simp)
          have hcnt0 : inCount g topo u = 0 := (hiff u hu_vs).mp (Or.inr (by simp))
          have hmove : ∀ v, inCount g topo v =
              inCount g (topo ++ [u]) v + (dgetD g u []).count v :=
            fun v => inCount_move g topo u v hnd hu_topo
          have hval2 : ∀ v, dgetD indeg v 0 =
              (inCount g (topo ++ [u]) v : Int) + (dgetD g u []).count v := by
            intro v
            rw [hval v, hmove v]
            omega
          have hnd3 : ((topo ++ [u]) ++ rest).Nodup := by
            rw [show (topo ++ [u]) ++ rest = topo ++ (u :: rest) from by simp]
            exact hnd2
          have hmem3 : ∀ x ∈ (topo ++ [u]) ++ rest, x ∈ allNodesU g := by
            intro x hx
            refine hmem x ?_
            rw [show (topo ++ [u]) ++ rest = topo ++ (u :: rest) from by simp] at hx
            exact hx
          have hiff3 : ∀ v ∈ allNodesU g, (v ∈ topo ++ [u] ∨ v ∈ rest) ↔
              inCount g (topo ++ [u]) v + (dgetD g u []).count v = 0 := by
            intro v hv
            rw [← hmove v]
            rw [← hiff v hv]
            simp only [List.mem_append, List.mem_singleton, List.mem_cons]
            tauto
          have hadj : ∀ x ∈ dgetD g u [], x ∈ allNodesU g :=
            fun x hx => dgetD_targets_mem_allNodesU g u x hx
          obtain ⟨hval4, hnd4, hmem4, hiff4⟩ := kahnRelax_inv g (topo ++ [u])
            (dgetD g u []) indeg rest hadj hval2 hnd3 hmem3 hiff3
          have hord4 : ∀ a b, UEdgeP g a b → b ∈ topo ++ [u] →
              a ∈ topo ++ [u] ∧ before (topo ++ [u]) a b := by
            intro a b he hb
            rcases List.mem_append.mp hb with hbt | hbu
            · obtain ⟨ha, hbf⟩ := hord a b he hbt
              exact ⟨List.mem_append_left _ ha, before_append_right topo [u] a b hbf⟩
            · rw [List.mem_singleton] at hbu
              rw [hbu] at he ⊢
              have hat : a ∈ topo := by
                by_contra hat
                obtain ⟨p, hp, hp1, hue⟩ := he
                exact (inCount_zero_no_edge g topo u hcnt0 p hp
                  (by rw [hp1]; exact hat)) hue
              exact ⟨List.mem_append_left _ hat, before_append_new topo a u hat⟩
          have hlen2 : ((allNodesU g).filter
              (fun v => !(decide (v ∈ topo ++ [u])))).length < fuel := by
            have := filter_not_mem_succ (allNodesU g) topo u
              (allNodesU_nodup g hnd) hu_vs hu_topo
            omega
          obtain ⟨topoF, hrun, hc1, hc2, hc3, hc4⟩ :=
            ih (kahnRelax indeg rest (dgetD g u [])).1
              (kahnRelax indeg rest (dgetD g u [])).2 (topo ++ [u])
              ⟨hnd4, hmem4, hval4, hiff4, hord4⟩ hlen2
          refine ⟨topoF, ?_, hc1, hc2, hc3, hc4⟩
          rw [kahnLoop]
          exact hrun

theorem kahn_init (g : UGraph) (hnd : (dkeys g).Nodup) :
    KahnInv g (indegrees g (allNodesU g))
      ((allNodesU g).filter (fun v => dgetD (indegrees g (allNodesU g)) v 0 == 0))
      [] := by
  refine ⟨?_, ?_, ?_, ?_, ?_⟩
  · simp only [List.nil_append]
    exact (allNodesU_nodup g hnd).filter _
  · intro x hx
    simp only [List.nil_append] at hx
    exact (List.mem_filter.mp hx).1
  · intro v
    exact indegrees_val g (allNodesU g) v
  · intro v hv
    simp only [List.not_mem_nil, false_or]
    rw [List.mem_filter]
    constructor
    · rintro ⟨-, hb⟩
      have hb2 : dgetD (indegrees g (allNodesU g)) v 0 = 0 := by
        exact_mod_cast beq_iff_eq.mp hb
      rw [indegrees_val] at hb2
      exact_mod_cast hb2
    · intro h0
      refine ⟨hv, ?_⟩
      rw [beq_iff_eq, indegrees_val]
      exact_mod_cast h0
  · intro a b he hb
    exact absurd hb (List.not_mem_nil b)

theorem kahn_pred_walk (g : UGraph) (topoF : List Int)
    (hiff : ∀ v ∈ allNodesU g, v ∈ topoF ↔ inCount g topoF v = 0) :
    ∀ (n : Nat) (v0 : Int), v0 ∈ allNodesU g → v0 ∉ topoF →
      ∃ u es, UWalk g u es v0 ∧ es.length = n ∧
        ∀ x ∈ u :: es, x ∈ allNodesU g ∧ x ∉ topoF := by
  intro n
  induction n with
  | zero =>
      intro v0 h1 h2
      refine ⟨v0, [], rfl, rfl, ?_⟩
      intro x hx
      rw [List.mem_singleton] at hx
      rw [hx]
      exact ⟨h1, h2⟩
  | succ n ihn =>
      intro v0 h1 h2
      obtain ⟨u, es, hw, hlen, hall⟩ := ihn v0 h1 h2
      have hu := hall u (List.mem_cons_self u es)
      have hcnt : inCount g topoF u ≠ 0 := by
        intro hh
        exact hu.2 ((hiff u hu.1).mpr hh)
      obtain ⟨w, hwnot, hwk, hedge⟩ := inCount_ne_zero_edge g topoF u hcnt
      refine ⟨w, u :: es, ⟨hedge, hw⟩, by simp [hlen], ?_⟩
      intro x hx
      rcases List.mem_cons.mp hx with h | h
      · rw [h]
        exact ⟨(mem_allNodesU g w).mpr (Or.inl hwk), hwnot⟩
      · exact hall x h

theorem kahn_walk_topo (g : UGraph) (topoF : List Int) (hc1 : topoF.Nodup)
    (hc4 : ∀ u v, UEdgeP g u v → v ∈ topoF → u ∈ topoF ∧ before topoF u v) :
    ∀ (es : List Int) (a b : Int), UWalk g a es b → b ∈ topoF →
      a ∈ topoF ∧ (es ≠ [] → topoF.indexOf a < topoF.indexOf b) := by
  intro es
  induction es with
  | nil =>
      intro a b hw hb
      have hab : a = b := hw
      rw [hab]
      exact ⟨hb, fun h => absurd rfl h⟩
  | cons x xs ihx =>
      intro a b hw hb
      obtain ⟨he, hw2⟩ := hw
      obtain ⟨hx, hxib⟩ := ihx x b hw2 hb
      obtain ⟨ha, hbf⟩ := hc4 a x he hx
      have hax : topoF.indexOf a < topoF.indexOf x :=
        indexOf_lt_of_before _ _ _ hc1 hbf
      refine ⟨ha, fun _ => ?_⟩
      cases xs with
      | nil =>
          have hxb : x = b := hw2
          rw [← hxb]
          exact hax
      | cons y ys => exact Nat.lt_trans hax (hxib (by simp))

theorem kahn_dag (g : UGraph) (hnd : (dkeys g).Nodup) (hac : AcyclicU g) :
    ∃ ok, topological_sort_kahn g = some (some ok) ∧ ok.Perm (allNodesU g) ∧
      (∀ u v, UEdgeP g u v → ok.indexOf u < ok.indexOf v) := by
  obtain ⟨topoF, hrun, hc1, hc2, hc3, hc4⟩ := kahnLoop_ok g hnd
    ((allNodesU g).length + 1) (indegrees g (allNodesU g))
    ((allNodesU g).filter (fun v => dgetD (indegrees g (allNodesU g)) v 0 == 0))
    [] (kahn_init g hnd) (by simp)
  have hall : ∀ v ∈ allNodesU g, v ∈ topoF := by
    intro v0 hv0
    by_contra hv0n
    obtain ⟨u, es, hw, hlen, hmem2⟩ := kahn_pred_walk g topoF hc3
      ((allNodesU g).length) v0 hv0 hv0n
    have hnd5 : ¬ (u :: es).Nodup := by
      intro hn
      have := nodup_length_le (u :: es) (allNodesU g) hn (fun x hx => (hmem2 x hx).1)
      rw [List.length_cons, hlen] at this
      omega
    obtain ⟨w, cyc, hcne, hcyc⟩ := cycle_of_dup_walk g u v0 es hw hnd5
    exact hac ⟨w, cyc, hcne, hcyc⟩
  have hperm : topoF.Perm (allNodesU g) :=
    (List.perm_ext_iff_of_nodup hc1 (allNodesU_nodup g hnd)).mpr
      (fun x => ⟨fun hx => hc2 x hx, fun hx => hall x hx⟩)
  refine ⟨topoF, ?_, hperm, ?_⟩
  · unfold topological_sort_kahn
    rw [hrun]
    show (if topoF.length = (allNodesU g).length then some (some topoF)
      else some none) = some (some topoF)
    rw [if_pos hperm.length_eq]
  · intro u v he
    have hvT : v ∈ topoF := hall v (uedge_mem_allNodesU g u v he).2
    obtain ⟨huT, hbf⟩ := hc4 u v he hvT
    exact indexOf_lt_of_before topoF u v hc1 hbf

theorem kahn_cyc (g : UGraph) (hnd : (dkeys g).Nodup) (hcy : ¬ AcyclicU g) :
    topological_sort_kahn g = some none := by
  obtain ⟨v, es, hne, hw⟩ := not_not.mp hcy
  obtain ⟨topoF, hrun, hc1, hc2, hc3, hc4⟩ := kahnLoop_ok g hnd
    ((allNodesU g).length + 1) (indegrees g (allNodesU g))
    ((allNodesU g).filter (fun v => dgetD (indegrees g (allNodesU g)) v 0 == 0))
    [] (kahn_init g hnd) (by simp)
  have hvvs : v ∈ allNodesU g := by
    cases es with
    | nil => exact absurd rfl hne
    | cons x xs => exact (uedge_mem_allNodesU g v x hw.1).1
  have hvnot : v ∉ topoF := by
    intro hvT
    have := (kahn_walk_topo g topoF hc1 hc4 es v v hw hvT).2 hne
    omega
  have hlt : topoF.length < (allNodesU g).length :=
    nodup_length_lt topoF (allNodesU g) hc1 hc2 v hvvs hvnot
  unfold topological_sort_kahn
  rw [hrun]
  show (if topoF.length = (allNodesU g).length then some (some topoF)
    else some none) = some none
  rw [if_neg (by omega)]

theorem dget_mem {κ α : Type} [DecidableEq κ] :
    ∀ (d : List (κ × α)) (k : κ) (v : α), dget d k = some v → (k, v) ∈ d := by
  intro d
  induction d with
  | nil => intro k v h; exact absurd h (by simp [dget])
  | cons p rest ih =>
      intro k v h
      obtain ⟨k0, v0⟩ := p
      rw [dget] at h
      by_cases hk : k = k0
      · rw [if_pos hk] at h
        injection h with h2
        rw [hk, h2]
        exact List.mem_cons_self _ _
      · rw [if_neg hk] at h
        exact List.mem_cons_of_mem _ (ih k v h)

theorem uedgeP_of_dgetD (g : UGraph) (u v : Int) (h : v ∈ dgetD g u []) :
    UEdgeP g u v := by
  rw [dgetD] at h
  cases hd : dget g u with
  | none => rw [hd] at h; exact absurd h (List.not_mem_nil v)
  | some adj =>
      rw [hd] at h
      exact ⟨(u, adj), dget_mem g u adj hd, rfl, h⟩

theorem length_filter_mono {α : Type} (l : List α) (p q : α → Bool)
    (h : ∀ x ∈ l, q x = true → p x = true) :
    (l.filter q).length ≤ (l.filter p).length := by
  induction l with
  | nil => exact Nat.le_refl _
  | cons x rest ih =>
      have ihr := ih (fun y hy => h y (List.mem_cons_of_mem x hy))
      rw [List.filter_cons, List.filter_cons]
      cases hq : q x with
      | false =>
          simp only [Bool.false_eq_true, if_false]
          cases hp : p x with
          | false => simp only [Bool.false_eq_true, if_false]; exact ihr
          | true => simp only [if_true, List.length_cons]; omega
      | true =>
          rw [h x (List.mem_cons_self x rest) hq]
          simp only [if_true, List.length_cons]
          omega

/-- All state values are colors 0, 1 or 2. -/
def StRange (st : List (Int × Int)) : Prop :=
  ∀ v, dgetD st v 0 = 0 ∨ dgetD st v 0 = 1 ∨ dgetD st v 0 = 2

/-- Colors only increase (0 → 1 → 2). -/
def StMono (st st2 : List (Int × Int)) : Prop :=
  ∀ v, dgetD st v 0 ≤ dgetD st2 v 0

/-- The set of visiting (gray) vertices is unchanged. -/
def GrayEq (st st2 : List (Int × Int)) : Prop :=
  ∀ v, dgetD st2 v 0 = 1 ↔ dgetD st v 0 = 1

/-- The invariant tying the color dict to the topo_order list in the DFS
topological sort: finished vertices are exactly the list members, and every
edge out of a finished vertex points to an earlier finished vertex. -/
def TopoInvT (g : UGraph) (s : DfsTSt) : Prop :=
  s.topo.Nodup ∧ (∀ x ∈ s.topo, x ∈ allNodesU g) ∧
  (∀ v, dgetD s.state v 0 = 2 ↔ v ∈ s.topo) ∧
  (∀ u v, UEdgeP g u v → u ∈ s.topo → v ∈ s.topo ∧ before s.topo v u)

/-- Every gray vertex is the start of a nonempty walk to x. -/
def GraysReach (g : UGraph) (st : List (Int × Int)) (x : Int) : Prop :=
  ∀ w, dgetD st w 0 = 1 → ∃ es, es ≠ [] ∧ UWalk g w es x

/-- Number of unvisited vertices. -/
def stWhites (g : UGraph) (st : List (Int × Int)) : Nat :=
  ((allNodesU g).filter (fun v => dgetD st v 0 == 0)).length

theorem stWhites_le (g : UGraph) (st : List (Int × Int)) :
    stWhites g st ≤ (allNodesU g).length :=
  List.length_filter_le _ _

theorem stWhites_mono (g : UGraph) (st st2 : List (Int × Int))
    (hr : StRange st) (hm : StMono st st2) : stWhites g st2 ≤ stWhites g st := by
  apply length_filter_mono
  intro x _ hq
  have h2 : dgetD st2 x 0 = 0 := by exact_mod_cast beq_iff_eq.mp hq
  have := hm x
  rcases hr x with h | h | h
  · rw [beq_iff_eq]; exact_mod_cast h
  · omega
  · omega

theorem filter_dset_gray (st : List (Int × Int)) (u : Int) :
    ∀ (vs : List Int), vs.Nodup → u ∈ vs → dgetD st u 0 = 0 →
      (vs.filter (fun v => dgetD (dset st u 1) v 0 == 0)).length + 1 =
        (vs.filter (fun v => dgetD st v 0 == 0)).length := by
  intro vs
  induction vs with
  | nil => intro _ hu _; exact absurd hu (List.not_mem_nil u)
  | cons x rest ih =>
      intro hvnd hu h0
      have hndr : rest.Nodup := (List.nodup_cons.mp hvnd).2
      have hxr : x ∉ rest := (List.nodup_cons.mp hvnd).1
      rw [List.filter_cons, List.filter_cons]
      by_cases hxu : x = u
      · have hun : (dgetD (dset st u 1) x 0 == 0) = false := by
          rw [hxu, dgetD_dset_self]
          simp
        have hyo : (dgetD st x 0 == 0) = true := by
          rw [hxu, beq_iff_eq]
          exact_mod_cast h0
        rw [hun, hyo]
        simp only [Bool.false_eq_true, if_false, if_true, List.length_cons]
        have hfeq : rest.filter (fun v => dgetD (dset st u 1) v 0 == 0) =
            rest.filter (fun v => dgetD st v 0 == 0) := by
          apply List.filter_congr
          intro y hy
          have hyu : y ≠ u := by
            intro hh
            rw [← hxu] at hh
            exact hxr (hh ▸ hy)
          rw [dgetD_dset_ne _ _ _ _ _ hyu]
        rw [hfeq]
      · have hur : u ∈ rest := by
          rcases List.mem_cons.mp hu with h | h
          · exact absurd h.symm hxu
          · exact h
        have hcond : dgetD (dset st u 1) x 0 = dgetD st x 0 :=
          dgetD_dset_ne _ _ _ _ _ hxu
        rw [hcond]
        cases hx0 : (dgetD st x 0 == 0) with
        | false =>
            simp only [Bool.false_eq_true, if_false]
            exact ih hndr hur h0
        | true =>
            simp only [if_true, List.length_cons]
            have := ih hndr hur h0
            omega

theorem stWhites_dset_gray (g : UGraph) (hnd : (dkeys g).Nodup)
    (st : List (Int × Int)) (u : Int) (hu : u ∈ allNodesU g)
    (h0 : dgetD st u 0 = 0) :
    stWhites g (dset st u 1) + 1 = stWhites g st :=
  filter_dset_gray st u (allNodesU g) (allNodesU_nodup g hnd) hu h0

theorem dfsT_mono (g : UGraph) :
    ∀ (fuel : Nat) (u : Int) (s s2 : DfsTSt), dfsT g fuel u s = some s2 →
      StRange s.state →
      StMono s.state s2.state ∧ StRange s2.state ∧ (s.flag = true → s2 = s) := by
  intro fuel
  induction fuel with
  | zero =>
      intro u s s2 h _
      rw [dfsT] at h
      exact Option.noConfusion h
  | succ fuel ih =>
      intro u s s2 h hr
      have hfold : ∀ (l : List Int) (s0 s1 : DfsTSt),
          l.foldlM (fun s2 v => dfsT g fuel v s2) s0 = some s1 → StRange s0.state →
          StMono s0.state s1.state ∧ StRange s1.state := by
        intro l
        induction l with
        | nil =>
            intro s0 s1 h2 hr0
            simp only [List.foldlM_nil] at h2
            cases h2
            exact ⟨fun v => le_refl _, hr0⟩
        | cons x rest ihl =>
            intro s0 s1 h2 hr0
            rw [List.foldlM_cons] at h2
            cases hfx : dfsT g fuel x s0 with
            | none => rw [hfx] at h2; simp at h2
            | some sm =>
                rw [hfx] at h2
                simp only [Option.bind_eq_bind, Option.some_bind] at h2
                obtain ⟨hm1, hr1, -⟩ := ih x s0 sm hfx hr0
                obtain ⟨hm2, hr2⟩ := ihl sm s1 h2 hr1
                exact ⟨fun v => le_trans (hm1 v) (hm2 v), hr2⟩
      rw [dfsT] at h
      by_cases hf : s.flag = true
      · rw [if_pos hf] at h
        injection h with h2
        rw [← h2]
        exact ⟨fun v => le_refl _, hr, fun _ => rfl⟩
      · rw [if_neg hf] at h
        by_cases h1 : dgetD s.state u 0 = 1
        · rw [if_pos h1] at h
          injection h with h2
          rw [← h2]
          exact ⟨fun v => le_refl _, hr, fun hh => absurd hh hf⟩
        · rw [if_neg h1] at h
          by_cases h2c : dgetD s.state u 0 = 2
          · rw [if_pos h2c] at h
            injection h with h2
            rw [← h2]
            exact ⟨fun v => le_refl _, hr, fun hh => absurd hh hf⟩
          · rw [if_neg h2c] at h
            have hu0 : dgetD s.state u 0 = 0 := by
              rcases hr u with hh | hh | hh
              · exact hh
              · exact absurd hh h1
              · exact absurd hh h2c
            have hr1 : StRange (dset s.state u 1) := by
              intro v
              by_cases hv : v = u
              · rw [hv, dgetD_dset_self]
                exact Or.inr (Or.inl rfl)
              · rw [dgetD_dset_ne _ _ _ _ _ hv]
                exact hr v
            cases hm : (dgetD g u []).foldlM (fun s2 v => dfsT g fuel v s2)
                { s with state := dset s.state u 1 } with
            | none => rw [hm] at h; exact Option.noConfusion h
            | some s2mid =>
                rw [hm] at h
                simp only [Option.some.injEq] at h
                obtain ⟨hm2, hr2⟩ := hfold (dgetD g u [])
                  { s with state := dset s.state u 1 } s2mid hm hr1
                have hmono : StMono s.state s2.state := by
                  intro v
                  rw [← h]
                  show dgetD s.state v 0 ≤ dgetD (dset s2mid.state u 2) v 0
                  by_cases hv : v = u
                  · rw [hv, dgetD_dset_self, hu0]
                    omega
                  · rw [dgetD_dset_ne _ _ _ _ _ hv]
                    have ha := hm2 v
                    have hb : dgetD s.state v 0 ≤
                        dgetD (dset s.state u 1) v 0 := by
                      rw [dgetD_dset_ne _ _ _ _ _ hv]
                    exact le_trans hb ha
                have hrange : StRange s2.state := by
                  intro v
                  rw [← h]
                  show dgetD (dset s2mid.state u 2) v 0 = 0 ∨ _ ∨ _
                  by_cases hv : v = u
                  · rw [hv, dgetD_dset_self]
                    exact Or.inr (Or.inr rfl)
                  · rw [dgetD_dset_ne _ _ _ _ _ hv]
                    exact hr2 v
                exact ⟨hmono, hrange, fun hh => absurd hh hf⟩

theorem dfsT_fuel (g : UGraph) (hnd : (dkeys g).Nodup) :
    ∀ (fuel : Nat) (u : Int) (s : DfsTSt), u ∈ allNodesU g → StRange s.state →
      stWhites g s.state + 1 ≤ fuel → dfsT g fuel u s ≠ none := by
  intro fuel
  induction fuel with
  | zero => intro u s _ _ hle; omega
  | succ fuel ih =>
      intro u s hu hr hle
      rw [dfsT]
      by_cases hf : s.flag = true
      · rw [if_pos hf]; simp
      · rw [if_neg hf]
        by_cases h1 : dgetD s.state u 0 = 1
        · rw [if_pos h1]; simp
        · rw [if_neg h1]
          by_cases h2c : dgetD s.state u 0 = 2
          · rw [if_pos h2c]; simp
          · rw [if_neg h2c]
            have hu0 : dgetD s.state u 0 = 0 := by
              rcases hr u with hh | hh | hh
              · exact hh
              · exact absurd hh h1
              · exact absurd hh h2c
            have hr1 : StRange (dset s.state u 1) := by
              intro v
              by_cases hv : v = u
              · rw [hv, dgetD_dset_self]
                exact Or.inr (Or.inl rfl)
              · rw [dgetD_dset_ne _ _ _ _ _ hv]
                exact hr v
            have hw1 : stWhites g (dset s.state u 1) + 1 = stWhites g s.state :=
              stWhites_dset_gray g hnd s.state u hu hu0
            have hfold : ∀ (l : List Int) (s0 : DfsTSt),
                (∀ v ∈ l, v ∈ allNodesU g) → StRange s0.state →
                stWhites g s0.state + 1 ≤ fuel →
                l.foldlM (fun s2 v => dfsT g fuel v s2) s0 ≠ none := by
              intro l
              induction l with
              | nil => intro s0 _ _ _; simp [List.foldlM_nil]
              | cons x rest ihl =>
                  intro s0 hall hr0 hle0
                  rw [List.foldlM_cons]
                  cases hfx : dfsT g fuel x s0 with
                  | none =>
                      exact absurd hfx
                        (ih x s0 (hall x (List.mem_cons_self x rest)) hr0 hle0)
                  | some sm =>
                      simp only [Option.bind_eq_bind, Option.some_bind]
                      refine ihl sm (fun v hv => hall v (List.mem_cons_of_mem x hv))
                        (dfsT_mono g fuel x s0 sm hfx hr0).2.1 ?_
                      have := stWhites_mono g s0.state sm.state hr0
                        (dfsT_mono g fuel x s0 sm hfx hr0).1
                      omega
            cases hm : (dgetD g u []).foldlM (fun s2 v => dfsT g fuel v s2)
                { s with state := dset s.state u 1 } with
            | none =>
                refine absurd hm (hfold (dgetD g u [])
                  { s with state := dset s.state u 1 }
                  (fun v hv => dgetD_targets_mem_allNodesU g u v hv) hr1 ?_)
                show stWhites g (dset s.state u 1) + 1 ≤ fuel
                omega
            | some s2mid => simp

theorem dfsTList_mono (g : UGraph) (fuel : Nat) :
    ∀ (l : List Int) (s0 s1 : DfsTSt),
      l.foldlM (fun s2 v => dfsT g fuel v s2) s0 = some s1 → StRange s0.state →
      StMono s0.state s1.state ∧ StRange s1.state := by
  intro l
  induction l with
  | nil =>
      intro s0 s1 h hr
      simp only [List.foldlM_nil] at h
      cases h
      exact ⟨fun v => le_refl _, hr⟩
  | cons x rest ihl =>
      intro s0 s1 h hr
      rw [List.foldlM_cons] at h
      cases hfx : dfsT g fuel x s0 with
      | none => rw [hfx] at h; simp at h
      | some sm =>
          rw [hfx] at h
          simp only [Option.bind_eq_bind, Option.some_bind] at h
          obtain ⟨hm1, hr1, -⟩ := dfsT_mono g fuel x s0 sm hfx hr
          obtain ⟨hm2, hr2⟩ := ihl sm s1 h hr1
          exact ⟨fun v => le_trans (hm1 v) (hm2 v), hr2⟩

theorem dfsTList_stay (g : UGraph) (fuel : Nat) :
    ∀ (l : List Int) (sa sb : DfsTSt), sa.flag = true → StRange sa.state →
      l.foldlM (fun s2 v => dfsT g fuel v s2) sa = some sb → sb = sa := by
  intro l
  induction l with
  | nil =>
      intro sa sb _ _ h
      simp only [List.foldlM_nil] at h
      cases h
      rfl
  | cons x rest ihl =>
      intro sa sb hfl hr h
      rw [List.foldlM_cons] at h
      cases hfx : dfsT g fuel x sa with
      | none => rw [hfx] at h; simp at h
      | some sm =>
          rw [hfx] at h
          simp only [Option.bind_eq_bind, Option.some_bind] at h
          have hsm : sm = sa := (dfsT_mono g fuel x sa sm hfx hr).2.2 hfl
          rw [hsm] at h
          exact ihl sa sb hfl hr h

theorem dfsT_false (g : UGraph) (hnd : (dkeys g).Nodup) :
    ∀ (fuel : Nat) (u : Int) (s s2 : DfsTSt),
      dfsT g fuel u s = some s2 → s2.flag = false → StRange s.state →
      s.flag = false ∧ GrayEq s.state s2.state ∧
      (∃ t, s2.topo = s.topo ++ t) ∧ dgetD s2.state u 0 = 2 ∧
      (u ∈ allNodesU g → TopoInvT g s → TopoInvT g s2) := by
  intro fuel
  induction fuel with
  | zero =>
      intro u s s2 h _ _
      rw [dfsT] at h
      exact Option.noConfusion h
  | succ fuel ih =>
      intro u s s2 h hfl hr
      have hfold : ∀ (l : List Int) (s0 s1 : DfsTSt),
          l.foldlM (fun s2 v => dfsT g fuel v s2) s0 = some s1 → s1.flag = false →
          StRange s0.state →
          s0.flag = false ∧ GrayEq s0.state s1.state ∧
          (∃ t, s1.topo = s0.topo ++ t) ∧
          ((∀ v ∈ l, v ∈ allNodesU g) → TopoInvT g s0 →
            TopoInvT g s1 ∧ ∀ v ∈ l, dgetD s1.state v 0 = 2) := by
        intro l
        induction l with
        | nil =>
            intro s0 s1 h2 hfl2 hr0
            simp only [List.foldlM_nil] at h2
            cases h2
            exact ⟨hfl2, fun v => Iff.rfl, ⟨[], by simp⟩,
              fun _ hinv => ⟨hinv, by simp⟩⟩
        | cons x rest ihl =>
            intro s0 s1 h2 hfl2 hr0
            rw [List.foldlM_cons] at h2
            cases hfx : dfsT g fuel x s0 with
            | none => rw [hfx] at h2; simp at h2
            | some sm =>
                rw [hfx] at h2
                simp only [Option.bind_eq_bind, Option.some_bind] at h2
                have hrm : StRange sm.state := (dfsT_mono g fuel x s0 sm hfx hr0).2.1
                have hsmflag : sm.flag = false := by
                  cases hcc : sm.flag
                  · rfl
                  · have := dfsTList_stay g fuel rest sm s1 hcc hrm h2
                    rw [this] at hfl2
                    rw [hfl2] at hcc
                    exact Bool.noConfusion hcc
                obtain ⟨hf0, hg1, ht1, hbx, hinvf⟩ := ih x s0 sm hfx hsmflag hr0
                obtain ⟨-, hg2, ht2, hinv2⟩ := ihl sm s1 h2 hfl2 hrm
                refine ⟨hf0, fun v => Iff.trans (hg2 v) (hg1 v), ?_, ?_⟩
                · obtain ⟨t1, he1⟩ := ht1
                  obtain ⟨t2, he2⟩ := ht2
                  exact ⟨t1 ++ t2, by rw [he2, he1, List.append_assoc]⟩
                · intro hall hinv0
                  have hinvm := hinvf (hall x (List.mem_cons_self x rest)) hinv0
                  obtain ⟨hinvs1, hblacks⟩ :=
                    hinv2 (fun v hv => hall v (List.mem_cons_of_mem x hv)) hinvm
                  refine ⟨hinvs1, ?_⟩
                  intro v hv
                  rcases List.mem_cons.mp hv with hvx | hvr
                  · rw [hvx]
                    have hmono := (dfsTList_mono g fuel rest sm s1 h2 hrm).1 x
                    have hrs1 := (dfsTList_mono g fuel rest sm s1 h2 hrm).2 x
                    rw [hbx] at hmono
                    rcases hrs1 with hh | hh | hh <;> omega
                  · exact hblacks v hvr
      rw [dfsT] at h
      by_cases hf : s.flag = true
      · rw [if_pos hf] at h
        injection h with h2
        rw [← h2] at hfl
        rw [hfl] at hf
        exact Bool.noConfusion hf
      · rw [if_neg hf] at h
        by_cases h1 : dgetD s.state u 0 = 1
        · rw [if_pos h1] at h
          injection h with h2
          rw [← h2] at hfl
          exact Bool.noConfusion hfl
        · rw [if_neg h1] at h
          by_cases h2c : dgetD s.state u 0 = 2
          · rw [if_pos h2c] at h
            injection h with h2
            rw [← h2]
            have hsflag : s.flag = false := by
              cases hcc : s.flag
              · rfl
              · exact absurd hcc hf
            exact ⟨hsflag, fun v => Iff.rfl, ⟨[], by simp⟩, h2c, fun _ hinv => hinv⟩
          · rw [if_neg h2c] at h
            have hu0 : dgetD s.state u 0 = 0 := by
              rcases hr u with hh | hh | hh
              · exact hh
              · exact absurd hh h1
              · exact absurd hh h2c
            have hsflag : s.flag = false := by
              cases hcc : s.flag
              · rfl
              · exact absurd hcc hf
            have hr1 : StRange (dset s.state u 1) := by
              intro v
              by_cases hv : v = u
              · rw [hv, dgetD_dset_self]
                exact Or.inr (Or.inl rfl)
              · rw [dgetD_dset_ne _ _ _ _ _ hv]
                exact hr v
            cases hm : (dgetD g u []).foldlM (fun s2 v => dfsT g fuel v s2)
                { s with state := dset s.state u 1 } with
            | none => rw [hm] at h; exact Option.noConfusion h
            | some s2mid =>
                rw [hm] at h
                simp only [Option.some.injEq] at h
                have hmidflag : s2mid.flag = false := by
                  have : s2.flag = s2mid.flag := by rw [← h]
                  rw [← this]
                  exact hfl
                obtain ⟨-, hgf, htf, hinvfold⟩ := hfold (dgetD g u [])
                  { s with state := dset s.state u 1 } s2mid hm hmidflag hr1
                have hgrayu : dgetD s2mid.state u 0 = 1 := by
                  apply (hgf u).mpr
                  show dgetD (dset s.state u 1) u 0 = 1
                  rw [dgetD_dset_self]
                refine ⟨hsflag, ?_, ?_, ?_, ?_⟩
                · intro v
                  rw [← h]
                  show dgetD (dset s2mid.state u 2) v 0 = 1 ↔ dgetD s.state v 0 = 1
                  by_cases hv : v = u
                  · rw [hv, dgetD_dset_self, hu0]
                    constructor
                    · intro hh; exact absurd hh (by omega)
                    · intro hh; exact absurd hh (by omega)
                  · rw [dgetD_dset_ne _ _ _ _ _ hv]
                    have := hgf v
                    rw [show dgetD (dset s.state u 1) v 0 = dgetD s.state v 0 from
                      dgetD_dset_ne _ _ _ _ _ hv] at this
                    exact this
                · obtain ⟨t, ht⟩ := htf
                  refine ⟨t ++ [u], ?_⟩
                  rw [← h]
                  show s2mid.topo ++ [u] = s.topo ++ (t ++ [u])
                  rw [ht, List.append_assoc]
                · rw [← h]
                  show dgetD (dset s2mid.state u 2) u 0 = 2
                  rw [dgetD_dset_self]
                · intro hu_vs hinv0
                  obtain ⟨hnd0, hmem0, hiff0, hedg0⟩ := hinv0
                  have hinv1 : TopoInvT g { s with state := dset s.state u 1 } := by
                    refine ⟨hnd0, hmem0, ?_, hedg0⟩
                    intro v
                    show dgetD (dset s.state u 1) v 0 = 2 ↔ v ∈ s.topo
                    by_cases hv : v = u
                    · rw [hv, dgetD_dset_self]
                      constructor
                      · intro hh; exact absurd hh (by omega)
                      · intro hh
                        have := (hiff0 u).mpr hh
                        rw [hu0] at this
                        exact absurd this (by omega)
                    · rw [dgetD_dset_ne _ _ _ _ _ hv]
                      exact hiff0 v
                  obtain ⟨⟨hndm, hmemm, hiffm, hedgm⟩, hblacks⟩ := hinvfold
                    (fun v hv => dgetD_targets_mem_allNodesU g u v hv) hinv1
                  have hunotin : u ∉ s2mid.topo := by
                    intro hh
                    have := (hiffm u).mpr hh
                    rw [hgrayu] at this
                    exact absurd this (by omega)
                  rw [← h]
                  refine ⟨?_, ?_, ?_, ?_⟩
                  · show (s2mid.topo ++ [u]).Nodup
                    exact nodup_append_singleton _ u hndm hunotin
                  · intro x hx
                    rcases List.mem_append.mp hx with hh | hh
                    · exact hmemm x hh
                    · rw [List.mem_singleton] at hh
                      rw [hh]
                      exact hu_vs
                  · intro v
                    show dgetD (dset s2mid.state u 2) v 0 = 2 ↔
                      v ∈ s2mid.topo ++ [u]
                    by_cases hv : v = u
                    · rw [hv, dgetD_dset_self]
                      simp
                    · rw [dgetD_dset_ne _ _ _ _ _ hv]
                      rw [hiffm v]
                      simp only [List.mem_append, List.mem_singleton, hv, or_false]
                  · intro a b he ha
                    show b ∈ s2mid.topo ++ [u] ∧ before (s2mid.topo ++ [u]) b a
                    rcases List.mem_append.mp ha with hat | hau
                    · obtain ⟨hbm, hbf⟩ := hedgm a b he hat
                      exact ⟨List.mem_append_left _ hbm,
                        before_append_right _ _ _ _ hbf⟩
                    · rw [List.mem_singleton] at hau
                      rw [hau] at he
                      obtain ⟨p, hp, hp1, hbp⟩ := he
                      have hdg : dgetD g u [] = p.2 := by
                        have := dget_of_mem_nodup g hnd p hp
                        rw [hp1] at this
                        exact dgetD_of_dget this
                      have hbadj : b ∈ dgetD g u [] := by rw [hdg]; exact hbp
                      have hbblack := hblacks b hbadj
                      have hbm : b ∈ s2mid.topo := (hiffm b).mp hbblack
                      rw [hau]
                      exact ⟨List.mem_append_left _ hbm,
                        before_append_new _ b u hbm⟩

theorem dfsT_true (g : UGraph) (hnd : (dkeys g).Nodup) :
    ∀ (fuel : Nat) (u : Int) (s s2 : DfsTSt),
      dfsT g fuel u s = some s2 → s.flag = false → s2.flag = true →
      StRange s.state →
      (∀ w, dgetD s.state w 0 = 1 → ∃ es, es ≠ [] ∧ UWalk g w es u) →
      ∃ v es, es ≠ [] ∧ UWalk g v es v := by
  intro fuel
  induction fuel with
  | zero =>
      intro u s s2 h _ _ _ _
      rw [dfsT] at h
      exact Option.noConfusion h
  | succ fuel ih =>
      intro u s s2 h hsf h2f hr hreach
      have hfoldT : ∀ (l : List Int) (s0 s1 : DfsTSt),
          l.foldlM (fun s2 v => dfsT g fuel v s2) s0 = some s1 →
          s0.flag = false → s1.flag = true → StRange s0.state →
          (∀ v ∈ l, UEdgeP g u v) →
          (∀ w, dgetD s0.state w 0 = 1 → w = u ∨ ∃ es, es ≠ [] ∧ UWalk g w es u) →
          ∃ v es, es ≠ [] ∧ UWalk g v es v := by
        intro l
        induction l with
        | nil =>
            intro s0 s1 h2 hf0 hf1 _ _ _
            simp only [List.foldlM_nil] at h2
            cases h2
            rw [hf0] at hf1
            exact Bool.noConfusion hf1
        | cons x rest ihl =>
            intro s0 s1 h2 hf0 hf1 hr0 hedges hgr
            rw [List.foldlM_cons] at h2
            cases hfx : dfsT g fuel x s0 with
            | none => rw [hfx] at h2; simp at h2
            | some sm =>
                rw [hfx] at h2
                simp only [Option.bind_eq_bind, Option.some_bind] at h2
                cases hsm : sm.flag with
                | true =>
                    refine ih x s0 sm hfx hf0 hsm hr0 ?_
                    intro w hw
                    rcases hgr w hw with hwu | ⟨es, hne, hwk⟩
                    · rw [hwu]
                      exact ⟨[x], by simp,
                        ⟨hedges x (List.mem_cons_self x rest), rfl⟩⟩
                    · refine ⟨es ++ [x], by simp, ?_⟩
                      rw [uwalk_append]
                      exact ⟨u, hwk, ⟨hedges x (List.mem_cons_self x rest), rfl⟩⟩
                | false =>
                    obtain ⟨-, hge, -, -, -⟩ :=
                      dfsT_false g hnd fuel x s0 sm hfx hsm hr0
                    refine ihl sm s1 h2 hsm hf1
                      (dfsT_mono g fuel x s0 sm hfx hr0).2.1
                      (fun v hv => hedges v (List.mem_cons_of_mem x hv)) ?_
                    intro w hw
                    exact hgr w ((hge w).mp hw)
      rw [dfsT] at h
      rw [if_neg (by rw [hsf]; exact Bool.false_ne_true)] at h
      by_cases h1 : dgetD s.state u 0 = 1
      · obtain ⟨es, hne, hw⟩ := hreach u h1
        exact ⟨u, es, hne, hw⟩
      · rw [if_neg h1] at h
        by_cases h2c : dgetD s.state u 0 = 2
        · rw [if_pos h2c] at h
          injection h with hh
          rw [← hh] at h2f
          rw [hsf] at h2f
          exact Bool.noConfusion h2f
        · rw [if_neg h2c] at h
          have hr1 : StRange (dset s.state u 1) := by
            intro v
            by_cases hv : v = u
            · rw [hv, dgetD_dset_self]
              exact Or.inr (Or.inl rfl)
            · rw [dgetD_dset_ne _ _ _ _ _ hv]
              exact hr v
          cases hm : (dgetD g u []).foldlM (fun s2 v => dfsT g fuel v s2)
              { s with state := dset s.state u 1 } with
          | none => rw [hm] at h; exact Option.noConfusion h
          | some s2mid =>
              rw [hm] at h
              simp only [Option.some.injEq] at h
              have hmidtrue : s2mid.flag = true := by
                have hpr : s2.flag = s2mid.flag := by rw [← h]
                rw [← hpr]
                exact h2f
              refine hfoldT (dgetD g u []) { s with state := dset s.state u 1 }
                s2mid hm hsf hmidtrue hr1
                (fun v hv => uedgeP_of_dgetD g u v hv) ?_
              intro w hw
              by_cases hwu : w = u
              · exact Or.inl hwu
              · refine Or.inr (hreach w ?_)
                rw [show dgetD (dset s.state u 1) w 0 = dgetD s.state w 0 from
                  dgetD_dset_ne _ _ _ _ _ hwu] at hw
                exact hw

/-- The outer loop invariant of topological_sort_dfs: flag clear, colors in
range, list invariant, and no vertex left gray between root calls. -/
def OInvT (g : UGraph) (s : DfsTSt) : Prop :=
  s.flag = false ∧ StRange s.state ∧ TopoInvT g s ∧
  (∀ v, dgetD s.state v 0 ≠ 1)

theorem dfs_outer_total (g : UGraph) (hnd : (dkeys g).Nodup) :
    ∀ (l : List Int), (∀ v ∈ l, v ∈ allNodesU g) → ∀ (s : DfsTSt),
      StRange s.state →
      ∃ s2, l.foldlM
          (fun s v => if dgetD s.state v 0 = 0 then
            dfsT g ((allNodesU g).length + 1) v s else some s) s = some s2 ∧
        StRange s2.state ∧ StMono s.state s2.state := by
  intro l
  induction l with
  | nil =>
      intro _ s hr
      exact ⟨s, by simp [List.foldlM_nil], hr, fun v => le_refl _⟩
  | cons x rest ihl =>
      intro hall s hr
      by_cases h0 : dgetD s.state x 0 = 0
      · cases hfx : dfsT g ((allNodesU g).length + 1) x s with
        | none =>
            exact absurd hfx (dfsT_fuel g hnd _ x s
              (hall x (List.mem_cons_self x rest)) hr
              (by have := stWhites_le g s.state; omega))
        | some sm =>
            obtain ⟨hm1, hr1, -⟩ := dfsT_mono g _ x s sm hfx hr
            obtain ⟨s2, hrun, hr2, hm2⟩ :=
              ihl (fun v hv => hall v (List.mem_cons_of_mem x hv)) sm hr1
            refine ⟨s2, ?_, hr2, fun v => le_trans (hm1 v) (hm2 v)⟩
            rw [List.foldlM_cons, if_pos h0, hfx]
            simp only [Option.bind_eq_bind, Option.some_bind]
            exact hrun
      · obtain ⟨s2, hrun, hr2, hm2⟩ :=
          ihl (fun v hv => hall v (List.mem_cons_of_mem x hv)) s hr
        refine ⟨s2, ?_, hr2, hm2⟩
        rw [List.foldlM_cons, if_neg h0]
        simp only [Option.bind_eq_bind, Option.some_bind]
        exact hrun

theorem dfs_outer_stay (g : UGraph) :
    ∀ (l : List Int) (s s2 : DfsTSt), s.flag = true → StRange s.state →
      l.foldlM
        (fun s v => if dgetD s.state v 0 = 0 then
          dfsT g ((allNodesU g).length + 1) v s else some s) s = some s2 →
      s2 = s := by
  intro l
  induction l with
  | nil =>
      intro s s2 _ _ h
      simp only [List.foldlM_nil] at h
      cases h
      rfl
  | cons x rest ihl =>
      intro s s2 hfl hr h
      rw [List.foldlM_cons] at h
      by_cases h0 : dgetD s.state x 0 = 0
      · rw [if_pos h0] at h
        cases hfx : dfsT g ((allNodesU g).length + 1) x s with
        | none => rw [hfx] at h; simp at h
        | some sm =>
            rw [hfx] at h
            simp only [Option.bind_eq_bind, Option.some_bind] at h
            have hsm : sm = s := (dfsT_mono g _ x s sm hfx hr).2.2 hfl
            rw [hsm] at h
            exact ihl s s2 hfl hr h
      · rw [if_neg h0] at h
        simp only [Option.bind_eq_bind, Option.some_bind] at h
        exact ihl s s2 hfl hr h

theorem dfs_outer_false (g : UGraph) (hnd : (dkeys g).Nodup) :
    ∀ (l : List Int), (∀ v ∈ l, v ∈ allNodesU g) → ∀ (s s2 : DfsTSt),
      OInvT g s →
      l.foldlM
        (fun s v => if dgetD s.state v 0 = 0 then
          dfsT g ((allNodesU g).length + 1) v s else some s) s = some s2 →
      s2.flag = false →
      OInvT g s2 ∧ StMono s.state s2.state ∧
        (∀ v ∈ l, dgetD s2.state v 0 = 2) := by
  intro l
  induction l with
  | nil =>
      intro _ s s2 hinv h _
      simp only [List.foldlM_nil] at h
      cases h
      exact ⟨hinv, fun v => le_refl _, by simp⟩
  | cons x rest ihl =>
      intro hall s s2 hinv h hfl2
      obtain ⟨hf, hr, htop, hng⟩ := hinv
      rw [List.foldlM_cons] at h
      by_cases h0 : dgetD s.state x 0 = 0
      · rw [if_pos h0] at h
        cases hfx : dfsT g ((allNodesU g).length + 1) x s with
        | none => rw [hfx] at h; simp at h
        | some sm =>
            rw [hfx] at h
            simp only [Option.bind_eq_bind, Option.some_bind] at h
            have hrm : StRange sm.state := (dfsT_mono g _ x s sm hfx hr).2.1
            have hsmf : sm.flag = false := by
              cases hcc : sm.flag
              · rfl
              · have := dfs_outer_stay g rest sm s2 hcc hrm h
                rw [this] at hfl2
                rw [hfl2] at hcc
                exact Bool.noConfusion hcc
            obtain ⟨-, hge, -, hxb, hto⟩ := dfsT_false g hnd _ x s sm hfx hsmf hr
            have hinvm : OInvT g sm := by
              refine ⟨hsmf, hrm, hto (hall x (List.mem_cons_self x rest)) htop, ?_⟩
              intro v hv
              exact hng v ((hge v).mp hv)
            obtain ⟨hinv2, hm2, hblk⟩ :=
              ihl (fun v hv => hall v (List.mem_cons_of_mem x hv)) sm s2 hinvm h hfl2
            refine ⟨hinv2, ?_, ?_⟩
            · intro v
              exact le_trans ((dfsT_mono g _ x s sm hfx hr).1 v) (hm2 v)
            · intro v hv
              rcases List.mem_cons.mp hv with hvx | hvr
              · rw [hvx]
                have := hm2 x
                rw [hxb] at this
                rcases hinv2.2.1 x with hh | hh | hh <;> omega
              · exact hblk v hvr
      · rw [if_neg h0] at h
        simp only [Option.bind_eq_bind, Option.some_bind] at h
        obtain ⟨hinv2, hm2, hblk⟩ :=
          ihl (fun v hv => hall v (List.mem_cons_of_mem x hv)) s s2
            ⟨hf, hr, htop, hng⟩ h hfl2
        refine ⟨hinv2, hm2, ?_⟩
        intro v hv
        rcases List.mem_cons.mp hv with hvx | hvr
        · rw [hvx]
          have hxb : dgetD s.state x 0 = 2 := by
            rcases hr x with hh | hh | hh
            · exact absurd hh h0
            · exact absurd hh (hng x)
            · exact hh
          have := hm2 x
          rw [hxb] at this
          rcases hinv2.2.1 x with hh | hh | hh <;> omega
        · exact hblk v hvr

theorem dfs_outer_true (g : UGraph) (hnd : (dkeys g).Nodup) :
    ∀ (l : List Int), (∀ v ∈ l, v ∈ allNodesU g) → ∀ (s s2 : DfsTSt),
      OInvT g s →
      l.foldlM
        (fun s v => if dgetD s.state v 0 = 0 then
          dfsT g ((allNodesU g).length + 1) v s else some s) s = some s2 →
      s2.flag = true →
      ∃ v es, es ≠ [] ∧ UWalk g v es v := by
  intro l
  induction l with
  | nil =>
      intro _ s s2 hinv h hfl2
      simp only [List.foldlM_nil] at h
      cases h
      rw [hinv.1] at hfl2
      exact Bool.noConfusion hfl2
  | cons x rest ihl =>
      intro hall s s2 hinv h hfl2
      obtain ⟨hf, hr, htop, hng⟩ := hinv
      rw [List.foldlM_cons] at h
      by_cases h0 : dgetD s.state x 0 = 0
      · rw [if_pos h0] at h
        cases hfx : dfsT g ((allNodesU g).length + 1) x s with
        | none => rw [hfx] at h; simp at h
        | some sm =>
            rw [hfx] at h
            simp only [Option.bind_eq_bind, Option.some_bind] at h
            have hrm : StRange sm.state := (dfsT_mono g _ x s sm hfx hr).2.1
            cases hsm : sm.flag with
            | true =>
                refine dfsT_true g hnd _ x s sm hfx hf hsm hr ?_
                intro w hw
                exact absurd hw (hng w)
            | false =>
                obtain ⟨-, hge, -, hxb, hto⟩ :=
                  dfsT_false g hnd _ x s sm hfx hsm hr
                refine ihl (fun v hv => hall v (List.mem_cons_of_mem x hv)) sm s2
                  ⟨hsm, hrm, hto (hall x (List.mem_cons_self x rest)) htop, ?_⟩
                  h hfl2
                intro v hv
                exact hng v ((hge v).mp hv)
      · rw [if_neg h0] at h
        simp only [Option.bind_eq_bind, Option.some_bind] at h
        exact ihl (fun v hv => hall v (List.mem_cons_of_mem x hv)) s s2
          ⟨hf, hr, htop, hng⟩ h hfl2

theorem dfs_walk_topo (g : UGraph) (topoF : List Int) (hc1 : topoF.Nodup)
    (hedg : ∀ u v, UEdgeP g u v → u ∈ topoF → v ∈ topoF ∧ before topoF v u) :
    ∀ (es : List Int) (a b : Int), UWalk g a es b → a ∈ topoF →
      b ∈ topoF ∧ (es ≠ [] → topoF.indexOf b < topoF.indexOf a) := by
  intro es
  induction es with
  | nil =>
      intro a b hw ha
      have hab : a = b := hw
      rw [← hab]
      exact ⟨ha, fun h => absurd rfl h⟩
  | cons x xs ihx =>
      intro a b hw ha
      obtain ⟨he, hw2⟩ := hw
      obtain ⟨hx, hbf⟩ := hedg a x he ha
      have hxa : topoF.indexOf x < topoF.indexOf a :=
        indexOf_lt_of_before _ _ _ hc1 hbf
      obtain ⟨hb, hbi⟩ := ihx x b hw2 hx
      refine ⟨hb, fun _ => ?_⟩
      cases xs with
      | nil =>
          have hxb : x = b := hw2
          rw [← hxb]
          exact hxa
      | cons y ys => exact Nat.lt_trans (hbi (by simp)) hxa

theorem dfs_init_inv (g : UGraph) :
    OInvT g ⟨(allNodesU g).map (fun v => (v, 0)), [], false⟩ := by
  refine ⟨rfl, ?_, ⟨List.nodup_nil, by simp, ?_, ?_⟩, ?_⟩
  · intro v
    show dgetD ((allNodesU g).map (fun v => (v, 0))) v 0 = 0 ∨ _ ∨ _
    rw [dgetD_map_zero]
    exact Or.inl rfl
  · intro v
    show dgetD ((allNodesU g).map (fun v => (v, 0))) v 0 = 2 ↔ v ∈ []
    rw [dgetD_map_zero]
    constructor
    · intro hh; exact absurd hh (by omega)
    · intro hh; exact absurd hh (List.not_mem_nil v)
  · intro u v he hu
    exact absurd hu (List.not_mem_nil u)
  · intro v
    show dgetD ((allNodesU g).map (fun v => (v, 0))) v 0 ≠ 1
    rw [dgetD_map_zero]
    omega

theorem topological_sort_dfs_dag (g : UGraph) (hnd : (dkeys g).Nodup)
    (hac : AcyclicU g) :
    ∃ od, topological_sort_dfs g = some (some od) ∧ od.Perm (allNodesU g) ∧
      (∀ u v, UEdgeP g u v → od.indexOf u < od.indexOf v) := by
  obtain ⟨sF, hrun, hrF, -⟩ := dfs_outer_total g hnd (allNodesU g)
    (fun v hv => hv) ⟨(allNodesU g).map (fun v => (v, 0)), [], false⟩
    (dfs_init_inv g).2.1
  have hflF : sF.flag = false := by
    cases hcc : sF.flag
    · rfl
    · obtain ⟨v, es, hne, hw⟩ := dfs_outer_true g hnd (allNodesU g)
        (fun v hv => hv) _ sF (dfs_init_inv g) hrun hcc
      exact absurd ⟨v, es, hne, hw⟩ hac
  obtain ⟨⟨-, -, ⟨hndF, hmemF, hiffF, hedgF⟩, -⟩, -, hblacks⟩ :=
    dfs_outer_false g hnd (allNodesU g) (fun v hv => hv) _ sF
      (dfs_init_inv g) hrun hflF
  have hallin : ∀ v ∈ allNodesU g, v ∈ sF.topo :=
    fun v hv => (hiffF v).mp (hblacks v hv)
  have hperm : sF.topo.Perm (allNodesU g) :=
    (List.perm_ext_iff_of_nodup hndF (allNodesU_nodup g hnd)).mpr
      (fun x => ⟨fun hx => hmemF x hx, fun hx => hallin x hx⟩)
  refine ⟨sF.topo.reverse, ?_, (sF.topo.reverse_perm).trans hperm, ?_⟩
  · unfold topological_sort_dfs
    rw [hrun]
    show (if sF.flag = true then some none else some (some sF.topo.reverse)) =
      some (some sF.topo.reverse)
    rw [hflF]
    simp
  · intro u v he
    have huT : u ∈ sF.topo := hallin u (uedge_mem_allNodesU g u v he).1
    obtain ⟨hvT, hbf⟩ := hedgF u v he huT
    exact indexOf_lt_of_before _ _ _ (List.nodup_reverse.mpr hndF)
      (before_reverse _ _ _ hbf)

theorem topological_sort_dfs_cyc (g : UGraph) (hnd : (dkeys g).Nodup)
    (hcy : ¬ AcyclicU g) : topological_sort_dfs g = some none := by
  obtain ⟨v, es, hne, hw⟩ := not_not.mp hcy
  obtain ⟨sF, hrun, hrF, -⟩ := dfs_outer_total g hnd (allNodesU g)
    (fun v hv => hv) ⟨(allNodesU g).map (fun v => (v, 0)), [], false⟩
    (dfs_init_inv g).2.1
  have hflF : sF.flag = true := by
    cases hcc : sF.flag
    · exfalso
      obtain ⟨⟨-, -, ⟨hndF, hmemF, hiffF, hedgF⟩, -⟩, -, hblacks⟩ :=
        dfs_outer_false g hnd (allNodesU g) (fun v hv => hv) _ sF
          (dfs_init_inv g) hrun hcc
      have hvvs : v ∈ allNodesU g := by
        cases es with
        | nil => exact absurd rfl hne
        | cons x xs => exact (uedge_mem_allNodesU g v x hw.1).1
      have hvT : v ∈ sF.topo := (hiffF v).mp (hblacks v hvvs)
      have := (dfs_walk_topo g sF.topo hndF hedgF es v v hw hvT).2 hne
      omega
    · rfl
  unfold topological_sort_dfs
  rw [hrun]
  show (if sF.flag = true then some none else some (some sF.topo.reverse)) =
    some none
  rw [hflF]
  simp

theorem hcDfs_mono (g : UGraph) :
    ∀ (fuel : Nat) (u : Int) (st : List (Int × Int)) (r : Bool × List (Int × Int)),
      hcDfs g fuel u st = some r → StRange st → StMono st r.2 ∧ StRange r.2 := by
  intro fuel
  induction fuel with
  | zero =>
      intro u st r h _
      rw [hcDfs] at h
      exact Option.noConfusion h
  | succ fuel ih =>
      intro u st r h hr
      have hfold : ∀ (l : List Int) (p0 p1 : Bool × List (Int × Int)),
          l.foldlM (fun p v => if p.1 = true then some p else hcDfs g fuel v p.2)
            p0 = some p1 → StRange p0.2 → StMono p0.2 p1.2 ∧ StRange p1.2 := by
        intro l
        induction l with
        | nil =>
            intro p0 p1 h2 hr0
            simp only [List.foldlM_nil] at h2
            cases h2
            exact ⟨fun v => le_refl _, hr0⟩
        | cons x rest ihl =>
            intro p0 p1 h2 hr0
            rw [List.foldlM_cons] at h2
            by_cases hp : p0.1 = true
            · rw [if_pos hp] at h2
              simp only [Option.bind_eq_bind, Option.some_bind] at h2
              exact ihl p0 p1 h2 hr0
            · rw [if_neg hp] at h2
              cases hfx : hcDfs g fuel x p0.2 with
              | none => rw [hfx] at h2; simp at h2
              | some pm =>
                  rw [hfx] at h2
                  simp only [Option.bind_eq_bind, Option.some_bind] at h2
                  obtain ⟨hm1, hr1⟩ := ih x p0.2 pm hfx hr0
                  obtain ⟨hm2, hr2⟩ := ihl pm p1 h2 hr1
                  exact ⟨fun v => le_trans (hm1 v) (hm2 v), hr2⟩
      rw [hcDfs] at h
      by_cases h1 : dgetD st u 0 = 1
      · rw [if_pos h1] at h
        injection h with h2
        rw [← h2]
        exact ⟨fun v => le_refl _, hr⟩
      · rw [if_neg h1] at h
        by_cases h2c : dgetD st u 0 = 2
        · rw [if_pos h2c] at h
          injection h with h2
          rw [← h2]
          exact ⟨fun v => le_refl _, hr⟩
        · rw [if_neg h2c] at h
          have hu0 : dgetD st u 0 = 0 := by
            rcases hr u with hh | hh | hh
            · exact hh
            · exact absurd hh h1
            · exact absurd hh h2c
          have hr1 : StRange (dset st u 1) := by
            intro v
            by_cases hv : v = u
            · rw [hv, dgetD_dset_self]
              exact Or.inr (Or.inl rfl)
            · rw [dgetD_dset_ne _ _ _ _ _ hv]
              exact hr v
          cases hm : (dgetD g u []).foldlM
              (fun p v => if p.1 = true then some p else hcDfs g fuel v p.2)
              (false, dset st u 1) with
          | none => rw [hm] at h; exact Option.noConfusion h
          | some pm =>
              rw [hm] at h
              have h3 : (if pm.1 = true then some (true, pm.2)
                  else some ((false, dset pm.2 u 2) :
                    Bool × List (Int × Int))) = some r := h
              clear h
              obtain ⟨hm1, hr1b⟩ := hfold (dgetD g u []) (false, dset st u 1) pm hm hr1
              have hmono0 : StMono st pm.2 := by
                intro v
                refine le_trans ?_ (hm1 v)
                show dgetD st v 0 ≤ dgetD (dset st u 1) v 0
                by_cases hv : v = u
                · rw [hv, dgetD_dset_self, hu0]
                  omega
                · rw [dgetD_dset_ne _ _ _ _ _ hv]
              by_cases hp : pm.1 = true
              · rw [if_pos hp] at h3
                injection h3 with h2
                rw [← h2]
                exact ⟨hmono0, hr1b⟩
              · rw [if_neg hp] at h3
                injection h3 with h2
                rw [← h2]
                constructor
                · intro v
                  show dgetD st v 0 ≤ dgetD (dset pm.2 u 2) v 0
                  by_cases hv : v = u
                  · rw [hv, dgetD_dset_self, hu0]
                    omega
                  · rw [dgetD_dset_ne _ _ _ _ _ hv]
                    exact hmono0 v
                · intro v
                  show dgetD (dset pm.2 u 2) v 0 = 0 ∨ _ ∨ _
                  by_cases hv : v = u
                  · rw [hv, dgetD_dset_self]
                    exact Or.inr (Or.inr rfl)
                  · rw [dgetD_dset_ne _ _ _ _ _ hv]
                    exact hr1b v

theorem hcDfs_fuel (g : UGraph) (hnd : (dkeys g).Nodup) :
    ∀ (fuel : Nat) (u : Int) (st : List (Int × Int)), u ∈ allNodesU g →
      StRange st → stWhites g st + 1 ≤ fuel → hcDfs g fuel u st ≠ none := by
  intro fuel
  induction fuel with
  | zero => intro u st _ _ hle; omega
  | succ fuel ih =>
      intro u st hu hr hle
      rw [hcDfs]
      by_cases h1 : dgetD st u 0 = 1
      · rw [if_pos h1]; simp
      · rw [if_neg h1]
        by_cases h2c : dgetD st u 0 = 2
        · rw [if_pos h2c]; simp
        · rw [if_neg h2c]
          have hu0 : dgetD st u 0 = 0 := by
            rcases hr u with hh | hh | hh
            · exact hh
            · exact absurd hh h1
            · exact absurd hh h2c
          have hr1 : StRange (dset st u 1) := by
            intro v
            by_cases hv : v = u
            · rw [hv, dgetD_dset_self]
              exact Or.inr (Or.inl rfl)
            · rw [dgetD_dset_ne _ _ _ _ _ hv]
              exact hr v
          have hw1 : stWhites g (dset st u 1) + 1 = stWhites g st :=
            stWhites_dset_gray g hnd st u hu hu0
          have hfold : ∀ (l : List Int) (p0 : Bool × List (Int × Int)),
              (∀ v ∈ l, v ∈ allNodesU g) → StRange p0.2 →
              stWhites g p0.2 + 1 ≤ fuel →
              l.foldlM (fun p v => if p.1 = true then some p else hcDfs g fuel v p.2)
                p0 ≠ none := by
            intro l
            induction l with
            | nil => intro p0 _ _ _; simp [List.foldlM_nil]
            | cons x rest ihl =>
                intro p0 hall hr0 hle0
                rw [List.foldlM_cons]
                by_cases hp : p0.1 = true
                · rw [if_pos hp]
                  simp only [Option.bind_eq_bind, Option.some_bind]
                  exact ihl p0 (fun v hv => hall v (List.mem_cons_of_mem x hv))
                    hr0 hle0
                · rw [if_neg hp]
                  cases hfx : hcDfs g fuel x p0.2 with
                  | none =>
                      exact absurd hfx
                        (ih x p0.2 (hall x (List.mem_cons_self x rest)) hr0 hle0)
                  | some pm =>
                      simp only [Option.bind_eq_bind, Option.some_bind]
                      refine ihl pm (fun v hv => hall v (List.mem_cons_of_mem x hv))
                        (hcDfs_mono g fuel x p0.2 pm hfx hr0).2 ?_
                      have := stWhites_mono g p0.2 pm.2 hr0
                        (hcDfs_mono g fuel x p0.2 pm hfx hr0).1
                      omega
          cases hm : (dgetD g u []).foldlM
              (fun p v => if p.1 = true then some p else hcDfs g fuel v p.2)
              (false, dset st u 1) with
          | none =>
              refine absurd hm (hfold (dgetD g u []) (false, dset st u 1)
                (fun v hv => dgetD_targets_mem_allNodesU g u v hv) hr1 ?_)
              show stWhites g (dset st u 1) + 1 ≤ fuel
              omega
          | some pm =>
              show (if pm.1 = true then some (true, pm.2)
                else some ((false, dset pm.2 u 2) : Bool × List (Int × Int))) ≠ none
              by_cases hp : pm.1 = true
              · rw [if_pos hp]; simp
              · rw [if_neg hp]; simp

/-- The black-order certificate maintained by has_cycle: an ordering B of the
finished vertices in which every edge out of a finished vertex lands strictly
earlier. -/
def HCInv (g : UGraph) (st : List (Int × Int)) (B : List Int) : Prop :=
  B.Nodup ∧ (∀ x ∈ B, x ∈ allNodesU g) ∧ (∀ v, dgetD st v 0 = 2 ↔ v ∈ B) ∧
  (∀ u v, UEdgeP g u v → u ∈ B → v ∈ B ∧ before B v u)

theorem hcList_mono (g : UGraph) (fuel : Nat) :
    ∀ (l : List Int) (p0 p1 : Bool × List (Int × Int)),
      l.foldlM (fun p v => if p.1 = true then some p else hcDfs g fuel v p.2)
        p0 = some p1 → StRange p0.2 → StMono p0.2 p1.2 ∧ StRange p1.2 := by
  intro l
  induction l with
  | nil =>
      intro p0 p1 h hr
      simp only [List.foldlM_nil] at h
      cases h
      exact ⟨fun v => le_refl _, hr⟩
  | cons x rest ihl =>
      intro p0 p1 h hr
      rw [List.foldlM_cons] at h
      by_cases hp : p0.1 = true
      · rw [if_pos hp] at h
        simp only [Option.bind_eq_bind, Option.some_bind] at h
        exact ihl p0 p1 h hr
      · rw [if_neg hp] at h
        cases hfx : hcDfs g fuel x p0.2 with
        | none => rw [hfx] at h; simp at h
        | some pm =>
            rw [hfx] at h
            simp only [Option.bind_eq_bind, Option.some_bind] at h
            obtain ⟨hm1, hr1⟩ := hcDfs_mono g fuel x p0.2 pm hfx hr
            obtain ⟨hm2, hr2⟩ := ihl pm p1 h hr1
            exact ⟨fun v => le_trans (hm1 v) (hm2 v), hr2⟩

theorem hcList_stay (g : UGraph) (fuel : Nat) :
    ∀ (l : List Int) (p0 pf : Bool × List (Int × Int)), p0.1 = true →
      l.foldlM (fun p v => if p.1 = true then some p else hcDfs g fuel v p.2)
        p0 = some pf → pf = p0 := by
  intro l
  induction l with
  | nil =>
      intro p0 pf _ h
      simp only [List.foldlM_nil] at h
      cases h
      rfl
  | cons x rest ihl =>
      intro p0 pf hp h
      rw [List.foldlM_cons, if_pos hp] at h
      simp only [Option.bind_eq_bind, Option.some_bind] at h
      exact ihl p0 pf hp h

theorem hcDfs_false (g : UGraph) (hnd : (dkeys g).Nodup) :
    ∀ (fuel : Nat) (u : Int) (st st2 : List (Int × Int)),
      hcDfs g fuel u st = some (false, st2) → StRange st →
      GrayEq st st2 ∧ dgetD st2 u 0 = 2 ∧
      (u ∈ allNodesU g → ∀ B, HCInv g st B → ∃ t, HCInv g st2 (B ++ t)) := by
  intro fuel
  induction fuel with
  | zero =>
      intro u st st2 h _
      rw [hcDfs] at h
      exact Option.noConfusion h
  | succ fuel ih =>
      intro u st st2 h hr
      have hfoldF : ∀ (l : List Int) (p0 pf : Bool × List (Int × Int)),
          l.foldlM (fun p v => if p.1 = true then some p else hcDfs g fuel v p.2)
            p0 = some pf → pf.1 = false → StRange p0.2 →
          GrayEq p0.2 pf.2 ∧
          ((∀ v ∈ l, v ∈ allNodesU g) → ∀ B, HCInv g p0.2 B →
            ∃ t, HCInv g pf.2 (B ++ t) ∧ ∀ v ∈ l, dgetD pf.2 v 0 = 2) := by
        intro l
        induction l with
        | nil =>
            intro p0 pf h2 hfl hr0
            simp only [List.foldlM_nil] at h2
            cases h2
            refine ⟨fun v => Iff.rfl, ?_⟩
            intro _ B hB
            exact ⟨[], by simpa using hB, by simp⟩
        | cons x rest ihl =>
            intro p0 pf h2 hfl hr0
            rw [List.foldlM_cons] at h2
            by_cases hp : p0.1 = true
            · rw [if_pos hp] at h2
              simp only [Option.bind_eq_bind, Option.some_bind] at h2
              have := hcList_stay g fuel rest p0 pf hp h2
              rw [this] at hfl
              rw [hfl] at hp
              exact Bool.noConfusion hp
            · rw [if_neg hp] at h2
              cases hfx : hcDfs g fuel x p0.2 with
              | none => rw [hfx] at h2; simp at h2
              | some pm =>
                  rw [hfx] at h2
                  simp only [Option.bind_eq_bind, Option.some_bind] at h2
                  obtain ⟨pmb, pms⟩ := pm
                  have hpmb : pmb = false := by
                    cases hcc : pmb
                    · rfl
                    · rw [hcc] at h2
                      have := hcList_stay g fuel rest (true, pms) pf rfl h2
                      rw [this] at hfl
                      exact Bool.noConfusion hfl
                  rw [hpmb] at hfx h2
                  have hrm : StRange pms :=
                    (hcDfs_mono g fuel x p0.2 (false, pms) hfx hr0).2
                  obtain ⟨hg1, hxb, hext1⟩ := ih x p0.2 pms hfx hr0
                  obtain ⟨hg2, hext2⟩ := ihl (false, pms) pf h2 hfl hrm
                  refine ⟨fun v => Iff.trans (hg2 v) (hg1 v), ?_⟩
                  intro hall B hB
                  obtain ⟨t1, hB1⟩ := hext1 (hall x (List.mem_cons_self x rest)) B hB
                  obtain ⟨t2, hB2, hblk⟩ :=
                    hext2 (fun v hv => hall v (List.mem_cons_of_mem x hv))
                      (B ++ t1) hB1
                  refine ⟨t1 ++ t2, by rw [← List.append_assoc]; exact hB2, ?_⟩
                  intro v hv
                  rcases List.mem_cons.mp hv with hvx | hvr
                  · rw [hvx]
                    have hmono := (hcList_mono g fuel rest (false, pms) pf h2 hrm).1 x
                    have hrf := (hcList_mono g fuel rest (false, pms) pf h2 hrm).2 x
                    show dgetD pf.2 x 0 = 2
                    rw [show ((false, pms) : Bool × List (Int × Int)).2 = pms
                      from rfl] at hmono
                    rw [hxb] at hmono
                    rcases hrf with hh | hh | hh <;> omega
                  · exact hblk v hvr
      rw [hcDfs] at h
      by_cases h1 : dgetD st u 0 = 1
      · rw [if_pos h1] at h
        injection h with h2
        injection h2 with h3 h4
        exact Bool.noConfusion h3
      · rw [if_neg h1] at h
        by_cases h2c : dgetD st u 0 = 2
        · rw [if_pos h2c] at h
          injection h with h2
          injection h2 with h3 h4
          rw [← h4]
          refine ⟨fun v => Iff.rfl, h2c, ?_⟩
          intro _ B hB
          exact ⟨[], by simpa using hB⟩
        · rw [if_neg h2c] at h
          have hu0 : dgetD st u 0 = 0 := by
            rcases hr u with hh | hh | hh
            · exact hh
            · exact absurd hh h1
            · exact absurd hh h2c
          have hr1 : StRange (dset st u 1) := by
            intro v
            by_cases hv : v = u
            · rw [hv, dgetD_dset_self]
              exact Or.inr (Or.inl rfl)
            · rw [dgetD_dset_ne _ _ _ _ _ hv]
              exact hr v
          cases hm : (dgetD g u []).foldlM
              (fun p v => if p.1 = true then some p else hcDfs g fuel v p.2)
              (false, dset st u 1) with
          | none => rw [hm] at h; exact Option.noConfusion h
          | some pm =>
              rw [hm] at h
              obtain ⟨pmb, pms⟩ := pm
              have h3 : (if pmb = true then some (true, pms)
                  else some ((false, dset pms u 2) :
                    Bool × List (Int × Int))) = some (false, st2) := h
              clear h
              by_cases hpb : pmb = true
              · rw [if_pos hpb] at h3
                injection h3 with h4
                injection h4 with h5 h6
                exact Bool.noConfusion h5
              · rw [if_neg hpb] at h3
                injection h3 with h4
                injection h4 with h5 h6
                have hpmb : pmb = false := by
                  cases hcc : pmb
                  · rfl
                  · exact absurd hcc hpb
                rw [hpmb] at hm
                obtain ⟨hgf, hextf⟩ := hfoldF (dgetD g u [])
                  (false, dset st u 1) (false, pms) hm rfl hr1
                have hgrayu : dgetD pms u 0 = 1 := by
                  apply (hgf u).mpr
                  show dgetD (dset st u 1) u 0 = 1
                  rw [dgetD_dset_self]
                refine ⟨?_, ?_, ?_⟩
                · intro v
                  rw [← h6]
                  show dgetD (dset pms u 2) v 0 = 1 ↔ dgetD st v 0 = 1
                  by_cases hv : v = u
                  · rw [hv, dgetD_dset_self, hu0]
                    constructor
                    · intro hh; exact absurd hh (by omega)
                    · intro hh; exact absurd hh (by omega)
                  · rw [dgetD_dset_ne _ _ _ _ _ hv]
                    have := hgf v
                    rw [show dgetD (dset st u 1) v 0 = dgetD st v 0 from
                      dgetD_dset_ne _ _ _ _ _ hv] at this
                    exact this
                · rw [← h6]
                  show dgetD (dset pms u 2) u 0 = 2
                  rw [dgetD_dset_self]
                · intro hu_vs B hB
                  obtain ⟨hndB, hmemB, hiffB, hedgB⟩ := hB
                  have hunotB : u ∉ B := by
                    intro hh
                    have := (hiffB u).mpr hh
                    rw [hu0] at this
                    exact absurd this (by omega)
                  have hB1 : HCInv g (dset st u 1) B := by
                    refine ⟨hndB, hmemB, ?_, hedgB⟩
                    intro v
                    by_cases hv : v = u
                    · rw [hv, dgetD_dset_self]
                      constructor
                      · intro hh; exact absurd hh (by omega)
                      · intro hh; exact absurd hh hunotB
                    · rw [dgetD_dset_ne _ _ _ _ _ hv]
                      exact hiffB v
                  obtain ⟨t1, ⟨hndB2, hmemB2, hiffB2, hedgB2⟩, hblk⟩ :=
                    hextf (fun v hv => dgetD_targets_mem_allNodesU g u v hv) B hB1
                  have hunotB2 : u ∉ B ++ t1 := by
                    intro hh
                    have := (hiffB2 u).mpr hh
                    rw [hgrayu] at this
                    exact absurd this (by omega)
                  refine ⟨t1 ++ [u], ?_⟩
                  rw [← List.append_assoc, ← h6]
                  refine ⟨nodup_append_singleton _ u hndB2 hunotB2, ?_, ?_, ?_⟩
                  · intro x hx
                    rcases List.mem_append.mp hx with hh | hh
                    · exact hmemB2 x hh
                    · rw [List.mem_singleton] at hh
                      rw [hh]
                      exact hu_vs
                  · intro v
                    show dgetD (dset pms u 2) v 0 = 2 ↔ v ∈ (B ++ t1) ++ [u]
                    by_cases hv : v = u
                    · rw [hv, dgetD_dset_self]
                      simp
                    · rw [dgetD_dset_ne _ _ _ _ _ hv]
                      rw [hiffB2 v]
                      simp only [List.mem_append, List.mem_singleton, hv, or_false]
                  · intro a b he ha
                    rcases List.mem_append.mp ha with hat | hau
                    · obtain ⟨hbm, hbf⟩ := hedgB2 a b he hat
                      exact ⟨List.mem_append_left _ hbm,
                        before_append_right _ _ _ _ hbf⟩
                    · rw [List.mem_singleton] at hau
                      rw [hau] at he
                      obtain ⟨p, hp, hp1, hbp⟩ := he
                      have hdg : dgetD g u [] = p.2 := by
                        have := dget_of_mem_nodup g hnd p hp
                        rw [hp1] at this
                        exact dgetD_of_dget this
                      have hbblack : dgetD pms b 0 = 2 :=
                        hblk b (by rw [hdg]; exact hbp)
                      have hbm : b ∈ B ++ t1 := (hiffB2 b).mp hbblack
                      rw [hau]
                      exact ⟨List.mem_append_left _ hbm,
                        before_append_new _ b u hbm⟩

theorem hcDfs_true (g : UGraph) (hnd : (dkeys g).Nodup) :
    ∀ (fuel : Nat) (u : Int) (st st2 : List (Int × Int)),
      hcDfs g fuel u st = some (true, st2) → StRange st →
      (∀ w, dgetD st w 0 = 1 → ∃ es, es ≠ [] ∧ UWalk g w es u) →
      ∃ v es, es ≠ [] ∧ UWalk g v es v := by
  intro fuel
  induction fuel with
  | zero =>
      intro u st st2 h _ _
      rw [hcDfs] at h
      exact Option.noConfusion h
  | succ fuel ih =>
      intro u st st2 h hr hreach
      have hfoldT : ∀ (l : List Int) (p0 pf : Bool × List (Int × Int)),
          l.foldlM (fun p v => if p.1 = true then some p else hcDfs g fuel v p.2)
            p0 = some pf → p0.1 = false → pf.1 = true → StRange p0.2 →
          (∀ v ∈ l, UEdgeP g u v) →
          (∀ w, dgetD p0.2 w 0 = 1 → w = u ∨ ∃ es, es ≠ [] ∧ UWalk g w es u) →
          ∃ v es, es ≠ [] ∧ UWalk g v es v := by
        intro l
        induction l with
        | nil =>
            intro p0 pf h2 hf0 hf1 _ _ _
            simp only [List.foldlM_nil] at h2
            cases h2
            rw [hf0] at hf1
            exact Bool.noConfusion hf1
        | cons x rest ihl =>
            intro p0 pf h2 hf0 hf1 hr0 hedges hgr
            rw [List.foldlM_cons, if_neg (by rw [hf0]; exact Bool.false_ne_true)] at h2
            cases hfx : hcDfs g fuel x p0.2 with
            | none => rw [hfx] at h2; simp at h2
            | some pm =>
                rw [hfx] at h2
                simp only [Option.bind_eq_bind, Option.some_bind] at h2
                obtain ⟨pmb, pms⟩ := pm
                cases hcc : pmb with
                | true =>
                    rw [hcc] at hfx
                    refine ih x p0.2 pms hfx hr0 ?_
                    intro w hw
                    rcases hgr w hw with hwu | ⟨es, hne, hwk⟩
                    · rw [hwu]
                      exact ⟨[x], by simp,
                        ⟨hedges x (List.mem_cons_self x rest), rfl⟩⟩
                    · refine ⟨es ++ [x], by simp, ?_⟩
                      rw [uwalk_append]
                      exact ⟨u, hwk, ⟨hedges x (List.mem_cons_self x rest), rfl⟩⟩
                | false =>
                    rw [hcc] at hfx h2
                    obtain ⟨hge, -, -⟩ := hcDfs_false g hnd fuel x p0.2 pms hfx hr0
                    refine ihl (false, pms) pf h2 rfl hf1
                      (hcDfs_mono g fuel x p0.2 (false, pms) hfx hr0).2
                      (fun v hv => hedges v (List.mem_cons_of_mem x hv)) ?_
                    intro w hw
                    exact hgr w ((hge w).mp hw)
      rw [hcDfs] at h
      by_cases h1 : dgetD st u 0 = 1
      · obtain ⟨es, hne, hw⟩ := hreach u h1
        exact ⟨u, es, hne, hw⟩
      · rw [if_neg h1] at h
        by_cases h2c : dgetD st u 0 = 2
        · rw [if_pos h2c] at h
          injection h with h2
          injection h2 with h3 h4
          exact Bool.noConfusion h3
        · rw [if_neg h2c] at h
          have hr1 : StRange (dset st u 1) := by
            intro v
            by_cases hv : v = u
            · rw [hv, dgetD_dset_self]
              exact Or.inr (Or.inl rfl)
            · rw [dgetD_dset_ne _ _ _ _ _ hv]
              exact hr v
          cases hm : (dgetD g u []).foldlM
              (fun p v => if p.1 = true then some p else hcDfs g fuel v p.2)
              (false, dset st u 1) with
          | none => rw [hm] at h; exact Option.noConfusion h
          | some pm =>
              rw [hm] at h
              obtain ⟨pmb, pms⟩ := pm
              refine hfoldT (dgetD g u []) (false, dset st u 1) (pmb, pms) hm rfl
                ?_ hr1 (fun v hv => uedgeP_of_dgetD g u v hv) ?_
              · cases hcc : pmb
                · rw [hcc] at h
                  have h3 : (if false = true then some (true, pms)
                      else some ((false, dset pms u 2) :
                        Bool × List (Int × Int))) = some (true, st2) := h
                  rw [if_neg Bool.false_ne_true] at h3
                  injection h3 with h4
                  injection h4 with h5 h6
                · rfl
              · intro w hw
                by_cases hwu : w = u
                · exact Or.inl hwu
                · refine Or.inr (hreach w ?_)
                  rw [show dgetD (dset st u 1) w 0 = dgetD st w 0 from
                    dgetD_dset_ne _ _ _ _ _ hwu] at hw
                  exact hw

theorem hc_outer_total (g : UGraph) (hnd : (dkeys g).Nodup) :
    ∀ (l : List Int), (∀ v ∈ l, v ∈ allNodesU g) →
      ∀ (p : Bool × List (Int × Int)), StRange p.2 →
      ∃ pf, l.foldlM
          (fun p v => if p.1 = true then some p
            else if dgetD p.2 v 0 = 0 then
              hcDfs g ((allNodesU g).length + 1) v p.2 else some p) p = some pf ∧
        StRange pf.2 := by
  intro l
  induction l with
  | nil =>
      intro _ p hr
      exact ⟨p, by simp [List.foldlM_nil], hr⟩
  | cons x rest ihl =>
      intro hall p hr
      by_cases hp : p.1 = true
      · obtain ⟨pf, hrun, hrf⟩ :=
          ihl (fun v hv => hall v (List.mem_cons_of_mem x hv)) p hr
        refine ⟨pf, ?_, hrf⟩
        rw [List.foldlM_cons, if_pos hp]
        simp only [Option.bind_eq_bind, Option.some_bind]
        exact hrun
      · by_cases h0 : dgetD p.2 x 0 = 0
        · cases hfx : hcDfs g ((allNodesU g).length + 1) x p.2 with
          | none =>
              exact absurd hfx (hcDfs_fuel g hnd _ x p.2
                (hall x (List.mem_cons_self x rest)) hr
                (by have := stWhites_le g p.2; omega))
          | some pm =>
              obtain ⟨pf, hrun, hrf⟩ :=
                ihl (fun v hv => hall v (List.mem_cons_of_mem x hv)) pm
                  (hcDfs_mono g _ x p.2 pm hfx hr).2
              refine ⟨pf, ?_, hrf⟩
              rw [List.foldlM_cons, if_neg hp, if_pos h0, hfx]
              simp only [Option.bind_eq_bind, Option.some_bind]
              exact hrun
        · obtain ⟨pf, hrun, hrf⟩ :=
            ihl (fun v hv => hall v (List.mem_cons_of_mem x hv)) p hr
          refine ⟨pf, ?_, hrf⟩
          rw [List.foldlM_cons, if_neg hp, if_neg h0]
          simp only [Option.bind_eq_bind, Option.some_bind]
          exact hrun

theorem hc_outer_stay (g : UGraph) :
    ∀ (l : List Int) (p pf : Bool × List (Int × Int)), p.1 = true →
      l.foldlM
        (fun p v => if p.1 = true then some p
          else if dgetD p.2 v 0 = 0 then
            hcDfs g ((allNodesU g).length + 1) v p.2 else some p) p = some pf →
      pf = p := by
  intro l
  induction l with
  | nil =>
      intro p pf _ h
      simp only [List.foldlM_nil] at h
      cases h
      rfl
  | cons x rest ihl =>
      intro p pf hp h
      rw [List.foldlM_cons, if_pos hp] at h
      simp only [Option.bind_eq_bind, Option.some_bind] at h
      exact ihl p pf hp h

theorem hc_outer_false (g : UGraph) (hnd : (dkeys g).Nodup) :
    ∀ (l : List Int), (∀ v ∈ l, v ∈ allNodesU g) →
      ∀ (p pf : Bool × List (Int × Int)),
      p.1 = false → StRange p.2 → (∀ v, dgetD p.2 v 0 ≠ 1) →
      l.foldlM
        (fun p v => if p.1 = true then some p
          else if dgetD p.2 v 0 = 0 then
            hcDfs g ((allNodesU g).length + 1) v p.2 else some p) p = some pf →
      pf.1 = false →
      ∀ B, HCInv g p.2 B →
      ∃ B2, HCInv g pf.2 B2 ∧ StRange pf.2 ∧ (∀ v, dgetD pf.2 v 0 ≠ 1) ∧
        StMono p.2 pf.2 ∧ (∀ v ∈ l, dgetD pf.2 v 0 = 2) := by
  intro l
  induction l with
  | nil =>
      intro _ p pf hp hr hng h _ B hB
      simp only [List.foldlM_nil] at h
      cases h
      exact ⟨B, hB, hr, hng, fun v => le_refl _, by simp⟩
  | cons x rest ihl =>
      intro hall p pf hp hr hng h hfl B hB
      rw [List.foldlM_cons, if_neg (by rw [hp]; exact Bool.false_ne_true)] at h
      by_cases h0 : dgetD p.2 x 0 = 0
      · rw [if_pos h0] at h
        cases hfx : hcDfs g ((allNodesU g).length + 1) x p.2 with
        | none => rw [hfx] at h; simp at h
        | some pm =>
            rw [hfx] at h
            simp only [Option.bind_eq_bind, Option.some_bind] at h
            obtain ⟨pmb, pms⟩ := pm
            have hpmb : pmb = false := by
              cases hcc : pmb
              · rfl
              · rw [hcc] at h
                have := hc_outer_stay g rest (true, pms) pf rfl h
                rw [this] at hfl
                exact Bool.noConfusion hfl
            rw [hpmb] at hfx h
            obtain ⟨hge, hxb, hext⟩ :=
              hcDfs_false g hnd _ x p.2 pms hfx hr
            obtain ⟨t1, hB1⟩ := hext (hall x (List.mem_cons_self x rest)) B hB
            have hrm : StRange pms :=
              (hcDfs_mono g _ x p.2 (false, pms) hfx hr).2
            have hngm : ∀ v, dgetD pms v 0 ≠ 1 := by
              intro v hv
              exact hng v ((hge v).mp hv)
            obtain ⟨B2, hB2, hr2, hng2, hm2, hblk⟩ :=
              ihl (fun v hv => hall v (List.mem_cons_of_mem x hv)) (false, pms)
                pf rfl hrm hngm h hfl (B ++ t1) hB1
            refine ⟨B2, hB2, hr2, hng2, ?_, ?_⟩
            · intro v
              exact le_trans ((hcDfs_mono g _ x p.2 (false, pms) hfx hr).1 v)
                (hm2 v)
            · intro v hv
              rcases List.mem_cons.mp hv with hvx | hvr
              · rw [hvx]
                have := hm2 x
                rw [show ((false, pms) : Bool × List (Int × Int)).2 = pms
                  from rfl] at this
                rw [hxb] at this
                rcases hr2 x with hh | hh | hh <;> omega
              · exact hblk v hvr
      · rw [if_neg h0] at h
        simp only [Option.bind_eq_bind, Option.some_bind] at h
        obtain ⟨B2, hB2, hr2, hng2, hm2, hblk⟩ :=
          ihl (fun v hv => hall v (List.mem_cons_of_mem x hv)) p pf hp hr hng
            h hfl B hB
        refine ⟨B2, hB2, hr2, hng2, hm2, ?_⟩
        intro v hv
        rcases List.mem_cons.mp hv with hvx | hvr
        · rw [hvx]
          have hxb : dgetD p.2 x 0 = 2 := by
            rcases hr x with hh | hh | hh
            · exact absurd hh h0
            · exact absurd hh (hng x)
            · exact hh
          have := hm2 x
          rw [hxb] at this
          rcases hr2 x with hh | hh | hh <;> omega
        · exact hblk v hvr

theorem hc_outer_true (g : UGraph) (hnd : (dkeys g).Nodup) :
    ∀ (l : List Int), (∀ v ∈ l, v ∈ allNodesU g) →
      ∀ (p pf : Bool × List (Int × Int)),
      p.1 = false → StRange p.2 → (∀ v, dgetD p.2 v 0 ≠ 1) →
      l.foldlM
        (fun p v => if p.1 = true then some p
          else if dgetD p.2 v 0 = 0 then
            hcDfs g ((allNodesU g).length + 1) v p.2 else some p) p = some pf →
      pf.1 = true →
      ∃ v es, es ≠ [] ∧ UWalk g v es v := by
  intro l
  induction l with
  | nil =>
      intro _ p pf hp _ _ h hfl
      simp only [List.foldlM_nil] at h
      cases h
      rw [hp] at hfl
      exact Bool.noConfusion hfl
  | cons x rest ihl =>
      intro hall p pf hp hr hng h hfl
      rw [List.foldlM_cons, if_neg (by rw [hp]; exact Bool.false_ne_true)] at h
      by_cases h0 : dgetD p.2 x 0 = 0
      · rw [if_pos h0] at h
        cases hfx : hcDfs g ((allNodesU g).length + 1) x p.2 with
        | none => rw [hfx] at h; simp at h
        | some pm =>
            rw [hfx] at h
            simp only [Option.bind_eq_bind, Option.some_bind] at h
            obtain ⟨pmb, pms⟩ := pm
            cases hcc : pmb with
            | true =>
                rw [hcc] at hfx
                refine hcDfs_true g hnd _ x p.2 pms hfx hr ?_
                intro w hw
                exact absurd hw (hng w)
            | false =>
                rw [hcc] at hfx h
                obtain ⟨hge, -, -⟩ :=
                  hcDfs_false g hnd _ x p.2 pms hfx hr
                refine ihl (fun v hv => hall v (List.mem_cons_of_mem x hv))
                  (false, pms) pf rfl
                  (hcDfs_mono g _ x p.2 (false, pms) hfx hr).2 ?_ h hfl
                intro w hw
                exact hng w ((hge w).mp hw)
      · rw [if_neg h0] at h
        simp only [Option.bind_eq_bind, Option.some_bind] at h
        exact ihl (fun v hv => hall v (List.mem_cons_of_mem x hv)) p pf hp hr
          hng h hfl

theorem has_cycle_dag (g : UGraph) (hnd : (dkeys g).Nodup) (hac : AcyclicU g) :
    has_cycle g = some false := by
  have hrinit : StRange ((allNodesU g).map (fun v => (v, (0 : Int)))) := by
    intro v
    rw [dgetD_map_zero]
    exact Or.inl rfl
  have hnginit : ∀ v,
      dgetD ((allNodesU g).map (fun v => (v, (0 : Int)))) v 0 ≠ 1 := by
    intro v
    rw [dgetD_map_zero]
    omega
  obtain ⟨pf, hrun, -⟩ := hc_outer_total g hnd (allNodesU g) (fun v hv => hv)
    (false, (allNodesU g).map (fun v => (v, 0))) hrinit
  have hpf : pf.1 = false := by
    cases hcc : pf.1
    · rfl
    · obtain ⟨v, es, hne, hw⟩ := hc_outer_true g hnd (allNodesU g)
        (fun v hv => hv) _ pf rfl hrinit hnginit hrun hcc
      exact absurd ⟨v, es, hne, hw⟩ hac
  unfold has_cycle
  rw [hrun]
  show some pf.1 = some false
  rw [hpf]

theorem has_cycle_cyc (g : UGraph) (hnd : (dkeys g).Nodup) (hcy : ¬ AcyclicU g) :
    has_cycle g = some true := by
  obtain ⟨v, es, hne, hw⟩ := not_not.mp hcy
  have hrinit : StRange ((allNodesU g).map (fun v => (v, (0 : Int)))) := by
    intro v
    rw [dgetD_map_zero]
    exact Or.inl rfl
  have hnginit : ∀ v,
      dgetD ((allNodesU g).map (fun v => (v, (0 : Int)))) v 0 ≠ 1 := by
    intro v
    rw [dgetD_map_zero]
    omega
  have hBinit : HCInv g ((allNodesU g).map (fun v => (v, (0 : Int)))) [] := by
    refine ⟨List.nodup_nil, by simp, ?_, ?_⟩
    · intro v
      rw [dgetD_map_zero]
      constructor
      · intro hh; exact absurd hh (by omega)
      · intro hh; exact absurd hh (List.not_mem_nil v)
    · intro a b he ha
      exact absurd ha (List.not_mem_nil a)
  obtain ⟨pf, hrun, -⟩ := hc_outer_total g hnd (allNodesU g) (fun v hv => hv)
    (false, (allNodesU g).map (fun v => (v, 0))) hrinit
  have hpf : pf.1 = true := by
    cases hcc : pf.1
    · exfalso
      obtain ⟨B2, ⟨hndB, hmemB, hiffB, hedgB⟩, -, -, -, hblk⟩ :=
        hc_outer_false g hnd (allNodesU g) (fun v hv => hv) _ pf rfl hrinit
          hnginit hrun hcc [] hBinit
      have hvvs : v ∈ allNodesU g := by
        cases es with
        | nil => exact absurd rfl hne
        | cons x xs => exact (uedge_mem_allNodesU g v x hw.1).1
      have hvB : v ∈ B2 := (hiffB v).mp (hblk v hvvs)
      have := (dfs_walk_topo g B2 hndB hedgB es v v hw hvB).2 hne
      omega
    · rfl
  unfold has_cycle
  rw [hrun]
  show some pf.1 = some true
  rw [hpf]

/-- C5: for a graph with distinct adjacency keys, on acyclic inputs
topological_sort_kahn and topological_sort_dfs both return an ordering
containing every node (keys and edge targets) exactly once that places every
edge's source before its target, and has_cycle returns False; on an input
with a directed cycle both sorts return None and has_cycle returns True. -/
theorem topological_sorts_spec (g : UGraph) (hnd : (dkeys g).Nodup) :
    (AcyclicU g →
      ∃ ok od,
        topological_sort_kahn g = some (some ok) ∧
        topological_sort_dfs g = some (some od) ∧
        ok.Perm (allNodesU g) ∧ od.Perm (allNodesU g) ∧
        (∀ u v, UEdgeP g u v → ok.indexOf u < ok.indexOf v) ∧
        (∀ u v, UEdgeP g u v → od.indexOf u < od.indexOf v) ∧
        has_cycle g = some false) ∧
    (¬ AcyclicU g →
      topological_sort_kahn g = some none ∧
      topological_sort_dfs g = some none ∧
      has_cycle g = some true) := by
  constructor
  · intro hac
    obtain ⟨ok, hk1, hk2, hk3⟩ := kahn_dag g hnd hac
    obtain ⟨od, hd1, hd2, hd3⟩ := topological_sort_dfs_dag g hnd hac
    exact ⟨ok, od, hk1, hd1, hk2, hd2, hk3, hd3, has_cycle_dag g hnd hac⟩
  · intro hcy
    exact ⟨kahn_cyc g hnd hcy, topological_sort_dfs_cyc g hnd hcy,
      has_cycle_cyc g hnd hcy⟩

theorem topological_sorts_spec_witness :
    ((dkeys [((0 : Int), [(1 : Int), 2]), (1, [3]), (2, [3]), (3, [])]).Nodup ∧
     AcyclicU [((0 : Int), [(1 : Int), 2]), (1, [3]), (2, [3]), (3, [])] ∧
     (∃ ok od,
        topological_sort_kahn
          [((0 : Int), [(1 : Int), 2]), (1, [3]), (2, [3]), (3, [])] =
          some (some ok) ∧
        topological_sort_dfs
          [((0 : Int), [(1 : Int), 2]), (1, [3]), (2, [3]), (3, [])] =
          some (some od) ∧
        ok.Perm (allNodesU
          [((0 : Int), [(1 : Int), 2]), (1, [3]), (2, [3]), (3, [])]) ∧
        od.Perm (allNodesU
          [((0 : Int), [(1 : Int), 2]), (1, [3]), (2, [3]), (3, [])]) ∧
        (∀ u v, UEdgeP [((0 : Int), [(1 : Int), 2]), (1, [3]), (2, [3]), (3, [])]
          u v → ok.indexOf u < ok.indexOf v) ∧
        (∀ u v, UEdgeP [((0 : Int), [(1 : Int), 2]), (1, [3]), (2, [3]), (3, [])]
          u v → od.indexOf u < od.indexOf v) ∧
        has_cycle [((0 : Int), [(1 : Int), 2]), (1, [3]), (2, [3]), (3, [])] =
          some false)) ∧
    ((dkeys [((0 : Int), [(1 : Int)]), (1, [2]), (2, [0])]).Nodup ∧
     ¬ AcyclicU [((0 : Int), [(1 : Int)]), (1, [2]), (2, [0])] ∧
     (topological_sort_kahn [((0 : Int), [(1 : Int)]), (1, [2]), (2, [0])] =
        some none ∧
      topological_sort_dfs [((0 : Int), [(1 : Int)]), (1, [2]), (2, [0])] =
        some none ∧
      has_cycle [((0 : Int), [(1 : Int)]), (1, [2]), (2, [0])] = some true)) := by
  have hacd : AcyclicU [((0 : Int), [(1 : Int), 2]), (1, [3]), (2, [3]), (3, [])] :=
    rank_acyclic _ (fun v => v.toNat) (by decide)
  have hcyc : ¬ AcyclicU [((0 : Int), [(1 : Int)]), (1, [2]), (2, [0])] :=
    fun hac => hac ⟨0, [1, 2, 0], by decide, by decide⟩
  exact ⟨⟨by decide, hacd, (topological_sorts_spec _ (by decide)).1 hacd⟩,
    ⟨by decide, hcyc, (topological_sorts_spec _ (by decide)).2 hcyc⟩⟩

/-! ## C1: dijkstra and bellman_ford agree on non-negative graphs -/

/-- Every edge weight in the graph is non-negative. -/
def NonNeg (g : WGraph) : Prop :=
  ∀ p ∈ g, ∀ e ∈ p.2, 0 ≤ e.2

/-- Every finite recorded distance is the weight of an actual walk from
start. -/
def Realizable (g : WGraph) (start : Int) (dist : DistMap) : Prop :=
  ∀ v d, dgetD dist v none = some d →
    ∃ es, IsWalk g start es v ∧ walkWeight es = d

theorem edle_antisymm {a b : EDist} (h1 : edle a b) (h2 : edle b a) : a = b := by
  cases a with
  | none =>
      cases b with
      | none => rfl
      | some t =>
          obtain ⟨x, hx, -⟩ := h1 t rfl
          exact Option.noConfusion hx
  | some s =>
      cases b with
      | none =>
          obtain ⟨x, hx, -⟩ := h2 s rfl
          exact Option.noConfusion hx
      | some t =>
          obtain ⟨x, hx, hxt⟩ := h1 t rfl
          obtain ⟨y, hy, hys⟩ := h2 s rfl
          injection hx with hx2
          injection hy with hy2
          have hst : s = t := by omega
          rw [hst]

theorem eadd_mono {a b : EDist} (w : Int) (h : edle a b) :
    edle (eadd a w) (eadd b w) := by
  intro y hy
  cases b with
  | none => exact absurd hy (by simp [eadd])
  | some t =>
      have hy2 : t + w = y := by simpa [eadd] using hy
      obtain ⟨x, hx, hxt⟩ := h t rfl
      exact ⟨x + w, by rw [hx]; rfl, by omega⟩

theorem charac_le (g : WGraph) (start : Int) (d1 d2 : DistMap)
    (hc1 : RelaxClosed g d1) (hs1 : edle (dgetD d1 start none) (some 0))
    (hr2 : Realizable g start d2) :
    ∀ v, edle (dgetD d1 v none) (dgetD d2 v none) := by
  intro v y hy
  obtain ⟨es, hw, hwt⟩ := hr2 v y hy
  obtain ⟨a, ha, ha0⟩ := hs1 0 rfl
  obtain ⟨b, hb, hbw⟩ := relaxClosed_walk g d1 hc1 es start v hw a ha
  exact ⟨b, hb, by omega⟩

theorem charac_unique (g : WGraph) (start : Int) (d1 d2 : DistMap)
    (hc1 : RelaxClosed g d1) (hs1 : edle (dgetD d1 start none) (some 0))
    (hr1 : Realizable g start d1)
    (hc2 : RelaxClosed g d2) (hs2 : edle (dgetD d2 start none) (some 0))
    (hr2 : Realizable g start d2) :
    ∀ v, dgetD d1 v none = dgetD d2 v none := by
  intro v
  exact edle_antisymm (charac_le g start d1 d2 hc1 hs1 hr2 v)
    (charac_le g start d2 d1 hc2 hs2 hr1 v)

theorem walk_last (g : WGraph) :
    ∀ (es : List (Int × Int)) (e : Int × Int) (u v : Int),
      IsWalk g u (es ++ [e]) v → v = e.1 := by
  intro es
  induction es with
  | nil =>
      intro e u v h
      obtain ⟨-, h2⟩ := h
      exact (h2 : e.1 = v).symm
  | cons x xs ih =>
      intro e u v h
      obtain ⟨-, h2⟩ := h
      exact ih e x.1 v h2

theorem isWalk_snoc (g : WGraph) (start u v w : Int) (es : List (Int × Int))
    (hw : IsWalk g start es u) (he : Edge g u v w) :
    IsWalk g start (es ++ [(v, w)]) v :=
  (isWalk_append g es [(v, w)] start v).mpr ⟨u, hw, ⟨he, rfl⟩⟩

theorem walkWeight_nil : walkWeight [] = 0 := rfl

theorem walkWeight_cons (e : Int × Int) (es : List (Int × Int)) :
    walkWeight (e :: es) = e.2 + walkWeight es := by
  simp [walkWeight]

theorem walk_weight_nonneg (g : WGraph) (hnn : NonNeg g) :
    ∀ (es : List (Int × Int)) (u v : Int), IsWalk g u es v →
      0 ≤ walkWeight es := by
  intro es
  induction es with
  | nil => intro u v _; simp [walkWeight]
  | cons e rest ih =>
      rcases e with ⟨x, w⟩
      intro u v h
      obtain ⟨⟨p, hp, -, hmem⟩, hrest⟩ := h
      have hw0 : 0 ≤ w := hnn p hp (x, w) hmem
      have := ih x v hrest
      rw [walkWeight_cons]
      omega

theorem bfInit_other (vertices : List Int) (start v : Int) (hv : v ≠ start) :
    dgetD (bfInit vertices start) v none = none := by
  rw [bfInit, dgetD, dget_dset_ne _ _ _ _ hv]
  rcases dget_map_const vertices v (none : EDist) with h | h <;> rw [h] <;> rfl

theorem bfCheck_true_relaxable (dist : DistMap) :
    ∀ gl, bfCheck dist gl = true →
      ∃ u v w, (∃ p ∈ gl, p.1 = u ∧ (v, w) ∈ p.2) ∧
        eltB (eadd (dgetD dist u none) w) (dgetD dist v none) = true := by
  intro gl
  induction gl with
  | nil => intro h; exact absurd h (by simp [bfCheck])
  | cons p rest ih =>
      intro h
      obtain ⟨u, adj⟩ := p
      rw [bfCheck] at h
      by_cases hdu : dgetD dist u none = none
      · rw [if_pos hdu] at h
        obtain ⟨u2, v2, w2, ⟨q, hq, hq1, hq2⟩, hrel⟩ := ih h
        exact ⟨u2, v2, w2, ⟨q, List.mem_cons_of_mem _ hq, hq1, hq2⟩, hrel⟩
      · rw [if_neg hdu] at h
        by_cases hany : adj.any
            (fun e => eltB (eadd (dgetD dist u none) e.2) (dgetD dist e.1 none)) = true
        · obtain ⟨e, he, hrel⟩ := List.any_eq_true.mp hany
          exact ⟨u, e.1, e.2, ⟨(u, adj), List.mem_cons_self _ _, rfl, by
            rw [show ((e.1 : Int), (e.2 : Int)) = e from rfl]; exact he⟩, hrel⟩
        · rw [if_neg hany] at h
          obtain ⟨u2, v2, w2, ⟨q, hq, hq1, hq2⟩, hrel⟩ := ih h
          exact ⟨u2, v2, w2, ⟨q, List.mem_cons_of_mem _ hq, hq1, hq2⟩, hrel⟩

theorem eltB_true_edle {a b : EDist} (h : eltB a b = true) : edle a b := by
  intro y hy
  obtain ⟨s, hs⟩ := eltB_some_left h
  have := eltB_true_lt h hs y hy
  exact ⟨s, hs, by omega⟩

theorem bfRelaxEdges_realizable (g : WGraph) (start u : Int) :
    ∀ (adj : List (Int × Int)) (dist : DistMap) (upd : Bool),
      (∀ e ∈ adj, Edge g u e.1 e.2) →
      Realizable g start dist →
      Realizable g start (bfRelaxEdges u dist upd adj).1 := by
  intro adj
  induction adj with
  | nil => intro dist upd _ hreal; exact hreal
  | cons e rest ih =>
      rcases e with ⟨v, w⟩
      intro dist upd hadj hreal
      rw [bfRelaxEdges]
      by_cases hc : eltB (eadd (dgetD dist u none) w) (dgetD dist v none) = true
      · rw [if_pos hc]
        refine ih _ true (fun e he => hadj e (List.mem_cons_of_mem _ he)) ?_
        intro x d hx
        by_cases hxv : x = v
        · rw [hxv]
          rw [hxv, dgetD_dset_self] at hx
          obtain ⟨a, ha, hna⟩ := eadd_some hx
          obtain ⟨es, hw1, hw2⟩ := hreal u a ha
          refine ⟨es ++ [(v, w)], isWalk_snoc g start u v w es hw1
            (hadj (v, w) (List.mem_cons_self _ _)), ?_⟩
          rw [walkWeight_append]
          rw [show walkWeight [(v, w)] = w from by simp [walkWeight]]
          omega
        · rw [dgetD_dset_ne _ _ _ _ _ hxv] at hx
          exact hreal x d hx
      · rw [if_neg hc]
        exact ih dist upd (fun e he => hadj e (List.mem_cons_of_mem _ he)) hreal

theorem bfRound_realizable (g : WGraph) (start : Int) :
    ∀ (gl : List (Int × List (Int × Int))), (∀ p ∈ gl, p ∈ g) →
      ∀ (dist : DistMap) (upd : Bool), Realizable g start dist →
      Realizable g start (bfRound dist upd gl).1 := by
  intro gl
  induction gl with
  | nil => intro _ dist upd hreal; exact hreal
  | cons p rest ih =>
      rcases p with ⟨u, adj⟩
      intro hsub dist upd hreal
      rw [bfRound]
      by_cases hdu : dgetD dist u none = none
      · rw [if_pos hdu]
        exact ih (fun q hq => hsub q (List.mem_cons_of_mem _ hq)) dist upd hreal
      · rw [if_neg hdu]
        have hadj : ∀ e ∈ adj, Edge g u e.1 e.2 := by
          intro e he
          exact ⟨(u, adj), hsub (u, adj) (List.mem_cons_self _ _), rfl, by
            rw [show ((e.1 : Int), (e.2 : Int)) = e from rfl]; exact he⟩
        exact ih (fun q hq => hsub q (List.mem_cons_of_mem _ hq)) _ _
          (bfRelaxEdges_realizable g start u adj dist upd hadj hreal)

theorem bfRounds_realizable (g : WGraph) (start : Int) :
    ∀ (n : Nat) (dist : DistMap), Realizable g start dist →
      Realizable g start (bfRounds g n dist) := by
  intro n
  induction n with
  | zero => intro dist h; exact h
  | succ n ih =>
      intro dist h
      show Realizable g start
        (if (bfRound dist false g).2 = true then bfRounds g n (bfRound dist false g).1
          else (bfRound dist false g).1)
      have hnext : Realizable g start (bfRound dist false g).1 :=
        bfRound_realizable g start g (fun q hq => hq) dist false h
      by_cases hupd : (bfRound dist false g).2 = true
      · rw [if_pos hupd]
        exact ih _ hnext
      · rw [if_neg hupd]
        exact hnext

theorem bfInit_realizable (g : WGraph) (start : Int) (vs : List Int) :
    Realizable g start (bfInit vs start) := by
  intro v d h
  by_cases hv : v = start
  · rw [hv, bfInit_start] at h
    injection h with h2
    refine ⟨[], by rw [hv]; rfl, by rw [walkWeight_nil, h2]⟩
  · rw [bfInit_other vs start v hv] at h
    exact Option.noConfusion h

theorem bfRelaxEdges_relax (u : Int) :
    ∀ (adj : List (Int × Int)) (dist : DistMap) (upd : Bool) (v w : Int),
      (v, w) ∈ adj →
      edle (dgetD (bfRelaxEdges u dist upd adj).1 v none)
        (eadd (dgetD dist u none) w) := by
  intro adj
  induction adj with
  | nil => intro dist upd v w hmem; exact absurd hmem (List.not_mem_nil _)
  | cons e rest ih =>
      rcases e with ⟨v0, w0⟩
      intro dist upd v w hmem
      rw [bfRelaxEdges]
      by_cases hc : eltB (eadd (dgetD dist u none) w0) (dgetD dist v0 none) = true
      · rw [if_pos hc]
        have hstep : ∀ x, edle (dgetD (dset dist v0 (eadd (dgetD dist u none) w0)) x none)
            (dgetD dist x none) := by
          intro x
          by_cases hx : x = v0
          · rw [hx, dgetD_dset_self]
            exact eltB_true_edle hc
          · rw [dgetD_dset_ne _ _ _ _ _ hx]
            exact edle_refl _
        rcases List.mem_cons.mp hmem with hh | hh
        · injection hh with h1 h2
          rw [h1, h2]
          refine edle_trans (bfRelaxEdges_mono u rest _ true v0) ?_
          rw [dgetD_dset_self]
          exact edle_refl _
        · refine edle_trans (ih _ true v w hh) ?_
          exact eadd_mono w (hstep u)
      · rw [if_neg hc]
        rcases List.mem_cons.mp hmem with hh | hh
        · injection hh with h1 h2
          rw [h1, h2]
          refine edle_trans (bfRelaxEdges_mono u rest dist upd v0) ?_
          have hcf : eltB (eadd (dgetD dist u none) w0) (dgetD dist v0 none) = false := by
            cases hb : eltB (eadd (dgetD dist u none) w0) (dgetD dist v0 none)
            · rfl
            · exact absurd hb hc
          exact eltB_false_edle hcf
        · exact ih dist upd v w hh

theorem bfRound_relax :
    ∀ (gl : List (Int × List (Int × Int))) (dist : DistMap) (upd : Bool),
      ∀ p ∈ gl, ∀ e ∈ p.2,
      edle (dgetD (bfRound dist upd gl).1 e.1 none)
        (eadd (dgetD dist p.1 none) e.2) := by
  intro gl
  induction gl with
  | nil => intro dist upd p hp; exact absurd hp (List.not_mem_nil _)
  | cons q rest ih =>
      rcases q with ⟨u, adj⟩
      intro dist upd p hp e he
      rw [bfRound]
      by_cases hdu : dgetD dist u none = none
      · rw [if_pos hdu]
        rcases List.mem_cons.mp hp with hh | hh
        · rw [hh]
          show edle _ (eadd (dgetD dist u none) e.2)
          rw [hdu]
          rw [show eadd none e.2 = none from rfl]
          exact edle_none _
        · exact ih dist upd p hh e he
      · rw [if_neg hdu]
        rcases List.mem_cons.mp hp with hh | hh
        · have hrel := bfRelaxEdges_relax u adj dist upd e.1 e.2 (by
            rw [hh] at he
            rw [show ((e.1 : Int), (e.2 : Int)) = e from rfl]
            exact he)
          refine edle_trans (bfRound_mono rest _ _ e.1) ?_
          rw [hh]
          exact hrel
        · refine edle_trans (ih _ _ p hh e he) ?_
          exact eadd_mono e.2 (bfRelaxEdges_mono u adj dist upd p.1)

theorem bfRelaxEdges_upd_true (u : Int) :
    ∀ (adj : List (Int × Int)) (dist : DistMap),
      (bfRelaxEdges u dist true adj).2 = true := by
  intro adj
  induction adj with
  | nil => intro dist; rfl
  | cons e rest ih =>
      rcases e with ⟨v, w⟩
      intro dist
      rw [bfRelaxEdges]
      by_cases hc : eltB (eadd (dgetD dist u none) w) (dgetD dist v none) = true
      · rw [if_pos hc]; exact ih _
      · rw [if_neg hc]; exact ih dist

theorem bfRelaxEdges_noupd (u : Int) :
    ∀ (adj : List (Int × Int)) (dist : DistMap),
      (bfRelaxEdges u dist false adj).2 = false →
      (bfRelaxEdges u dist false adj).1 = dist ∧
        ∀ e ∈ adj, edle (dgetD dist e.1 none) (eadd (dgetD dist u none) e.2) := by
  intro adj
  induction adj with
  | nil => intro dist _; exact ⟨rfl, by simp⟩
  | cons e rest ih =>
      rcases e with ⟨v, w⟩
      intro dist h
      rw [bfRelaxEdges] at h ⊢
      by_cases hc : eltB (eadd (dgetD dist u none) w) (dgetD dist v none) = true
      · rw [if_pos hc] at h
        rw [bfRelaxEdges_upd_true u rest _] at h
        exact Bool.noConfusion h
      · rw [if_neg hc] at h ⊢
        obtain ⟨h1, h2⟩ := ih dist h
        refine ⟨h1, ?_⟩
        intro e he
        rcases List.mem_cons.mp he with hh | hh
        · rw [hh]
          show edle (dgetD dist v none) (eadd (dgetD dist u none) w)
          have hcf : eltB (eadd (dgetD dist u none) w) (dgetD dist v none) = false := by
            cases hb : eltB (eadd (dgetD dist u none) w) (dgetD dist v none)
            · rfl
            · exact absurd hb hc
          exact eltB_false_edle hcf
        · exact h2 e hh

theorem bfRound_upd_true :
    ∀ (gl : List (Int × List (Int × Int))) (dist : DistMap),
      (bfRound dist true gl).2 = true := by
  intro gl
  induction gl with
  | nil => intro dist; rfl
  | cons p rest ih =>
      rcases p with ⟨u, adj⟩
      intro dist
      rw [bfRound]
      by_cases hdu : dgetD dist u none = none
      · rw [if_pos hdu]; exact ih dist
      · rw [if_neg hdu]
        have := bfRelaxEdges_upd_true u adj dist
        show (bfRound (bfRelaxEdges u dist true adj).1
          (bfRelaxEdges u dist true adj).2 rest).2 = true
        rw [this]
        exact ih _

theorem bfRound_noupd :
    ∀ (gl : List (Int × List (Int × Int))) (dist : DistMap),
      (bfRound dist false gl).2 = false →
      (bfRound dist false gl).1 = dist ∧
        ∀ p ∈ gl, ∀ e ∈ p.2,
          edle (dgetD dist e.1 none) (eadd (dgetD dist p.1 none) e.2) := by
  intro gl
  induction gl with
  | nil => intro dist _; exact ⟨rfl, by simp⟩
  | cons q rest ih =>
      rcases q with ⟨u, adj⟩
      intro dist h
      rw [bfRound] at h ⊢
      by_cases hdu : dgetD dist u none = none
      · rw [if_pos hdu] at h ⊢
        obtain ⟨h1, h2⟩ := ih dist h
        refine ⟨h1, ?_⟩
        intro p hp e he
        rcases List.mem_cons.mp hp with hh | hh
        · rw [hh]
          show edle _ (eadd (dgetD dist u none) e.2)
          rw [hdu]
          rw [show eadd none e.2 = none from rfl]
          exact edle_none _
        · exact h2 p hh e he
      · rw [if_neg hdu] at h ⊢
        have hupd2 : (bfRelaxEdges u dist false adj).2 = false := by
          cases hb : (bfRelaxEdges u dist false adj).2
          · rfl
          · exfalso
            have hsplit : (bfRound (bfRelaxEdges u dist false adj).1
                (bfRelaxEdges u dist false adj).2 rest).2 = false := h
            rw [hb] at hsplit
            rw [bfRound_upd_true rest _] at hsplit
            exact Bool.noConfusion hsplit
        obtain ⟨hre1, hre2⟩ := bfRelaxEdges_noupd u adj dist hupd2
        have hsplit : (bfRound (bfRelaxEdges u dist false adj).1
            (bfRelaxEdges u dist false adj).2 rest).2 = false := h
        rw [hupd2, hre1] at hsplit
        obtain ⟨h1, h2⟩ := ih dist hsplit
        constructor
        · show (bfRound (bfRelaxEdges u dist false adj).1
            (bfRelaxEdges u dist false adj).2 rest).1 = dist
          rw [hupd2, hre1]
          exact h1
        intro p hp e he
        rcases List.mem_cons.mp hp with hh | hh
        · rw [hh]
          rw [hh] at he
          exact hre2 e he
        · exact h2 p hh e he

/-- After k rounds every walk from start of length at most k bounds the
recorded distance. -/
def BoundedBy (g : WGraph) (start : Int) (dist : DistMap) (k : Nat) : Prop :=
  ∀ v es, IsWalk g start es v → es.length ≤ k →
    edle (dgetD dist v none) (some (walkWeight es))

theorem boundedBy_init (g : WGraph) (start : Int) (vs : List Int) :
    BoundedBy g start (bfInit vs start) 0 := by
  intro v es hw hlen
  have hes : es = [] := List.length_eq_zero.mp (Nat.le_zero.mp hlen)
  subst hes
  have hv : start = v := hw
  rw [← hv, bfInit_start, walkWeight_nil]
  exact edle_refl _

theorem bfRound_bounded (g : WGraph) (start : Int) (dist : DistMap) (upd : Bool)
    (k : Nat) (hb : BoundedBy g start dist k) :
    BoundedBy g start (bfRound dist upd g).1 (k + 1) := by
  intro v es hw hlen
  rcases List.eq_nil_or_concat es with hes | ⟨es2, e, hes⟩
  · subst hes
    have hv : start = v := hw
    refine edle_trans (bfRound_mono g dist upd v) ?_
    rw [← hv]
    exact hb start [] rfl (Nat.zero_le _)
  · subst hes
    rcases e with ⟨x, w⟩
    rw [List.concat_eq_append] at hw hlen ⊢
    obtain ⟨m, hw1, hw2⟩ := (isWalk_append g es2 [(x, w)] start v).mp hw
    obtain ⟨hE, hend⟩ := hw2
    have hvx : x = v := hend
    obtain ⟨p, hp, hp1, hmem⟩ := hE
    have hlen2 : es2.length ≤ k := by
      rw [List.length_append] at hlen
      simp at hlen
      omega
    have hbm := hb m es2 hw1 hlen2
    have hrel := bfRound_relax g dist upd p hp (x, w) hmem
    rw [hp1] at hrel
    rw [← hvx]
    refine edle_trans hrel ?_
    refine edle_trans (eadd_mono w hbm) ?_
    rw [show eadd (some (walkWeight es2)) w = some (walkWeight es2 + w) from rfl]
    rw [walkWeight_append]
    rw [show walkWeight [(x, w)] = w from by simp [walkWeight]]
    exact edle_refl _

theorem bfRounds_bounded (g : WGraph) (start : Int) :
    ∀ (n : Nat) (dist : DistMap) (k : Nat), BoundedBy g start dist k →
      edle (dgetD dist start none) (some 0) →
      BoundedBy g start (bfRounds g n dist) (k + n) := by
  intro n
  induction n with
  | zero => intro dist k hb _; rw [Nat.add_zero]; exact hb
  | succ n ih =>
      intro dist k hb hs
      show BoundedBy g start
        (if (bfRound dist false g).2 = true then bfRounds g n (bfRound dist false g).1
          else (bfRound dist false g).1) (k + (n + 1))
      by_cases hupd : (bfRound dist false g).2 = true
      · rw [if_pos hupd]
        have hnext := bfRound_bounded g start dist false k hb
        have hs2 : edle (dgetD (bfRound dist false g).1 start none) (some 0) :=
          edle_trans (bfRound_mono g dist false start) hs
        have := ih (bfRound dist false g).1 (k + 1) hnext hs2
        rw [show k + (n + 1) = (k + 1) + n from by omega]
        exact this
      · rw [if_neg hupd]
        have hupd2 : (bfRound dist false g).2 = false := by
          cases hb2 : (bfRound dist false g).2
          · rfl
          · exact absurd hb2 hupd
        obtain ⟨h1, h2⟩ := bfRound_noupd g dist hupd2
        rw [h1]
        intro v es hw _
        have hclosed : RelaxClosed g dist := by
          intro a b w hE
          obtain ⟨p, hp, hp1, hmem⟩ := hE
          have := h2 p hp (b, w) hmem
          rw [hp1] at this
          exact this
        obtain ⟨a, ha, ha0⟩ := hs 0 rfl
        obtain ⟨b, hbv, hbw⟩ := relaxClosed_walk g dist hclosed es start v hw a ha
        intro y hy
        injection hy with hy2
        exact ⟨b, hbv, by omega⟩

theorem map_eq_append_cons {α β : Type} (f : α → β) :
    ∀ (l : List α) (X : List β) (y : β) (Z : List β), l.map f = X ++ y :: Z →
      ∃ l1 a l2, l = l1 ++ a :: l2 ∧ l1.map f = X ∧ f a = y ∧ l2.map f = Z := by
  intro l
  induction l with
  | nil =>
      intro X y Z h
      rw [List.map_nil] at h
      cases X <;> exact absurd h.symm (by simp)
  | cons b bs ih =>
      intro X y Z h
      rw [List.map_cons] at h
      cases X with
      | nil =>
          rw [List.nil_append] at h
          injection h with h1 h2
          exact ⟨[], b, bs, rfl, rfl, h1, h2⟩
      | cons x Xt =>
          rw [List.cons_append] at h
          injection h with h1 h2
          obtain ⟨l1, a, l2, hl, hm1, hm2, hm3⟩ := ih Xt y Z h2
          exact ⟨b :: l1, a, l2, by rw [hl]; rfl, by rw [List.map_cons, hm1, h1],
            hm2, hm3⟩

theorem walk_targets_mem (g : WGraph) :
    ∀ (es : List (Int × Int)) (u v : Int), IsWalk g u es v →
      ∀ e ∈ es, e.1 ∈ collectNodes (dkeys g) g := by
  intro es
  induction es with
  | nil => intro u v _ e he; exact absurd he (List.not_mem_nil e)
  | cons e0 rest ih =>
      rcases e0 with ⟨x, w⟩
      intro u v hw e he
      obtain ⟨⟨p, hp, -, hmem⟩, hrest⟩ := hw
      rcases List.mem_cons.mp he with hh | hh
      · rw [hh]
        exact mem_collectNodes_target g (dkeys g) p hp (x, w) hmem
      · exact ih x v hrest e hh

theorem walk_cut (g : WGraph) (hnn : NonNeg g) (es : List (Int × Int))
    (u v : Int) (hw : IsWalk g u es v)
    (hdup : ¬ (u :: es.map Prod.fst).Nodup) :
    ∃ es2, IsWalk g u es2 v ∧ walkWeight es2 ≤ walkWeight es ∧
      es2.length < es.length := by
  obtain ⟨a, l1, l2, l3, hsp⟩ := exists_dup_split (u :: es.map Prod.fst) hdup
  cases l1 with
  | nil =>
      rw [List.nil_append] at hsp
      injection hsp with ha hm
      obtain ⟨E1, ea, E3, hes, hmE1, hfa, hmE3⟩ :=
        map_eq_append_cons Prod.fst es l2 a l3 hm
      rw [hes, show E1 ++ ea :: E3 = (E1 ++ [ea]) ++ E3 from by simp] at hw
      obtain ⟨m, hw1, hw2⟩ := (isWalk_append g (E1 ++ [ea]) E3 u v).mp hw
      have hm1 : m = ea.1 := (walk_last g E1 ea u m hw1).symm ▸ rfl
      have hmu : m = u := by
        rw [walk_last g E1 ea u m hw1, hfa, ← ha]
      rw [hmu] at hw1 hw2
      refine ⟨E3, hw2, ?_, ?_⟩
      · rw [hes, show E1 ++ ea :: E3 = (E1 ++ [ea]) ++ E3 from by simp,
          walkWeight_append]
        have := walk_weight_nonneg g hnn (E1 ++ [ea]) u u hw1
        omega
      · rw [hes]
        simp
        omega
  | cons y l1t =>
      rw [List.cons_append] at hsp
      injection hsp with hy hm
      simp only [List.append_eq] at hm
      rw [show (l1t ++ a :: l2) ++ a :: l3 = l1t ++ a :: (l2 ++ a :: l3) from
        by simp] at hm
      obtain ⟨E1, ea, E3, hes, hmE1, hfa, hmE3⟩ :=
        map_eq_append_cons Prod.fst es l1t a (l2 ++ a :: l3) hm
      obtain ⟨E2, eb, E4, hes2, hmE2, hfb, hmE4⟩ :=
        map_eq_append_cons Prod.fst E3 l2 a l3 hmE3
      rw [hes, hes2] at hw
      rw [show E1 ++ ea :: (E2 ++ eb :: E4) =
        (E1 ++ [ea]) ++ ((E2 ++ [eb]) ++ E4) from by simp] at hw
      obtain ⟨m1, hwA, hrest⟩ :=
        (isWalk_append g (E1 ++ [ea]) ((E2 ++ [eb]) ++ E4) u v).mp hw
      obtain ⟨m2, hwC, hwB⟩ := (isWalk_append g (E2 ++ [eb]) E4 m1 v).mp hrest
      have hm1 : m1 = ea.1 := walk_last g E1 ea u m1 hwA
      have hm2 : m2 = eb.1 := walk_last g E2 eb m1 m2 hwC
      have hm21 : m2 = m1 := by rw [hm1, hm2, hfa, hfb]
      rw [hm21] at hwB
      refine ⟨(E1 ++ [ea]) ++ E4,
        (isWalk_append g (E1 ++ [ea]) E4 u v).mpr ⟨m1, hwA, hwB⟩, ?_, ?_⟩
      · rw [hes, hes2]
        rw [show E1 ++ ea :: (E2 ++ eb :: E4) =
          (E1 ++ [ea]) ++ ((E2 ++ [eb]) ++ E4) from by simp]
        simp only [walkWeight_append]
        have hc0 := walk_weight_nonneg g hnn (E2 ++ [eb]) m1 m2 hwC
        simp only [walkWeight_append] at hc0
        omega
      · rw [hes, hes2]
        simp
        omega

theorem walk_shorten (g : WGraph) (hnn : NonNeg g) :
    ∀ (n : Nat) (es : List (Int × Int)) (u v : Int), es.length ≤ n →
      IsWalk g u es v →
      ∃ es2, IsWalk g u es2 v ∧ walkWeight es2 ≤ walkWeight es ∧
        es2.length ≤ (collectNodes (dkeys g) g).length - 1 := by
  intro n
  induction n with
  | zero =>
      intro es u v hlen hw
      have hes : es = [] := List.length_eq_zero.mp (Nat.le_zero.mp hlen)
      subst hes
      exact ⟨[], hw, le_refl _, by simp⟩
  | succ n ih =>
      intro es u v hlen hw
      by_cases hnd : (u :: es.map Prod.fst).Nodup
      · refine ⟨es, hw, le_refl _, ?_⟩
        by_cases hesn : es = []
        · rw [hesn]
          simp
        · have hsub : ∀ x ∈ u :: es.map Prod.fst, x ∈ collectNodes (dkeys g) g := by
            intro x hx
            rcases List.mem_cons.mp hx with hh | hh
            · rw [hh]
              refine mem_collectNodes_mono g (dkeys g) u ?_
              exact walk_source_mem_dkeys g u v es hw hesn
            · obtain ⟨e, he, hex⟩ := List.mem_map.mp hh
              rw [← hex]
              exact walk_targets_mem g es u v hw e he
          have := nodup_length_le (u :: es.map Prod.fst)
            (collectNodes (dkeys g) g) hnd hsub
          rw [List.length_cons, List.length_map] at this
          omega
      · obtain ⟨es2, hw2, hwt2, hlt⟩ := walk_cut g hnn es u v hw hnd
        obtain ⟨es3, hw3, hwt3, hlen3⟩ := ih es2 u v (by omega) hw2
        exact ⟨es3, hw3, by omega, hlen3⟩

theorem bf_nonneg (g : WGraph) (start : Int) (hst : start ∈ dkeys g)
    (hnn : NonNeg g) :
    bellman_ford g start = Except.ok (bfRun g start) ∧
    Realizable g start (bfRun g start) ∧ RelaxClosed g (bfRun g start) ∧
    edle (dgetD (bfRun g start) start none) (some 0) := by
  have hreal : Realizable g start (bfRun g start) :=
    bfRounds_realizable g start _ _
      (bfInit_realizable g start (collectNodes (dkeys g) g))
  have hstart_le : edle (dgetD (bfRun g start) start none) (some 0) := by
    have h1 := bfRounds_mono g ((collectNodes (dkeys g) g).length - 1)
      (bfInit (collectNodes (dkeys g) g) start) start
    rw [bfInit_start] at h1
    exact h1
  have hbound : BoundedBy g start (bfRun g start)
      ((collectNodes (dkeys g) g).length - 1) := by
    have := bfRounds_bounded g start ((collectNodes (dkeys g) g).length - 1)
      (bfInit (collectNodes (dkeys g) g) start) 0
      (boundedBy_init g start (collectNodes (dkeys g) g))
      (by rw [bfInit_start]; exact edle_refl _)
    rw [Nat.zero_add] at this
    exact this
  have hchk : bfCheck (bfRun g start) g = false := by
    cases hb : bfCheck (bfRun g start) g
    · rfl
    · exfalso
      obtain ⟨u, v, w, hE, hrel⟩ := bfCheck_true_relaxable (bfRun g start) g hb
      obtain ⟨c, hc⟩ := eltB_some_left hrel
      obtain ⟨a, ha, hca⟩ := eadd_some hc
      obtain ⟨es, hw1, hw2⟩ := hreal u a ha
      have hw3 : IsWalk g start (es ++ [(v, w)]) v := isWalk_snoc g start u v w es hw1 hE
      obtain ⟨es2, hws, hwts, hlens⟩ := walk_shorten g hnn (es ++ [(v, w)]).length
        (es ++ [(v, w)]) start v (le_refl _) hw3
      obtain ⟨b, hbv, hbw⟩ := hbound v es2 hws hlens (walkWeight es2) rfl
      have hlt := eltB_true_lt hrel hc b hbv
      have hwt4 : walkWeight (es ++ [(v, w)]) = a + w := by
        rw [walkWeight_append, hw2]
        rw [show walkWeight [(v, w)] = w from by simp [walkWeight]]
      omega
  have hclosed : RelaxClosed g (bfRun g start) := by
    intro a b w hE
    exact bfCheck_false_closed (bfRun g start) g hchk a b w hE
  refine ⟨?_, hreal, hclosed, hstart_le⟩
  unfold bellman_ford
  rw [if_neg (not_not_intro hst)]
  rw [hchk]
  rfl

/-- Lexicographic order on (distance, vertex) heap entries, as compared by
Python tuples in heapq. -/
def lexLe (a b : Int × Int) : Prop :=
  a.1 < b.1 ∨ (a.1 = b.1 ∧ a.2 ≤ b.2)

theorem lexLe_refl (a : Int × Int) : lexLe a a :=
  Or.inr ⟨rfl, le_refl _⟩

theorem lexLe_trans {a b c : Int × Int} (h1 : lexLe a b) (h2 : lexLe b c) :
    lexLe a c := by
  rcases h1 with h1 | ⟨h1a, h1b⟩ <;> rcases h2 with h2 | ⟨h2a, h2b⟩
  · exact Or.inl (by omega)
  · exact Or.inl (by omega)
  · exact Or.inl (by omega)
  · exact Or.inr ⟨by omega, by omega⟩

theorem lexLe_total (a b : Int × Int) : lexLe a b ∨ lexLe b a := by
  unfold lexLe
  omega

theorem heapMin_mem : ∀ (pq : List (Int × Int)) (m : Int × Int),
    heapMin pq = some m → m ∈ pq := by
  intro pq
  induction pq with
  | nil => intro m h; exact Option.noConfusion h
  | cons e rest ih =>
      intro m h
      rw [heapMin] at h
      cases hr : heapMin rest with
      | none =>
          rw [hr] at h
          injection h with h2
          rw [← h2]
          exact List.mem_cons_self _ _
      | some m0 =>
          rw [hr] at h
          have h4 : (if e.1 < m0.1 ∨ (e.1 = m0.1 ∧ e.2 ≤ m0.2) then some e
              else some m0) = some m := h
          by_cases hc : e.1 < m0.1 ∨ (e.1 = m0.1 ∧ e.2 ≤ m0.2)
          · rw [if_pos hc] at h4
            injection h4 with h2
            rw [← h2]
            exact List.mem_cons_self _ _
          · rw [if_neg hc] at h4
            injection h4 with h2
            rw [← h2]
            exact List.mem_cons_of_mem _ (ih m0 hr)

theorem heapMin_le : ∀ (pq : List (Int × Int)) (m : Int × Int),
    heapMin pq = some m → ∀ e ∈ pq, lexLe m e := by
  intro pq
  induction pq with
  | nil => intro m h; exact Option.noConfusion h
  | cons e0 rest ih =>
      intro m h e he
      rw [heapMin] at h
      cases hr : heapMin rest with
      | none =>
          rw [hr] at h
          injection h with h2
          have hrnil : rest = [] := by
            cases rest with
            | nil => rfl
            | cons a t =>
                rw [heapMin] at hr
                cases h3 : heapMin t with
                | none => rw [h3] at hr; exact Option.noConfusion hr
                | some mm =>
                    rw [h3] at hr
                    have hr4 : (if a.1 < mm.1 ∨ (a.1 = mm.1 ∧ a.2 ≤ mm.2)
                        then some a else some mm) = none := hr
                    by_cases hc : a.1 < mm.1 ∨ (a.1 = mm.1 ∧ a.2 ≤ mm.2)
                    · rw [if_pos hc] at hr4; exact Option.noConfusion hr4
                    · rw [if_neg hc] at hr4; exact Option.noConfusion hr4
          rw [hrnil] at he
          rw [List.mem_singleton] at he
          rw [he, ← h2]
          exact lexLe_refl _
      | some m0 =>
          rw [hr] at h
          have h4 : (if e0.1 < m0.1 ∨ (e0.1 = m0.1 ∧ e0.2 ≤ m0.2) then some e0
              else some m0) = some m := h
          by_cases hc : e0.1 < m0.1 ∨ (e0.1 = m0.1 ∧ e0.2 ≤ m0.2)
          · rw [if_pos hc] at h4
            injection h4 with h2
            rw [← h2]
            rcases List.mem_cons.mp he with hh | hh
            · rw [hh]; exact lexLe_refl _
            · exact lexLe_trans hc (ih m0 hr e hh)
          · rw [if_neg hc] at h4
            injection h4 with h2
            rw [← h2]
            rcases List.mem_cons.mp he with hh | hh
            · rw [hh]
              rcases lexLe_total e0 m0 with ht | ht
              · exact absurd ht hc
              · exact ht
            · exact ih m0 hr e hh

theorem heapMin_none : ∀ (pq : List (Int × Int)), heapMin pq = none → pq = [] := by
  intro pq
  cases pq with
  | nil => intro _; rfl
  | cons e rest =>
      intro h
      rw [heapMin] at h
      cases hr : heapMin rest with
      | none => rw [hr] at h; exact Option.noConfusion h
      | some m0 =>
          rw [hr] at h
          have h4 : (if e.1 < m0.1 ∨ (e.1 = m0.1 ∧ e.2 ≤ m0.2) then some e
              else some m0) = none := h
          by_cases hc : e.1 < m0.1 ∨ (e.1 = m0.1 ∧ e.2 ≤ m0.2)
          · rw [if_pos hc] at h4; exact Option.noConfusion h4
          · rw [if_neg hc] at h4; exact Option.noConfusion h4

theorem heapErase_subset : ∀ (pq : List (Int × Int)) (m e : Int × Int),
    e ∈ heapErase pq m → e ∈ pq := by
  intro pq
  induction pq with
  | nil => intro m e h; exact absurd h (List.not_mem_nil e)
  | cons e0 rest ih =>
      intro m e h
      rw [heapErase] at h
      by_cases hc : e0 = m
      · rw [if_pos hc] at h
        exact List.mem_cons_of_mem _ h
      · rw [if_neg hc] at h
        rcases List.mem_cons.mp h with hh | hh
        · rw [hh]; exact List.mem_cons_self _ _
        · exact List.mem_cons_of_mem _ (ih m e hh)

theorem heapErase_mem_of_ne : ∀ (pq : List (Int × Int)) (m e : Int × Int),
    e ∈ pq → e ≠ m → e ∈ heapErase pq m := by
  intro pq
  induction pq with
  | nil => intro m e h _; exact absurd h (List.not_mem_nil e)
  | cons e0 rest ih =>
      intro m e h hne
      rw [heapErase]
      by_cases hc : e0 = m
      · rw [if_pos hc]
        rcases List.mem_cons.mp h with hh | hh
        · exact absurd (hh.trans hc) hne
        · exact hh
      · rw [if_neg hc]
        rcases List.mem_cons.mp h with hh | hh
        · rw [hh]; exact List.mem_cons_self _ _
        · exact List.mem_cons_of_mem _ (ih m e hh hne)

theorem heapErase_length : ∀ (pq : List (Int × Int)) (m : Int × Int),
    m ∈ pq → (heapErase pq m).length + 1 = pq.length := by
  intro pq
  induction pq with
  | nil => intro m h; exact absurd h (List.not_mem_nil m)
  | cons e0 rest ih =>
      intro m h
      rw [heapErase]
      by_cases hc : e0 = m
      · rw [if_pos hc]
        rfl
      · rw [if_neg hc]
        have hm : m ∈ rest := by
          rcases List.mem_cons.mp h with hh | hh
          · exact absurd hh.symm hc
          · exact hh
        rw [List.length_cons, List.length_cons, ← ih m hm]

theorem collectEdgesChecked_nonneg :
    ∀ (adj : List (Int × Int)) (vs : List Int), (∀ e ∈ adj, 0 ≤ e.2) →
      collectEdgesChecked vs adj =
        Except.ok (adj.foldl (fun vs e => addNode vs e.1) vs) := by
  intro adj
  induction adj with
  | nil => intro vs _; rfl
  | cons e rest ih =>
      rcases e with ⟨v, w⟩
      intro vs hnn
      rw [collectEdgesChecked]
      rw [if_neg (by have := hnn (v, w) (List.mem_cons_self _ _); omega)]
      rw [List.foldl_cons]
      exact ih (addNode vs v) (fun e he => hnn e (List.mem_cons_of_mem _ he))

theorem collectChecked_nonneg :
    ∀ (gl : List (Int × List (Int × Int))) (vs : List Int),
      (∀ p ∈ gl, ∀ e ∈ p.2, 0 ≤ e.2) →
      collectChecked vs gl = Except.ok (collectNodes vs gl) := by
  intro gl
  induction gl with
  | nil => intro vs _; rfl
  | cons p rest ih =>
      rcases p with ⟨u, adj⟩
      intro vs hnn
      rw [collectChecked, collectNodes]
      rw [collectEdgesChecked_nonneg adj vs
        (fun e he => hnn (u, adj) (List.mem_cons_self _ _) e he)]
      exact ih _ (fun q hq e he => hnn q (List.mem_cons_of_mem _ hq) e he)

theorem foldl_addNode_fst_nodup (adj : List (Int × Int)) :
    ∀ (vs : List Int), vs.Nodup →
      (adj.foldl (fun vs e => addNode vs e.1) vs).Nodup := by
  induction adj with
  | nil => intro vs h; exact h
  | cons e rest ih =>
      intro vs h
      rw [List.foldl_cons]
      exact ih (addNode vs e.1) (addNode_nodup vs e.1 h)

theorem collectNodes_nodup :
    ∀ (gl : List (Int × List (Int × Int))) (vs : List Int), vs.Nodup →
      (collectNodes vs gl).Nodup := by
  intro gl
  induction gl with
  | nil => intro vs h; exact h
  | cons p rest ih =>
      intro vs h
      rw [collectNodes]
      exact ih _ (foldl_addNode_fst_nodup p.2 vs h)

theorem dkeys_dset_of_mem {κ α : Type} [DecidableEq κ] :
    ∀ (d : List (κ × α)) (k : κ) (v : α), k ∈ dkeys d →
      dkeys (dset d k v) = dkeys d := by
  intro d
  induction d with
  | nil => intro k v h; exact absurd h (List.not_mem_nil k)
  | cons p rest ih =>
      rcases p with ⟨k0, v0⟩
      intro k v h
      rw [dset]
      by_cases hk : k = k0
      · rw [if_pos hk]
        simp [dkeys]
      · rw [if_neg hk]
        simp only [dkeys, List.map_cons] at h ⊢
        rcases List.mem_cons.mp h with hh | hh
        · exact absurd hh hk
        · have h5 : List.map Prod.fst (dset rest k v) = List.map Prod.fst rest :=
            ih k v hh
          rw [h5]

theorem dict_ext {α : Type} :
    ∀ (d1 d2 : List (Int × α)), dkeys d1 = dkeys d2 → (dkeys d1).Nodup →
      (∀ k, dget d1 k = dget d2 k) → d1 = d2 := by
  intro d1
  induction d1 with
  | nil =>
      intro d2 hk _ _
      cases d2 with
      | nil => rfl
      | cons p rest => exact absurd hk (by simp [dkeys])
  | cons p rest ih =>
      rcases p with ⟨k0, v0⟩
      intro d2 hk hnd hv
      cases d2 with
      | nil => exact absurd hk (by simp [dkeys])
      | cons q rest2 =>
          rcases q with ⟨k1, v1⟩
          simp only [dkeys, List.map_cons, List.cons.injEq] at hk
          obtain ⟨hk01, hktail⟩ := hk
          have hval : v0 = v1 := by
            have h1 : dget ((k0, v0) :: rest) k0 = some v0 := by
              rw [dget, if_pos rfl]
            have h2 : dget ((k1, v1) :: rest2) k0 = some v1 := by
              rw [dget, if_pos hk01]
            have := hv k0
            rw [h1, h2] at this
            injection this
          have hndt : (dkeys rest).Nodup := by
            simp only [dkeys, List.map_cons, List.nodup_cons] at hnd
            exact hnd.2
          have hk0nt : k0 ∉ dkeys rest := by
            simp only [dkeys, List.map_cons, List.nodup_cons] at hnd
            exact hnd.1
          have hrest : rest = rest2 := by
            refine ih rest2 hktail hndt ?_
            intro k
            by_cases hkk : k = k0
            · rw [hkk]
              rw [dget_eq_none_of_not_mem rest k0 hk0nt]
              rw [dget_eq_none_of_not_mem rest2 k0 (by
                have h6 : dkeys rest2 = dkeys rest := hktail.symm
                rw [h6]; exact hk0nt)]
            · have := hv k
              rw [dget, if_neg hkk, dget,
                if_neg (by rw [← hk01]; exact hkk)] at this
              exact this
          rw [hk01, hval, hrest]

theorem relaxAll_cons_some (u v w cd : Int) (dist : DistMap)
    (pq rest : List (Int × Int)) (hdu : dgetD dist u none = some cd) :
    relaxAll u dist pq ((v, w) :: rest) =
      if eltB (some (cd + w)) (dgetD dist v none) then
        relaxAll u (dset dist v (some (cd + w))) (pq ++ [(cd + w, v)]) rest
      else relaxAll u dist pq rest := by
  rw [relaxAll, hdu]
  rfl

theorem dset_improve_edle (dist : DistMap) (v : Int) (nd : Int)
    (hb : eltB (some nd) (dgetD dist v none) = true) (x : Int) :
    edle (dgetD (dset dist v (some nd)) x none) (dgetD dist x none) := by
  by_cases hx : x = v
  · rw [hx, dgetD_dset_self]
    exact eltB_true_edle hb
  · rw [dgetD_dset_ne dist v x (some nd) none hx]
    exact edle_refl _

theorem relaxAll_ne_u (u v w cd : Int) (dist : DistMap)
    (hdu : dgetD dist u none = some cd) (hw0 : 0 ≤ w)
    (hb : eltB (some (cd + w)) (dgetD dist v none) = true) : v ≠ u := by
  intro heq
  rw [heq, hdu] at hb
  have h5 := eltB_true_lt hb rfl cd rfl
  omega

theorem relaxAll_dist_mono (u cd : Int) :
    ∀ (adj : List (Int × Int)) (dist : DistMap) (pq : List (Int × Int)),
      dgetD dist u none = some cd → (∀ e ∈ adj, 0 ≤ e.2) →
      ∀ x, edle (dgetD (relaxAll u dist pq adj).1 x none) (dgetD dist x none) := by
  intro adj
  induction adj with
  | nil =>
      intro dist pq _ _ x
      rw [relaxAll]
      exact edle_refl _
  | cons e rest ih =>
      rcases e with ⟨v, w⟩
      intro dist pq hdu hw x
      have hw0 : 0 ≤ w := hw (v, w) (List.mem_cons_self _ _)
      have hwr : ∀ e ∈ rest, 0 ≤ e.2 := fun e he => hw e (List.mem_cons_of_mem _ he)
      rw [relaxAll_cons_some u v w cd dist pq rest hdu]
      by_cases hb : eltB (some (cd + w)) (dgetD dist v none) = true
      · rw [if_pos hb]
        have hvu := relaxAll_ne_u u v w cd dist hdu hw0 hb
        have hdu2 : dgetD (dset dist v (some (cd + w))) u none = some cd := by
          rw [dgetD_dset_ne dist v u (some (cd + w)) none (Ne.symm hvu)]
          exact hdu
        exact edle_trans (ih _ _ hdu2 hwr x) (dset_improve_edle dist v (cd + w) hb x)
      · rw [if_neg hb]
        exact ih dist pq hdu hwr x

theorem relaxAll_dist_u (u cd : Int) :
    ∀ (adj : List (Int × Int)) (dist : DistMap) (pq : List (Int × Int)),
      dgetD dist u none = some cd → (∀ e ∈ adj, 0 ≤ e.2) →
      dgetD (relaxAll u dist pq adj).1 u none = some cd := by
  intro adj
  induction adj with
  | nil =>
      intro dist pq hdu _
      rw [relaxAll]
      exact hdu
  | cons e rest ih =>
      rcases e with ⟨v, w⟩
      intro dist pq hdu hw
      have hw0 : 0 ≤ w := hw (v, w) (List.mem_cons_self _ _)
      have hwr : ∀ e ∈ rest, 0 ≤ e.2 := fun e he => hw e (List.mem_cons_of_mem _ he)
      rw [relaxAll_cons_some u v w cd dist pq rest hdu]
      by_cases hb : eltB (some (cd + w)) (dgetD dist v none) = true
      · rw [if_pos hb]
        have hvu := relaxAll_ne_u u v w cd dist hdu hw0 hb
        have hdu2 : dgetD (dset dist v (some (cd + w))) u none = some cd := by
          rw [dgetD_dset_ne dist v u (some (cd + w)) none (Ne.symm hvu)]
          exact hdu
        exact ih _ _ hdu2 hwr
      · rw [if_neg hb]
        exact ih dist pq hdu hwr

theorem relaxAll_pq_super (u cd : Int) :
    ∀ (adj : List (Int × Int)) (dist : DistMap) (pq : List (Int × Int)),
      dgetD dist u none = some cd → (∀ e ∈ adj, 0 ≤ e.2) →
      ∀ e ∈ pq, e ∈ (relaxAll u dist pq adj).2 := by
  intro adj
  induction adj with
  | nil =>
      intro dist pq _ _ e he
      rw [relaxAll]
      exact he
  | cons e0 rest ih =>
      rcases e0 with ⟨v, w⟩
      intro dist pq hdu hw e he
      have hw0 : 0 ≤ w := hw (v, w) (List.mem_cons_self _ _)
      have hwr : ∀ e ∈ rest, 0 ≤ e.2 := fun e he => hw e (List.mem_cons_of_mem _ he)
      rw [relaxAll_cons_some u v w cd dist pq rest hdu]
      by_cases hb : eltB (some (cd + w)) (dgetD dist v none) = true
      · rw [if_pos hb]
        have hvu := relaxAll_ne_u u v w cd dist hdu hw0 hb
        have hdu2 : dgetD (dset dist v (some (cd + w))) u none = some cd := by
          rw [dgetD_dset_ne dist v u (some (cd + w)) none (Ne.symm hvu)]
          exact hdu
        exact ih _ _ hdu2 hwr e (List.mem_append.mpr (Or.inl he))
      · rw [if_neg hb]
        exact ih dist pq hdu hwr e he

theorem relaxAll_Q (u cd : Int) :
    ∀ (adj : List (Int × Int)) (dist : DistMap) (pq : List (Int × Int)),
      dgetD dist u none = some cd → (∀ e ∈ adj, 0 ≤ e.2) →
      (∀ e ∈ pq, edle (dgetD dist e.2 none) (some e.1)) →
      ∀ e ∈ (relaxAll u dist pq adj).2,
        edle (dgetD (relaxAll u dist pq adj).1 e.2 none) (some e.1) := by
  intro adj
  induction adj with
  | nil =>
      intro dist pq _ _ hq e he
      rw [relaxAll] at he ⊢
      exact hq e he
  | cons e0 rest ih =>
      rcases e0 with ⟨v, w⟩
      intro dist pq hdu hw hq e he
      have hw0 : 0 ≤ w := hw (v, w) (List.mem_cons_self _ _)
      have hwr : ∀ e ∈ rest, 0 ≤ e.2 := fun e he => hw e (List.mem_cons_of_mem _ he)
      rw [relaxAll_cons_some u v w cd dist pq rest hdu] at he ⊢
      by_cases hb : eltB (some (cd + w)) (dgetD dist v none) = true
      · rw [if_pos hb] at he ⊢
        have hvu := relaxAll_ne_u u v w cd dist hdu hw0 hb
        have hdu2 : dgetD (dset dist v (some (cd + w))) u none = some cd := by
          rw [dgetD_dset_ne dist v u (some (cd + w)) none (Ne.symm hvu)]
          exact hdu
        refine ih _ _ hdu2 hwr ?_ e he
        intro e2 he2
        rcases List.mem_append.mp he2 with hh | hh
        · exact edle_trans (dset_improve_edle dist v (cd + w) hb e2.2) (hq e2 hh)
        · simp only [List.mem_singleton] at hh
          rw [hh]
          rw [show ((cd + w, v) : Int × Int).2 = v from rfl, dgetD_dset_self]
          exact edle_refl _
      · rw [if_neg hb] at he ⊢
        exact ih dist pq hdu hwr hq e he

theorem relaxAll_P (u cd : Int) :
    ∀ (adj : List (Int × Int)) (dist : DistMap) (pq : List (Int × Int)),
      dgetD dist u none = some cd → (∀ e ∈ adj, 0 ≤ e.2) →
      ∀ x, dgetD (relaxAll u dist pq adj).1 x none = dgetD dist x none ∨
        ∃ c, (c, x) ∈ (relaxAll u dist pq adj).2 ∧
          dgetD (relaxAll u dist pq adj).1 x none = some c := by
  intro adj
  induction adj with
  | nil =>
      intro dist pq _ _ x
      rw [relaxAll]
      exact Or.inl rfl
  | cons e0 rest ih =>
      rcases e0 with ⟨v, w⟩
      intro dist pq hdu hw x
      have hw0 : 0 ≤ w := hw (v, w) (List.mem_cons_self _ _)
      have hwr : ∀ e ∈ rest, 0 ≤ e.2 := fun e he => hw e (List.mem_cons_of_mem _ he)
      rw [relaxAll_cons_some u v w cd dist pq rest hdu]
      by_cases hb : eltB (some (cd + w)) (dgetD dist v none) = true
      · rw [if_pos hb]
        have hvu := relaxAll_ne_u u v w cd dist hdu hw0 hb
        have hdu2 : dgetD (dset dist v (some (cd + w))) u none = some cd := by
          rw [dgetD_dset_ne dist v u (some (cd + w)) none (Ne.symm hvu)]
          exact hdu
        rcases ih _ _ hdu2 hwr x with hh | ⟨c, hc1, hc2⟩
        · by_cases hx : x = v
          · refine Or.inr ⟨cd + w, ?_, ?_⟩
            · rw [hx]
              exact relaxAll_pq_super u cd rest _ _ hdu2 hwr (cd + w, v)
                (List.mem_append.mpr (Or.inr (List.mem_singleton.mpr rfl)))
            · rw [hh, hx, dgetD_dset_self]
          · rw [hh, dgetD_dset_ne dist v x (some (cd + w)) none hx]
            exact Or.inl rfl
        · exact Or.inr ⟨c, hc1, hc2⟩
      · rw [if_neg hb]
        exact ih dist pq hdu hwr x

theorem relaxAll_pq_targets (u cd : Int) :
    ∀ (adj : List (Int × Int)) (dist : DistMap) (pq : List (Int × Int)),
      dgetD dist u none = some cd → (∀ e ∈ adj, 0 ≤ e.2) →
      ∀ e ∈ (relaxAll u dist pq adj).2, e ∈ pq ∨ e.2 ∈ adj.map Prod.fst := by
  intro adj
  induction adj with
  | nil =>
      intro dist pq _ _ e he
      rw [relaxAll] at he
      exact Or.inl he
  | cons e0 rest ih =>
      rcases e0 with ⟨v, w⟩
      intro dist pq hdu hw e he
      have hw0 : 0 ≤ w := hw (v, w) (List.mem_cons_self _ _)
      have hwr : ∀ e ∈ rest, 0 ≤ e.2 := fun e he => hw e (List.mem_cons_of_mem _ he)
      rw [relaxAll_cons_some u v w cd dist pq rest hdu] at he
      by_cases hb : eltB (some (cd + w)) (dgetD dist v none) = true
      · rw [if_pos hb] at he
        have hvu := relaxAll_ne_u u v w cd dist hdu hw0 hb
        have hdu2 : dgetD (dset dist v (some (cd + w))) u none = some cd := by
          rw [dgetD_dset_ne dist v u (some (cd + w)) none (Ne.symm hvu)]
          exact hdu
        rcases ih _ _ hdu2 hwr e he with hh | hh
        · rcases List.mem_append.mp hh with h2 | h2
          · exact Or.inl h2
          · simp only [List.mem_singleton] at h2
            rw [h2]
            exact Or.inr (by simp)
        · exact Or.inr (List.mem_cons_of_mem _ hh)
      · rw [if_neg hb] at he
        rcases ih dist pq hdu hwr e he with hh | hh
        · exact Or.inl hh
        · exact Or.inr (List.mem_cons_of_mem _ hh)

theorem relaxAll_pq_len (u cd : Int) :
    ∀ (adj : List (Int × Int)) (dist : DistMap) (pq : List (Int × Int)),
      dgetD dist u none = some cd → (∀ e ∈ adj, 0 ≤ e.2) →
      (relaxAll u dist pq adj).2.length ≤ pq.length + adj.length := by
  intro adj
  induction adj with
  | nil =>
      intro dist pq _ _
      rw [relaxAll]
      simp
  | cons e0 rest ih =>
      rcases e0 with ⟨v, w⟩
      intro dist pq hdu hw
      have hw0 : 0 ≤ w := hw (v, w) (List.mem_cons_self _ _)
      have hwr : ∀ e ∈ rest, 0 ≤ e.2 := fun e he => hw e (List.mem_cons_of_mem _ he)
      rw [relaxAll_cons_some u v w cd dist pq rest hdu]
      by_cases hb : eltB (some (cd + w)) (dgetD dist v none) = true
      · rw [if_pos hb]
        have hvu := relaxAll_ne_u u v w cd dist hdu hw0 hb
        have hdu2 : dgetD (dset dist v (some (cd + w))) u none = some cd := by
          rw [dgetD_dset_ne dist v u (some (cd + w)) none (Ne.symm hvu)]
          exact hdu
        have := ih _ (pq ++ [(cd + w, v)]) hdu2 hwr
        simp only [List.length_append, List.length_singleton] at this
        simp only [List.length_cons]
        omega
      · rw [if_neg hb]
        have := ih dist pq hdu hwr
        simp only [List.length_cons]
        omega

theorem relaxAll_realizable (g : WGraph) (start u cd : Int) :
    ∀ (adj : List (Int × Int)) (dist : DistMap) (pq : List (Int × Int)),
      dgetD dist u none = some cd → (∀ e ∈ adj, 0 ≤ e.2) →
      (∀ e ∈ adj, Edge g u e.1 e.2) → Realizable g start dist →
      Realizable g start (relaxAll u dist pq adj).1 := by
  intro adj
  induction adj with
  | nil =>
      intro dist pq _ _ _ hr
      rw [relaxAll]
      exact hr
  | cons e0 rest ih =>
      rcases e0 with ⟨v, w⟩
      intro dist pq hdu hw hE hr
      have hw0 : 0 ≤ w := hw (v, w) (List.mem_cons_self _ _)
      have hwr : ∀ e ∈ rest, 0 ≤ e.2 := fun e he => hw e (List.mem_cons_of_mem _ he)
      have hEr : ∀ e ∈ rest, Edge g u e.1 e.2 :=
        fun e he => hE e (List.mem_cons_of_mem _ he)
      rw [relaxAll_cons_some u v w cd dist pq rest hdu]
      by_cases hb : eltB (some (cd + w)) (dgetD dist v none) = true
      · rw [if_pos hb]
        have hvu := relaxAll_ne_u u v w cd dist hdu hw0 hb
        have hdu2 : dgetD (dset dist v (some (cd + w))) u none = some cd := by
          rw [dgetD_dset_ne dist v u (some (cd + w)) none (Ne.symm hvu)]
          exact hdu
        refine ih _ _ hdu2 hwr hEr ?_
        intro x d hx
        by_cases hxv : x = v
        · rw [hxv, dgetD_dset_self] at hx
          injection hx with hx2
          obtain ⟨es, hes, hwt⟩ := hr u cd hdu
          refine ⟨es ++ [(v, w)], ?_, ?_⟩
          · rw [hxv]
            exact isWalk_snoc g start u v w es hes
              (hE (v, w) (List.mem_cons_self _ _))
          · rw [walkWeight_append, hwt]
            show cd + walkWeight [(v, w)] = d
            rw [show walkWeight [(v, w)] = w from by simp [walkWeight]]
            omega
        · rw [dgetD_dset_ne dist v x (some (cd + w)) none hxv] at hx
          exact hr x d hx
      · rw [if_neg hb]
        exact ih dist pq hdu hwr hEr hr

theorem relaxAll_keeps (u cd : Int) :
    ∀ (adj : List (Int × Int)) (dist : DistMap) (pq : List (Int × Int)) (t : Int),
      dgetD dist u none = some cd → (∀ e ∈ adj, 0 ≤ e.2) →
      edle (dgetD dist t none) (some cd) →
      dgetD (relaxAll u dist pq adj).1 t none = dgetD dist t none := by
  intro adj
  induction adj with
  | nil =>
      intro dist pq t _ _ _
      rw [relaxAll]
  | cons e0 rest ih =>
      rcases e0 with ⟨v, w⟩
      intro dist pq t hdu hw ht
      have hw0 : 0 ≤ w := hw (v, w) (List.mem_cons_self _ _)
      have hwr : ∀ e ∈ rest, 0 ≤ e.2 := fun e he => hw e (List.mem_cons_of_mem _ he)
      rw [relaxAll_cons_some u v w cd dist pq rest hdu]
      by_cases hb : eltB (some (cd + w)) (dgetD dist v none) = true
      · rw [if_pos hb]
        have hvu := relaxAll_ne_u u v w cd dist hdu hw0 hb
        have hdu2 : dgetD (dset dist v (some (cd + w))) u none = some cd := by
          rw [dgetD_dset_ne dist v u (some (cd + w)) none (Ne.symm hvu)]
          exact hdu
        have hvt : t ≠ v := by
          intro heq
          rw [← heq] at hb
          obtain ⟨a, ha, hac⟩ := ht cd rfl
          have h5 := eltB_true_lt hb rfl a ha
          omega
        have hkeep : dgetD (dset dist v (some (cd + w))) t none =
            dgetD dist t none := dgetD_dset_ne dist v t (some (cd + w)) none hvt
        rw [ih _ _ t hdu2 hwr (by rw [hkeep]; exact ht), hkeep]
      · rw [if_neg hb]
        exact ih dist pq t hdu hwr ht

theorem relaxAll_keys_lb (u cd : Int) :
    ∀ (adj : List (Int × Int)) (dist : DistMap) (pq : List (Int × Int)),
      dgetD dist u none = some cd → (∀ e ∈ adj, 0 ≤ e.2) →
      ∀ e ∈ (relaxAll u dist pq adj).2, e ∈ pq ∨ cd ≤ e.1 := by
  intro adj
  induction adj with
  | nil =>
      intro dist pq _ _ e he
      rw [relaxAll] at he
      exact Or.inl he
  | cons e0 rest ih =>
      rcases e0 with ⟨v, w⟩
      intro dist pq hdu hw e he
      have hw0 : 0 ≤ w := hw (v, w) (List.mem_cons_self _ _)
      have hwr : ∀ e ∈ rest, 0 ≤ e.2 := fun e he => hw e (List.mem_cons_of_mem _ he)
      rw [relaxAll_cons_some u v w cd dist pq rest hdu] at he
      by_cases hb : eltB (some (cd + w)) (dgetD dist v none) = true
      · rw [if_pos hb] at he
        have hvu := relaxAll_ne_u u v w cd dist hdu hw0 hb
        have hdu2 : dgetD (dset dist v (some (cd + w))) u none = some cd := by
          rw [dgetD_dset_ne dist v u (some (cd + w)) none (Ne.symm hvu)]
          exact hdu
        rcases ih _ _ hdu2 hwr e he with hh | hh
        · rcases List.mem_append.mp hh with h2 | h2
          · exact Or.inl h2
          · simp only [List.mem_singleton] at h2
            rw [h2]
            exact Or.inr (by omega)
        · exact Or.inr hh
      · rw [if_neg hb] at he
        exact ih dist pq hdu hwr e he

theorem relaxAll_relax (u cd : Int) :
    ∀ (adj : List (Int × Int)) (dist : DistMap) (pq : List (Int × Int)),
      dgetD dist u none = some cd → (∀ e ∈ adj, 0 ≤ e.2) →
      ∀ e ∈ adj, edle (dgetD (relaxAll u dist pq adj).1 e.1 none)
        (some (cd + e.2)) := by
  intro adj
  induction adj with
  | nil =>
      intro dist pq _ _ e he
      exact absurd he (List.not_mem_nil e)
  | cons e0 rest ih =>
      rcases e0 with ⟨v, w⟩
      intro dist pq hdu hw e he
      have hw0 : 0 ≤ w := hw (v, w) (List.mem_cons_self _ _)
      have hwr : ∀ e ∈ rest, 0 ≤ e.2 := fun e he => hw e (List.mem_cons_of_mem _ he)
      rw [relaxAll_cons_some u v w cd dist pq rest hdu]
      by_cases hb : eltB (some (cd + w)) (dgetD dist v none) = true
      · rw [if_pos hb]
        have hvu := relaxAll_ne_u u v w cd dist hdu hw0 hb
        have hdu2 : dgetD (dset dist v (some (cd + w))) u none = some cd := by
          rw [dgetD_dset_ne dist v u (some (cd + w)) none (Ne.symm hvu)]
          exact hdu
        rcases List.mem_cons.mp he with hh | hh
        · rw [hh]
          refine edle_trans (relaxAll_dist_mono u cd rest _ _ hdu2 hwr v) ?_
          rw [dgetD_dset_self]
          exact edle_refl _
        · exact ih _ _ hdu2 hwr e hh
      · rw [if_neg hb]
        rcases List.mem_cons.mp he with hh | hh
        · rw [hh]
          refine edle_trans (relaxAll_dist_mono u cd rest dist pq hdu hwr v) ?_
          exact eltB_false_edle (Bool.eq_false_iff.mpr hb)
        · exact ih dist pq hdu hwr e hh

theorem relaxAll_dkeys (u cd : Int) :
    ∀ (adj : List (Int × Int)) (dist : DistMap) (pq : List (Int × Int)),
      dgetD dist u none = some cd → (∀ e ∈ adj, 0 ≤ e.2) →
      (∀ e ∈ adj, e.1 ∈ dkeys dist) →
      dkeys (relaxAll u dist pq adj).1 = dkeys dist := by
  intro adj
  induction adj with
  | nil =>
      intro dist pq _ _ _
      rw [relaxAll]
  | cons e0 rest ih =>
      rcases e0 with ⟨v, w⟩
      intro dist pq hdu hw hk
      have hw0 : 0 ≤ w := hw (v, w) (List.mem_cons_self _ _)
      have hwr : ∀ e ∈ rest, 0 ≤ e.2 := fun e he => hw e (List.mem_cons_of_mem _ he)
      rw [relaxAll_cons_some u v w cd dist pq rest hdu]
      by_cases hb : eltB (some (cd + w)) (dgetD dist v none) = true
      · rw [if_pos hb]
        have hvu := relaxAll_ne_u u v w cd dist hdu hw0 hb
        have hdu2 : dgetD (dset dist v (some (cd + w))) u none = some cd := by
          rw [dgetD_dset_ne dist v u (some (cd + w)) none (Ne.symm hvu)]
          exact hdu
        have hks : dkeys (dset dist v (some (cd + w))) = dkeys dist :=
          dkeys_dset_of_mem dist v (some (cd + w))
            (hk (v, w) (List.mem_cons_self _ _))
        rw [ih _ _ hdu2 hwr (by
          intro e he
          rw [hks]
          exact hk e (List.mem_cons_of_mem _ he)), hks]
      · rw [if_neg hb]
        exact ih dist pq hdu hwr (fun e he => hk e (List.mem_cons_of_mem _ he))

/-- The edges still to be relaxed: adjacency lengths of unvisited vertices. -/
def remEdges (g : WGraph) : List Int → List Int → Nat
  | [], _ => 0
  | v :: rest, visited =>
      (if v ∈ visited then 0 else (dgetD g v []).length) + remEdges g rest visited

theorem remEdges_nil_graph : ∀ (vs visited : List Int), remEdges [] vs visited = 0 := by
  intro vs
  induction vs with
  | nil => intro visited; rfl
  | cons v rest ih =>
      intro visited
      rw [remEdges, ih]
      simp [dgetD, dget]

theorem remEdges_graph_irrel (k : Int) (adj : List (Int × Int)) (grest : WGraph) :
    ∀ (vs visited : List Int), k ∉ vs →
      remEdges ((k, adj) :: grest) vs visited = remEdges grest vs visited := by
  intro vs
  induction vs with
  | nil => intro visited _; rfl
  | cons v rest ih =>
      intro visited hk
      have hvk : v ≠ k := fun h => hk (by rw [← h]; exact List.mem_cons_self _ _)
      rw [remEdges, remEdges, ih visited (fun h => hk (List.mem_cons_of_mem _ h))]
      have hd : dgetD ((k, adj) :: grest) v [] = dgetD grest v [] := by
        rw [dgetD, dget, if_neg hvk, dgetD]
      rw [hd]

theorem remEdges_cons_graph (k : Int) (adj : List (Int × Int)) (grest : WGraph) :
    ∀ (vs visited : List Int), vs.Nodup →
      remEdges ((k, adj) :: grest) vs visited ≤
        adj.length + remEdges grest vs visited := by
  intro vs
  induction vs with
  | nil => intro visited _; simp [remEdges]
  | cons v rest ih =>
      intro visited hnd
      rw [List.nodup_cons] at hnd
      rw [remEdges, remEdges]
      by_cases hvk : v = k
      · have hkr : k ∉ rest := by rw [← hvk]; exact hnd.1
        rw [remEdges_graph_irrel k adj grest rest visited hkr]
        have hhead : (if v ∈ visited then 0
            else (dgetD ((k, adj) :: grest) v []).length) ≤ adj.length := by
          by_cases hv : v ∈ visited
          · rw [if_pos hv]; omega
          · rw [if_neg hv]
            have hda : dgetD ((k, adj) :: grest) v [] = adj := by
              rw [dgetD, dget, if_pos hvk]
              rfl
            rw [hda]
        omega
      · have hd : dgetD ((k, adj) :: grest) v [] = dgetD grest v [] := by
          rw [dgetD, dget, if_neg hvk, dgetD]
        rw [hd]
        have := ih visited hnd.2
        omega

theorem remEdges_le_total : ∀ (gl : WGraph) (vs visited : List Int), vs.Nodup →
    remEdges gl vs visited ≤ totalEdges gl := by
  intro gl
  induction gl with
  | nil =>
      intro vs visited _
      rw [remEdges_nil_graph]
      omega
  | cons p grest ih =>
      rcases p with ⟨k, adj⟩
      intro vs visited hnd
      have h1 := remEdges_cons_graph k adj grest vs visited hnd
      have h2 := ih vs visited hnd
      have h3 : totalEdges ((k, adj) :: grest) = adj.length + totalEdges grest := by
        simp [totalEdges]
      omega

theorem remEdges_visited_irrel (g : WGraph) (u : Int) (visited : List Int) :
    ∀ vs, u ∉ vs → remEdges g vs (visited ++ [u]) = remEdges g vs visited := by
  intro vs
  induction vs with
  | nil => intro _; rfl
  | cons v rest ih =>
      intro hu
      have hvu : v ≠ u := fun h => hu (by rw [← h]; exact List.mem_cons_self _ _)
      rw [remEdges, remEdges, ih (fun h => hu (List.mem_cons_of_mem _ h))]
      have hmem : (v ∈ visited ++ [u]) ↔ (v ∈ visited) := by
        rw [List.mem_append, List.mem_singleton]
        exact ⟨fun h => h.resolve_right hvu, Or.inl⟩
      by_cases hv : v ∈ visited
      · rw [if_pos hv, if_pos (hmem.mpr hv)]
      · rw [if_neg hv, if_neg (fun h => hv (hmem.mp h))]

theorem remEdges_visit (g : WGraph) (u : Int) (visited : List Int) :
    ∀ vs, vs.Nodup → u ∈ vs → u ∉ visited →
      remEdges g vs (visited ++ [u]) + (dgetD g u []).length =
        remEdges g vs visited := by
  intro vs
  induction vs with
  | nil => intro _ hu _; exact absurd hu (List.not_mem_nil u)
  | cons v rest ih =>
      intro hnd hu hnv
      rw [List.nodup_cons] at hnd
      rw [remEdges, remEdges]
      by_cases hvu : v = u
      · have hur : u ∉ rest := by rw [← hvu]; exact hnd.1
        rw [remEdges_visited_irrel g u visited rest hur]
        rw [hvu]
        rw [if_pos (List.mem_append.mpr (Or.inr (List.mem_singleton.mpr rfl)))]
        rw [if_neg hnv]
        omega
      · have hur : u ∈ rest := by
          rcases List.mem_cons.mp hu with h | h
          · exact absurd h.symm hvu
          · exact h
        have hmem : (v ∈ visited ++ [u]) ↔ (v ∈ visited) := by
          rw [List.mem_append, List.mem_singleton]
          exact ⟨fun h => h.resolve_right hvu, Or.inl⟩
        have hi := ih hnd.2 hur hnv
        by_cases hv : v ∈ visited
        · rw [if_pos hv, if_pos (hmem.mpr hv)]
          omega
        · rw [if_neg hv, if_neg (fun h => hv (hmem.mp h))]
          omega

theorem dgetD_map_none (nodes : List Int) (x : Int) :
    dgetD (nodes.map (fun v => (v, (none : EDist)))) x none = none := by
  rcases dget_map_const nodes x (none : EDist) with h | h <;> rw [dgetD, h] <;> rfl

theorem dloop_cons (g : WGraph) (fuel : Nat) (e0 : Int × Int)
    (pqr : List (Int × Int)) (visited : List Int) (dist : DistMap)
    (cd u : Int) (pq2 : List (Int × Int))
    (hp : heapPop (e0 :: pqr) = some ((cd, u), pq2)) :
    dloop g (fuel + 1) (e0 :: pqr) visited dist =
      if u ∈ visited then dloop g fuel pq2 visited dist
      else if eltB (dgetD dist u none) (some cd) then
        dloop g fuel pq2 (visited ++ [u]) dist
      else
        dloop g fuel (relaxAll u dist pq2 (dgetD g u [])).2 (visited ++ [u])
          (relaxAll u dist pq2 (dgetD g u [])).1 := by
  rw [dloop, hp]
  intro h
  exact List.noConfusion h

/-- The dijkstra main-loop invariant and its conclusion: with the loop
invariant holding and the measure below the fuel, the loop terminates and
the resulting distance map is realizable, relaxation-closed, at most 0 at
start, and keyed by the vertex set. -/
theorem dloop_ok (g : WGraph) (start : Int) (hnn : NonNeg g)
    (hnd : (dkeys g).Nodup) :
    ∀ (fuel : Nat) (pq : List (Int × Int)) (visited : List Int) (dist : DistMap),
      Realizable g start dist →
      edle (dgetD dist start none) (some 0) →
      (∀ e ∈ pq, edle (dgetD dist e.2 none) (some e.1)) →
      (∀ x, x ∉ visited → dgetD dist x none = none ∨
        ∃ c, (c, x) ∈ pq ∧ dgetD dist x none = some c) →
      (∀ t ∈ visited, ∀ v w, Edge g t v w →
        edle (dgetD dist v none) (eadd (dgetD dist t none) w)) →
      (∀ t ∈ visited, ∀ e ∈ pq, edle (dgetD dist t none) (some e.1)) →
      (∀ e ∈ pq, e.2 ∈ collectNodes (dkeys g) g) →
      dkeys dist = collectNodes (dkeys g) g →
      pq.length + remEdges g (collectNodes (dkeys g) g) visited < fuel →
      ∃ d, dloop g fuel pq visited dist = some d ∧
        Realizable g start d ∧ RelaxClosed g d ∧
        edle (dgetD d start none) (some 0) ∧
        dkeys d = collectNodes (dkeys g) g := by
  intro fuel
  induction fuel with
  | zero => intro pq visited dist _ _ _ _ _ _ _ _ hm; omega
  | succ fuel ih =>
      intro pq visited dist hR hS hQ hP hC1 hO hW hK hm
      cases pq with
      | nil =>
          refine ⟨dist, by rw [dloop], hR, ?_, hS, hK⟩
          intro u v w hE
          by_cases hu : u ∈ visited
          · exact hC1 u hu v w hE
          · rcases hP u hu with hnone | ⟨c, hc, -⟩
            · rw [hnone]
              exact edle_none _
            · exact absurd hc (List.not_mem_nil _)
      | cons e0 pqr =>
          cases hmp : heapMin (e0 :: pqr) with
          | none => exact absurd (heapMin_none _ hmp) (by simp)
          | some m =>
              rcases m with ⟨cd, u⟩
              have hpop : heapPop (e0 :: pqr) =
                  some ((cd, u), heapErase (e0 :: pqr) (cd, u)) := by
                rw [heapPop, hmp]
              have hmem : (cd, u) ∈ e0 :: pqr := heapMin_mem _ _ hmp
              have hmin : ∀ e ∈ e0 :: pqr, lexLe (cd, u) e := heapMin_le _ _ hmp
              have hlen2 : (heapErase (e0 :: pqr) (cd, u)).length + 1 =
                  (e0 :: pqr).length := heapErase_length _ _ hmem
              simp only [List.length_cons] at hlen2 hm
              rw [dloop_cons g fuel e0 pqr visited dist cd u _ hpop]
              by_cases hu : u ∈ visited
              · rw [if_pos hu]
                refine ih _ visited dist hR hS ?_ ?_ hC1 ?_ ?_ hK ?_
                · exact fun e he => hQ e (heapErase_subset _ _ _ he)
                · intro x hx
                  rcases hP x hx with h | ⟨c, hc, hv⟩
                  · exact Or.inl h
                  · refine Or.inr ⟨c, ?_, hv⟩
                    refine heapErase_mem_of_ne _ _ _ hc ?_
                    intro heq
                    injection heq with h1 h2
                    exact hx (h2 ▸ hu)
                · exact fun t ht e he => hO t ht e (heapErase_subset _ _ _ he)
                · exact fun e he => hW e (heapErase_subset _ _ _ he)
                · omega
              · rw [if_neg hu]
                have hdu : dgetD dist u none = some cd := by
                  rcases hP u hu with hnone | ⟨c, hc, hv⟩
                  · obtain ⟨a, ha, -⟩ := hQ (cd, u) hmem cd rfl
                    rw [hnone] at ha
                    exact Option.noConfusion ha
                  · have hlex := hmin (c, u) hc
                    have hcdc : cd ≤ c := by
                      rcases hlex with h | ⟨h, -⟩
                      · have h2 : cd < c := h
                        omega
                      · have h2 : cd = c := h
                        omega
                    obtain ⟨b, hb, hbc⟩ := hQ (cd, u) hmem cd rfl
                    rw [hv] at hb
                    injection hb with hb2
                    rw [hv]
                    rw [show c = cd from by omega]
                have hstale : eltB (some cd) (some cd) = false := by simp [eltB]
                rw [hdu, hstale, if_neg Bool.false_ne_true]
                have hwadj : ∀ e ∈ dgetD g u [], 0 ≤ e.2 := by
                  intro e he
                  obtain ⟨p, hp, hep⟩ := mem_dgetD_values g u e he
                  exact hnn p hp e hep
                have hEadj : ∀ e ∈ dgetD g u [], Edge g u e.1 e.2 := by
                  intro e he
                  cases hdg : dget g u with
                  | none =>
                      rw [dgetD, hdg] at he
                      exact absurd he (List.not_mem_nil e)
                  | some adj0 =>
                      have he2 : e ∈ adj0 := by rw [dgetD, hdg] at he; exact he
                      exact ⟨(u, adj0), dget_some_mem g u adj0 hdg, rfl, he2⟩
                have hEinv : ∀ v w, Edge g u v w → (v, w) ∈ dgetD g u [] := by
                  intro v w hE
                  obtain ⟨p, hp, hp1, hvw⟩ := hE
                  have hget := dget_of_mem_nodup g hnd p hp
                  rw [hp1] at hget
                  rw [dgetD, hget]
                  exact hvw
                have hOc : ∀ t ∈ visited ++ [u],
                    edle (dgetD dist t none) (some cd) := by
                  intro t ht
                  rcases List.mem_append.mp ht with h | h
                  · exact hO t h (cd, u) hmem
                  · rw [List.mem_singleton.mp h, hdu]
                    exact edle_refl _
                refine ih (relaxAll u dist (heapErase (e0 :: pqr) (cd, u))
                    (dgetD g u [])).2 (visited ++ [u])
                    (relaxAll u dist (heapErase (e0 :: pqr) (cd, u))
                    (dgetD g u [])).1
                    ?_ ?_ ?_ ?_ ?_ ?_ ?_ ?_ ?_
                · exact relaxAll_realizable g start u cd _ dist _ hdu hwadj hEadj hR
                · exact edle_trans
                    (relaxAll_dist_mono u cd _ dist _ hdu hwadj start) hS
                · refine relaxAll_Q u cd _ dist _ hdu hwadj ?_
                  exact fun e he => hQ e (heapErase_subset _ _ _ he)
                · intro x hx
                  have hxvis : x ∉ visited :=
                    fun h => hx (List.mem_append.mpr (Or.inl h))
                  have hxu : x ≠ u := fun h =>
                    hx (List.mem_append.mpr (Or.inr (List.mem_singleton.mpr h)))
                  rcases relaxAll_P u cd (dgetD g u []) dist
                      (heapErase (e0 :: pqr) (cd, u)) hdu hwadj x with
                    hsame | ⟨c, hc1, hc2⟩
                  · rcases hP x hxvis with hnone | ⟨c, hc, hv⟩
                    · exact Or.inl (by rw [hsame]; exact hnone)
                    · refine Or.inr ⟨c, ?_, by rw [hsame]; exact hv⟩
                      refine relaxAll_pq_super u cd _ dist _ hdu hwadj (c, x) ?_
                      refine heapErase_mem_of_ne _ _ _ hc ?_
                      intro heq
                      injection heq with h1 h2
                      exact hxu h2
                  · exact Or.inr ⟨c, hc1, hc2⟩
                · intro t ht v w hE
                  have hkt := relaxAll_keeps u cd (dgetD g u []) dist
                    (heapErase (e0 :: pqr) (cd, u)) t hdu hwadj (hOc t ht)
                  rcases List.mem_append.mp ht with htv | htu
                  · rw [hkt]
                    exact edle_trans
                      (relaxAll_dist_mono u cd _ dist _ hdu hwadj v)
                      (hC1 t htv v w hE)
                  · have htu2 : t = u := List.mem_singleton.mp htu
                    rw [htu2] at hE ⊢
                    rw [relaxAll_dist_u u cd _ dist _ hdu hwadj]
                    show edle (dgetD (relaxAll u dist
                      (heapErase (e0 :: pqr) (cd, u)) (dgetD g u [])).1 v none)
                      (some (cd + w))
                    exact relaxAll_relax u cd _ dist _ hdu hwadj (v, w)
                      (hEinv v w hE)
                · intro t ht e he
                  have hkt := relaxAll_keeps u cd (dgetD g u []) dist
                    (heapErase (e0 :: pqr) (cd, u)) t hdu hwadj (hOc t ht)
                  rw [hkt]
                  rcases relaxAll_keys_lb u cd _ dist _ hdu hwadj e he with
                    hein | hcd
                  · have hepq : e ∈ e0 :: pqr := heapErase_subset _ _ _ hein
                    rcases List.mem_append.mp ht with htv | htu
                    · exact hO t htv e hepq
                    · rw [List.mem_singleton.mp htu, hdu]
                      have hlex := hmin e hepq
                      have hce : cd ≤ e.1 := by
                        rcases hlex with h | ⟨h, -⟩
                        · exact le_of_lt h
                        · exact le_of_eq h
                      intro y hy
                      injection hy with hy2
                      exact ⟨cd, rfl, by omega⟩
                  · obtain ⟨a, ha, hac⟩ := hOc t ht cd rfl
                    rw [ha]
                    intro y hy
                    injection hy with hy2
                    exact ⟨a, rfl, by omega⟩
                · intro e he
                  rcases relaxAll_pq_targets u cd _ dist _ hdu hwadj e he with
                    hein | htar
                  · exact hW e (heapErase_subset _ _ _ hein)
                  · rw [List.mem_map] at htar
                    obtain ⟨e2, he2, heq⟩ := htar
                    obtain ⟨p, hp, hep⟩ := mem_dgetD_values g u e2 he2
                    rw [← heq]
                    exact mem_collectNodes_target g (dkeys g) p hp e2 hep
                · have htar : ∀ e ∈ dgetD g u [], e.1 ∈ dkeys dist := by
                    intro e he
                    obtain ⟨p, hp, hep⟩ := mem_dgetD_values g u e he
                    rw [hK]
                    exact mem_collectNodes_target g (dkeys g) p hp e hep
                  rw [relaxAll_dkeys u cd _ dist _ hdu hwadj htar]
                  exact hK
                · have hul : u ∈ collectNodes (dkeys g) g := hW (cd, u) hmem
                  have hvn : (collectNodes (dkeys g) g).Nodup :=
                    collectNodes_nodup g (dkeys g) hnd
                  have hrv := remEdges_visit g u visited
                    (collectNodes (dkeys g) g) hvn hul hu
                  have hplen := relaxAll_pq_len u cd (dgetD g u []) dist
                    (heapErase (e0 :: pqr) (cd, u)) hdu hwadj
                  omega

/-- On a graph with non-negative weights, distinct keys, and the start node
among the keys, dijkstra terminates with a distance dict that is realizable,
relaxation-closed, at most 0 at start, and keyed by the vertex set. -/
theorem dijkstra_nonneg (g : WGraph) (start : Int) (hst : start ∈ dkeys g)
    (hnn : NonNeg g) (hnd : (dkeys g).Nodup) :
    ∃ d, dijkstra g start = some (Except.ok d) ∧ Realizable g start d ∧
      RelaxClosed g d ∧ edle (dgetD d start none) (some 0) ∧
      dkeys d = collectNodes (dkeys g) g := by
  have hcc := collectChecked_nonneg g (dkeys g) hnn
  have hsm : start ∈
      dkeys ((collectNodes (dkeys g) g).map (fun v => (v, (none : EDist)))) := by
    rw [dkeys_map_pair]
    exact mem_collectNodes_mono g (dkeys g) start hst
  have hR0 : Realizable g start
      (dset ((collectNodes (dkeys g) g).map (fun v => (v, (none : EDist))))
        start (some 0)) := by
    intro x dx hx
    by_cases hxs : x = start
    · rw [hxs, dgetD_dset_self] at hx
      injection hx with hx2
      rw [hxs]
      refine ⟨[], rfl, ?_⟩
      rw [walkWeight_nil]
      omega
    · rw [dgetD_dset_ne _ _ _ _ _ hxs, dgetD_map_none] at hx
      exact Option.noConfusion hx
  have hS0 : edle (dgetD
      (dset ((collectNodes (dkeys g) g).map (fun v => (v, (none : EDist))))
        start (some 0)) start none) (some 0) := by
    rw [dgetD_dset_self]
    exact edle_refl _
  have hQ0 : ∀ e ∈ [((0 : Int), start)], edle (dgetD
      (dset ((collectNodes (dkeys g) g).map (fun v => (v, (none : EDist))))
        start (some 0)) e.2 none) (some e.1) := by
    intro e he
    rw [List.mem_singleton] at he
    rw [he]
    show edle (dgetD (dset ((collectNodes (dkeys g) g).map
      (fun v => (v, (none : EDist)))) start (some 0)) start none) (some 0)
    rw [dgetD_dset_self]
    exact edle_refl _
  have hP0 : ∀ x, x ∉ ([] : List Int) → dgetD
      (dset ((collectNodes (dkeys g) g).map (fun v => (v, (none : EDist))))
        start (some 0)) x none = none ∨
      ∃ c, (c, x) ∈ [((0 : Int), start)] ∧ dgetD
        (dset ((collectNodes (dkeys g) g).map (fun v => (v, (none : EDist))))
          start (some 0)) x none = some c := by
    intro x hx
    by_cases hxs : x = start
    · refine Or.inr ⟨0, ?_, ?_⟩
      · rw [hxs]
        exact List.mem_singleton.mpr rfl
      · rw [hxs, dgetD_dset_self]
    · rw [dgetD_dset_ne _ _ _ _ _ hxs, dgetD_map_none]
      exact Or.inl rfl
  have hW0 : ∀ e ∈ [((0 : Int), start)], e.2 ∈ collectNodes (dkeys g) g := by
    intro e he
    rw [List.mem_singleton] at he
    rw [he]
    exact mem_collectNodes_mono g (dkeys g) start hst
  have hK0 : dkeys
      (dset ((collectNodes (dkeys g) g).map (fun v => (v, (none : EDist))))
        start (some 0)) = collectNodes (dkeys g) g := by
    rw [dkeys_dset_of_mem _ _ _ hsm, dkeys_map_pair]
  have hm0 : ([((0 : Int), start)]).length +
      remEdges g (collectNodes (dkeys g) g) [] < totalEdges g + 2 := by
    have hvn : (collectNodes (dkeys g) g).Nodup :=
      collectNodes_nodup g (dkeys g) hnd
    have := remEdges_le_total g (collectNodes (dkeys g) g) [] hvn
    simp only [List.length_singleton]
    omega
  obtain ⟨d, hdl, hr, hc, hs, hk⟩ := dloop_ok g start hnn hnd (totalEdges g + 2)
    [(0, start)] []
    (dset ((collectNodes (dkeys g) g).map (fun v => (v, (none : EDist))))
      start (some 0))
    hR0 hS0 hQ0 hP0 (fun t ht => absurd ht (List.not_mem_nil t))
    (fun t ht => absurd ht (List.not_mem_nil t)) hW0 hK0 hm0
  refine ⟨d, ?_, hr, hc, hs, hk⟩
  rw [dijkstra, if_neg (not_not_intro hst), hcc]
  show (match dloop g (totalEdges g + 2) [(0, start)] []
      (dset ((collectNodes (dkeys g) g).map (fun v => (v, (none : EDist))))
        start (some 0)) with
    | none => none
    | some d => some (Except.ok d)) = some (Except.ok d)
  rw [hdl]

theorem bfRelaxEdges_dkeys (u : Int) :
    ∀ (adj : List (Int × Int)) (dist : DistMap) (upd : Bool),
      (∀ e ∈ adj, e.1 ∈ dkeys dist) →
      dkeys (bfRelaxEdges u dist upd adj).1 = dkeys dist := by
  intro adj
  induction adj with
  | nil => intro dist upd _; rw [bfRelaxEdges]
  | cons e rest ih =>
      rcases e with ⟨v, w⟩
      intro dist upd hk
      rw [bfRelaxEdges]
      by_cases hb : eltB (eadd (dgetD dist u none) w) (dgetD dist v none) = true
      · rw [if_pos hb]
        have hks : dkeys (dset dist v (eadd (dgetD dist u none) w)) =
            dkeys dist :=
          dkeys_dset_of_mem dist v _ (hk (v, w) (List.mem_cons_self _ _))
        rw [ih _ true (by
          intro e he
          rw [hks]
          exact hk e (List.mem_cons_of_mem _ he)), hks]
      · rw [if_neg hb]
        exact ih dist upd (fun e he => hk e (List.mem_cons_of_mem _ he))

theorem bfRound_dkeys :
    ∀ (gl : List (Int × List (Int × Int))) (dist : DistMap) (upd : Bool),
      (∀ p ∈ gl, ∀ e ∈ p.2, e.1 ∈ dkeys dist) →
      dkeys (bfRound dist upd gl).1 = dkeys dist := by
  intro gl
  induction gl with
  | nil => intro dist upd _; rw [bfRound]
  | cons p rest ih =>
      rcases p with ⟨u, adj⟩
      intro dist upd hk
      rw [bfRound]
      by_cases hn : dgetD dist u none = none
      · rw [if_pos hn]
        exact ih dist upd (fun p hp => hk p (List.mem_cons_of_mem _ hp))
      · rw [if_neg hn]
        have h1 : dkeys (bfRelaxEdges u dist upd adj).1 = dkeys dist :=
          bfRelaxEdges_dkeys u adj dist upd (hk (u, adj) (List.mem_cons_self _ _))
        show dkeys (bfRound (bfRelaxEdges u dist upd adj).1
          (bfRelaxEdges u dist upd adj).2 rest).1 = dkeys dist
        rw [ih _ _ (by
          intro p hp e he
          rw [h1]
          exact hk p (List.mem_cons_of_mem _ hp) e he), h1]

theorem bfRounds_dkeys (g : WGraph) :
    ∀ (n : Nat) (dist : DistMap),
      (∀ p ∈ g, ∀ e ∈ p.2, e.1 ∈ dkeys dist) →
      dkeys (bfRounds g n dist) = dkeys dist := by
  intro n
  induction n with
  | zero => intro dist _; rw [bfRounds]
  | succ n ih =>
      intro dist hk
      rw [bfRounds]
      have h1 : dkeys (bfRound dist false g).1 = dkeys dist :=
        bfRound_dkeys g dist false hk
      show dkeys (if (bfRound dist false g).2 then
        bfRounds g n (bfRound dist false g).1 else (bfRound dist false g).1) =
        dkeys dist
      by_cases hb : (bfRound dist false g).2 = true
      · rw [if_pos hb]
        rw [ih _ (by
          intro p hp e he
          rw [h1]
          exact hk p hp e he), h1]
      · rw [if_neg hb]
        exact h1

theorem bfRun_dkeys (g : WGraph) (start : Int) (hst : start ∈ dkeys g) :
    dkeys (bfRun g start) = collectNodes (dkeys g) g := by
  rw [bfRun]
  have hinit : dkeys (bfInit (collectNodes (dkeys g) g) start) =
      collectNodes (dkeys g) g := by
    rw [bfInit]
    have hsm : start ∈ dkeys ((collectNodes (dkeys g) g).map
        (fun v => (v, (none : EDist)))) := by
      rw [dkeys_map_pair]
      exact mem_collectNodes_mono g (dkeys g) start hst
    rw [dkeys_dset_of_mem _ _ _ hsm, dkeys_map_pair]
  rw [bfRounds_dkeys g _ _ (by
    intro p hp e he
    rw [hinit]
    exact mem_collectNodes_target g (dkeys g) p hp e he), hinit]

/-- C1: on a graph with all edge weights non-negative, distinct adjacency
keys, and a start node among the keys, dijkstra and bellman_ford both
succeed and return the same distance dict: the same key set and the same
distance value (or the infinite sentinel) for every node. -/
theorem dijkstra_bellman_ford_agree (g : WGraph) (start : Int)
    (hnd : (dkeys g).Nodup) (hst : start ∈ dkeys g) (hnn : NonNeg g) :
    ∃ d, dijkstra g start = some (Except.ok d) ∧
      bellman_ford g start = Except.ok d := by
  obtain ⟨d, hdl, hr1, hc1, hs1, hk1⟩ := dijkstra_nonneg g start hst hnn hnd
  obtain ⟨hbf, hr2, hc2, hs2⟩ := bf_nonneg g start hst hnn
  have hvals := charac_unique g start d (bfRun g start) hc1 hs1 hr1 hc2 hs2 hr2
  have hk2 : dkeys (bfRun g start) = collectNodes (dkeys g) g :=
    bfRun_dkeys g start hst
  have hkeq : dkeys d = dkeys (bfRun g start) := by rw [hk1, hk2]
  have hdk : (dkeys d).Nodup := by
    rw [hk1]
    exact collectNodes_nodup g (dkeys g) hnd
  have heq : d = bfRun g start := by
    refine dict_ext d (bfRun g start) hkeq hdk ?_
    intro k
    by_cases hkm : k ∈ dkeys d
    · obtain ⟨v1, hv1⟩ := mem_dkeys_dget_isSome hkm
      obtain ⟨v2, hv2⟩ := mem_dkeys_dget_isSome (hkeq ▸ hkm)
      have hval := hvals k
      simp only [dgetD, hv1, hv2, Option.getD_some] at hval
      rw [hv1, hv2, hval]
    · rw [dget_eq_none_of_not_mem d k hkm,
        dget_eq_none_of_not_mem _ k (by rw [← hkeq]; exact hkm)]
  refine ⟨d, hdl, ?_⟩
  rw [heq]
  exact hbf

theorem dijkstra_bellman_ford_agree_witness :
    ∃ d, dijkstra [((0 : Int), [((1 : Int), (4 : Int)), (2, 1)]), (1, [(3, 1)]),
        (2, [(1, 2), (3, 5)]), (3, [])] 0 = some (Except.ok d) ∧
      bellman_ford [((0 : Int), [((1 : Int), (4 : Int)), (2, 1)]), (1, [(3, 1)]),
        (2, [(1, 2), (3, 5)]), (3, [])] 0 = Except.ok d :=
  dijkstra_bellman_ford_agree _ 0 (by decide) (by decide)
    (by unfold NonNeg; decide)

/-! ## C4: Kosaraju SCC (src/Kosarajus_algorithm.py) -/

/-- reverse_graph of Kosarajus_algorithm.py: keys pre-seeded from the graph
keys (each with an empty list), then every edge reversed with a key-presence
check folded into dAppend. -/
def reverse_graph_kos (g : UGraph) : UGraph :=
  g.foldl (fun rg p => p.2.foldl (fun rg nb => dAppend rg nb p.1) rg)
    (g.map (fun p => (p.1, ([] : List Int))))

/-- kosaraju_scc(graph) of Kosarajus_algorithm.py: first DFS pass over the
keys building the finish stack, then the second pass over the popped stack
on the reversed graph. The DFS helpers dfs1/dfs2 are shared with the 2-SAT
module, whose local kosaraju uses the same recursions. -/
def kosaraju_scc (g : UGraph) (fuel : Nat) : Option (List (List Int)) :=
  match kosarajuPass1 g fuel with
  | none => none
  | some st =>
      match kosarajuPass2 (reverse_graph_kos g) fuel st.2.reverse ([], []) with
      | none => none
      | some st2 => some st2.2

/-- u reaches v along directed edges. -/
def ReachU (g : UGraph) (u v : Int) : Prop :=
  ∃ vs, UWalk g u vs v

theorem reachU_refl (g : UGraph) (u : Int) : ReachU g u u :=
  ⟨[], rfl⟩

theorem reachU_trans {g : UGraph} {u v w : Int} (h1 : ReachU g u v)
    (h2 : ReachU g v w) : ReachU g u w := by
  obtain ⟨vs1, hw1⟩ := h1
  obtain ⟨vs2, hw2⟩ := h2
  exact ⟨vs1 ++ vs2, (uwalk_append g vs1 vs2 u w).mpr ⟨v, hw1, hw2⟩⟩

theorem reachU_edge {g : UGraph} {u v : Int} (h : UEdgeP g u v) :
    ReachU g u v :=
  ⟨[v], h, rfl⟩

theorem reach_rev_of_edge_rev (g rg : UGraph)
    (hE : ∀ a b, UEdgeP rg a b → UEdgeP g b a) :
    ∀ (vs : List Int) (u v : Int), UWalk rg u vs v → ReachU g v u := by
  intro vs
  induction vs with
  | nil =>
      intro u v h
      rw [show u = v from h]
      exact reachU_refl g v
  | cons x rest ih =>
      intro u v h
      obtain ⟨he, hw⟩ := h
      exact reachU_trans (ih x v hw) (reachU_edge (hE u x he))

theorem dget_append {κ α : Type} [DecidableEq κ] :
    ∀ (d1 d2 : List (κ × α)) (k : κ),
      dget (d1 ++ d2) k = match dget d1 k with
        | some v => some v
        | none => dget d2 k := by
  intro d1
  induction d1 with
  | nil => intro d2 k; rfl
  | cons p rest ih =>
      rcases p with ⟨k0, v0⟩
      intro d2 k
      rw [List.cons_append, dget, dget]
      by_cases hk : k = k0
      · rw [if_pos hk, if_pos hk]
      · rw [if_neg hk, if_neg hk, ih]

theorem dgetD_of_uedgeP (g : UGraph) (hnd : (dkeys g).Nodup) (u v : Int)
    (h : UEdgeP g u v) : v ∈ dgetD g u [] := by
  obtain ⟨p, hp, hp1, hv⟩ := h
  have hget := dget_of_mem_nodup g hnd p hp
  rw [hp1] at hget
  rw [dgetD, hget]
  exact hv

theorem dkeys_dAppend_nodup (d : UGraph) (k x : Int) (h : (dkeys d).Nodup) :
    (dkeys (dAppend d k x)).Nodup := by
  unfold dAppend
  cases hd : dget d k with
  | some l =>
      have hks := dkeys_dset_of_mem d k (l ++ [x])
        (mem_dkeys_of_mem d (k, l) (dget_mem d k l hd))
      rw [hks]
      exact h
  | none =>
      rw [show dkeys (d ++ [(k, [x])]) = dkeys d ++ [k] from by simp [dkeys]]
      have hk : k ∉ dkeys d := by
        intro hm
        obtain ⟨v, hv⟩ := mem_dkeys_dget_isSome hm
        rw [hd] at hv
        exact Option.noConfusion hv
      simp [List.nodup_append, h, hk]

theorem dgetD_dAppend_self (d : UGraph) (k x : Int) :
    dgetD (dAppend d k x) k [] = dgetD d k [] ++ [x] := by
  unfold dAppend
  cases hd : dget d k with
  | some l =>
      rw [dgetD, dget_dset_self, dgetD, hd]
      rfl
  | none =>
      rw [dgetD, dget_append, hd, dgetD, hd]
      show (dget [(k, [x])] k).getD [] = [] ++ [x]
      rw [dget, if_pos rfl]
      rfl

theorem dgetD_dAppend_ne (d : UGraph) (k k2 x : Int) (h : k2 ≠ k) :
    dgetD (dAppend d k x) k2 [] = dgetD d k2 [] := by
  unfold dAppend
  cases hd : dget d k with
  | some l => rw [dgetD, dget_dset_ne _ _ _ _ h, dgetD]
  | none =>
      rw [dgetD, dget_append, dgetD]
      cases hd2 : dget d k2 with
      | some v => rfl
      | none =>
          show (dget [(k, [x])] k2).getD [] = (none : Option (List Int)).getD []
          rw [dget, if_neg h]
          rfl

theorem mem_dkeys_dAppend (d : UGraph) (k x k2 : Int) :
    k2 ∈ dkeys (dAppend d k x) ↔ k2 = k ∨ k2 ∈ dkeys d := by
  unfold dAppend
  cases hd : dget d k with
  | some l => rw [mem_dkeys_dset]
  | none =>
      simp [dkeys]
      exact Or.comm

theorem dgetD_map_nil (gl : UGraph) (b : Int) :
    dgetD (gl.map (fun p => (p.1, ([] : List Int)))) b [] = [] := by
  induction gl with
  | nil => rfl
  | cons p rest ih =>
      rw [List.map_cons, dgetD, dget]
      by_cases hb : b = (p.1, ([] : List Int)).1
      · rw [if_pos hb]
        rfl
      · rw [if_neg hb]
        exact ih

theorem dkeys_map_nil (gl : UGraph) :
    dkeys (gl.map (fun p => (p.1, ([] : List Int)))) = dkeys gl := by
  induction gl with
  | nil => rfl
  | cons p rest ih =>
      show (p.1, ([] : List Int)).1 ::
        dkeys (rest.map (fun p => (p.1, ([] : List Int)))) = p.1 :: dkeys rest
      rw [ih]

theorem revInner_mem (s : Int) :
    ∀ (ts : List Int) (rg : UGraph) (a b : Int),
      a ∈ dgetD (ts.foldl (fun rg nb => dAppend rg nb s) rg) b [] ↔
        a ∈ dgetD rg b [] ∨ (a = s ∧ b ∈ ts) := by
  intro ts
  induction ts with
  | nil => intro rg a b; simp
  | cons t rest ih =>
      intro rg a b
      rw [List.foldl_cons, ih]
      constructor
      · rintro (h | ⟨ha, hb⟩)
        · by_cases hb : b = t
          · rw [hb, dgetD_dAppend_self] at h
            rcases List.mem_append.mp h with h2 | h2
            · rw [hb]
              exact Or.inl h2
            · rw [List.mem_singleton] at h2
              exact Or.inr ⟨h2, by rw [hb]; exact List.mem_cons_self _ _⟩
          · rw [dgetD_dAppend_ne _ _ _ _ hb] at h
            exact Or.inl h
        · exact Or.inr ⟨ha, List.mem_cons_of_mem _ hb⟩
      · rintro (h | ⟨ha, hb⟩)
        · left
          by_cases hbt : b = t
          · rw [hbt, dgetD_dAppend_self]
            exact List.mem_append.mpr (Or.inl (by rw [← hbt]; exact h))
          · rw [dgetD_dAppend_ne _ _ _ _ hbt]
            exact h
        · rcases List.mem_cons.mp hb with hb2 | hb2
          · left
            rw [hb2, dgetD_dAppend_self]
            exact List.mem_append.mpr (Or.inr (List.mem_singleton.mpr ha))
          · exact Or.inr ⟨ha, hb2⟩

theorem revOuter_mem :
    ∀ (gl : UGraph) (rg : UGraph) (a b : Int),
      a ∈ dgetD (gl.foldl
          (fun rg p => p.2.foldl (fun rg nb => dAppend rg nb p.1) rg) rg) b [] ↔
        a ∈ dgetD rg b [] ∨ ∃ p ∈ gl, p.1 = a ∧ b ∈ p.2 := by
  intro gl
  induction gl with
  | nil => intro rg a b; simp
  | cons q rest ih =>
      intro rg a b
      rw [List.foldl_cons, ih, revInner_mem]
      constructor
      · rintro ((h | ⟨ha, hb⟩) | ⟨p, hp, hp1, hb⟩)
        · exact Or.inl h
        · exact Or.inr ⟨q, List.mem_cons_self _ _, ha.symm, hb⟩
        · exact Or.inr ⟨p, List.mem_cons_of_mem _ hp, hp1, hb⟩
      · rintro (h | ⟨p, hp, hp1, hb⟩)
        · exact Or.inl (Or.inl h)
        · rcases List.mem_cons.mp hp with hp2 | hp2
          · rw [hp2] at hp1 hb
            exact Or.inl (Or.inr ⟨hp1.symm, hb⟩)
          · exact Or.inr ⟨p, hp2, hp1, hb⟩

theorem mem_rev_kos (g : UGraph) (a b : Int) :
    a ∈ dgetD (reverse_graph_kos g) b [] ↔ UEdgeP g a b := by
  unfold reverse_graph_kos
  rw [revOuter_mem, dgetD_map_nil]
  simp [UEdgeP]

theorem revInner_nodup (s : Int) :
    ∀ (ts : List Int) (rg : UGraph), (dkeys rg).Nodup →
      (dkeys (ts.foldl (fun rg nb => dAppend rg nb s) rg)).Nodup := by
  intro ts
  induction ts with
  | nil => intro rg h; exact h
  | cons t rest ih =>
      intro rg h
      rw [List.foldl_cons]
      exact ih _ (dkeys_dAppend_nodup rg t s h)

theorem revOuter_nodup :
    ∀ (gl : UGraph) (rg : UGraph), (dkeys rg).Nodup →
      (dkeys (gl.foldl
        (fun rg p => p.2.foldl (fun rg nb => dAppend rg nb p.1) rg) rg)).Nodup := by
  intro gl
  induction gl with
  | nil => intro rg h; exact h
  | cons q rest ih =>
      intro rg h
      rw [List.foldl_cons]
      exact ih _ (revInner_nodup q.1 q.2 rg h)

theorem rev_kos_keys_nodup (g : UGraph) (hnd : (dkeys g).Nodup) :
    (dkeys (reverse_graph_kos g)).Nodup := by
  unfold reverse_graph_kos
  refine revOuter_nodup g _ ?_
  rw [dkeys_map_nil]
  exact hnd

theorem uedge_rev_kos (g : UGraph) (hnd : (dkeys g).Nodup) (a b : Int) :
    UEdgeP (reverse_graph_kos g) a b ↔ UEdgeP g b a := by
  constructor
  · intro h
    exact (mem_rev_kos g b a).mp
      (dgetD_of_uedgeP _ (rev_kos_keys_nodup g hnd) a b h)
  · intro h
    exact uedgeP_of_dgetD _ a b ((mem_rev_kos g b a).mpr h)

/-- Specification of one completed dfs1 call: the stack grows by a block
delta ending with the entered node; the visited set grows by exactly the
block; the block is disjoint from the old visited set, duplicate-free,
reachable from the entered node, closed (every out-edge of a block node
lands in the final visited set), and inside the node universe. -/
def Dfs1Out (g : UGraph) (n : Int) (st st2 : List Int × List Int)
    (delta : List Int) : Prop :=
  st2.2 = st.2 ++ delta ∧
  (∀ x, x ∈ st2.1 ↔ x ∈ st.1 ∨ x ∈ delta) ∧
  (∀ x ∈ delta, x ∉ st.1) ∧
  delta.Nodup ∧
  (∃ d0, delta = d0 ++ [n]) ∧
  (∀ w ∈ delta, ReachU g n w) ∧
  (∀ u ∈ delta, ∀ v ∈ dgetD g u [], v ∈ st2.1) ∧
  (∀ x ∈ delta, x ∈ allNodesU g)

theorem dfs1_fold_spec (g : UGraph) (fuel : Nat)
    (hIH : ∀ (nb : Int) (st st2 : List Int × List Int),
      dfs1 g fuel nb st = some st2 → nb ∉ st.1 → nb ∈ allNodesU g →
      ∃ delta, Dfs1Out g nb st st2 delta) :
    ∀ (ts : List Int) (st0 st1 : List Int × List Int),
      ts.foldlM (fun st2 nb => if nb ∈ st2.1 then some st2 else dfs1 g fuel nb st2)
        st0 = some st1 →
      (∀ nb ∈ ts, nb ∈ allNodesU g) →
      ∃ delta, st1.2 = st0.2 ++ delta ∧
        (∀ x, x ∈ st1.1 ↔ x ∈ st0.1 ∨ x ∈ delta) ∧
        (∀ x ∈ delta, x ∉ st0.1) ∧
        delta.Nodup ∧
        (∀ w ∈ delta, ∃ nb ∈ ts, ReachU g nb w) ∧
        (∀ u ∈ delta, ∀ v ∈ dgetD g u [], v ∈ st1.1) ∧
        (∀ x ∈ delta, x ∈ allNodesU g) ∧
        (∀ nb ∈ ts, nb ∈ st1.1) := by
  intro ts
  induction ts with
  | nil =>
      intro st0 st1 h _
      simp only [List.foldlM_nil] at h
      injection h with h2
      subst h2
      refine ⟨[], by simp, ?_, ?_, List.nodup_nil, ?_, ?_, ?_, ?_⟩
      · intro x
        simp
      · intro x hx
        exact absurd hx (List.not_mem_nil x)
      · intro w hw
        exact absurd hw (List.not_mem_nil w)
      · intro u hu
        exact absurd hu (List.not_mem_nil u)
      · intro x hx
        exact absurd hx (List.not_mem_nil x)
      · intro nb hnb
        exact absurd hnb (List.not_mem_nil nb)
  | cons nb rest ih =>
      intro st0 st1 h hu
      rw [List.foldlM_cons] at h
      have hur : ∀ x ∈ rest, x ∈ allNodesU g :=
        fun x hx => hu x (List.mem_cons_of_mem _ hx)
      by_cases hmem : nb ∈ st0.1
      · rw [if_pos hmem] at h
        simp only [Option.bind_eq_bind, Option.some_bind] at h
        obtain ⟨delta, h1, h2, h3, h4, h5, h6, h7, h8⟩ := ih st0 st1 h hur
        refine ⟨delta, h1, h2, h3, h4, ?_, h6, h7, ?_⟩
        · intro w hw
          obtain ⟨nb2, hnb2, hr2⟩ := h5 w hw
          exact ⟨nb2, List.mem_cons_of_mem _ hnb2, hr2⟩
        · intro x hx
          rcases List.mem_cons.mp hx with hx2 | hx2
          · rw [hx2]
            exact (h2 nb).mpr (Or.inl hmem)
          · exact h8 x hx2
      · rw [if_neg hmem] at h
        cases hsub : dfs1 g fuel nb st0 with
        | none => rw [hsub] at h; simp at h
        | some stm =>
            rw [hsub] at h
            simp only [Option.bind_eq_bind, Option.some_bind] at h
            obtain ⟨d1, g1, g2, g3, g4, g5, g6, g7, g8⟩ :=
              hIH nb st0 stm hsub hmem (hu nb (List.mem_cons_self _ _))
            obtain ⟨d2, h1, h2, h3, h4, h5, h6, h7, h8⟩ := ih stm st1 h hur
            have hsub01 : ∀ x, x ∈ st0.1 → x ∈ stm.1 :=
              fun x hx => (g2 x).mpr (Or.inl hx)
            have hsubm1 : ∀ x, x ∈ stm.1 → x ∈ st1.1 :=
              fun x hx => (h2 x).mpr (Or.inl hx)
            refine ⟨d1 ++ d2, ?_, ?_, ?_, ?_, ?_, ?_, ?_, ?_⟩
            · rw [h1, g1, List.append_assoc]
            · intro x
              rw [h2 x, g2 x, List.mem_append]
              tauto
            · intro x hx
              rcases List.mem_append.mp hx with hx2 | hx2
              · exact g3 x hx2
              · exact fun hc => h3 x hx2 (hsub01 x hc)
            · rw [List.nodup_append]
              refine ⟨g4, h4, ?_⟩
              intro x hx1 hx2
              exact h3 x hx2 ((g2 x).mpr (Or.inr hx1))
            · intro w hw
              rcases List.mem_append.mp hw with hw2 | hw2
              · exact ⟨nb, List.mem_cons_self _ _, g6 w hw2⟩
              · obtain ⟨nb2, hnb2, hr2⟩ := h5 w hw2
                exact ⟨nb2, List.mem_cons_of_mem _ hnb2, hr2⟩
            · intro u hu2 v hv
              rcases List.mem_append.mp hu2 with hu3 | hu3
              · exact hsubm1 v (g7 u hu3 v hv)
              · exact h6 u hu3 v hv
            · intro x hx
              rcases List.mem_append.mp hx with hx2 | hx2
              · exact g8 x hx2
              · exact h7 x hx2
            · intro x hx
              rcases List.mem_cons.mp hx with hx2 | hx2
              · rw [hx2]
                obtain ⟨d0, hd0⟩ := g5
                refine hsubm1 nb ((g2 nb).mpr (Or.inr ?_))
                rw [hd0]
                exact List.mem_append.mpr (Or.inr (List.mem_singleton.mpr rfl))
              · exact h8 x hx2

theorem dfs1_spec (g : UGraph) :
    ∀ (fuel : Nat) (n : Int) (st st2 : List Int × List Int),
      dfs1 g fuel n st = some st2 → n ∉ st.1 → n ∈ allNodesU g →
      ∃ delta, Dfs1Out g n st st2 delta := by
  intro fuel
  induction fuel with
  | zero => intro n st st2 h; cases h
  | succ fuel ih =>
      intro n st st2 h hn hun
      simp only [dfs1] at h
      split at h
      · cases h
      · rename_i st3 hf
        rw [Option.some.injEq] at h
        subst h
        obtain ⟨df, h1, h2, h3, h4, h5, h6, h7, h8⟩ :=
          dfs1_fold_spec g fuel ih (dgetD g n []) (addNode st.1 n, st.2) st3 hf
            (fun nb hnb => dgetD_targets_mem_allNodesU g n nb hnb)
        have hnf : n ∉ df := fun hc => h3 n hc ((mem_addNode st.1 n n).mpr (Or.inr rfl))
        refine ⟨df ++ [n], ?_, ?_, ?_, ?_, ⟨df, rfl⟩, ?_, ?_, ?_⟩
        · show st3.2 ++ [n] = st.2 ++ (df ++ [n])
          rw [h1]
          simp
        · intro x
          show x ∈ st3.1 ↔ _
          rw [h2 x, mem_addNode, List.mem_append, List.mem_singleton]
          tauto
        · intro x hx
          rcases List.mem_append.mp hx with hx2 | hx2
          · exact fun hc => h3 x hx2 ((mem_addNode st.1 n x).mpr (Or.inl hc))
          · rw [List.mem_singleton] at hx2
            rw [hx2]
            exact hn
        · exact nodup_append_singleton df n h4 hnf
        · intro w hw
          rcases List.mem_append.mp hw with hw2 | hw2
          · obtain ⟨nb, hnb, hr2⟩ := h5 w hw2
            exact reachU_trans (reachU_edge (uedgeP_of_dgetD g n nb hnb)) hr2
          · rw [List.mem_singleton] at hw2
            rw [hw2]
            exact reachU_refl g n
        · intro u hu v hv
          rcases List.mem_append.mp hu with hu2 | hu2
          · exact h6 u hu2 v hv
          · rw [List.mem_singleton] at hu2
            rw [hu2] at hv
            exact h8 v hv
        · intro x hx
          rcases List.mem_append.mp hx with hx2 | hx2
          · exact h7 x hx2
          · rw [List.mem_singleton] at hx2
            rw [hx2]
            exact hun

/-- Unvisited nodes of the universe: the DFS fuel measure for Kosaraju. -/
def whitesK (g : UGraph) (vis : List Int) : Nat :=
  ((allNodesU g).filter (fun v => !(decide (v ∈ vis)))).length

theorem whitesK_mono (g : UGraph) (vis vis2 : List Int)
    (h : ∀ x, x ∈ vis → x ∈ vis2) : whitesK g vis2 ≤ whitesK g vis := by
  refine length_filter_mono (allNodesU g) _ _ ?_
  intro x _ hq
  simp at hq ⊢
  exact fun hc => hq (h x hc)

theorem filter_strict_lt (vis vis2 : List Int) (n : Int)
    (hnv : n ∉ vis) (hnv2 : n ∈ vis2)
    (hsub : ∀ x, x ∈ vis → x ∈ vis2) :
    ∀ (l : List Int), n ∈ l →
      (l.filter (fun v => !(decide (v ∈ vis2)))).length <
        (l.filter (fun v => !(decide (v ∈ vis)))).length := by
  intro l
  induction l with
  | nil => intro hn; exact absurd hn (List.not_mem_nil n)
  | cons a rest ih =>
      intro hn
      rw [List.filter_cons, List.filter_cons]
      have hmono : (rest.filter (fun v => !(decide (v ∈ vis2)))).length ≤
          (rest.filter (fun v => !(decide (v ∈ vis)))).length := by
        refine length_filter_mono rest _ _ ?_
        intro x _ hq
        simp at hq ⊢
        exact fun hc => hq (hsub x hc)
      by_cases ha : a = n
      · have hp2 : (!(decide (a ∈ vis2))) = false := by
          simp [ha, hnv2]
        have hp1 : (!(decide (a ∈ vis))) = true := by
          simp [ha, hnv]
        rw [hp2, hp1, if_neg Bool.false_ne_true, if_pos rfl, List.length_cons]
        omega
      · have hnr : n ∈ rest := by
          rcases List.mem_cons.mp hn with h2 | h2
          · exact absurd h2.symm ha
          · exact h2
        have hrec := ih hnr
        by_cases hb2 : a ∈ vis2
        · rw [if_neg (by simp [hb2])]
          by_cases hb1 : a ∈ vis
          · rw [if_neg (by simp [hb1])]
            exact hrec
          · rw [if_pos (by simp [hb1]), List.length_cons]
            omega
        · have hb1 : a ∉ vis := fun hc => hb2 (hsub a hc)
          rw [if_pos (by simp [hb2]), if_pos (by simp [hb1]),
            List.length_cons, List.length_cons]
          omega

theorem whitesK_lt (g : UGraph) (vis vis2 : List Int) (n : Int)
    (hn : n ∈ allNodesU g) (hnv : n ∉ vis) (hnv2 : n ∈ vis2)
    (hsub : ∀ x, x ∈ vis → x ∈ vis2) :
    whitesK g vis2 < whitesK g vis :=
  filter_strict_lt vis vis2 n hnv hnv2 hsub (allNodesU g) hn

theorem dfs1_fold_ok (g : UGraph) (fuel : Nat)
    (hIH : ∀ (nb : Int) (st : List Int × List Int),
      nb ∈ allNodesU g → nb ∉ st.1 → whitesK g st.1 < fuel →
      ∃ st2, dfs1 g fuel nb st = some st2) :
    ∀ (ts : List Int) (st0 : List Int × List Int),
      (∀ nb ∈ ts, nb ∈ allNodesU g) →
      whitesK g st0.1 < fuel →
      ∃ st1, ts.foldlM (fun st2 nb => if nb ∈ st2.1 then some st2
          else dfs1 g fuel nb st2) st0 = some st1 ∧
        (∀ x, x ∈ st0.1 → x ∈ st1.1) ∧ whitesK g st1.1 ≤ whitesK g st0.1 := by
  intro ts
  induction ts with
  | nil =>
      intro st0 _ _
      exact ⟨st0, by simp [List.foldlM_nil], fun x hx => hx, le_refl _⟩
  | cons nb rest ih =>
      intro st0 hu hw
      have hur : ∀ x ∈ rest, x ∈ allNodesU g :=
        fun x hx => hu x (List.mem_cons_of_mem _ hx)
      by_cases hmem : nb ∈ st0.1
      · obtain ⟨st1, hf, hm, hwle⟩ := ih st0 hur hw
        refine ⟨st1, ?_, hm, hwle⟩
        rw [List.foldlM_cons, if_pos hmem]
        simp only [Option.bind_eq_bind, Option.some_bind]
        exact hf
      · obtain ⟨stm, hsub⟩ :=
          hIH nb st0 (hu nb (List.mem_cons_self _ _)) hmem hw
        obtain ⟨d1, g1, g2, g3, g4, g5, g6, g7, g8⟩ :=
          dfs1_spec g fuel nb st0 stm hsub hmem (hu nb (List.mem_cons_self _ _))
        have hmono : ∀ x, x ∈ st0.1 → x ∈ stm.1 :=
          fun x hx => (g2 x).mpr (Or.inl hx)
        have hwm : whitesK g stm.1 ≤ whitesK g st0.1 := whitesK_mono g _ _ hmono
        obtain ⟨st1, hf, hm, hwle⟩ := ih stm hur (by omega)
        refine ⟨st1, ?_, fun x hx => hm x (hmono x hx), by omega⟩
        rw [List.foldlM_cons, if_neg hmem, hsub]
        simp only [Option.bind_eq_bind, Option.some_bind]
        exact hf

theorem dfs1_ok (g : UGraph) :
    ∀ (fuel : Nat) (n : Int) (st : List Int × List Int),
      n ∈ allNodesU g → n ∉ st.1 → whitesK g st.1 < fuel →
      ∃ st2, dfs1 g fuel n st = some st2 := by
  intro fuel
  induction fuel with
  | zero => intro n st _ _ hw; omega
  | succ fuel ih =>
      intro n st hun hn hw
      have hwa : whitesK g (addNode st.1 n) < whitesK g st.1 :=
        whitesK_lt g st.1 (addNode st.1 n) n hun hn
          ((mem_addNode st.1 n n).mpr (Or.inr rfl))
          (fun x hx => (mem_addNode st.1 n x).mpr (Or.inl hx))
      obtain ⟨st3, hf, -, -⟩ := dfs1_fold_ok g fuel ih (dgetD g n [])
        (addNode st.1 n, st.2)
        (fun nb hnb => dgetD_targets_mem_allNodesU g n nb hnb)
        (by show whitesK g (addNode st.1 n) < fuel; omega)
      refine ⟨(st3.1, st3.2 ++ [n]), ?_⟩
      simp only [dfs1]
      rw [hf]

theorem before_asymm (S : List Int) (a b : Int) (hnd : S.Nodup)
    (h1 : before S a b) (h2 : before S b a) : False := by
  have hi1 := indexOf_lt_of_before S a b hnd h1
  have hi2 := indexOf_lt_of_before S b a hnd h2
  omega

theorem uwalk_end_mem (g : UGraph) :
    ∀ (vs : List Int) (y x : Int), UWalk g y vs x → x ∈ y :: vs := by
  intro vs
  induction vs with
  | nil =>
      intro y x h
      rw [← (h : y = x)]
      exact List.mem_cons_self _ _
  | cons a rest ih =>
      intro y x h
      obtain ⟨-, hw⟩ := h
      rcases List.mem_cons.mp (ih a x hw) with h2 | h2
      · rw [h2]
        exact List.mem_cons_of_mem _ (List.mem_cons_self _ _)
      · exact List.mem_cons_of_mem _ (List.mem_cons_of_mem _ h2)

theorem uwalk_suffix (g : UGraph) :
    ∀ (vs : List Int) (y x w : Int), UWalk g y vs x → w ∈ y :: vs →
      ∃ vs2, UWalk g w vs2 x ∧ ∀ z ∈ w :: vs2, z ∈ y :: vs := by
  intro vs
  induction vs with
  | nil =>
      intro y x w h hw
      rw [List.mem_singleton] at hw
      rw [hw]
      refine ⟨[], h, ?_⟩
      intro z hz
      rw [List.mem_singleton] at hz
      rw [hz]
      exact List.mem_singleton.mpr rfl
  | cons a rest ih =>
      intro y x w h hw
      obtain ⟨he, hwalk⟩ := h
      rcases List.mem_cons.mp hw with h2 | h2
      · rw [h2]
        exact ⟨a :: rest, ⟨he, hwalk⟩, fun z hz => hz⟩
      · obtain ⟨vs2, hw2, hsub⟩ := ih a x w hwalk h2
        exact ⟨vs2, hw2, fun z hz => List.mem_cons_of_mem _ (hsub z hz)⟩

theorem walk_closed_stay (g : UGraph) (d1 d2 visM : List Int)
    (hcl : ∀ u ∈ d1, ∀ v ∈ dgetD g u [], v ∈ visM)
    (hdisj : ∀ x ∈ d2, x ∉ visM)
    (hnd : (dkeys g).Nodup) :
    ∀ (vs : List Int) (y x : Int), UWalk g y vs x →
      (∀ w ∈ y :: vs, w ∈ d1 ∨ w ∈ d2) → y ∈ d1 → x ∈ d1 := by
  intro vs
  induction vs with
  | nil =>
      intro y x h _ hy
      rw [← (h : y = x)]
      exact hy
  | cons w1 rest ih =>
      intro y x h hmem hy
      obtain ⟨he, hw⟩ := h
      have hw1 : w1 ∈ visM := hcl y hy w1 (dgetD_of_uedgeP g hnd y w1 he)
      have hw1d : w1 ∈ d1 := by
        rcases hmem w1 (List.mem_cons_of_mem _ (List.mem_cons_self _ _)) with
          h2 | h2
        · exact h2
        · exact absurd hw1 (hdisj w1 h2)
      refine ih w1 x hw ?_ hw1d
      intro w hw2
      rcases List.mem_cons.mp hw2 with h3 | h3
      · rw [h3]
        exact hmem w1 (List.mem_cons_of_mem _ (List.mem_cons_self _ _))
      · exact hmem w (List.mem_cons_of_mem _ (List.mem_cons_of_mem _ h3))

theorem dfs1_fold_core (g : UGraph) (hnd : (dkeys g).Nodup) (fuel : Nat)
    (hIHcore : ∀ (nb : Int) (st st2 : List Int × List Int) (delta : List Int),
      dfs1 g fuel nb st = some st2 → nb ∉ st.1 → nb ∈ allNodesU g →
      st2.2 = st.2 ++ delta →
      ∀ (S : List Int), (∃ ext, S = st2.2 ++ ext) → S.Nodup →
      ∀ (y x : Int) (vs : List Int), UWalk g y vs x →
        (∀ w ∈ y :: vs, w ∈ delta) →
        (∀ w ∈ y :: vs, before S w x ∨ w = x) → ReachU g x y) :
    ∀ (ts : List Int) (st0 st1 : List Int × List Int) (delta : List Int),
      (∀ nb ∈ ts, nb ∈ allNodesU g) →
      ts.foldlM (fun st2 nb => if nb ∈ st2.1 then some st2
        else dfs1 g fuel nb st2) st0 = some st1 →
      st1.2 = st0.2 ++ delta →
      ∀ (S : List Int), (∃ ext, S = st1.2 ++ ext) → S.Nodup →
      ∀ (y x : Int) (vs : List Int), UWalk g y vs x →
        (∀ w ∈ y :: vs, w ∈ delta) →
        (∀ w ∈ y :: vs, before S w x ∨ w = x) → ReachU g x y := by
  intro ts
  induction ts with
  | nil =>
      intro st0 st1 delta hu h hdelta S hSext hSnd y x vs hwalk hin hord
      simp only [List.foldlM_nil] at h
      injection h with h2
      subst h2
      have hlen : delta.length = 0 := by
        have h3 := congrArg List.length hdelta
        rw [List.length_append] at h3
        omega
      rw [List.eq_nil_of_length_eq_zero hlen] at hin
      exact absurd (hin y (List.mem_cons_self _ _)) (List.not_mem_nil y)
  | cons nb rest ih =>
      intro st0 st1 delta hu h hdelta S hSext hSnd y x vs hwalk hin hord
      rw [List.foldlM_cons] at h
      have hur : ∀ z ∈ rest, z ∈ allNodesU g :=
        fun z hz => hu z (List.mem_cons_of_mem _ hz)
      by_cases hmem : nb ∈ st0.1
      · rw [if_pos hmem] at h
        simp only [Option.bind_eq_bind, Option.some_bind] at h
        exact ih st0 st1 delta hur h hdelta S hSext hSnd y x vs hwalk hin hord
      · rw [if_neg hmem] at h
        cases hsub : dfs1 g fuel nb st0 with
        | none => rw [hsub] at h; simp at h
        | some stm =>
            rw [hsub] at h
            simp only [Option.bind_eq_bind, Option.some_bind] at h
            obtain ⟨d1, g1, g2, g3, g4, g5, g6, g7, g8⟩ :=
              dfs1_spec g fuel nb st0 stm hsub hmem (hu nb (List.mem_cons_self _ _))
            obtain ⟨d2, f1, f2, f3, f4, f5, f6, f7, f8⟩ :=
              dfs1_fold_spec g fuel (dfs1_spec g fuel) rest stm st1 h hur
            have hdec : delta = d1 ++ d2 := by
              have h3 : st0.2 ++ delta = st0.2 ++ (d1 ++ d2) := by
                rw [← hdelta, f1, g1, List.append_assoc]
              have h4 := congrArg (fun l => List.drop st0.2.length l) h3
              simp only [List.drop_left] at h4
              exact h4
            subst hdec
            have hd1m : ∀ z ∈ d1, z ∈ stm.1 := fun z hz => (g2 z).mpr (Or.inr hz)
            by_cases hx1 : x ∈ d1
            · have hall : ∀ w ∈ y :: vs, w ∈ d1 := by
                intro w hw
                rcases List.mem_append.mp (hin w hw) with h2 | h2
                · exact h2
                · exfalso
                  have hbxw : before S x w := by
                    obtain ⟨ext, hext⟩ := hSext
                    obtain ⟨s2l, s2r, hsp⟩ := List.append_of_mem h2
                    refine ⟨(st0.2 ++ d1) ++ s2l, s2r ++ ext, ?_, ?_⟩
                    · rw [hext, f1, g1, hsp]
                      simp [List.append_assoc]
                    · exact List.mem_append.mpr
                        (Or.inl (List.mem_append.mpr (Or.inr hx1)))
                  rcases hord w hw with h3 | h3
                  · exact before_asymm S w x hSnd h3 hbxw
                  · rw [h3] at h2
                    exact f3 x h2 (hd1m x hx1)
              refine hIHcore nb st0 stm d1 hsub hmem
                (hu nb (List.mem_cons_self _ _)) g1 S ?_ hSnd y x vs hwalk
                hall hord
              obtain ⟨ext, hext⟩ := hSext
              exact ⟨d2 ++ ext, by rw [hext, f1, List.append_assoc]⟩
            · have hxin := hin x (uwalk_end_mem g vs y x hwalk)
              have hx2 : x ∈ d2 := by
                rcases List.mem_append.mp hxin with h2 | h2
                · exact absurd h2 hx1
                · exact h2
              have hall : ∀ w ∈ y :: vs, w ∈ d2 := by
                intro w hw
                rcases List.mem_append.mp (hin w hw) with h2 | h2
                · exfalso
                  obtain ⟨vs2, hw2, hsubw⟩ := uwalk_suffix g vs y x w hwalk hw
                  refine hx1 (walk_closed_stay g d1 d2 stm.1 g7
                    (fun z hz => f3 z hz) hnd vs2 w x hw2 ?_ h2)
                  intro z hz
                  exact List.mem_append.mp (hin z (hsubw z hz))
                · exact h2
              exact ih stm st1 d2 hur h f1 S hSext hSnd y x vs hwalk hall hord

theorem dfs1_core (g : UGraph) (hnd : (dkeys g).Nodup) :
    ∀ (fuel : Nat) (nb : Int) (st st2 : List Int × List Int) (delta : List Int),
      dfs1 g fuel nb st = some st2 → nb ∉ st.1 → nb ∈ allNodesU g →
      st2.2 = st.2 ++ delta →
      ∀ (S : List Int), (∃ ext, S = st2.2 ++ ext) → S.Nodup →
      ∀ (y x : Int) (vs : List Int), UWalk g y vs x →
        (∀ w ∈ y :: vs, w ∈ delta) →
        (∀ w ∈ y :: vs, before S w x ∨ w = x) → ReachU g x y := by
  intro fuel
  induction fuel with
  | zero => intro nb st st2 delta h; cases h
  | succ fuel ih =>
      intro nb st st2 delta h hn hun hdelta S hSext hSnd y x vs hwalk hin hord
      obtain ⟨delta0, o1, o2, o3, o4, o5, o6, o7, o8⟩ :=
        dfs1_spec g (fuel + 1) nb st st2 h hn hun
      have hdeq : delta = delta0 := by
        have h3 : st.2 ++ delta = st.2 ++ delta0 := by rw [← hdelta, o1]
        have h4 := congrArg (fun l => List.drop st.2.length l) h3
        simp only [List.drop_left] at h4
        exact h4
      subst hdeq
      by_cases hxn : x = nb
      · rw [hxn]
        exact o6 y (hin y (List.mem_cons_self _ _))
      · simp only [dfs1] at h
        split at h
        · cases h
        · rename_i st3 hf
          rw [Option.some.injEq] at h
          obtain ⟨df, h1, h2, h3, h4, h5, h6, h7, h8⟩ :=
            dfs1_fold_spec g fuel (dfs1_spec g fuel)
              (dgetD g nb []) (addNode st.1 nb, st.2) st3 hf
              (fun t ht => dgetD_targets_mem_allNodesU g nb t ht)
          have hst22 : st2.2 = st.2 ++ (df ++ [nb]) := by
            rw [← h]
            show st3.2 ++ [nb] = st.2 ++ (df ++ [nb])
            rw [h1]
            simp [List.append_assoc]
          have hdec : delta = df ++ [nb] := by
            have h3' : st.2 ++ delta = st.2 ++ (df ++ [nb]) := by
              rw [← hdelta, hst22]
            have h4' := congrArg (fun l => List.drop st.2.length l) h3'
            simp only [List.drop_left] at h4'
            exact h4'
          have hall : ∀ w ∈ y :: vs, w ∈ df := by
            intro w hw
            have hwd := hin w hw
            rw [hdec] at hwd
            rcases List.mem_append.mp hwd with hw2 | hw2
            · exact hw2
            · exfalso
              rw [List.mem_singleton] at hw2
              have hbxn : before S x nb := by
                obtain ⟨ext, hext⟩ := hSext
                refine ⟨st.2 ++ df, ext, ?_, ?_⟩
                · rw [hext, hst22]
                  simp [List.append_assoc]
                · refine List.mem_append.mpr (Or.inr ?_)
                  have hxd := hin x (uwalk_end_mem g vs y x hwalk)
                  rw [hdec] at hxd
                  rcases List.mem_append.mp hxd with hx2 | hx2
                  · exact hx2
                  · rw [List.mem_singleton] at hx2
                    exact absurd hx2 hxn
              rcases hord w hw with h5' | h5'
              · rw [hw2] at h5'
                exact before_asymm S nb x hSnd h5' hbxn
              · rw [hw2] at h5'
                exact hxn h5'.symm
          refine dfs1_fold_core g hnd fuel ih (dgetD g nb [])
            (addNode st.1 nb, st.2) st3 df
            (fun t ht => dgetD_targets_mem_allNodesU g nb t ht) hf h1 S ?_
            hSnd y x vs hwalk hall hord
          obtain ⟨ext, hext⟩ := hSext
          refine ⟨[nb] ++ ext, ?_⟩
          rw [hext, ← h]
          show st3.2 ++ [nb] ++ ext = st3.2 ++ ([nb] ++ ext)
          simp [List.append_assoc]

theorem whitesK_le_univ (g : UGraph) (vis : List Int) :
    whitesK g vis ≤ (allNodesU g).length :=
  List.length_filter_le _ _

theorem uwalk_nodes_mem (g : UGraph) :
    ∀ (vs : List Int) (y x : Int), UWalk g y vs x →
      ∀ w ∈ vs, w ∈ allNodesU g := by
  intro vs
  induction vs with
  | nil => intro y x _ w hw; exact absurd hw (List.not_mem_nil w)
  | cons a rest ih =>
      intro y x h w hw
      obtain ⟨he, hwalk⟩ := h
      rcases List.mem_cons.mp hw with h2 | h2
      · rw [h2]
        exact (uedge_mem_allNodesU g y a he).2
      · exact ih a x hwalk w h2

/-- The properties of the pass-1 finish stack: it lists every node of the
graph exactly once, and any walk all of whose nodes finish no later than the
walk's endpoint forces a return walk from the endpoint to the start. -/
theorem pass1_props (g : UGraph) (hnd : (dkeys g).Nodup) :
    ∃ st1 : List Int × List Int,
      kosarajuPass1 g ((allNodesU g).length + 1) = some st1 ∧
      st1.2.Nodup ∧
      (∀ x, x ∈ st1.2 ↔ x ∈ allNodesU g) ∧
      (∀ (y x : Int) (vs : List Int), UWalk g y vs x →
        (∀ w ∈ y :: vs, before st1.2 w x ∨ w = x) → ReachU g x y) := by
  have hkeys : ∀ k ∈ dkeys g, k ∈ allNodesU g :=
    fun k hk => (mem_allNodesU g k).mpr (Or.inl hk)
  have hw0 : whitesK g ([] : List Int) < (allNodesU g).length + 1 := by
    have := whitesK_le_univ g []
    omega
  obtain ⟨st1, hf, -, -⟩ := dfs1_fold_ok g ((allNodesU g).length + 1)
    (dfs1_ok g ((allNodesU g).length + 1)) (dkeys g) ([], []) hkeys hw0
  obtain ⟨delta, h1, h2, h3, h4, h5, h6, h7, h8⟩ :=
    dfs1_fold_spec g ((allNodesU g).length + 1)
      (dfs1_spec g ((allNodesU g).length + 1)) (dkeys g) ([], []) st1 hf hkeys
  have h1' : st1.2 = delta := by
    rw [h1]
    rfl
  have hmemS : ∀ x, x ∈ st1.2 ↔ x ∈ allNodesU g := by
    intro x
    rw [h1']
    constructor
    · exact h7 x
    · intro hx
      rcases (mem_allNodesU g x).mp hx with hk | ⟨p, hp, hxp⟩
      · have := h8 x hk
        rcases (h2 x).mp this with h9 | h9
        · exact absurd h9 (List.not_mem_nil x)
        · exact h9
      · have hp1 : p.1 ∈ st1.1 := h8 p.1 (mem_dkeys_of_mem g p hp)
        have hp1d : p.1 ∈ delta := by
          rcases (h2 p.1).mp hp1 with h9 | h9
          · exact absurd h9 (List.not_mem_nil p.1)
          · exact h9
        have hxd : x ∈ dgetD g p.1 [] := by
          have hget := dget_of_mem_nodup g hnd p hp
          rw [dgetD, hget]
          exact hxp
        have := h6 p.1 hp1d x hxd
        rcases (h2 x).mp this with h9 | h9
        · exact absurd h9 (List.not_mem_nil x)
        · exact h9
  refine ⟨st1, hf, by rw [h1']; exact h4, hmemS, ?_⟩
  intro y x vs hwalk hord
  cases vs with
  | nil =>
      rw [← (hwalk : y = x)]
      exact reachU_refl g y
  | cons a rest =>
      have hin : ∀ w ∈ y :: a :: rest, w ∈ delta := by
        intro w hw
        rcases List.mem_cons.mp hw with h9 | h9
        · rw [h9, ← h1']
          exact (hmemS y).mpr (uedge_mem_allNodesU g y a hwalk.1).1
        · rw [← h1']
          exact (hmemS w).mpr (uwalk_nodes_mem g (a :: rest) y x hwalk w h9)
      exact dfs1_fold_core g hnd ((allNodesU g).length + 1)
        (dfs1_core g hnd ((allNodesU g).length + 1)) (dkeys g) ([], []) st1
        delta hkeys hf (by rw [h1']; rfl) st1.2 ⟨[], by rw [List.append_nil]⟩
        (by rw [h1']; exact h4) y x (a :: rest) hwalk hin hord

/-- Specification of one completed dfs2 call: the component grows by the
block of newly visited nodes, all reachable from the entered node in the
reversed graph, with every out-edge of a block node landing in the final
visited set. -/
def Dfs2Out (rg : UGraph) (n : Int) (st st2 : List Int × List Int)
    (delta : List Int) : Prop :=
  st2.2 = st.2 ++ delta ∧
  (∀ x, x ∈ st2.1 ↔ x ∈ st.1 ∨ x ∈ delta) ∧
  (∀ x ∈ delta, x ∉ st.1) ∧
  n ∈ delta ∧
  (∀ w ∈ delta, ReachU rg n w) ∧
  (∀ u ∈ delta, ∀ v ∈ dgetD rg u [], v ∈ st2.1)

theorem dfs2_fold_spec (rg : UGraph) (fuel : Nat)
    (hIH : ∀ (nb : Int) (st st2 : List Int × List Int),
      dfs2 rg fuel nb st = some st2 → nb ∉ st.1 →
      ∃ delta, Dfs2Out rg nb st st2 delta) :
    ∀ (ts : List Int) (st0 st1 : List Int × List Int),
      ts.foldlM (fun st2 nb => if nb ∈ st2.1 then some st2 else dfs2 rg fuel nb st2)
        st0 = some st1 →
      ∃ delta, st1.2 = st0.2 ++ delta ∧
        (∀ x, x ∈ st1.1 ↔ x ∈ st0.1 ∨ x ∈ delta) ∧
        (∀ x ∈ delta, x ∉ st0.1) ∧
        (∀ w ∈ delta, ∃ nb ∈ ts, ReachU rg nb w) ∧
        (∀ u ∈ delta, ∀ v ∈ dgetD rg u [], v ∈ st1.1) ∧
        (∀ nb ∈ ts, nb ∈ st1.1) := by
  intro ts
  induction ts with
  | nil =>
      intro st0 st1 h
      simp only [List.foldlM_nil] at h
      injection h with h2
      subst h2
      refine ⟨[], by simp, ?_, ?_, ?_, ?_, ?_⟩
      · intro x
        simp
      · intro x hx
        exact absurd hx (List.not_mem_nil x)
      · intro w hw
        exact absurd hw (List.not_mem_nil w)
      · intro u hu
        exact absurd hu (List.not_mem_nil u)
      · intro nb hnb
        exact absurd hnb (List.not_mem_nil nb)
  | cons nb rest ih =>
      intro st0 st1 h
      rw [List.foldlM_cons] at h
      by_cases hmem : nb ∈ st0.1
      · rw [if_pos hmem] at h
        simp only [Option.bind_eq_bind, Option.some_bind] at h
        obtain ⟨delta, h1, h2, h3, h5, h6, h8⟩ := ih st0 st1 h
        refine ⟨delta, h1, h2, h3, ?_, h6, ?_⟩
        · intro w hw
          obtain ⟨nb2, hnb2, hr2⟩ := h5 w hw
          exact ⟨nb2, List.mem_cons_of_mem _ hnb2, hr2⟩
        · intro x hx
          rcases List.mem_cons.mp hx with hx2 | hx2
          · rw [hx2]
            exact (h2 nb).mpr (Or.inl hmem)
          · exact h8 x hx2
      · rw [if_neg hmem] at h
        cases hsub : dfs2 rg fuel nb st0 with
        | none => rw [hsub] at h; simp at h
        | some stm =>
            rw [hsub] at h
            simp only [Option.bind_eq_bind, Option.some_bind] at h
            obtain ⟨d1, g1, g2, g3, g4, g5, g6⟩ := hIH nb st0 stm hsub hmem
            obtain ⟨d2, h1, h2, h3, h5, h6, h8⟩ := ih stm st1 h
            have hsub01 : ∀ x, x ∈ st0.1 → x ∈ stm.1 :=
              fun x hx => (g2 x).mpr (Or.inl hx)
            have hsubm1 : ∀ x, x ∈ stm.1 → x ∈ st1.1 :=
              fun x hx => (h2 x).mpr (Or.inl hx)
            refine ⟨d1 ++ d2, ?_, ?_, ?_, ?_, ?_, ?_⟩
            · rw [h1, g1, List.append_assoc]
            · intro x
              rw [h2 x, g2 x, List.mem_append]
              tauto
            · intro x hx
              rcases List.mem_append.mp hx with hx2 | hx2
              · exact g3 x hx2
              · exact fun hc => h3 x hx2 (hsub01 x hc)
            · intro w hw
              rcases List.mem_append.mp hw with hw2 | hw2
              · exact ⟨nb, List.mem_cons_self _ _, g5 w hw2⟩
              · obtain ⟨nb2, hnb2, hr2⟩ := h5 w hw2
                exact ⟨nb2, List.mem_cons_of_mem _ hnb2, hr2⟩
            · intro u hu2 v hv
              rcases List.mem_append.mp hu2 with hu3 | hu3
              · exact hsubm1 v (g6 u hu3 v hv)
              · exact h6 u hu3 v hv
            · intro x hx
              rcases List.mem_cons.mp hx with hx2 | hx2
              · rw [hx2]
                exact hsubm1 nb ((g2 nb).mpr (Or.inr g4))
              · exact h8 x hx2

theorem dfs2_spec (rg : UGraph) :
    ∀ (fuel : Nat) (n : Int) (st st2 : List Int × List Int),
      dfs2 rg fuel n st = some st2 → n ∉ st.1 →
      ∃ delta, Dfs2Out rg n st st2 delta := by
  intro fuel
  induction fuel with
  | zero => intro n st st2 h; cases h
  | succ fuel ih =>
      intro n st st2 h hn
      simp only [dfs2] at h
      obtain ⟨df, h1, h2, h3, h5, h6, h8⟩ :=
        dfs2_fold_spec rg fuel ih (dgetD rg n []) (addNode st.1 n, st.2 ++ [n])
          st2 h
      refine ⟨n :: df, ?_, ?_, ?_, List.mem_cons_self _ _, ?_, ?_⟩
      · rw [h1]
        show (st.2 ++ [n]) ++ df = st.2 ++ n :: df
        simp
      · intro x
        rw [h2 x, mem_addNode, List.mem_cons]
        tauto
      · intro x hx
        rcases List.mem_cons.mp hx with hx2 | hx2
        · rw [hx2]
          exact hn
        · exact fun hc => h3 x hx2 ((mem_addNode st.1 n x).mpr (Or.inl hc))
      · intro w hw
        rcases List.mem_cons.mp hw with hw2 | hw2
        · rw [hw2]
          exact reachU_refl rg n
        · obtain ⟨nb, hnb, hr2⟩ := h5 w hw2
          exact reachU_trans (reachU_edge (uedgeP_of_dgetD rg n nb hnb)) hr2
      · intro u hu v hv
        rcases List.mem_cons.mp hu with hu2 | hu2
        · rw [hu2] at hv
          exact h8 v hv
        · exact h6 u hu2 v hv

theorem dfs2_fold_ok (g rg : UGraph) (fuel : Nat)
    (hT : ∀ (u a : Int), a ∈ dgetD rg u [] → a ∈ allNodesU g)
    (hIH : ∀ (nb : Int) (st : List Int × List Int),
      nb ∈ allNodesU g → nb ∉ st.1 → whitesK g st.1 < fuel →
      ∃ st2, dfs2 rg fuel nb st = some st2) :
    ∀ (ts : List Int) (st0 : List Int × List Int),
      (∀ nb ∈ ts, nb ∈ allNodesU g) →
      whitesK g st0.1 < fuel →
      ∃ st1, ts.foldlM (fun st2 nb => if nb ∈ st2.1 then some st2
          else dfs2 rg fuel nb st2) st0 = some st1 ∧
        (∀ x, x ∈ st0.1 → x ∈ st1.1) ∧ whitesK g st1.1 ≤ whitesK g st0.1 := by
  intro ts
  induction ts with
  | nil =>
      intro st0 _ _
      exact ⟨st0, by simp [List.foldlM_nil], fun x hx => hx, le_refl _⟩
  | cons nb rest ih =>
      intro st0 hu hw
      have hur : ∀ x ∈ rest, x ∈ allNodesU g :=
        fun x hx => hu x (List.mem_cons_of_mem _ hx)
      by_cases hmem : nb ∈ st0.1
      · obtain ⟨st1, hf, hm, hwle⟩ := ih st0 hur hw
        refine ⟨st1, ?_, hm, hwle⟩
        rw [List.foldlM_cons, if_pos hmem]
        simp only [Option.bind_eq_bind, Option.some_bind]
        exact hf
      · obtain ⟨stm, hsub⟩ :=
          hIH nb st0 (hu nb (List.mem_cons_self _ _)) hmem hw
        obtain ⟨d1, g1, g2, g3, g4, g5, g6⟩ := dfs2_spec rg fuel nb st0 stm hsub hmem
        have hmono : ∀ x, x ∈ st0.1 → x ∈ stm.1 :=
          fun x hx => (g2 x).mpr (Or.inl hx)
        have hwm : whitesK g stm.1 ≤ whitesK g st0.1 := whitesK_mono g _ _ hmono
        obtain ⟨st1, hf, hm, hwle⟩ := ih stm hur (by omega)
        refine ⟨st1, ?_, fun x hx => hm x (hmono x hx), by omega⟩
        rw [List.foldlM_cons, if_neg hmem, hsub]
        simp only [Option.bind_eq_bind, Option.some_bind]
        exact hf

theorem dfs2_ok (g rg : UGraph)
    (hT : ∀ (u a : Int), a ∈ dgetD rg u [] → a ∈ allNodesU g) :
    ∀ (fuel : Nat) (n : Int) (st : List Int × List Int),
      n ∈ allNodesU g → n ∉ st.1 → whitesK g st.1 < fuel →
      ∃ st2, dfs2 rg fuel n st = some st2 := by
  intro fuel
  induction fuel with
  | zero => intro n st _ _ hw; omega
  | succ fuel ih =>
      intro n st hun hn hw
      have hwa : whitesK g (addNode st.1 n) < whitesK g st.1 :=
        whitesK_lt g st.1 (addNode st.1 n) n hun hn
          ((mem_addNode st.1 n n).mpr (Or.inr rfl))
          (fun x hx => (mem_addNode st.1 n x).mpr (Or.inl hx))
      obtain ⟨st3, hf, -, -⟩ := dfs2_fold_ok g rg fuel hT ih (dgetD rg n [])
        (addNode st.1 n, st.2 ++ [n])
        (fun nb hnb => hT n nb hnb)
        (by show whitesK g (addNode st.1 n) < fuel; omega)
      refine ⟨st3, ?_⟩
      simp only [dfs2]
      exact hf

/-- Walks out of a set closed under the graph's adjacency stay in the set. -/
theorem closed_walk_stay (rg : UGraph) (hrnd : (dkeys rg).Nodup)
    (V : List Int) (hcl : ∀ u ∈ V, ∀ v ∈ dgetD rg u [], v ∈ V) :
    ∀ (vs : List Int) (n w : Int), UWalk rg n vs w → n ∈ V → w ∈ V := by
  intro vs
  induction vs with
  | nil =>
      intro n w h hn
      rw [← (h : n = w)]
      exact hn
  | cons a rest ih =>
      intro n w h hn
      obtain ⟨he, hw⟩ := h
      exact ih a w hw (hcl n hn a (dgetD_of_uedgeP rg hrnd n a he))

theorem uwalk_prefix (g : UGraph) :
    ∀ (vs : List Int) (y x p : Int), UWalk g y vs x → p ∈ y :: vs →
      ∃ pre, UWalk g y pre p := by
  intro vs
  induction vs with
  | nil =>
      intro y x p h hp
      rw [List.mem_singleton] at hp
      rw [hp]
      exact ⟨[], rfl⟩
  | cons a rest ih =>
      intro y x p h hp
      obtain ⟨he, hw⟩ := h
      rcases List.mem_cons.mp hp with h2 | h2
      · rw [h2]
        exact ⟨[], rfl⟩
      · obtain ⟨pre, hpre⟩ := ih a x p hw h2
        exact ⟨a :: pre, he, hpre⟩

theorem rg_reach_univ (g : UGraph) (hnd : (dkeys g).Nodup) :
    ∀ (vs : List Int) (z w : Int), UWalk (reverse_graph_kos g) z vs w →
      z ∈ allNodesU g → w ∈ allNodesU g := by
  intro vs
  induction vs with
  | nil =>
      intro z w h hz
      rw [← (h : z = w)]
      exact hz
  | cons a rest ih =>
      intro z w h hz
      obtain ⟨he, hw⟩ := h
      refine ih a w hw ?_
      exact (uedge_mem_allNodesU g a z ((uedge_rev_kos g hnd z a).mp he)).1

/-- The pass-2 loop invariant: popped nodes are visited, the visited set is
a union of the collected components, closed under reversed edges, and every
collected component is exactly one strongly connected component. -/
theorem pass2_loop (g : UGraph) (hnd : (dkeys g).Nodup)
    (S : List Int) (hSnd : S.Nodup)
    (hSmem : ∀ x, x ∈ S ↔ x ∈ allNodesU g)
    (hScore : ∀ (y x : Int) (vs : List Int), UWalk g y vs x →
      (∀ w ∈ y :: vs, before S w x ∨ w = x) → ReachU g x y) :
    ∀ (R2 D : List Int) (vis : List Int) (sccs : List (List Int)),
      S.reverse = D ++ R2 →
      (∀ y ∈ D, y ∈ vis) →
      (∀ y ∈ vis, y ∈ allNodesU g) →
      (∀ u ∈ vis, ∀ v ∈ dgetD (reverse_graph_kos g) u [], v ∈ vis) →
      (∀ x, x ∈ vis ↔ ∃ c ∈ sccs, x ∈ c) →
      sccs.Pairwise (fun c1 c2 => ∀ u ∈ c1, u ∉ c2) →
      (∀ c ∈ sccs, ∀ u ∈ c, ∀ v ∈ c, ReachU g u v) →
      (∀ c ∈ sccs, ∀ u ∈ c, ∀ v, ReachU g u v → ReachU g v u → v ∈ c) →
      ∃ st2, kosarajuPass2 (reverse_graph_kos g) ((allNodesU g).length + 1)
          R2 (vis, sccs) = some st2 ∧
        (∀ y ∈ D ++ R2, y ∈ st2.1) ∧
        (∀ x, x ∈ st2.1 ↔ ∃ c ∈ st2.2, x ∈ c) ∧
        (∀ y ∈ st2.1, y ∈ allNodesU g) ∧
        st2.2.Pairwise (fun c1 c2 => ∀ u ∈ c1, u ∉ c2) ∧
        (∀ c ∈ st2.2, ∀ u ∈ c, ∀ v ∈ c, ReachU g u v) ∧
        (∀ c ∈ st2.2, ∀ u ∈ c, ∀ v, ReachU g u v → ReachU g v u → v ∈ c) := by
  have hrnd := rev_kos_keys_nodup g hnd
  have hrev1 : ∀ (vs : List Int) (u v : Int),
      UWalk (reverse_graph_kos g) u vs v → ReachU g v u :=
    reach_rev_of_edge_rev g (reverse_graph_kos g)
      (fun a b h => (uedge_rev_kos g hnd a b).mp h)
  have hrev2 : ∀ (vs : List Int) (u v : Int),
      UWalk g u vs v → ReachU (reverse_graph_kos g) v u :=
    reach_rev_of_edge_rev (reverse_graph_kos g) g
      (fun a b h => (uedge_rev_kos g hnd b a).mpr h)
  have hT : ∀ (u a : Int), a ∈ dgetD (reverse_graph_kos g) u [] →
      a ∈ allNodesU g :=
    fun u a ha => (uedge_mem_allNodesU g a u ((mem_rev_kos g a u).mp ha)).1
  intro R2
  induction R2 with
  | nil =>
      intro D vis sccs hsplit hD hI2 hI3 hI4 hI5 hI6 hI7
      refine ⟨(vis, sccs), by rw [kosarajuPass2], ?_, hI4, hI2, hI5, hI6, hI7⟩
      intro y hy
      rw [List.append_nil] at hy
      exact hD y hy
  | cons z rest ih =>
      intro D vis sccs hsplit hD hI2 hI3 hI4 hI5 hI6 hI7
      by_cases hzvis : z ∈ vis
      · have hsplit2 : S.reverse = (D ++ [z]) ++ rest := by
          rw [hsplit]
          simp
        have hD2 : ∀ y ∈ D ++ [z], y ∈ vis := by
          intro y hy
          rcases List.mem_append.mp hy with h2 | h2
          · exact hD y h2
          · rw [List.mem_singleton.mp h2]
            exact hzvis
        obtain ⟨st2, hrec, hall, f2, f3, f4, f5, f6⟩ :=
          ih (D ++ [z]) vis sccs hsplit2 hD2 hI2 hI3 hI4 hI5 hI6 hI7
        refine ⟨st2, ?_, ?_, f2, f3, f4, f5, f6⟩
        · rw [kosarajuPass2, if_pos hzvis]
          exact hrec
        · intro y hy
          refine hall y ?_
          simp only [List.mem_append, List.mem_singleton, List.mem_cons] at hy ⊢
          tauto
      · have hzS : z ∈ S := by
          have : z ∈ S.reverse := by
            rw [hsplit]
            exact List.mem_append.mpr (Or.inr (List.mem_cons_self _ _))
          exact List.mem_reverse.mp this
        have hzu : z ∈ allNodesU g := (hSmem z).mp hzS
        obtain ⟨stm, hdfs⟩ := dfs2_ok g (reverse_graph_kos g) hT
          ((allNodesU g).length + 1) z (vis, []) hzu hzvis
          (by have := whitesK_le_univ g vis; show whitesK g vis < _; omega)
        obtain ⟨delta, e1, e2, e3, e4, e5, e6⟩ :=
          dfs2_spec (reverse_graph_kos g) _ z (vis, []) stm hdfs hzvis
        have hst2 : stm.2 = delta := by
          rw [e1]
          rfl
        have hvmem : ∀ w ∈ delta, w ∉ vis := e3
        have hdu : ∀ w ∈ delta, w ∈ allNodesU g := by
          intro w hw
          obtain ⟨vs0, h0⟩ := e5 w hw
          exact rg_reach_univ g hnd vs0 z w h0 hzu
        have hreach_wz : ∀ w ∈ delta, ReachU g w z := by
          intro w hw
          obtain ⟨vs0, h0⟩ := e5 w hw
          exact hrev1 vs0 z w h0
        have hI3m : ∀ u ∈ stm.1, ∀ v ∈ dgetD (reverse_graph_kos g) u [],
            v ∈ stm.1 := by
          intro u hu v hv
          rcases (e2 u).mp hu with h2 | h2
          · exact (e2 v).mpr (Or.inl (hI3 u h2 v hv))
          · exact e6 u h2 v hv
        have hreach_zw : ∀ w ∈ delta, ReachU g z w := by
          intro w hw
          obtain ⟨vsw, hwalkw⟩ := hreach_wz w hw
          have hnv : ∀ p ∈ w :: vsw, p ∉ vis := by
            intro p hp hpv
            obtain ⟨pre, hpre⟩ := uwalk_prefix g vsw w z p hwalkw hp
            obtain ⟨vs2, hwp⟩ := hrev2 pre w p hpre
            exact hvmem w hw (closed_walk_stay (reverse_graph_kos g) hrnd vis
              hI3 vs2 p w hwp hpv)
          have hord : ∀ p ∈ w :: vsw, before S p z ∨ p = z := by
            intro p hp
            have hpu : p ∈ allNodesU g := by
              rcases List.mem_cons.mp hp with h2 | h2
              · rw [h2]
                exact hdu w hw
              · exact uwalk_nodes_mem g vsw w z hwalkw p h2
            have hpR : p ∈ z :: rest := by
              have hpSr : p ∈ S.reverse := List.mem_reverse.mpr ((hSmem p).mpr hpu)
              rw [hsplit] at hpSr
              rcases List.mem_append.mp hpSr with h2 | h2
              · exact absurd (hD p h2) (hnv p hp)
              · exact h2
            rcases List.mem_cons.mp hpR with h2 | h2
            · exact Or.inr h2
            · left
              refine ⟨rest.reverse, D.reverse, ?_, List.mem_reverse.mpr h2⟩
              have hS2 : S = (D ++ z :: rest).reverse := by
                rw [← hsplit, List.reverse_reverse]
              rw [hS2]
              simp
          exact hScore w z vsw hwalkw hord
        have hzm : z ∈ stm.1 := (e2 z).mpr (Or.inr e4)
        have hsplit2 : S.reverse = (D ++ [z]) ++ rest := by
          rw [hsplit]
          simp
        have hD2 : ∀ y ∈ D ++ [z], y ∈ stm.1 := by
          intro y hy
          rcases List.mem_append.mp hy with h2 | h2
          · exact (e2 y).mpr (Or.inl (hD y h2))
          · rw [List.mem_singleton.mp h2]
            exact hzm
        have hI2n : ∀ y ∈ stm.1, y ∈ allNodesU g := by
          intro y hy
          rcases (e2 y).mp hy with h2 | h2
          · exact hI2 y h2
          · exact hdu y h2
        have hI4n : ∀ x, x ∈ stm.1 ↔ ∃ c ∈ sccs ++ [delta], x ∈ c := by
          intro x
          rw [e2 x, hI4 x]
          constructor
          · rintro (⟨c, hc, hxc⟩ | h2)
            · exact ⟨c, List.mem_append.mpr (Or.inl hc), hxc⟩
            · exact ⟨delta, List.mem_append.mpr (Or.inr (List.mem_singleton.mpr
                rfl)), h2⟩
          · rintro ⟨c, hc, hxc⟩
            rcases List.mem_append.mp hc with h2 | h2
            · exact Or.inl ⟨c, h2, hxc⟩
            · rw [List.mem_singleton.mp h2] at hxc
              exact Or.inr hxc
        have hI5n : (sccs ++ [delta]).Pairwise (fun c1 c2 => ∀ u ∈ c1, u ∉ c2) := by
          rw [List.pairwise_append]
          refine ⟨hI5, List.pairwise_singleton _ _, ?_⟩
          intro c hc b hb u hu
          rw [List.mem_singleton.mp hb]
          exact fun hud => hvmem u hud ((hI4 u).mpr ⟨c, hc, hu⟩)
        have hI6n : ∀ c ∈ sccs ++ [delta], ∀ u ∈ c, ∀ v ∈ c, ReachU g u v := by
          intro c hc u hu v hv
          rcases List.mem_append.mp hc with h2 | h2
          · exact hI6 c h2 u hu v hv
          · rw [List.mem_singleton.mp h2] at hu hv
            exact reachU_trans (hreach_wz u hu) (hreach_zw v hv)
        have hI7n : ∀ c ∈ sccs ++ [delta], ∀ u ∈ c, ∀ v,
            ReachU g u v → ReachU g v u → v ∈ c := by
          intro c hc u hu v huv hvu
          rcases List.mem_append.mp hc with h2 | h2
          · exact hI7 c h2 u hu v huv hvu
          · rw [List.mem_singleton.mp h2] at hu ⊢
            have hvz : ReachU g v z := reachU_trans hvu (hreach_wz u hu)
            have hzv : ReachU g z v := reachU_trans (hreach_zw u hu) huv
            have hvnv : v ∉ vis := by
              intro hvv
              obtain ⟨vs0, h0⟩ := hzv
              obtain ⟨vs1, h1⟩ := hrev2 vs0 z v h0
              exact hzvis (closed_walk_stay (reverse_graph_kos g) hrnd vis hI3
                vs1 v z h1 hvv)
            have hvm : v ∈ stm.1 := by
              obtain ⟨vs0, h0⟩ := hvz
              obtain ⟨vs1, h1⟩ := hrev2 vs0 v z h0
              exact closed_walk_stay (reverse_graph_kos g) hrnd stm.1 hI3m
                vs1 z v h1 hzm
            rcases (e2 v).mp hvm with h3 | h3
            · exact absurd h3 hvnv
            · exact h3
        obtain ⟨st2, hrec, hall, f2, f3, f4, f5, f6⟩ :=
          ih (D ++ [z]) stm.1 (sccs ++ [delta]) hsplit2 hD2 hI2n hI3m hI4n
            hI5n hI6n hI7n
        refine ⟨st2, ?_, ?_, f2, f3, f4, f5, f6⟩
        · have hstep : kosarajuPass2 (reverse_graph_kos g)
              ((allNodesU g).length + 1) (z :: rest) (vis, sccs) =
              kosarajuPass2 (reverse_graph_kos g) ((allNodesU g).length + 1)
                rest (stm.1, sccs ++ [stm.2]) := by
            rw [kosarajuPass2, if_neg hzvis, hdfs]
          rw [hstep, hst2]
          exact hrec
        · intro y hy
          refine hall y ?_
          simp only [List.mem_append, List.mem_singleton, List.mem_cons] at hy ⊢
          tauto

theorem pairwise_disjoint_get_eq {α : Type} (l : List (List α))
    (hp : l.Pairwise (fun c1 c2 => ∀ u ∈ c1, u ∉ c2))
    (i j : Nat) (hi : i < l.length) (hj : j < l.length) (u : α)
    (hui : u ∈ l.get ⟨i, hi⟩) (huj : u ∈ l.get ⟨j, hj⟩) : i = j := by
  rcases Nat.lt_trichotomy i j with h | h | h
  · exact absurd huj (List.pairwise_iff_get.mp hp ⟨i, hi⟩ ⟨j, hj⟩
      (Fin.mk_lt_mk.mpr h) u hui)
  · exact h
  · exact absurd hui (List.pairwise_iff_get.mp hp ⟨j, hj⟩ ⟨i, hi⟩
      (Fin.mk_lt_mk.mpr h) u huj)

/-- C4: with the graph's adjacency keys distinct (a Python dict invariant),
kosaraju_scc terminates within the given fuel and partitions the graph's
nodes (keys together with every edge target) into components: every
component member is a node, every node lies in a component of exactly one
index, and two nodes share a component exactly when each reaches the other
along directed edges. -/
theorem kosaraju_scc_spec (g : UGraph) (hnd : (dkeys g).Nodup) :
    ∃ sccs, kosaraju_scc g ((allNodesU g).length + 1) = some sccs ∧
      (∀ c ∈ sccs, ∀ u ∈ c, u ∈ allNodesU g) ∧
      (∀ u ∈ allNodesU g, ∃ i, ∃ h : i < sccs.length, u ∈ sccs.get ⟨i, h⟩) ∧
      (∀ (i j : Nat) (hi : i < sccs.length) (hj : j < sccs.length) (u : Int),
        u ∈ sccs.get ⟨i, hi⟩ → u ∈ sccs.get ⟨j, hj⟩ → i = j) ∧
      (∀ u v : Int, u ∈ allNodesU g → v ∈ allNodesU g →
        ((∃ i, ∃ h : i < sccs.length,
            u ∈ sccs.get ⟨i, h⟩ ∧ v ∈ sccs.get ⟨i, h⟩) ↔
          (ReachU g u v ∧ ReachU g v u))) := by
  obtain ⟨st1, hf1, hSnd, hmemS, hcore⟩ := pass1_props g hnd
  obtain ⟨st2, hrec, hall, f2, f3, f4, f5, f6⟩ :=
    pass2_loop g hnd st1.2 hSnd hmemS hcore st1.2.reverse [] [] []
      (by rw [List.nil_append])
      (fun y hy => absurd hy (List.not_mem_nil y))
      (fun y hy => absurd hy (List.not_mem_nil y))
      (fun u hu => absurd hu (List.not_mem_nil u))
      (by
        intro x
        constructor
        · intro hx
          exact absurd hx (List.not_mem_nil x)
        · rintro ⟨c, hc, -⟩
          exact absurd hc (List.not_mem_nil c))
      List.Pairwise.nil
      (fun c hc => absurd hc (List.not_mem_nil c))
      (fun c hc => absurd hc (List.not_mem_nil c))
  have hks : kosaraju_scc g ((allNodesU g).length + 1) = some st2.2 := by
    unfold kosaraju_scc
    rw [hf1]
    show (match kosarajuPass2 (reverse_graph_kos g) ((allNodesU g).length + 1)
        st1.2.reverse ([], []) with
      | none => none
      | some st3 => some st3.2) = some st2.2
    rw [hrec]
  have hcov : ∀ u ∈ allNodesU g, u ∈ st2.1 := by
    intro u hu
    refine hall u ?_
    rw [List.nil_append]
    exact List.mem_reverse.mpr ((hmemS u).mpr hu)
  refine ⟨st2.2, hks, ?_, ?_, ?_, ?_⟩
  · intro c hc u hu
    exact f3 u ((f2 u).mpr ⟨c, hc, hu⟩)
  · intro u hu
    obtain ⟨c, hc, huc⟩ := (f2 u).mp (hcov u hu)
    obtain ⟨i, hi⟩ := List.mem_iff_get.mp hc
    refine ⟨i.val, i.isLt, ?_⟩
    have hieq : (⟨i.val, i.isLt⟩ : Fin st2.2.length) = i := rfl
    rw [hieq, hi]
    exact huc
  · exact fun i j hi hj u hui huj =>
      pairwise_disjoint_get_eq st2.2 f4 i j hi hj u hui huj
  · intro u v hu hv
    constructor
    · rintro ⟨i, hi, hui, hvi⟩
      have hc : st2.2.get ⟨i, hi⟩ ∈ st2.2 := List.get_mem _ _ _
      exact ⟨f5 _ hc u hui v hvi, f5 _ hc v hvi u hui⟩
    · rintro ⟨huv, hvu⟩
      obtain ⟨c, hc, huc⟩ := (f2 u).mp (hcov u hu)
      have hvc : v ∈ c := f6 c hc u huc v huv hvu
      obtain ⟨i, hi⟩ := List.mem_iff_get.mp hc
      have hieq : (⟨i.val, i.isLt⟩ : Fin st2.2.length) = i := rfl
      refine ⟨i.val, i.isLt, ?_, ?_⟩
      · rw [hieq, hi]
        exact huc
      · rw [hieq, hi]
        exact hvc

theorem kosaraju_scc_spec_witness :
    ∃ sccs, kosaraju_scc [((0 : Int), [(1 : Int)]), (1, [0, 2]), (2, [])]
        ((allNodesU [((0 : Int), [(1 : Int)]), (1, [0, 2]), (2, [])]).length + 1) =
        some sccs ∧
      (∀ c ∈ sccs, ∀ u ∈ c,
        u ∈ allNodesU [((0 : Int), [(1 : Int)]), (1, [0, 2]), (2, [])]) ∧
      (∀ u ∈ allNodesU [((0 : Int), [(1 : Int)]), (1, [0, 2]), (2, [])],
        ∃ i, ∃ h : i < sccs.length, u ∈ sccs.get ⟨i, h⟩) ∧
      (∀ (i j : Nat) (hi : i < sccs.length) (hj : j < sccs.length) (u : Int),
        u ∈ sccs.get ⟨i, hi⟩ → u ∈ sccs.get ⟨j, hj⟩ → i = j) ∧
      (∀ u v : Int,
        u ∈ allNodesU [((0 : Int), [(1 : Int)]), (1, [0, 2]), (2, [])] →
        v ∈ allNodesU [((0 : Int), [(1 : Int)]), (1, [0, 2]), (2, [])] →
        ((∃ i, ∃ h : i < sccs.length,
            u ∈ sccs.get ⟨i, h⟩ ∧ v ∈ sccs.get ⟨i, h⟩) ↔
          (ReachU [((0 : Int), [(1 : Int)]), (1, [0, 2]), (2, [])] u v ∧
            ReachU [((0 : Int), [(1 : Int)]), (1, [0, 2]), (2, [])] v u))) :=
  kosaraju_scc_spec [((0 : Int), [(1 : Int)]), (1, [0, 2]), (2, [])] (by decide)

/-! ## C6: Kruskal vs Prim (src/kruskals_algorithm.py, src/primes_algorithm.py) -/

/-- One undirected step along an edge of the list (either orientation). -/
def KStep (S : List KEdge) (a b : Nat) : Prop :=
  ∃ e ∈ S, (e.1 = a ∧ e.2.1 = b) ∨ (e.1 = b ∧ e.2.1 = a)

/-- An undirected walk along edges of the list. -/
def KWalk (S : List KEdge) : Nat → List Nat → Nat → Prop
  | a, [], b => a = b
  | a, x :: xs, b => KStep S a x ∧ KWalk S x xs b

/-- Undirected connectivity over the edge list. -/
def KConn (S : List KEdge) (a b : Nat) : Prop :=
  ∃ vs, KWalk S a vs b

theorem kstep_symm {S : List KEdge} {a b : Nat} (h : KStep S a b) :
    KStep S b a := by
  obtain ⟨e, he, h2⟩ := h
  exact ⟨e, he, h2.symm⟩

theorem kstep_mono {S S2 : List KEdge} (hsub : ∀ e ∈ S, e ∈ S2) {a b : Nat}
    (h : KStep S a b) : KStep S2 a b := by
  obtain ⟨e, he, h2⟩ := h
  exact ⟨e, hsub e he, h2⟩

theorem kconn_refl (S : List KEdge) (a : Nat) : KConn S a a :=
  ⟨[], rfl⟩

theorem kconn_step {S : List KEdge} {a b : Nat} (h : KStep S a b) :
    KConn S a b :=
  ⟨[b], h, rfl⟩

theorem kwalk_append (S : List KEdge) :
    ∀ (vs1 : List Nat) (a b : Nat), KWalk S a vs1 b →
      ∀ (vs2 : List Nat) (c : Nat), KWalk S b vs2 c →
        KWalk S a (vs1 ++ vs2) c := by
  intro vs1
  induction vs1 with
  | nil =>
      intro a b h vs2 c h2
      rw [(h : a = b)]
      exact h2
  | cons x xs ih =>
      intro a b h vs2 c h2
      obtain ⟨hs, hw⟩ := h
      exact ⟨hs, ih x b hw vs2 c h2⟩

theorem kconn_trans {S : List KEdge} {a b c : Nat} (h1 : KConn S a b)
    (h2 : KConn S b c) : KConn S a c := by
  obtain ⟨vs1, hw1⟩ := h1
  obtain ⟨vs2, hw2⟩ := h2
  exact ⟨vs1 ++ vs2, kwalk_append S vs1 a b hw1 vs2 c hw2⟩

theorem kwalk_symm (S : List KEdge) :
    ∀ (vs : List Nat) (a b : Nat), KWalk S a vs b → KConn S b a := by
  intro vs
  induction vs with
  | nil => intro a b h; rw [(h : a = b)]; exact kconn_refl S b
  | cons x xs ih =>
      intro a b h
      obtain ⟨hs, hw⟩ := h
      exact kconn_trans (ih x b hw) (kconn_step (kstep_symm hs))

theorem kconn_symm {S : List KEdge} {a b : Nat} (h : KConn S a b) :
    KConn S b a := by
  obtain ⟨vs, hw⟩ := h
  exact kwalk_symm S vs a b hw

theorem kwalk_mono {S S2 : List KEdge} (hsub : ∀ e ∈ S, e ∈ S2) :
    ∀ (vs : List Nat) (a b : Nat), KWalk S a vs b → KWalk S2 a vs b := by
  intro vs
  induction vs with
  | nil => intro a b h; exact h
  | cons x xs ih =>
      intro a b h
      obtain ⟨hs, hw2⟩ := h
      exact ⟨kstep_mono hsub hs, ih x b hw2⟩

theorem kconn_mono {S S2 : List KEdge} (hsub : ∀ e ∈ S, e ∈ S2) {a b : Nat}
    (h : KConn S a b) : KConn S2 a b := by
  obtain ⟨vs, hw⟩ := h
  exact ⟨vs, kwalk_mono hsub vs a b hw⟩

/-- Replacing one edge of S: if S2 contains every other edge of S and
connects the removed edge's endpoints, S2 inherits all of S's
connectivity. -/
theorem kconn_replace {S S2 : List KEdge} (f : KEdge)
    (hsub : ∀ e ∈ S, e ∈ S2 ∨ e = f) (hf : KConn S2 f.1 f.2.1) :
    ∀ {x y : Nat}, KConn S x y → KConn S2 x y := by
  have main : ∀ (vs : List Nat) (x y : Nat), KWalk S x vs y → KConn S2 x y := by
    intro vs
    induction vs with
    | nil =>
        intro x y hw
        rw [(hw : x = y)]
        exact kconn_refl S2 y
    | cons z zs ih =>
        intro x y hw
        obtain ⟨hs, hw2⟩ := hw
        refine kconn_trans ?_ (ih z y hw2)
        obtain ⟨e, he, h2⟩ := hs
        rcases hsub e he with h3 | h3
        · exact kconn_step ⟨e, h3, h2⟩
        · rcases h2 with ⟨ha, hb⟩ | ⟨ha, hb⟩
          · rw [← ha, ← hb, h3]
            exact hf
          · rw [← hb, ← ha, h3]
            exact kconn_symm hf
  intro x y h
  obtain ⟨vs, hw⟩ := h
  exact main vs x y hw

/-- Total weight of an edge list. -/
def kweight (S : List KEdge) : Int :=
  (S.map (fun e => e.2.2)).sum

theorem kweight_perm {S T : List KEdge} (h : S.Perm T) : kweight S = kweight T :=
  List.Perm.sum_eq (List.Perm.map _ h)

theorem kweight_append (S T : List KEdge) :
    kweight (S ++ T) = kweight S + kweight T := by
  simp [kweight]

/-- The canonical orientation of an undirected edge. -/
def kcanon (e : KEdge) : KEdge :=
  if e.1 ≤ e.2.1 then e else (e.2.1, e.1, e.2.2)

theorem kcanon_weight (e : KEdge) : (kcanon e).2.2 = e.2.2 := by
  unfold kcanon
  split <;> rfl

theorem kcanon_ends (e : KEdge) :
    ((kcanon e).1 = e.1 ∧ (kcanon e).2.1 = e.2.1) ∨
      ((kcanon e).1 = e.2.1 ∧ (kcanon e).2.1 = e.1) := by
  unfold kcanon
  split
  · exact Or.inl ⟨rfl, rfl⟩
  · exact Or.inr ⟨rfl, rfl⟩

theorem kweight_map_canon (S : List KEdge) :
    kweight (S.map kcanon) = kweight S := by
  induction S with
  | nil => rfl
  | cons e rest ih =>
      rw [List.map_cons]
      show (kcanon e).2.2 + kweight (rest.map kcanon) = e.2.2 + kweight rest
      rw [kcanon_weight, ih]

theorem kstep_canon_iff (S : List KEdge) (a b : Nat) :
    KStep (S.map kcanon) a b ↔ KStep S a b := by
  constructor
  · rintro ⟨e, he, h2⟩
    rw [List.mem_map] at he
    obtain ⟨e0, he0, heq⟩ := he
    refine ⟨e0, he0, ?_⟩
    rcases kcanon_ends e0 with ⟨p1, p2⟩ | ⟨p1, p2⟩ <;>
      rw [heq] at p1 p2 <;> rcases h2 with ⟨ha, hb⟩ | ⟨ha, hb⟩
    · exact Or.inl ⟨p1.symm.trans ha, p2.symm.trans hb⟩
    · exact Or.inr ⟨p1.symm.trans ha, p2.symm.trans hb⟩
    · exact Or.inr ⟨p2.symm.trans hb, p1.symm.trans ha⟩
    · exact Or.inl ⟨p2.symm.trans hb, p1.symm.trans ha⟩
  · rintro ⟨e, he, h2⟩
    refine ⟨kcanon e, List.mem_map.mpr ⟨e, he, rfl⟩, ?_⟩
    rcases kcanon_ends e with ⟨p1, p2⟩ | ⟨p1, p2⟩ <;>
      rcases h2 with ⟨ha, hb⟩ | ⟨ha, hb⟩
    · exact Or.inl ⟨p1.trans ha, p2.trans hb⟩
    · exact Or.inr ⟨p1.trans ha, p2.trans hb⟩
    · exact Or.inr ⟨p1.trans hb, p2.trans ha⟩
    · exact Or.inl ⟨p1.trans hb, p2.trans ha⟩

theorem kconn_canon_iff (S : List KEdge) (a b : Nat) :
    KConn (S.map kcanon) a b ↔ KConn S a b := by
  have h1 : ∀ (vs : List Nat) (x y : Nat),
      KWalk (S.map kcanon) x vs y → KWalk S x vs y := by
    intro vs
    induction vs with
    | nil => intro x y h; exact h
    | cons z zs ih =>
        intro x y h
        obtain ⟨hs, hw⟩ := h
        exact ⟨(kstep_canon_iff S x z).mp hs, ih z y hw⟩
  have h2 : ∀ (vs : List Nat) (x y : Nat),
      KWalk S x vs y → KWalk (S.map kcanon) x vs y := by
    intro vs
    induction vs with
    | nil => intro x y h; exact h
    | cons z zs ih =>
        intro x y h
        obtain ⟨hs, hw⟩ := h
        exact ⟨(kstep_canon_iff S x z).mpr hs, ih z y hw⟩
  constructor
  · rintro ⟨vs, hw⟩
    exact ⟨vs, h1 vs a b hw⟩
  · rintro ⟨vs, hw⟩
    exact ⟨vs, h2 vs a b hw⟩

/-- A minimizer exists in every list with a member satisfying P. -/
theorem list_min_exists {α : Type} (f : α → Int) :
    ∀ (l : List α) (P : α → Prop), (∃ x ∈ l, P x) →
      ∃ m ∈ l, P m ∧ ∀ x ∈ l, P x → f m ≤ f x := by
  intro l
  induction l with
  | nil =>
      rintro P ⟨x, hx, -⟩
      exact absurd hx (List.not_mem_nil x)
  | cons a rest ih =>
      rintro P ⟨x, hx, hPx⟩
      by_cases hexr : ∃ y ∈ rest, P y
      · obtain ⟨m, hm, hPm, hmin⟩ := ih P hexr
        by_cases hPa : P a
        · by_cases hle : f a ≤ f m
          · refine ⟨a, List.mem_cons_self _ _, hPa, ?_⟩
            intro z hz hPz
            rcases List.mem_cons.mp hz with h2 | h2
            · rw [h2]
            · exact le_trans hle (hmin z h2 hPz)
          · refine ⟨m, List.mem_cons_of_mem _ hm, hPm, ?_⟩
            intro z hz hPz
            rcases List.mem_cons.mp hz with h2 | h2
            · rw [h2]; omega
            · exact hmin z h2 hPz
        · refine ⟨m, List.mem_cons_of_mem _ hm, hPm, ?_⟩
          intro z hz hPz
          rcases List.mem_cons.mp hz with h2 | h2
          · rw [h2] at hPz; exact absurd hPz hPa
          · exact hmin z h2 hPz
      · have hxa : x = a := by
          rcases List.mem_cons.mp hx with h2 | h2
          · exact h2
          · exact absurd ⟨x, h2, hPx⟩ hexr
        refine ⟨a, List.mem_cons_self _ _, hxa ▸ hPx, ?_⟩
        intro z hz hPz
        rcases List.mem_cons.mp hz with h2 | h2
        · rw [h2]
        · exact absurd ⟨z, h2, hPz⟩ hexr

/-! ### List getD utilities for the DSU arrays -/

theorem getD_ge_len {α : Type} : ∀ (l : List α) (i : Nat) (dflt : α),
    l.length ≤ i → l.getD i dflt = dflt := by
  intro l
  induction l with
  | nil => intro i dflt h; cases i <;> rfl
  | cons a rest ih =>
      intro i dflt h
      cases i with
      | zero => simp at h
      | succ j => exact ih j dflt (by simpa using h)

theorem getD_set_self {α : Type} : ∀ (l : List α) (i : Nat) (v dflt : α),
    i < l.length → (l.set i v).getD i dflt = v := by
  intro l
  induction l with
  | nil => intro i v dflt h; simp at h
  | cons a rest ih =>
      intro i v dflt h
      cases i with
      | zero => rfl
      | succ j => exact ih j v dflt (by simpa using h)

theorem getD_set_ne {α : Type} : ∀ (l : List α) (i j : Nat) (v dflt : α),
    i ≠ j → (l.set i v).getD j dflt = l.getD j dflt := by
  intro l
  induction l with
  | nil => intro i j v dflt _; rfl
  | cons a rest ih =>
      intro i j v dflt h
      cases i with
      | zero =>
          cases j with
          | zero => exact absurd rfl h
          | succ j2 => rfl
      | succ i2 =>
          cases j with
          | zero => rfl
          | succ j2 => exact ih i2 j2 v dflt (fun hc => h (by rw [hc]))

theorem getD_append_lt {α : Type} : ∀ (l1 l2 : List α) (i : Nat) (dflt : α),
    i < l1.length → (l1 ++ l2).getD i dflt = l1.getD i dflt := by
  intro l1
  induction l1 with
  | nil => intro l2 i dflt h; simp at h
  | cons a rest ih =>
      intro l2 i dflt h
      cases i with
      | zero => rfl
      | succ j => exact ih l2 j dflt (by simpa using h)

theorem getD_append_len {α : Type} : ∀ (l1 : List α) (a dflt : α),
    (l1 ++ [a]).getD l1.length dflt = a := by
  intro l1
  induction l1 with
  | nil => intro a dflt; rfl
  | cons b rest ih => intro a dflt; exact ih a dflt

theorem getD_replicate {α : Type} (a dflt : α) : ∀ (n i : Nat),
    (List.replicate n a).getD i dflt = if i < n then a else dflt := by
  intro n
  induction n with
  | zero =>
      intro i
      rw [if_neg (by omega)]
      cases i <;> rfl
  | succ m ih =>
      intro i
      cases i with
      | zero => rw [if_pos (by omega)]; rfl
      | succ j =>
          show (List.replicate m a).getD j dflt = _
          rw [ih j]
          by_cases h : j < m
          · rw [if_pos h, if_pos (by omega)]
          · rw [if_neg h, if_neg (by omega)]

/-! ### DisjointSet verification: parents, roots, ranks, component count -/

/-- parent[u] lookup, defaulting to u itself out of range (the in-range
invariant keeps it equal to the Python array read). -/
def pget (d : DSU) (u : Nat) : Nat :=
  d.parent.getD u u

/-- Number of DSU roots among 0..m-1. -/
def rootCount (d : DSU) : Nat → Nat
  | 0 => 0
  | i + 1 => rootCount d i + (if pget d i = i then 1 else 0)

/-- Ghost parent-chain chase (no path compression); none on fuel
exhaustion. -/
def rootOf : Nat → DSU → Nat → Option Nat
  | 0, _, _ => none
  | fuel + 1, d, u => if pget d u = u then some u else rootOf fuel d (pget d u)

/-- u's representative is r, for some sufficient fuel. -/
def Root (d : DSU) (u r : Nat) : Prop :=
  ∃ fuel, rootOf fuel d u = some r

/-- x and y share a representative. -/
def SameRoot (d : DSU) (x y : Nat) : Prop :=
  ∃ r, Root d x r ∧ Root d y r

theorem rootOf_root : ∀ (fuel : Nat) (d : DSU) (u r : Nat),
    rootOf fuel d u = some r → pget d r = r := by
  intro fuel
  induction fuel with
  | zero => intro d u r h; exact Option.noConfusion h
  | succ f ih =>
      intro d u r h
      rw [rootOf] at h
      by_cases hp : pget d u = u
      · rw [if_pos hp] at h
        injection h with h2
        rw [← h2]
        exact hp
      · rw [if_neg hp] at h
        exact ih d (pget d u) r h

theorem rootOf_det : ∀ (f1 : Nat) (d : DSU) (u r1 : Nat),
    rootOf f1 d u = some r1 → ∀ (f2 r2 : Nat), rootOf f2 d u = some r2 →
      r1 = r2 := by
  intro f1
  induction f1 with
  | zero => intro d u r1 h; exact Option.noConfusion h
  | succ f ih =>
      intro d u r1 h f2 r2 h2
      cases f2 with
      | zero => exact Option.noConfusion h2
      | succ g =>
          rw [rootOf] at h h2
          by_cases hp : pget d u = u
          · rw [if_pos hp] at h h2
            injection h with ha
            injection h2 with hb
            rw [← ha, ← hb]
          · rw [if_neg hp] at h h2
            exact ih d (pget d u) r1 h g r2 h2

theorem Root_unique {d : DSU} {u r1 r2 : Nat} (h1 : Root d u r1)
    (h2 : Root d u r2) : r1 = r2 := by
  obtain ⟨f1, h1⟩ := h1
  obtain ⟨f2, h2⟩ := h2
  exact rootOf_det f1 d u r1 h1 f2 r2 h2

theorem Root_self {d : DSU} {x : Nat} (h : pget d x = x) : Root d x x :=
  ⟨1, by rw [rootOf, if_pos h]⟩

theorem Root_step {d : DSU} {x r : Nat} (h : pget d x ≠ x)
    (h2 : Root d (pget d x) r) : Root d x r := by
  obtain ⟨f, hf⟩ := h2
  exact ⟨f + 1, by rw [rootOf, if_neg h]; exact hf⟩

theorem Root_root {d : DSU} {u r : Nat} (h : Root d u r) : pget d r = r := by
  obtain ⟨f, hf⟩ := h
  exact rootOf_root f d u r hf

theorem SameRoot_ext {d d2 : DSU}
    (h : ∀ x s, Root d2 x s ↔ Root d x s) (x y : Nat) :
    SameRoot d2 x y ↔ SameRoot d x y := by
  constructor
  · rintro ⟨r, h1, h2⟩
    exact ⟨r, (h x r).mp h1, (h y r).mp h2⟩
  · rintro ⟨r, h1, h2⟩
    exact ⟨r, (h x r).mpr h1, (h y r).mpr h2⟩

theorem rootCount_all (d : DSU) : ∀ (m : Nat),
    (∀ i, i < m → pget d i = i) → rootCount d m = m := by
  intro m
  induction m with
  | zero => intro _; rfl
  | succ k ih =>
      intro h
      show rootCount d k + (if pget d k = k then 1 else 0) = k + 1
      rw [ih (fun i hi => h i (by omega)), if_pos (h k (by omega))]

theorem rootCount_ext (d d2 : DSU) : ∀ (m : Nat),
    (∀ i, i < m → (pget d i = i ↔ pget d2 i = i)) →
    rootCount d m = rootCount d2 m := by
  intro m
  induction m with
  | zero => intro _; rfl
  | succ k ih =>
      intro h
      show rootCount d k + (if pget d k = k then 1 else 0) =
        rootCount d2 k + (if pget d2 k = k then 1 else 0)
      rw [ih (fun i hi => h i (by omega))]
      by_cases hq : pget d k = k
      · rw [if_pos hq, if_pos ((h k (by omega)).mp hq)]
      · rw [if_neg hq, if_neg (fun hc => hq ((h k (by omega)).mpr hc))]

theorem rootCount_pos_of_root (d : DSU) : ∀ (m r : Nat), r < m →
    pget d r = r → 0 < rootCount d m := by
  intro m
  induction m with
  | zero => intro r h; omega
  | succ k ih =>
      intro r hr hroot
      show 0 < rootCount d k + (if pget d k = k then 1 else 0)
      by_cases h : r = k
      · rw [if_pos (h ▸ hroot)]
        omega
      · have := ih r (by omega) hroot
        omega

theorem rootCount_flip (d d3 : DSU) (rb : Nat)
    (hside : ∀ i, i ≠ rb → (pget d3 i = i ↔ pget d i = i))
    (hb1 : pget d rb = rb) (hb2 : pget d3 rb ≠ rb) :
    ∀ m, rootCount d m = rootCount d3 m + (if rb < m then 1 else 0) := by
  intro m
  induction m with
  | zero => simp [rootCount]
  | succ k ih =>
      show rootCount d k + (if pget d k = k then 1 else 0) =
        (rootCount d3 k + (if pget d3 k = k then 1 else 0)) +
          (if rb < k + 1 then 1 else 0)
      rw [ih]
      by_cases hk : k = rb
      · rw [hk, if_pos hb1, if_neg hb2, if_neg (show ¬ rb < rb by omega),
          if_pos (show rb < rb + 1 by omega)]
      · have hiff := hside k hk
        by_cases hq : pget d3 k = k
        · rw [if_pos hq, if_pos (hiff.mp hq)]
          by_cases hlt : rb < k
          · rw [if_pos hlt, if_pos (by omega)]
          · rw [if_neg hlt, if_neg (by omega)]
        · rw [if_neg hq, if_neg (fun hc => hq (hiff.mpr hc))]
          by_cases hlt : rb < k
          · rw [if_pos hlt, if_pos (by omega)]
          · rw [if_neg hlt, if_neg (by omega)]

/-- DisjointSet invariant: array lengths, parent in range, rank strictly
increasing along parent chains, and the potential rank[i] + #roots ≤ n. -/
def DSUinv (n : Nat) (d : DSU) : Prop :=
  d.parent.length = n ∧ d.rank.length = n ∧
  (∀ i, i < n → pget d i < n) ∧
  (∀ i, i < n → pget d i ≠ i → d.rank.getD i 0 < d.rank.getD (pget d i) 0) ∧
  (∀ i, i < n → d.rank.getD i 0 + rootCount d n ≤ n)

theorem pget_init (n : Nat) : ∀ i, pget (dsuInit n) i = i := by
  induction n with
  | zero =>
      intro i
      show (List.range 0).getD i i = i
      cases i <;> rfl
  | succ m ih =>
      intro i
      show (List.range (m + 1)).getD i i = i
      rw [List.range_succ]
      by_cases h : i < m
      · rw [getD_append_lt _ _ _ _ (by simpa using h)]
        exact ih i
      · by_cases h2 : i = m
        · rw [h2]
          have h3 : (List.range m).length = m := List.length_range m
          calc (List.range m ++ [m]).getD m m
              = (List.range m ++ [m]).getD (List.range m).length m := by rw [h3]
            _ = m := getD_append_len _ _ _
        · refine getD_ge_len _ _ _ ?_
          rw [List.length_append, List.length_range]
          simp
          omega

theorem rank_init (n i : Nat) : (dsuInit n).rank.getD i 0 = 0 := by
  show (List.replicate n 0).getD i 0 = 0
  rw [getD_replicate]
  by_cases h : i < n
  · rw [if_pos h]
  · rw [if_neg h]

theorem dsuInit_inv (n : Nat) : DSUinv n (dsuInit n) := by
  refine ⟨List.length_range n, List.length_replicate n 0, ?_, ?_, ?_⟩
  · intro i hi
    rw [pget_init n i]
    exact hi
  · intro i hi hne
    exact absurd (pget_init n i) hne
  · intro i hi
    rw [rank_init, rootCount_all (dsuInit n) n (fun j _ => pget_init n j)]
    omega

theorem rootCount_init (n : Nat) : rootCount (dsuInit n) n = n :=
  rootCount_all (dsuInit n) n (fun j _ => pget_init n j)

theorem Root_init (n : Nat) (x r : Nat) : Root (dsuInit n) x r ↔ r = x := by
  constructor
  · intro h
    exact Root_unique h (Root_self (pget_init n x))
  · intro h
    rw [h]
    exact Root_self (pget_init n x)

theorem rootOf_total_aux (n : Nat) (d : DSU) (hinv : DSUinv n d) :
    ∀ (fuel u : Nat), u < n → n < fuel + d.rank.getD u 0 →
      ∃ r, rootOf fuel d u = some r ∧ r < n ∧
        d.rank.getD u 0 ≤ d.rank.getD r 0 := by
  intro fuel
  induction fuel with
  | zero =>
      intro u hu hf
      have h1 := hinv.2.2.2.2 u hu
      omega
  | succ f ih =>
      intro u hu hf
      by_cases hp : pget d u = u
      · refine ⟨u, ?_, hu, le_refl _⟩
        rw [rootOf, if_pos hp]
      · have hpu : pget d u < n := hinv.2.2.1 u hu
        have hrk : d.rank.getD u 0 < d.rank.getD (pget d u) 0 :=
          hinv.2.2.2.1 u hu hp
        obtain ⟨r, h1, h2, h3⟩ := ih (pget d u) hpu (by omega)
        refine ⟨r, ?_, h2, by omega⟩
        rw [rootOf, if_neg hp]
        exact h1

theorem Root_total (n : Nat) (d : DSU) (hinv : DSUinv n d) (u : Nat)
    (hu : u < n) : ∃ r, Root d u r ∧ r < n ∧
      d.rank.getD u 0 ≤ d.rank.getD r 0 := by
  obtain ⟨r, h1, h2, h3⟩ := rootOf_total_aux n d hinv (n + 1) u hu (by omega)
  exact ⟨r, ⟨n + 1, h1⟩, h2, h3⟩

theorem pget_ge_len (d : DSU) (u : Nat) (h : d.parent.length ≤ u) :
    pget d u = u :=
  getD_ge_len d.parent u u h

/-- Re-pointing u directly at its own representative r preserves every
node's representative (the effect of one path-compression write). -/
theorem Root_reparent (d d2 : DSU) (u r : Nat) (hne : pget d u ≠ u)
    (hr : Root d u r) (hp2u : pget d2 u = r)
    (hp2ne : ∀ i, i ≠ u → pget d2 i = pget d i) :
    ∀ (x s : Nat), Root d2 x s ↔ Root d x s := by
  have hru : r ≠ u := by
    intro hc
    rw [hc] at hr
    exact hne (Root_root hr)
  have hdr : pget d r = r := Root_root hr
  have hp2r : pget d2 r = r := by rw [hp2ne r hru]; exact hdr
  have hfwd : ∀ (f x s : Nat), rootOf f d2 x = some s → Root d x s := by
    intro f
    induction f with
    | zero => intro x s h; exact Option.noConfusion h
    | succ g ih =>
        intro x s h
        rw [rootOf] at h
        by_cases hp : pget d2 x = x
        · rw [if_pos hp] at h
          injection h with h2
          have hxu : x ≠ u := by
            intro hc
            rw [hc, hp2u] at hp
            exact hru hp
          rw [← h2]
          exact Root_self (by rw [← hp2ne x hxu]; exact hp)
        · rw [if_neg hp] at h
          by_cases hxu : x = u
          · rw [hxu] at h ⊢
            rw [hp2u] at h
            have hsr : s = r := by
              cases g with
              | zero => exact Option.noConfusion h
              | succ g2 =>
                  rw [rootOf, if_pos hp2r] at h
                  injection h with h3
                  rw [h3]
            rw [hsr]
            exact hr
          · have hstep : pget d2 x = pget d x := hp2ne x hxu
            rw [hstep] at h hp
            exact Root_step hp (ih (pget d x) s h)
  have hbwd : ∀ (f x s : Nat), rootOf f d x = some s → Root d2 x s := by
    intro f
    induction f with
    | zero => intro x s h; exact Option.noConfusion h
    | succ g ih =>
        intro x s h
        rw [rootOf] at h
        by_cases hp : pget d x = x
        · rw [if_pos hp] at h
          injection h with h2
          have hxu : x ≠ u := fun hc => hne (by rw [← hc]; exact hp)
          rw [← h2]
          exact Root_self (by rw [hp2ne x hxu]; exact hp)
        · rw [if_neg hp] at h
          by_cases hxu : x = u
          · have hs : s = r := by
              have h1 : Root d x s := Root_step hp ⟨g, h⟩
              rw [hxu] at h1
              exact Root_unique h1 hr
            rw [hxu, hs]
            refine Root_step ?_ ?_
            · rw [hp2u]
              exact hru
            · rw [hp2u]
              exact Root_self hp2r
          · have hstep : pget d2 x = pget d x := hp2ne x hxu
            have h1 := ih (pget d x) s h
            refine Root_step ?_ ?_
            · rw [hstep]
              exact hp
            · rw [hstep]
              exact h1
  intro x s
  constructor
  · rintro ⟨f, hf⟩
    exact hfwd f x s hf
  · rintro ⟨f, hf⟩
    exact hbwd f x s hf

theorem pget_reparent_root_iff (d d2 : DSU) (u r : Nat)
    (hne : pget d u ≠ u) (hru : r ≠ u) (hp2u : pget d2 u = r)
    (hp2ne : ∀ i, i ≠ u → pget d2 i = pget d i) :
    ∀ i, pget d2 i = i ↔ pget d i = i := by
  intro i
  by_cases hiu : i = u
  · rw [hiu, hp2u]
    constructor
    · intro h
      exact absurd h hru
    · intro h
      exact absurd h hne
  · rw [hp2ne i hiu]

/-- DisjointSet.find with path compression: total with enough fuel, returns
the representative, keeps ranks, lengths, the invariant, every node's
representative, and every node's root status. -/
theorem dsuFind_spec (n : Nat) : ∀ (fuel : Nat) (d : DSU) (u : Nat),
    DSUinv n d → u < n → n < fuel + d.rank.getD u 0 →
    ∃ d2 r, dsuFind fuel d u = some (d2, r) ∧
      Root d u r ∧ r < n ∧
      d2.rank = d.rank ∧ d2.parent.length = d.parent.length ∧
      DSUinv n d2 ∧
      (∀ x s, Root d2 x s ↔ Root d x s) ∧
      (∀ i, pget d2 i = i ↔ pget d i = i) ∧
      d.rank.getD u 0 ≤ d.rank.getD r 0 := by
  intro fuel
  induction fuel with
  | zero =>
      intro d u hinv hu hf
      have := hinv.2.2.2.2 u hu
      omega
  | succ f ih =>
      intro d u hinv hu hf
      by_cases hp : pget d u = u
      · refine ⟨d, u, ?_, Root_self hp, hu, rfl, rfl, hinv,
          fun x s => Iff.rfl, fun i => Iff.rfl, le_refl _⟩
        show (if pget d u = u then some (d, u)
          else match dsuFind f d (pget d u) with
            | none => none
            | some (d2, r) =>
                some ({ d2 with parent := d2.parent.set u r }, r)) = some (d, u)
        rw [if_pos hp]
      · have hpu : pget d u < n := hinv.2.2.1 u hu
        have hrk : d.rank.getD u 0 < d.rank.getD (pget d u) 0 :=
          hinv.2.2.2.1 u hu hp
        obtain ⟨d2, r, heq, hroot, hrn, hrank, hplen, hinv2, hRpres, hroots,
          hrkle⟩ := ih d (pget d u) hinv hpu (by omega)
        have hulen : u < d2.parent.length := by
          rw [hplen, hinv.1]
          exact hu
        have hune2 : pget d2 u ≠ u := fun hc => hp ((hroots u).mp hc)
        have hr2 : Root d2 u r := (hRpres u r).mpr (Root_step hp hroot)
        have hp3u : pget { d2 with parent := d2.parent.set u r } u = r :=
          getD_set_self d2.parent u r u hulen
        have hp3ne : ∀ i, i ≠ u →
            pget { d2 with parent := d2.parent.set u r } i = pget d2 i := by
          intro i hi
          exact getD_set_ne d2.parent u i r i (fun hc => hi hc.symm)
        have hru2 : r ≠ u := by
          intro hc
          rw [hc] at hr2
          exact hune2 (Root_root hr2)
        have hRpres3 : ∀ x s,
            Root { d2 with parent := d2.parent.set u r } x s ↔ Root d2 x s :=
          Root_reparent d2 _ u r hune2 hr2 hp3u hp3ne
        have hroots3 : ∀ i,
            pget { d2 with parent := d2.parent.set u r } i = i ↔
              pget d2 i = i :=
          pget_reparent_root_iff d2 _ u r hune2 hru2 hp3u hp3ne
        have hrc3 : rootCount { d2 with parent := d2.parent.set u r } n =
            rootCount d2 n :=
          rootCount_ext _ d2 n (fun i _ => hroots3 i)
        refine ⟨{ d2 with parent := d2.parent.set u r }, r, ?_,
          Root_step hp hroot, hrn, hrank, ?_, ?_, ?_, ?_, by omega⟩
        · show (if pget d u = u then some (d, u)
            else match dsuFind f d (pget d u) with
              | none => none
              | some (d2, r) =>
                  some ({ d2 with parent := d2.parent.set u r }, r)) = _
          rw [if_neg hp]
          show (match dsuFind f d (pget d u) with
            | none => none
            | some (d2, r) =>
                some ({ d2 with parent := d2.parent.set u r }, r)) = _
          rw [heq]
        · show (d2.parent.set u r).length = d.parent.length
          rw [List.length_set]
          exact hplen
        · refine ⟨?_, ?_, ?_, ?_, ?_⟩
          · show (d2.parent.set u r).length = n
            rw [List.length_set, hplen]
            exact hinv.1
          · show d2.rank.length = n
            rw [hrank]
            exact hinv.2.1
          · intro i hi
            by_cases hiu : i = u
            · rw [hiu, hp3u]
              exact hrn
            · rw [hp3ne i hiu]
              exact hinv2.2.2.1 i hi
          · intro i hi hnei
            by_cases hiu : i = u
            · rw [hiu] at hnei ⊢
              rw [hp3u] at hnei ⊢
              show d2.rank.getD u 0 < d2.rank.getD r 0
              rw [hrank]
              omega
            · rw [hp3ne i hiu] at hnei ⊢
              exact hinv2.2.2.2.1 i hi hnei
          · intro i hi
            show d2.rank.getD i 0 + _ ≤ n
            rw [hrc3]
            exact hinv2.2.2.2.2 i hi
        · intro x s
          exact (hRpres3 x s).trans (hRpres x s)
        · intro i
          exact (hroots3 i).trans (hroots i)

theorem rootOf_parent_ext : ∀ (f : Nat) (d d2 : DSU), d.parent = d2.parent →
    ∀ u, rootOf f d u = rootOf f d2 u := by
  intro f
  induction f with
  | zero => intro d d2 _ u; rfl
  | succ g ih =>
      intro d d2 h u
      have hp : pget d u = pget d2 u := by
        show d.parent.getD u u = d2.parent.getD u u
        rw [h]
      rw [rootOf, rootOf, hp]
      by_cases hc : pget d2 u = u
      · rw [if_pos hc, if_pos hc]
      · rw [if_neg hc, if_neg hc]
        exact ih d d2 h (pget d2 u)

theorem Root_parent_ext (d d2 : DSU) (h : d.parent = d2.parent) (u r : Nat) :
    Root d u r ↔ Root d2 u r := by
  constructor
  · rintro ⟨f, hf⟩
    refine ⟨f, ?_⟩
    rw [← rootOf_parent_ext f d d2 h u]
    exact hf
  · rintro ⟨f, hf⟩
    refine ⟨f, ?_⟩
    rw [rootOf_parent_ext f d d2 h u]
    exact hf

/-- Linking one root rb under another root ra collapses representatives:
after the write, x's representative is its old one, except that rb's tree
now reports ra. -/
theorem Root_link (d d3 : DSU) (ra rb : Nat)
    (hra : pget d ra = ra) (hrb : pget d rb = rb) (hab : ra ≠ rb)
    (hp3b : pget d3 rb = ra) (hp3ne : ∀ i, i ≠ rb → pget d3 i = pget d i) :
    ∀ (x s : Nat), Root d3 x s ↔
      ∃ s0, Root d x s0 ∧ s = (if s0 = rb then ra else s0) := by
  have hp3a : pget d3 ra = ra := by rw [hp3ne ra hab]; exact hra
  have hfwd : ∀ (f x s : Nat), rootOf f d3 x = some s →
      ∃ s0, Root d x s0 ∧ s = (if s0 = rb then ra else s0) := by
    intro f
    induction f with
    | zero => intro x s h; exact Option.noConfusion h
    | succ g ih =>
        intro x s h
        rw [rootOf] at h
        by_cases hp : pget d3 x = x
        · rw [if_pos hp] at h
          injection h with h2
          have hxb : x ≠ rb := by
            intro hc
            rw [hc, hp3b] at hp
            exact hab hp
          refine ⟨x, Root_self (by rw [← hp3ne x hxb]; exact hp), ?_⟩
          rw [if_neg hxb]
          rw [h2]
        · rw [if_neg hp] at h
          by_cases hxb : x = rb
          · rw [hxb] at h ⊢
            rw [hp3b] at h
            have hsa : s = ra := by
              cases g with
              | zero => exact Option.noConfusion h
              | succ g2 =>
                  rw [rootOf, if_pos hp3a] at h
                  injection h with h3
                  rw [h3]
            refine ⟨rb, Root_self hrb, ?_⟩
            rw [if_pos rfl, hsa]
          · have hstep : pget d3 x = pget d x := hp3ne x hxb
            rw [hstep] at h hp
            obtain ⟨s0, hs0, hcol⟩ := ih (pget d x) s h
            exact ⟨s0, Root_step hp hs0, hcol⟩
  have hbwd : ∀ (f x s0 : Nat), rootOf f d x = some s0 →
      Root d3 x (if s0 = rb then ra else s0) := by
    intro f
    induction f with
    | zero => intro x s0 h; exact Option.noConfusion h
    | succ g ih =>
        intro x s0 h
        rw [rootOf] at h
        by_cases hp : pget d x = x
        · rw [if_pos hp] at h
          injection h with h2
          rw [← h2]
          by_cases hxb : x = rb
          · rw [if_pos hxb, hxb]
            refine Root_step ?_ ?_
            · rw [hp3b]
              exact hab
            · rw [hp3b]
              exact Root_self hp3a
          · rw [if_neg hxb]
            exact Root_self (by rw [hp3ne x hxb]; exact hp)
        · rw [if_neg hp] at h
          have hxb : x ≠ rb := by
            intro hc
            rw [hc, hrb] at hp
            exact hp rfl
          have h1 := ih (pget d x) s0 h
          refine Root_step ?_ ?_
          · rw [hp3ne x hxb]
            exact hp
          · rw [hp3ne x hxb]
            exact h1
  intro x s
  constructor
  · rintro ⟨f, hf⟩
    exact hfwd f x s hf
  · rintro ⟨s0, ⟨f, hf⟩, hcol⟩
    rw [hcol]
    exact hbwd f x s0 hf

/-- The SameRoot relation after a link: either the old representatives
agree, or the two nodes straddle the merged pair. -/
theorem link_sameRoot (d d3 : DSU) (ra rb : Nat) (hab : ra ≠ rb)
    (hcol : ∀ x s, Root d3 x s ↔
      ∃ s0, Root d x s0 ∧ s = (if s0 = rb then ra else s0)) :
    ∀ x y, SameRoot d3 x y ↔
      ∃ sx sy, Root d x sx ∧ Root d y sy ∧
        (sx = sy ∨ (sx = ra ∧ sy = rb) ∨ (sx = rb ∧ sy = ra)) := by
  intro x y
  constructor
  · rintro ⟨s, h3x, h3y⟩
    obtain ⟨sx, hx0, hcx⟩ := (hcol x s).mp h3x
    obtain ⟨sy, hy0, hcy⟩ := (hcol y s).mp h3y
    refine ⟨sx, sy, hx0, hy0, ?_⟩
    by_cases hbx : sx = rb
    · by_cases hby : sy = rb
      · exact Or.inl (hbx.trans hby.symm)
      · rw [if_pos hbx] at hcx
        rw [if_neg hby] at hcy
        exact Or.inr (Or.inr ⟨hbx, hcy.symm.trans hcx⟩)
    · by_cases hby : sy = rb
      · rw [if_neg hbx] at hcx
        rw [if_pos hby] at hcy
        exact Or.inr (Or.inl ⟨hcx.symm.trans hcy, hby⟩)
      · rw [if_neg hbx] at hcx
        rw [if_neg hby] at hcy
        exact Or.inl (hcx.symm.trans hcy)
  · rintro ⟨sx, sy, hx0, hy0, hd⟩
    rcases hd with hd | ⟨hd1, hd2⟩ | ⟨hd1, hd2⟩
    · refine ⟨if sx = rb then ra else sx, (hcol x _).mpr ⟨sx, hx0, rfl⟩, ?_⟩
      refine (hcol y _).mpr ⟨sy, hy0, ?_⟩
      rw [hd]
    · refine ⟨ra, (hcol x _).mpr ⟨sx, hx0, ?_⟩, (hcol y _).mpr ⟨sy, hy0, ?_⟩⟩
      · rw [if_neg (by rw [hd1]; exact hab), hd1]
      · rw [if_pos hd2]
    · refine ⟨ra, (hcol x _).mpr ⟨sx, hx0, ?_⟩, (hcol y _).mpr ⟨sy, hy0, ?_⟩⟩
      · rw [if_pos hd1]
      · rw [if_neg (by rw [hd2]; exact hab), hd2]

/-- Shared consequences of the one parent write performed by union. -/
theorem link_facts (n : Nat) (d2 d3 : DSU) (ra rb : Nat)
    (hlen : d2.parent.length = n)
    (hra : pget d2 ra = ra) (hrb : pget d2 rb = rb) (hab : ra ≠ rb)
    (hbn : rb < n)
    (hp3 : d3.parent = d2.parent.set rb ra) :
    pget d3 rb = ra ∧ (∀ i, i ≠ rb → pget d3 i = pget d2 i) ∧
    (∀ x s, Root d3 x s ↔
      ∃ s0, Root d2 x s0 ∧ s = (if s0 = rb then ra else s0)) ∧
    rootCount d2 n = rootCount d3 n + 1 ∧
    d3.parent.length = n := by
  have hp3b : pget d3 rb = ra := by
    show d3.parent.getD rb rb = ra
    rw [hp3]
    exact getD_set_self d2.parent rb ra rb (by rw [hlen]; exact hbn)
  have hp3ne : ∀ i, i ≠ rb → pget d3 i = pget d2 i := by
    intro i hi
    show d3.parent.getD i i = d2.parent.getD i i
    rw [hp3]
    exact getD_set_ne d2.parent rb i ra i (fun hc => hi hc.symm)
  have hcol := Root_link d2 d3 ra rb hra hrb hab hp3b hp3ne
  have hrc := rootCount_flip d2 d3 rb
    (fun i hi => by rw [hp3ne i hi]) hrb
    (by rw [hp3b]; exact fun hc => hab hc) n
  refine ⟨hp3b, hp3ne, hcol, ?_, ?_⟩
  · rw [hrc, if_pos hbn]
  · rw [hp3, List.length_set]
    exact hlen

/-- DisjointSet.union with distinct representatives: succeeds, keeps the
invariant, merges exactly the two root trees, and drops the component
count by one. -/
theorem dsuUnion_spec (n : Nat) (d : DSU) (u v ru rv : Nat)
    (hinv : DSUinv n d) (hu : u < n) (hv : v < n)
    (hru : Root d u ru) (hrv : Root d v rv) (hne : ru ≠ rv) :
    ∃ d3, dsuUnion (n + 1) d u v = some d3 ∧
      DSUinv n d3 ∧
      rootCount d n = rootCount d3 n + 1 ∧
      (∀ x y, SameRoot d3 x y ↔
        (SameRoot d x y ∨ (SameRoot d x u ∧ SameRoot d y v) ∨
          (SameRoot d x v ∧ SameRoot d y u))) := by
  obtain ⟨d1, r1, heq1, hroot1, hr1n, hrank1, hplen1, hinv1, hRpres1,
    hroots1, -⟩ := dsuFind_spec n (n + 1) d u hinv hu (by omega)
  have hr1 : r1 = ru := Root_unique hroot1 hru
  rw [hr1] at heq1 hr1n
  obtain ⟨d2, r2, heq2, hroot2, hr2n, hrank2, hplen2, hinv2, hRpres2,
    hroots2, -⟩ := dsuFind_spec n (n + 1) d1 v hinv1 hv (by omega)
  have hr2 : r2 = rv := Root_unique ((hRpres1 v r2).mp hroot2) hrv
  rw [hr2] at heq2 hr2n
  have hRd2 : ∀ x s, Root d2 x s ↔ Root d x s :=
    fun x s => (hRpres2 x s).trans (hRpres1 x s)
  have hrootsd2 : ∀ i, pget d2 i = i ↔ pget d i = i :=
    fun i => (hroots2 i).trans (hroots1 i)
  have hranks : d2.rank = d.rank := hrank2.trans hrank1
  have hrcd2 : rootCount d n = rootCount d2 n :=
    (rootCount_ext d d2 n (fun i _ => (hrootsd2 i).symm))
  have hpru : pget d2 ru = ru := Root_root ((hRd2 u ru).mpr hru)
  have hprv : pget d2 rv = rv := Root_root ((hRd2 v rv).mpr hrv)
  have hrulen : ru < d2.parent.length := by
    rw [hplen2, hplen1, hinv.1]
    exact hr1n
  have hrvlen : rv < d2.parent.length := by
    rw [hplen2, hplen1, hinv.1]
    exact hr2n
  have hplen2n : d2.parent.length = n := by
    rw [hplen2, hplen1]
    exact hinv.1
  have hSR : ∀ (d3 : DSU) (ra rb : Nat), ra ≠ rb →
      ((ra = ru ∧ rb = rv) ∨ (ra = rv ∧ rb = ru)) →
      (∀ x s, Root d3 x s ↔
        ∃ s0, Root d x s0 ∧ s = (if s0 = rb then ra else s0)) →
      (∀ x y, SameRoot d3 x y ↔
        (SameRoot d x y ∨ (SameRoot d x u ∧ SameRoot d y v) ∨
          (SameRoot d x v ∧ SameRoot d y u))) := by
    intro d3 ra rb hab hor hcol x y
    rw [link_sameRoot d d3 ra rb hab hcol x y]
    constructor
    · rintro ⟨sx, sy, hx0, hy0, hd⟩
      rcases hd with hd | ⟨hd1, hd2⟩ | ⟨hd1, hd2⟩
      · exact Or.inl ⟨sx, hx0, hd ▸ hy0⟩
      · rcases hor with ⟨ha, hb⟩ | ⟨ha, hb⟩
        · exact Or.inr (Or.inl ⟨⟨ru, (hd1.trans ha) ▸ hx0, hru⟩,
            ⟨rv, (hd2.trans hb) ▸ hy0, hrv⟩⟩)
        · exact Or.inr (Or.inr ⟨⟨rv, (hd1.trans ha) ▸ hx0, hrv⟩,
            ⟨ru, (hd2.trans hb) ▸ hy0, hru⟩⟩)
      · rcases hor with ⟨ha, hb⟩ | ⟨ha, hb⟩
        · exact Or.inr (Or.inr ⟨⟨rv, (hd1.trans hb) ▸ hx0, hrv⟩,
            ⟨ru, (hd2.trans ha) ▸ hy0, hru⟩⟩)
        · exact Or.inr (Or.inl ⟨⟨ru, (hd1.trans hb) ▸ hx0, hru⟩,
            ⟨rv, (hd2.trans ha) ▸ hy0, hrv⟩⟩)
    · rintro (⟨s, hxs, hys⟩ | ⟨⟨t1, hxt, hut⟩, ⟨t2, hyt, hvt⟩⟩ |
        ⟨⟨t1, hxt, hvt⟩, ⟨t2, hyt, hut⟩⟩)
      · exact ⟨s, s, hxs, hys, Or.inl rfl⟩
      · have ht1 : t1 = ru := Root_unique hut hru
        have ht2 : t2 = rv := Root_unique hvt hrv
        rcases hor with ⟨ha, hb⟩ | ⟨ha, hb⟩
        · exact ⟨t1, t2, hxt, hyt, Or.inr (Or.inl
            ⟨ht1.trans ha.symm, ht2.trans hb.symm⟩)⟩
        · exact ⟨t1, t2, hxt, hyt, Or.inr (Or.inr
            ⟨ht1.trans hb.symm, ht2.trans ha.symm⟩)⟩
      · have ht1 : t1 = rv := Root_unique hvt hrv
        have ht2 : t2 = ru := Root_unique hut hru
        rcases hor with ⟨ha, hb⟩ | ⟨ha, hb⟩
        · exact ⟨t1, t2, hxt, hyt, Or.inr (Or.inr
            ⟨ht1.trans hb.symm, ht2.trans ha.symm⟩)⟩
        · exact ⟨t1, t2, hxt, hyt, Or.inr (Or.inl
            ⟨ht1.trans ha.symm, ht2.trans hb.symm⟩)⟩
  have hcomp : dsuUnion (n + 1) d u v =
      (if ru ≠ rv then
        if d2.rank.getD rv 0 < d2.rank.getD ru 0 then
          some { d2 with parent := d2.parent.set rv ru }
        else if d2.rank.getD ru 0 < d2.rank.getD rv 0 then
          some { d2 with parent := d2.parent.set ru rv }
        else
          some { parent := d2.parent.set rv ru,
                 rank := d2.rank.set ru (d2.rank.getD ru 0 + 1) }
      else some d2) := by
    show (match dsuFind (n + 1) d u with
      | none => none
      | some (d1, ru) =>
          match dsuFind (n + 1) d1 v with
          | none => none
          | some (d2, rv) =>
              if ru ≠ rv then
                if d2.rank.getD rv 0 < d2.rank.getD ru 0 then
                  some { d2 with parent := d2.parent.set rv ru }
                else if d2.rank.getD ru 0 < d2.rank.getD rv 0 then
                  some { d2 with parent := d2.parent.set ru rv }
                else
                  some { parent := d2.parent.set rv ru,
                         rank := d2.rank.set ru (d2.rank.getD ru 0 + 1) }
              else some d2) = _
    rw [heq1]
    show (match dsuFind (n + 1) d1 v with
      | none => none
      | some (d2, rv) =>
          if ru ≠ rv then
            if d2.rank.getD rv 0 < d2.rank.getD ru 0 then
              some { d2 with parent := d2.parent.set rv ru }
            else if d2.rank.getD ru 0 < d2.rank.getD rv 0 then
              some { d2 with parent := d2.parent.set ru rv }
            else
              some { parent := d2.parent.set rv ru,
                     rank := d2.rank.set ru (d2.rank.getD ru 0 + 1) }
          else some d2) = _
    rw [heq2]
  rw [if_pos hne] at hcomp
  by_cases hcase1 : d2.rank.getD rv 0 < d2.rank.getD ru 0
  · rw [if_pos hcase1] at hcomp
    obtain ⟨hp3b, hp3ne, hcol, hrc, hplen3⟩ :=
      link_facts n d2 { d2 with parent := d2.parent.set rv ru } ru rv
        hplen2n hpru hprv hne hr2n rfl
    have hcold : ∀ x s, Root { d2 with parent := d2.parent.set rv ru } x s ↔
        ∃ s0, Root d x s0 ∧ s = (if s0 = rv then ru else s0) := by
      intro x s
      rw [hcol x s]
      constructor
      · rintro ⟨s0, h1, h2⟩
        exact ⟨s0, (hRd2 x s0).mp h1, h2⟩
      · rintro ⟨s0, h1, h2⟩
        exact ⟨s0, (hRd2 x s0).mpr h1, h2⟩
    refine ⟨{ d2 with parent := d2.parent.set rv ru }, hcomp, ?_, ?_,
      hSR _ ru rv hne (Or.inl ⟨rfl, rfl⟩) hcold⟩
    · refine ⟨hplen3, hinv2.2.1, ?_, ?_, ?_⟩
      · intro i hi
        by_cases hirv : i = rv
        · rw [hirv, hp3b]
          exact hr1n
        · rw [hp3ne i hirv]
          exact hinv2.2.2.1 i hi
      · intro i hi hnei
        by_cases hirv : i = rv
        · rw [hirv] at hnei ⊢
          rw [hp3b] at hnei ⊢
          exact hcase1
        · rw [hp3ne i hirv] at hnei ⊢
          exact hinv2.2.2.2.1 i hi hnei
      · intro i hi
        have h1 := hinv2.2.2.2.2 i hi
        show d2.rank.getD i 0 +
          rootCount { d2 with parent := d2.parent.set rv ru } n ≤ n
        omega
    · omega
  · rw [if_neg hcase1] at hcomp
    by_cases hcase2 : d2.rank.getD ru 0 < d2.rank.getD rv 0
    · rw [if_pos hcase2] at hcomp
      obtain ⟨hp3b, hp3ne, hcol, hrc, hplen3⟩ :=
        link_facts n d2 { d2 with parent := d2.parent.set ru rv } rv ru
          hplen2n hprv hpru (Ne.symm hne) hr1n rfl
      have hcold : ∀ x s, Root { d2 with parent := d2.parent.set ru rv } x s ↔
          ∃ s0, Root d x s0 ∧ s = (if s0 = ru then rv else s0) := by
        intro x s
        rw [hcol x s]
        constructor
        · rintro ⟨s0, h1, h2⟩
          exact ⟨s0, (hRd2 x s0).mp h1, h2⟩
        · rintro ⟨s0, h1, h2⟩
          exact ⟨s0, (hRd2 x s0).mpr h1, h2⟩
      refine ⟨{ d2 with parent := d2.parent.set ru rv }, hcomp, ?_, ?_,
        hSR _ rv ru (Ne.symm hne) (Or.inr ⟨rfl, rfl⟩) hcold⟩
      · refine ⟨hplen3, hinv2.2.1, ?_, ?_, ?_⟩
        · intro i hi
          by_cases hiru : i = ru
          · rw [hiru, hp3b]
            exact hr2n
          · rw [hp3ne i hiru]
            exact hinv2.2.2.1 i hi
        · intro i hi hnei
          by_cases hiru : i = ru
          · rw [hiru] at hnei ⊢
            rw [hp3b] at hnei ⊢
            exact hcase2
          · rw [hp3ne i hiru] at hnei ⊢
            exact hinv2.2.2.2.1 i hi hnei
        · intro i hi
          have h1 := hinv2.2.2.2.2 i hi
          show d2.rank.getD i 0 +
            rootCount { d2 with parent := d2.parent.set ru rv } n ≤ n
          omega
      · omega
    · rw [if_neg hcase2] at hcomp
      have heqr : d2.rank.getD ru 0 = d2.rank.getD rv 0 := by omega
      obtain ⟨hp3b, hp3ne, hcol, hrc, hplen3⟩ :=
        link_facts n d2
          { d2 with parent := d2.parent.set rv ru,
                    rank := d2.rank.set ru (d2.rank.getD ru 0 + 1) } ru rv
          hplen2n hpru hprv hne hr2n rfl
      have hrulen2 : ru < d2.rank.length := by
        rw [hinv2.2.1]
        exact hr1n
      have hR3ru : ({ d2 with
            parent := d2.parent.set rv ru,
            rank := d2.rank.set ru (d2.rank.getD ru 0 + 1) } :
            DSU).rank.getD ru 0 = d2.rank.getD ru 0 + 1 :=
        getD_set_self d2.rank ru _ 0 hrulen2
      have hR3ne : ∀ i, i ≠ ru → ({ d2 with
            parent := d2.parent.set rv ru,
            rank := d2.rank.set ru (d2.rank.getD ru 0 + 1) } :
            DSU).rank.getD i 0 = d2.rank.getD i 0 :=
        fun i hi => getD_set_ne d2.rank ru i _ 0 (fun hc => hi hc.symm)
      have hcold : ∀ x s, Root { d2 with
          parent := d2.parent.set rv ru,
          rank := d2.rank.set ru (d2.rank.getD ru 0 + 1) } x s ↔
          ∃ s0, Root d x s0 ∧ s = (if s0 = rv then ru else s0) := by
        intro x s
        rw [hcol x s]
        constructor
        · rintro ⟨s0, h1, h2⟩
          exact ⟨s0, (hRd2 x s0).mp h1, h2⟩
        · rintro ⟨s0, h1, h2⟩
          exact ⟨s0, (hRd2 x s0).mpr h1, h2⟩
      refine ⟨{ d2 with
          parent := d2.parent.set rv ru,
          rank := d2.rank.set ru (d2.rank.getD ru 0 + 1) }, hcomp, ?_, ?_,
        hSR _ ru rv hne (Or.inl ⟨rfl, rfl⟩) hcold⟩
      · refine ⟨hplen3, ?_, ?_, ?_, ?_⟩
        · show (d2.rank.set ru (d2.rank.getD ru 0 + 1)).length = n
          rw [List.length_set]
          exact hinv2.2.1
        · intro i hi
          by_cases hirv : i = rv
          · rw [hirv, hp3b]
            exact hr1n
          · rw [hp3ne i hirv]
            exact hinv2.2.2.1 i hi
        · intro i hi hnei
          by_cases hirv : i = rv
          · rw [hirv] at hnei ⊢
            rw [hp3b] at hnei ⊢
            rw [hR3ru, hR3ne rv (Ne.symm hne)]
            omega
          · rw [hp3ne i hirv] at hnei ⊢
            by_cases hiru : i = ru
            · rw [hiru] at hnei
              exact absurd hpru hnei
            · have hold := hinv2.2.2.2.1 i hi hnei
              rw [hR3ne i hiru]
              by_cases hpru2 : pget d2 i = ru
              · rw [hpru2, hR3ru]
                rw [hpru2] at hold
                omega
              · rw [hR3ne _ hpru2]
                exact hold
        · intro i hi
          by_cases hiru : i = ru
          · rw [hiru, hR3ru]
            have h1 := hinv2.2.2.2.2 ru hr1n
            omega
          · rw [hR3ne i hiru]
            have h1 := hinv2.2.2.2.2 i hi
            omega
      · omega

/-! ### Connectivity machinery for the exchange argument -/

theorem kconn_nil {x y : Nat} (h : KConn ([] : List KEdge) x y) : x = y := by
  obtain ⟨vs, hw⟩ := h
  cases vs with
  | nil => exact hw
  | cons z zs =>
      obtain ⟨⟨e, he, -⟩, -⟩ := hw
      exact absurd he (List.not_mem_nil e)

theorem kwalk_lift_conn {S T : List KEdge}
    (h : ∀ g ∈ S, KConn T g.1 g.2.1) :
    ∀ (vs : List Nat) (a b : Nat), KWalk S a vs b → KConn T a b := by
  intro vs
  induction vs with
  | nil =>
      intro a b hw
      rw [(hw : a = b)]
      exact kconn_refl T b
  | cons x xs ih =>
      intro a b hw
      obtain ⟨⟨g, hg, ho⟩, hw2⟩ := hw
      refine kconn_trans ?_ (ih x b hw2)
      rcases ho with ⟨h1, h2⟩ | ⟨h1, h2⟩
      · rw [← h1, ← h2]
        exact h g hg
      · rw [← h1, ← h2]
        exact kconn_symm (h g hg)

theorem kconn_lift {S T : List KEdge} (h : ∀ g ∈ S, KConn T g.1 g.2.1)
    {a b : Nat} (hc : KConn S a b) : KConn T a b := by
  obtain ⟨vs, hw⟩ := hc
  exact kwalk_lift_conn h vs a b hw

theorem kwalk_snoc_cases (A : List KEdge) (e : KEdge) (y : Nat) :
    ∀ (vs : List Nat) (x : Nat), KWalk (A ++ [e]) x vs y →
      KConn A x y ∨ (KConn A x e.1 ∧ KConn A e.2.1 y) ∨
        (KConn A x e.2.1 ∧ KConn A e.1 y) := by
  intro vs
  induction vs with
  | nil =>
      intro x hw
      rw [(hw : x = y)]
      exact Or.inl (kconn_refl A y)
  | cons w ws ih =>
      intro x hw
      obtain ⟨⟨g, hg, ho⟩, hw2⟩ := hw
      have hrest := ih w hw2
      rcases List.mem_append.mp hg with hga | hge
      · have hxw : KConn A x w := kconn_step ⟨g, hga, ho⟩
        rcases hrest with h1 | ⟨h1, h2⟩ | ⟨h1, h2⟩
        · exact Or.inl (kconn_trans hxw h1)
        · exact Or.inr (Or.inl ⟨kconn_trans hxw h1, h2⟩)
        · exact Or.inr (Or.inr ⟨kconn_trans hxw h1, h2⟩)
      · have hgeq : g = e := List.mem_singleton.mp hge
        rw [hgeq] at ho
        rcases ho with ⟨h1, h2⟩ | ⟨h1, h2⟩
        · rcases hrest with h3 | ⟨h3, h4⟩ | ⟨h3, h4⟩
          · refine Or.inr (Or.inl ⟨?_, ?_⟩)
            · rw [← h1]
              exact kconn_refl A e.1
            · rw [h2]
              exact h3
          · refine Or.inl ?_
            rw [← h1]
            refine kconn_trans (kconn_symm h3) ?_
            rw [← h2]
            exact h4
          · refine Or.inl ?_
            rw [← h1]
            exact h4
        · rcases hrest with h3 | ⟨h3, h4⟩ | ⟨h3, h4⟩
          · refine Or.inr (Or.inr ⟨?_, ?_⟩)
            · rw [← h2]
              exact kconn_refl A e.2.1
            · rw [h1]
              exact h3
          · refine Or.inl ?_
            rw [← h2]
            exact h4
          · refine Or.inl ?_
            rw [← h2]
            refine kconn_trans (kconn_symm h3) ?_
            rw [h1] at h4
            exact h4

theorem kconn_snoc_iff (A : List KEdge) (e : KEdge) (x y : Nat) :
    KConn (A ++ [e]) x y ↔
      KConn A x y ∨ (KConn A x e.1 ∧ KConn A e.2.1 y) ∨
        (KConn A x e.2.1 ∧ KConn A e.1 y) := by
  constructor
  · rintro ⟨vs, hw⟩
    exact kwalk_snoc_cases A e y vs x hw
  · have hsub : ∀ g ∈ A, g ∈ A ++ [e] := fun g hg => List.mem_append_left _ hg
    have hstep : KConn (A ++ [e]) e.1 e.2.1 :=
      kconn_step ⟨e, List.mem_append_right _ (List.mem_singleton.mpr rfl),
        Or.inl ⟨rfl, rfl⟩⟩
    rintro (h | ⟨h1, h2⟩ | ⟨h1, h2⟩)
    · exact kconn_mono hsub h
    · exact kconn_trans (kconn_mono hsub h1)
        (kconn_trans hstep (kconn_mono hsub h2))
    · exact kconn_trans (kconn_mono hsub h1)
        (kconn_trans (kconn_symm hstep) (kconn_mono hsub h2))

theorem kwalk_endpoint_lt {S : List KEdge} {n : Nat}
    (hS : ∀ g ∈ S, g.1 < n ∧ g.2.1 < n) :
    ∀ (vs : List Nat) (a b : Nat), KWalk S a vs b → a < n → b < n := by
  intro vs
  induction vs with
  | nil =>
      intro a b hw ha
      rw [← (hw : a = b)]
      exact ha
  | cons w ws ih =>
      intro a b hw ha
      obtain ⟨⟨g, hg, ho⟩, hw2⟩ := hw
      have hwlt : w < n := by
        rcases ho with ⟨h1, h2⟩ | ⟨h1, h2⟩
        · rw [← h2]
          exact (hS g hg).2
        · rw [← h1]
          exact (hS g hg).1
      exact ih w b hw2 hwlt

theorem kconn_endpoint_lt {S : List KEdge} {n : Nat}
    (hS : ∀ g ∈ S, g.1 < n ∧ g.2.1 < n) {a b : Nat}
    (h : KConn S a b) (ha : a < n) : b < n := by
  obtain ⟨vs, hw⟩ := h
  exact kwalk_endpoint_lt hS vs a b hw ha

theorem kwalk_mem_suffix (S : List KEdge) :
    ∀ (vs : List Nat) (a b : Nat), KWalk S a vs b → ∀ p ∈ vs,
      ∃ vs2, vs2.length < vs.length ∧ KWalk S p vs2 b := by
  intro vs
  induction vs with
  | nil =>
      intro a b _ p hp
      exact absurd hp (List.not_mem_nil p)
  | cons w ws ih =>
      intro a b hw p hp
      obtain ⟨hs, hw2⟩ := hw
      rcases List.mem_cons.mp hp with hh | hh
      · refine ⟨ws, ?_, ?_⟩
        · rw [List.length_cons]
          omega
        · rw [hh]
          exact hw2
      · obtain ⟨vs2, hlt, hw3⟩ := ih w b hw2 p hh
        refine ⟨vs2, ?_, hw3⟩
        rw [List.length_cons]
        omega

theorem kwalk_avoid_lift (S M2 : List KEdge) (f : KEdge) (U : Nat → Prop)
    (hsub : ∀ g ∈ S, g ∈ M2 ∨ g = f) (hUf : U f.1 ∨ U f.2.1) :
    ∀ (vs : List Nat) (c b2 : Nat), KWalk S c vs b2 → ¬ U c →
      (∀ p ∈ vs, ¬ U p) → KWalk M2 c vs b2 := by
  intro vs
  induction vs with
  | nil => intro c b2 h _ _; exact h
  | cons w ws ih =>
      intro c b2 h hc hall
      obtain ⟨⟨g, hg, ho⟩, hw2⟩ := h
      have hgM : g ∈ M2 := by
        rcases hsub g hg with h1 | h1
        · exact h1
        · exfalso
          rw [h1] at ho
          rcases ho with ⟨h2, h3⟩ | ⟨h2, h3⟩ <;> rcases hUf with h4 | h4
          · exact hc (h2 ▸ h4)
          · exact (hall w (List.mem_cons_self _ _)) (h3 ▸ h4)
          · exact (hall w (List.mem_cons_self _ _)) (h2 ▸ h4)
          · exact hc (h3 ▸ h4)
      exact ⟨⟨g, hgM, ho⟩, ih w b2 hw2 (hall w (List.mem_cons_self _ _))
        (fun p hp => hall p (List.mem_cons_of_mem _ hp))⟩

/-- Cut-crossing edge: a walk in M from the A-component of u out to b must
use an M-edge straddling the cut, and past the last cut exit the walk
survives deleting that edge. -/
theorem kcut_cross_aux (M A : List KEdge) (u b : Nat) (hb : ¬ KConn A u b) :
    ∀ (L : Nat) (vs : List Nat) (a : Nat), vs.length ≤ L →
      KWalk M a vs b → KConn A u a →
      ∃ f, f ∈ M ∧ ∃ x y : Nat,
        ((f.1 = x ∧ f.2.1 = y) ∨ (f.1 = y ∧ f.2.1 = x)) ∧
        KConn A u x ∧ ¬ KConn A u y ∧
        ∀ M2 : List KEdge, (∀ g ∈ M, g ∈ M2 ∨ g = f) → KConn M2 y b := by
  intro L
  induction L with
  | zero =>
      intro vs a hlen hw ha
      cases vs with
      | nil => exact absurd ((hw : a = b) ▸ ha) hb
      | cons w ws => simp at hlen
  | succ L ih =>
      intro vs a hlen hw ha
      cases vs with
      | nil => exact absurd ((hw : a = b) ▸ ha) hb
      | cons w ws =>
          obtain ⟨hs, hw2⟩ := hw
          have hlen2 : ws.length ≤ L := by
            rw [List.length_cons] at hlen
            omega
          by_cases hUw : KConn A u w
          · exact ih ws w hlen2 hw2 hUw
          · by_cases hUin : ∃ p ∈ ws, KConn A u p
            · obtain ⟨p, hp, hUp⟩ := hUin
              obtain ⟨vs2, hlt, hw3⟩ := kwalk_mem_suffix M ws w b hw2 p hp
              exact ih vs2 p (by omega) hw3 hUp
            · push_neg at hUin
              obtain ⟨g, hg, ho⟩ := hs
              refine ⟨g, hg, a, w, ho, ha, hUw, ?_⟩
              intro M2 hsub
              have hUf : KConn A u g.1 ∨ KConn A u g.2.1 := by
                rcases ho with ⟨h1, h2⟩ | ⟨h1, h2⟩
                · exact Or.inl (by rw [h1]; exact ha)
                · exact Or.inr (by rw [h2]; exact ha)
              exact ⟨ws, kwalk_avoid_lift M M2 g (fun z => KConn A u z)
                hsub hUf ws w b hw2 hUw hUin⟩

theorem kcut_cross (M A : List KEdge) (u b : Nat)
    (hb : ¬ KConn A u b) (hM : KConn M u b) :
    ∃ f, f ∈ M ∧ ∃ x y : Nat,
      ((f.1 = x ∧ f.2.1 = y) ∨ (f.1 = y ∧ f.2.1 = x)) ∧
      KConn A u x ∧ ¬ KConn A u y ∧
      ∀ M2 : List KEdge, (∀ g ∈ M, g ∈ M2 ∨ g = f) → KConn M2 y b := by
  obtain ⟨vs, hw⟩ := hM
  exact kcut_cross_aux M A u b hb vs.length vs u (le_refl _) hw
    (kconn_refl A u)

/-! ### The in-place sort of kruskals_algorithm -/

theorem weightInsert_perm (e : KEdge) : ∀ (l : List KEdge),
    (weightInsert e l).Perm (e :: l) := by
  intro l
  induction l with
  | nil => exact List.Perm.refl _
  | cons f rest ih =>
      show (if e.2.2 < f.2.2 then e :: f :: rest
        else f :: weightInsert e rest).Perm (e :: f :: rest)
      by_cases hc : e.2.2 < f.2.2
      · rw [if_pos hc]
      · rw [if_neg hc]
        exact (List.Perm.cons f ih).trans (List.Perm.swap e f rest)

theorem weightSort_perm : ∀ (l : List KEdge), (weightSort l).Perm l := by
  intro l
  induction l with
  | nil => exact List.Perm.refl _
  | cons e rest ih =>
      show (weightInsert e (weightSort rest)).Perm (e :: rest)
      exact (weightInsert_perm e (weightSort rest)).trans (List.Perm.cons e ih)

theorem mem_weightInsert (x e : KEdge) (l : List KEdge) :
    x ∈ weightInsert e l ↔ x = e ∨ x ∈ l := by
  rw [(weightInsert_perm e l).mem_iff]
  exact List.mem_cons

theorem weightInsert_sorted (e : KEdge) : ∀ (l : List KEdge),
    List.Pairwise (fun a b : KEdge => a.2.2 ≤ b.2.2) l →
    List.Pairwise (fun a b : KEdge => a.2.2 ≤ b.2.2) (weightInsert e l) := by
  intro l
  induction l with
  | nil => intro _; exact List.pairwise_singleton _ _
  | cons f rest ih =>
      intro hp
      rw [List.pairwise_cons] at hp
      obtain ⟨hf, hrest⟩ := hp
      show List.Pairwise _ (if e.2.2 < f.2.2 then e :: f :: rest
        else f :: weightInsert e rest)
      by_cases hc : e.2.2 < f.2.2
      · rw [if_pos hc, List.pairwise_cons]
        refine ⟨?_, ?_⟩
        · intro b hb
          rcases List.mem_cons.mp hb with h1 | h1
          · rw [h1]
            omega
          · have := hf b h1
            omega
        · rw [List.pairwise_cons]
          exact ⟨hf, hrest⟩
      · rw [if_neg hc, List.pairwise_cons]
        refine ⟨?_, ih hrest⟩
        intro b hb
        rcases (mem_weightInsert b e rest).mp hb with h1 | h1
        · rw [h1]
          omega
        · exact hf b h1

theorem weightSort_sorted : ∀ (l : List KEdge),
    List.Pairwise (fun a b : KEdge => a.2.2 ≤ b.2.2) (weightSort l) := by
  intro l
  induction l with
  | nil => exact List.Pairwise.nil
  | cons e rest ih =>
      show List.Pairwise _ (weightInsert e (weightSort rest))
      exact weightInsert_sorted e (weightSort rest) ih

/-! ### The class of candidate spanning edge lists and its minimum -/

/-- A candidate spanning list: a sub-multiset of the canonized input edges
connecting every node to node 0, of tree size. -/
def CValid (n : Nat) (edges : List KEdge) (T : List KEdge) : Prop :=
  T.Subperm (edges.map kcanon) ∧ (∀ a, a < n → KConn T 0 a) ∧
  T.length = n - 1

/-- A minimum-weight candidate spanning list. -/
def MinSpan (n : Nat) (edges : List KEdge) (M : List KEdge) : Prop :=
  CValid n edges M ∧ ∀ T, CValid n edges T → kweight M ≤ kweight T

theorem minspan_weight_eq {n : Nat} {edges M1 M2 : List KEdge}
    (h1 : MinSpan n edges M1) (h2 : MinSpan n edges M2) :
    kweight M1 = kweight M2 :=
  le_antisymm (h1.2 M2 h2.1) (h2.2 M1 h1.1)

theorem CValid_perm {n : Nat} {edges T T2 : List KEdge}
    (hp : T.Perm T2) (h : CValid n edges T) : CValid n edges T2 := by
  obtain ⟨h1, h2, h3⟩ := h
  refine ⟨(hp.symm.subperm).trans h1, ?_, ?_⟩
  · intro a ha
    exact kconn_mono (fun e he => hp.subset he) (h2 a ha)
  · rw [← hp.length_eq]
    exact h3

theorem kweight_cons (x : KEdge) (l : List KEdge) :
    kweight (x :: l) = x.2.2 + kweight l := by
  simp [kweight]

theorem kweight_singleton (x : KEdge) : kweight [x] = x.2.2 := by
  simp [kweight]

theorem kconn_canon_endpoints {S : List KEdge} (e0 : KEdge)
    (h : KConn S (kcanon e0).1 (kcanon e0).2.1) : KConn S e0.1 e0.2.1 := by
  rcases kcanon_ends e0 with ⟨p1, p2⟩ | ⟨p1, p2⟩
  · rw [p1, p2] at h
    exact h
  · rw [p1, p2] at h
    exact kconn_symm h

theorem kconn_endpoints_canon {S : List KEdge} (e0 : KEdge)
    (h : KConn S e0.1 e0.2.1) : KConn S (kcanon e0).1 (kcanon e0).2.1 := by
  rcases kcanon_ends e0 with ⟨p1, p2⟩ | ⟨p1, p2⟩ <;> rw [p1, p2]
  · exact h
  · exact kconn_symm h

theorem kcanon_endpoints_lt {n : Nat} {e0 : KEdge} (h1 : e0.1 < n)
    (h2 : e0.2.1 < n) : (kcanon e0).1 < n ∧ (kcanon e0).2.1 < n := by
  rcases kcanon_ends e0 with ⟨p1, p2⟩ | ⟨p1, p2⟩ <;> rw [p1, p2]
  · exact ⟨h1, h2⟩
  · exact ⟨h2, h1⟩

theorem kcanon_flip (a b : Nat) (w : Int) :
    kcanon (a, b, w) = kcanon (b, a, w) := by
  show (if a ≤ b then ((a, b, w) : KEdge) else (b, a, w)) =
    if b ≤ a then ((b, a, w) : KEdge) else (a, b, w)
  by_cases h1 : a ≤ b
  · by_cases h2 : b ≤ a
    · rw [if_pos h1, if_pos h2]
      have h3 : a = b := le_antisymm h1 h2
      rw [h3]
    · rw [if_pos h1, if_neg h2]
  · by_cases h2 : b ≤ a
    · rw [if_neg h1, if_pos h2]
    · exfalso
      omega

/-- Align the BEq instance used by List.count on edges with the one the
Subperm count lemmas use. -/
@[instance] abbrev kedgeBEq : BEq KEdge := instBEqOfDecidableEq

@[instance] abbrev kedgeLawfulBEq : LawfulBEq KEdge :=
  { eq_of_beq := fun h => of_decide_eq_true h,
    rfl := by intro a; exact decide_eq_true rfl }

/-- Delete the first occurrence of an edge value (proof-side helper for the
exchange argument). -/
def kdel : List KEdge → KEdge → List KEdge
  | [], _ => []
  | e :: rest, m => if e = m then rest else e :: kdel rest m

theorem kdel_perm : ∀ (l : List KEdge) (m : KEdge), m ∈ l →
    l.Perm (m :: kdel l m) := by
  intro l
  induction l with
  | nil => intro m h; exact absurd h (List.not_mem_nil m)
  | cons e rest ih =>
      intro m h
      show (e :: rest).Perm (m :: if e = m then rest else e :: kdel rest m)
      by_cases hc : e = m
      · rw [if_pos hc, hc]
      · rw [if_neg hc]
        have hm : m ∈ rest := by
          rcases List.mem_cons.mp h with h1 | h1
          · exact absurd h1.symm hc
          · exact h1
        exact (List.Perm.cons e (ih m hm)).trans
          (List.Perm.swap m e (kdel rest m))

theorem kdel_length (l : List KEdge) (m : KEdge) (h : m ∈ l) :
    (kdel l m).length + 1 = l.length := by
  have h2 := (kdel_perm l m h).length_eq
  rw [h2, List.length_cons]

theorem kdel_mem_of_ne : ∀ (l : List KEdge) (m x : KEdge), x ∈ l → x ≠ m →
    x ∈ kdel l m := by
  intro l
  induction l with
  | nil => intro m x h _; exact absurd h (List.not_mem_nil x)
  | cons e rest ih =>
      intro m x h hne
      show x ∈ (if e = m then rest else e :: kdel rest m)
      by_cases hc : e = m
      · rw [if_pos hc]
        rcases List.mem_cons.mp h with hh | hh
        · exact absurd (hh.trans hc) hne
        · exact hh
      · rw [if_neg hc]
        rcases List.mem_cons.mp h with hh | hh
        · rw [hh]
          exact List.mem_cons_self _ _
        · exact List.mem_cons_of_mem _ (ih m x hh hne)

theorem count_cons_eq {α : Type} [DecidableEq α] (a b : α) (l : List α) :
    (b :: l).count a = l.count a + if a = b then 1 else 0 := by
  by_cases h : a = b
  · rw [if_pos h, h, List.count_cons_self]
  · rw [if_neg h, List.count_cons_of_ne h, Nat.add_zero]

theorem count_singleton_eq {α : Type} [DecidableEq α] (a b : α) :
    ([b] : List α).count a = if a = b then 1 else 0 := by
  rw [count_cons_eq, List.count_nil]
  exact Nat.zero_add _

theorem kdel_count (l : List KEdge) (m : KEdge) (h : m ∈ l) (x : KEdge) :
    (kdel l m).count x + (if x = m then 1 else 0) = l.count x := by
  have h2 := (kdel_perm l m h).count_eq x
  rw [h2, count_cons_eq]

/-- The greedy exchange: if the accepted forest embeds in a minimum
candidate M and a new cut-respecting cheapest edge g0 joins two of its
components, then some minimum candidate also contains the forest plus g0.
The cut is the A-component of u0; hwb is the greedy weight bound for
M-edges crossing that cut. -/
theorem exchange_step (n : Nat) (edges : List KEdge)
    (A2 M : List KEdge) (g0 : KEdge) (u0 : Nat)
    (hM : MinSpan n edges M)
    (hsub : List.Subperm A2 M)
    (hg0base : kcanon g0 ∈ List.map kcanon edges)
    (hu0 : u0 < n) (hv : g0.2.1 < n)
    (hu0g : KConn A2 u0 g0.1)
    (hnc : ¬ KConn A2 u0 g0.2.1)
    (hwb : ∀ f x y, f ∈ M →
      ((f.1 = x ∧ f.2.1 = y) ∨ (f.1 = y ∧ f.2.1 = x)) →
      KConn A2 u0 x → ¬ KConn A2 u0 y → g0.2.2 ≤ f.2.2) :
    ∃ M2, MinSpan n edges M2 ∧ List.Subperm (A2 ++ [kcanon g0]) M2 := by
  by_cases hin : List.Subperm (A2 ++ [kcanon g0]) M
  · exact ⟨M, hM, hin⟩
  · have hcnt : M.count (kcanon g0) ≤ A2.count (kcanon g0) := by
      by_contra hcon
      push_neg at hcon
      apply hin
      rw [List.subperm_ext_iff]
      intro x hx
      by_cases hxg : x = kcanon g0
      · rw [hxg, List.count_append, count_singleton_eq, if_pos rfl]
        omega
      · rw [List.count_append, count_singleton_eq, if_neg hxg]
        have h2 := hsub.count_le x
        omega
    have hcA0 : A2.count (kcanon g0) = 0 := by
      rw [List.count_eq_zero]
      intro hmem
      exact hnc (kconn_trans hu0g (kconn_canon_endpoints g0
        (kconn_step ⟨kcanon g0, hmem, Or.inl ⟨rfl, rfl⟩⟩)))
    have hcM0 : M.count (kcanon g0) = 0 := by omega
    have hMconn : KConn M u0 g0.2.1 :=
      kconn_trans (kconn_symm (hM.1.2.1 u0 hu0)) (hM.1.2.1 g0.2.1 hv)
    obtain ⟨f, hfM, x, y, ho, hUx, hUy, hreroute⟩ :=
      kcut_cross M A2 u0 g0.2.1 hnc hMconn
    have hfne : f ≠ kcanon g0 := by
      intro hc
      rw [← hc] at hcM0
      have h2 := List.count_pos_iff.mpr hfM
      omega
    have hfA : f ∉ A2 := by
      intro hmem
      have h1 : KConn A2 f.1 f.2.1 :=
        kconn_step ⟨f, hmem, Or.inl ⟨rfl, rfl⟩⟩
      rcases ho with ⟨h2, h3⟩ | ⟨h2, h3⟩
      · rw [h2, h3] at h1
        exact hUy (kconn_trans hUx h1)
      · rw [h2, h3] at h1
        exact hUy (kconn_trans hUx (kconn_symm h1))
    have hwf : g0.2.2 ≤ f.2.2 := hwb f x y hfM ho hUx hUy
    have hcnt_del := kdel_count M f hfM
    have hsubM2 : ∀ g ∈ M, g ∈ kdel M f ++ [kcanon g0] ∨ g = f := by
      intro g hg
      by_cases hgf : g = f
      · exact Or.inr hgf
      · exact Or.inl (List.mem_append_left _ (kdel_mem_of_ne M f g hg hgf))
    have hA2M2 : ∀ g ∈ A2, g ∈ kdel M f ++ [kcanon g0] := by
      intro g hg
      have h1 : g ∈ M := hsub.subset hg
      have h2 : g ≠ f := fun hc => hfA (hc ▸ hg)
      exact List.mem_append_left _ (kdel_mem_of_ne M f g h1 h2)
    have hg0M2 : kcanon g0 ∈ kdel M f ++ [kcanon g0] :=
      List.mem_append_right _ (List.mem_singleton.mpr rfl)
    have hstep : KConn (kdel M f ++ [kcanon g0]) g0.1 g0.2.1 :=
      kconn_canon_endpoints g0 (kconn_step ⟨kcanon g0, hg0M2, Or.inl ⟨rfl, rfl⟩⟩)
    have hf12 : KConn (kdel M f ++ [kcanon g0]) f.1 f.2.1 := by
      have hxy : KConn (kdel M f ++ [kcanon g0]) x y := by
        have l1 : KConn (kdel M f ++ [kcanon g0]) u0 x := kconn_mono hA2M2 hUx
        have l2 : KConn (kdel M f ++ [kcanon g0]) u0 g0.1 :=
          kconn_mono hA2M2 hu0g
        have l3 : KConn (kdel M f ++ [kcanon g0]) y g0.2.1 :=
          hreroute (kdel M f ++ [kcanon g0]) hsubM2
        exact kconn_trans (kconn_symm l1)
          (kconn_trans l2 (kconn_trans hstep (kconn_symm l3)))
      rcases ho with ⟨h2, h3⟩ | ⟨h2, h3⟩
      · rw [h2, h3]
        exact hxy
      · rw [h2, h3]
        exact kconn_symm hxy
    refine ⟨kdel M f ++ [kcanon g0], ⟨⟨?_, ?_, ?_⟩, ?_⟩, ?_⟩
    · rw [List.subperm_ext_iff]
      intro z hz
      by_cases hzg : z = kcanon g0
      · rw [hzg, List.count_append, count_singleton_eq, if_pos rfl]
        have h1 := hcnt_del (kcanon g0)
        have h2 : 0 < (List.map kcanon edges).count (kcanon g0) :=
          List.count_pos_iff.mpr hg0base
        omega
      · rw [List.count_append, count_singleton_eq, if_neg hzg]
        have h1 := hcnt_del z
        have h2 := hM.1.1.count_le z
        omega
    · intro a ha
      exact kconn_replace f hsubM2 hf12 (hM.1.2.1 a ha)
    · rw [List.length_append, List.length_singleton]
      have h1 := kdel_length M f hfM
      have h2 := hM.1.2.2
      omega
    · intro T hT
      have h1 : kweight (kdel M f ++ [kcanon g0]) ≤ kweight M := by
        rw [kweight_append, kweight_singleton, kcanon_weight]
        have h2 : kweight M = f.2.2 + kweight (kdel M f) := by
          rw [kweight_perm (kdel_perm M f hfM), kweight_cons]
        omega
      exact le_trans h1 (hM.2 T hT)
    · rw [List.subperm_ext_iff]
      intro z hz
      by_cases hzg : z = kcanon g0
      · rw [hzg, List.count_append, List.count_append, count_singleton_eq,
          if_pos rfl]
        omega
      · rw [List.count_append, List.count_append, count_singleton_eq,
          if_neg hzg]
        have h1 := hcnt_del z
        have h2 := hsub.count_le z
        by_cases hzf : z = f
        · have h3 : A2.count z = 0 := by
            rw [List.count_eq_zero, hzf]
            exact hfA
          omega
        · rw [if_neg hzf] at h1
          omega

theorem minspan_exists (n : Nat) (edges : List KEdge)
    (hex : ∃ T, CValid n edges T) : ∃ M, MinSpan n edges M := by
  obtain ⟨T0, hT0⟩ := hex
  obtain ⟨l, hl1, hl2⟩ := hT0.1
  have hCl : CValid n edges l := CValid_perm hl1.symm hT0
  obtain ⟨m, hmmem, hPm, hmin⟩ := list_min_exists kweight
    ((edges.map kcanon).sublists) (fun T => CValid n edges T)
    ⟨l, List.mem_sublists.mpr hl2, hCl⟩
  refine ⟨m, hPm, ?_⟩
  intro T hT
  obtain ⟨l2, hl21, hl22⟩ := hT.1
  have h1 : kweight m ≤ kweight l2 := hmin l2 (List.mem_sublists.mpr hl22)
    (CValid_perm hl21.symm hT)
  rw [← kweight_perm hl21]
  exact h1

/-- The full invariant of the edge scan of kruskals_algorithm: the DSU
mirrors connectivity of the accepted list A, processed edges have joined
endpoints, components count down, and A stays embedded in some minimum
candidate (the greedy exchange argument). -/
theorem kruskalScan_spec (n : Nat) (edges F : List KEdge)
    (hFperm : F.Perm edges) :
    ∀ (todo : List KEdge) (d : DSU) (A : List KEdge),
      DSUinv n d →
      (∀ x y, x < n → y < n → (SameRoot d x y ↔ KConn A x y)) →
      (∀ e ∈ todo, e.1 < n ∧ e.2.1 < n) →
      (∀ e ∈ todo, e ∈ F) →
      List.Pairwise (fun e1 e2 : KEdge => e1.2.2 ≤ e2.2.2) todo →
      (∀ g ∈ F, g ∈ todo ∨ KConn A g.1 g.2.1) →
      rootCount d n + A.length = n →
      (∀ a ∈ A, a.1 < n ∧ a.2.1 < n) →
      (List.map kcanon A).Nodup →
      (∀ a ∈ A, a ∈ F) →
      ((∃ M0, MinSpan n edges M0) →
        ∃ M, MinSpan n edges M ∧ List.Subperm (List.map kcanon A) M) →
      ∃ A2 d2, kruskalScan (n + 1) d todo A = some A2 ∧
        DSUinv n d2 ∧
        (∀ x y, x < n → y < n → (SameRoot d2 x y ↔ KConn A2 x y)) ∧
        (∀ g ∈ F, KConn A2 g.1 g.2.1) ∧
        rootCount d2 n + A2.length = n ∧
        (∀ a ∈ A2, a.1 < n ∧ a.2.1 < n) ∧
        (List.map kcanon A2).Nodup ∧
        (∀ a ∈ A2, a ∈ F) ∧
        ((∃ M0, MinSpan n edges M0) →
          ∃ M, MinSpan n edges M ∧ List.Subperm (List.map kcanon A2) M) := by
  intro todo
  induction todo with
  | nil =>
      intro d A h1 h2 _ _ _ h6 h7 h8 h9 h10 h11
      refine ⟨A, d, rfl, h1, h2, ?_, h7, h8, h9, h10, h11⟩
      intro g hg
      rcases h6 g hg with hx | hx
      · exact absurd hx (List.not_mem_nil g)
      · exact hx
  | cons e rest ih =>
      intro d A hinv hI2 hrange hsubF hsorted hI6 hcount hArange hAnodup
        hAF hI8
      obtain ⟨u, v, w⟩ := e
      have huvn : u < n ∧ v < n := hrange (u, v, w) (List.mem_cons_self _ _)
      obtain ⟨d1, r1, heq1, hroot1u, hr1n, hrank1, hplen1, hinv1, hRpres1,
        hroots1, -⟩ := dsuFind_spec n (n + 1) d u hinv huvn.1 (by omega)
      obtain ⟨d2, r2, heq2, hroot2v, hr2n, hrank2, hplen2, hinv2, hRpres2,
        hroots2, -⟩ := dsuFind_spec n (n + 1) d1 v hinv1 huvn.2 (by omega)
      have hRd2 : ∀ x s, Root d2 x s ↔ Root d x s :=
        fun x s => (hRpres2 x s).trans (hRpres1 x s)
      have hrootsd2 : ∀ i, pget d2 i = i ↔ pget d i = i :=
        fun i => (hroots2 i).trans (hroots1 i)
      have hSRd2 : ∀ x y, SameRoot d2 x y ↔ SameRoot d x y :=
        fun x y => SameRoot_ext hRd2 x y
      have hrcd2 : rootCount d2 n = rootCount d n :=
        rootCount_ext d2 d n (fun i _ => hrootsd2 i)
      have hroot2u : Root d2 u r1 :=
        (hRpres2 u r1).mpr ((hRpres1 u r1).mpr hroot1u)
      have hroot2v2 : Root d2 v r2 := (hRpres2 v r2).mpr hroot2v
      have hrootdv : Root d v r2 := (hRpres1 v r2).mp hroot2v
      have hcomp : kruskalScan (n + 1) d ((u, v, w) :: rest) A =
          (if r1 ≠ r2 then
            match dsuUnion (n + 1) d2 u v with
            | none => none
            | some d3 => kruskalScan (n + 1) d3 rest (A ++ [(u, v, w)])
          else kruskalScan (n + 1) d2 rest A) := by
        show (match dsuFind (n + 1) d u with
          | none => none
          | some (d1, ru) =>
              match dsuFind (n + 1) d1 v with
              | none => none
              | some (d2, rv) =>
                  if ru ≠ rv then
                    match dsuUnion (n + 1) d2 u v with
                    | none => none
                    | some d3 =>
                        kruskalScan (n + 1) d3 rest (A ++ [(u, v, w)])
                  else kruskalScan (n + 1) d2 rest A) = _
        rw [heq1]
        show (match dsuFind (n + 1) d1 v with
          | none => none
          | some (d2, rv) =>
              if r1 ≠ rv then
                match dsuUnion (n + 1) d2 u v with
                | none => none
                | some d3 => kruskalScan (n + 1) d3 rest (A ++ [(u, v, w)])
              else kruskalScan (n + 1) d2 rest A) = _
        rw [heq2]
      by_cases hne : r1 ≠ r2
      · rw [if_pos hne] at hcomp
        obtain ⟨d3, hequ, hinv3, hrc3, hSR3⟩ :=
          dsuUnion_spec n d2 u v r1 r2 hinv2 huvn.1 huvn.2 hroot2u
            hroot2v2 hne
        rw [hequ] at hcomp
        have hnconnAuv : ¬ KConn A u v := by
          intro hc
          obtain ⟨r, hra, hrb⟩ := (hI2 u v huvn.1 huvn.2).mpr hc
          have h1 : r = r1 := Root_unique hra hroot1u
          have h2 : r = r2 := Root_unique hrb hrootdv
          exact hne (h1 ▸ h2)
        have hI2new : ∀ x y, x < n → y < n →
            (SameRoot d3 x y ↔ KConn (A ++ [(u, v, w)]) x y) := by
          intro x y hx hy
          rw [hSR3 x y, hSRd2 x y, hSRd2 x u, hSRd2 y v, hSRd2 x v,
            hSRd2 y u]
          rw [hI2 x y hx hy, hI2 x u hx huvn.1, hI2 y v hy huvn.2,
            hI2 x v hx huvn.2, hI2 y u hy huvn.1]
          rw [kconn_snoc_iff A (u, v, w) x y]
          constructor
          · rintro (h | ⟨h1, h2⟩ | ⟨h1, h2⟩)
            · exact Or.inl h
            · exact Or.inr (Or.inl ⟨h1, kconn_symm h2⟩)
            · exact Or.inr (Or.inr ⟨h1, kconn_symm h2⟩)
          · rintro (h | ⟨h1, h2⟩ | ⟨h1, h2⟩)
            · exact Or.inl h
            · exact Or.inr (Or.inl ⟨h1, kconn_symm h2⟩)
            · exact Or.inr (Or.inr ⟨h1, kconn_symm h2⟩)
        have hI6new : ∀ g ∈ F,
            g ∈ rest ∨ KConn (A ++ [(u, v, w)]) g.1 g.2.1 := by
          intro g hg
          rcases hI6 g hg with hx | hx
          · rcases List.mem_cons.mp hx with h1 | h1
            · right
              rw [h1]
              exact kconn_step ⟨(u, v, w),
                List.mem_append_right _ (List.mem_singleton.mpr rfl),
                Or.inl ⟨rfl, rfl⟩⟩
            · exact Or.inl h1
          · right
            exact kconn_mono (fun g2 hg2 => List.mem_append_left _ hg2) hx
        have hcountnew : rootCount d3 n + (A ++ [(u, v, w)]).length = n := by
          rw [List.length_append, List.length_singleton]
          omega
        have hArangenew : ∀ a ∈ A ++ [(u, v, w)], a.1 < n ∧ a.2.1 < n := by
          intro a ha
          rcases List.mem_append.mp ha with h1 | h1
          · exact hArange a h1
          · rw [List.mem_singleton.mp h1]
            exact huvn
        have hAFnew : ∀ a ∈ A ++ [(u, v, w)], a ∈ F := by
          intro a ha
          rcases List.mem_append.mp ha with h1 | h1
          · exact hAF a h1
          · rw [List.mem_singleton.mp h1]
            exact hsubF (u, v, w) (List.mem_cons_self _ _)
        have hnotmem : kcanon (u, v, w) ∉ List.map kcanon A := by
          intro hmem
          rw [List.mem_map] at hmem
          obtain ⟨a, haA, haeq⟩ := hmem
          have h1 : KConn A a.1 a.2.1 :=
            kconn_step ⟨a, haA, Or.inl ⟨rfl, rfl⟩⟩
          have h2 : KConn A (kcanon a).1 (kcanon a).2.1 :=
            kconn_endpoints_canon a h1
          rw [haeq] at h2
          exact hnconnAuv (kconn_canon_endpoints (u, v, w) h2)
        have hAnodupnew : (List.map kcanon (A ++ [(u, v, w)])).Nodup := by
          rw [List.map_append, List.nodup_append]
          refine ⟨hAnodup, List.nodup_singleton _, ?_⟩
          intro a ha hb
          have h1 : a = kcanon (u, v, w) := by simpa using hb
          rw [h1] at ha
          exact hnotmem ha
        have hI8new : (∃ M0, MinSpan n edges M0) →
            ∃ M, MinSpan n edges M ∧
              List.Subperm (List.map kcanon (A ++ [(u, v, w)])) M := by
          intro hex
          obtain ⟨M, hMmin, hMsub⟩ := hI8 hex
          have hg0base : kcanon (u, v, w) ∈ List.map kcanon edges := by
            refine List.mem_map.mpr ⟨(u, v, w), ?_, rfl⟩
            exact (hFperm.mem_iff).mp
              (hsubF (u, v, w) (List.mem_cons_self _ _))
          have hnc2 : ¬ KConn (List.map kcanon A) u v := by
            intro hc
            exact hnconnAuv ((kconn_canon_iff A u v).mp hc)
          have hwb : ∀ f x y, f ∈ M →
              ((f.1 = x ∧ f.2.1 = y) ∨ (f.1 = y ∧ f.2.1 = x)) →
              KConn (List.map kcanon A) u x →
              ¬ KConn (List.map kcanon A) u y →
              ((u, v, w) : KEdge).2.2 ≤ f.2.2 := by
            intro f x y hfM ho hUx hUy
            have hfbase : f ∈ List.map kcanon edges := hMmin.1.1.subset hfM
            rw [List.mem_map] at hfbase
            obtain ⟨e0, he0, he0eq⟩ := hfbase
            have he0F : e0 ∈ F := (hFperm.mem_iff).mpr he0
            rcases hI6 e0 he0F with hx | hx
            · have hwle : w ≤ e0.2.2 := by
                rcases List.mem_cons.mp hx with h1 | h1
                · rw [h1]
                · exact (List.pairwise_cons.mp hsorted).1 e0 h1
              have hfw : f.2.2 = e0.2.2 := by
                rw [← he0eq]
                exact kcanon_weight e0
              show w ≤ f.2.2
              omega
            · exfalso
              have h1 : KConn (List.map kcanon A) e0.1 e0.2.1 :=
                (kconn_canon_iff A e0.1 e0.2.1).mpr hx
              have h2 : KConn (List.map kcanon A) f.1 f.2.1 := by
                rw [← he0eq]
                exact kconn_endpoints_canon e0 h1
              rcases ho with ⟨h3, h4⟩ | ⟨h3, h4⟩
              · rw [h3, h4] at h2
                exact hUy (kconn_trans hUx h2)
              · rw [h3, h4] at h2
                exact hUy (kconn_trans hUx (kconn_symm h2))
          obtain ⟨M2, hM2min, hM2sub⟩ := exchange_step n edges
            (List.map kcanon A) M (u, v, w) u hMmin hMsub hg0base
            huvn.1 huvn.2 (kconn_refl _ u) hnc2 hwb
          refine ⟨M2, hM2min, ?_⟩
          rw [List.map_append]
          exact hM2sub
        obtain ⟨A2, d4, hscan, ih2, ih3, ih4, ih5, ih6, ih7, ih8, ih9⟩ :=
          ih d3 (A ++ [(u, v, w)]) hinv3 hI2new
            (fun e2 he2 => hrange e2 (List.mem_cons_of_mem _ he2))
            (fun e2 he2 => hsubF e2 (List.mem_cons_of_mem _ he2))
            (List.pairwise_cons.mp hsorted).2
            hI6new hcountnew hArangenew hAnodupnew hAFnew hI8new
        refine ⟨A2, d4, ?_, ih2, ih3, ih4, ih5, ih6, ih7, ih8, ih9⟩
        rw [hcomp]
        exact hscan
      · rw [if_neg hne] at hcomp
        push_neg at hne
        have hconnuv : KConn A u v := by
          refine (hI2 u v huvn.1 huvn.2).mp ?_
          exact ⟨r2, hne ▸ hroot1u, hrootdv⟩
        have hI2skip : ∀ x y, x < n → y < n →
            (SameRoot d2 x y ↔ KConn A x y) := by
          intro x y hx hy
          rw [hSRd2 x y]
          exact hI2 x y hx hy
        have hI6skip : ∀ g ∈ F, g ∈ rest ∨ KConn A g.1 g.2.1 := by
          intro g hg
          rcases hI6 g hg with hx | hx
          · rcases List.mem_cons.mp hx with h1 | h1
            · right
              rw [h1]
              exact hconnuv
            · exact Or.inl h1
          · exact Or.inr hx
        have hcountskip : rootCount d2 n + A.length = n := by omega
        obtain ⟨A2, d4, hscan, ih2, ih3, ih4, ih5, ih6, ih7, ih8, ih9⟩ :=
          ih d2 A hinv2 hI2skip
            (fun e2 he2 => hrange e2 (List.mem_cons_of_mem _ he2))
            (fun e2 he2 => hsubF e2 (List.mem_cons_of_mem _ he2))
            (List.pairwise_cons.mp hsorted).2
            hI6skip hcountskip hArange hAnodup hAF hI8
        refine ⟨A2, d4, ?_, ih2, ih3, ih4, ih5, ih6, ih7, ih8, ih9⟩
        rw [hcomp]
        exact hscan

theorem rootCount_eq_zero (d : DSU) : ∀ (m : Nat),
    (∀ i, i < m → pget d i ≠ i) → rootCount d m = 0 := by
  intro m
  induction m with
  | zero => intro _; rfl
  | succ k ih =>
      intro h
      show rootCount d k + (if pget d k = k then 1 else 0) = 0
      rw [ih (fun i hi => h i (by omega)), if_neg (h k (by omega))]

theorem rootCount_le_one (d : DSU) (n : Nat)
    (h : ∀ i j, i < n → j < n → pget d i = i → pget d j = j → i = j) :
    rootCount d n ≤ 1 := by
  suffices haux : ∀ m, m ≤ n → rootCount d m ≤ 1 from haux n (le_refl n)
  intro m
  induction m with
  | zero =>
      intro _
      rw [show rootCount d 0 = 0 from rfl]
      omega
  | succ k ih =>
      intro hm
      show rootCount d k + (if pget d k = k then 1 else 0) ≤ 1
      by_cases hk : pget d k = k
      · rw [if_pos hk]
        have h0 : rootCount d k = 0 := by
          refine rootCount_eq_zero d k ?_
          intro i hi hri
          have h2 := h i k (by omega) (by omega) hri hk
          omega
        omega
      · rw [if_neg hk]
        have h2 := ih (by omega)
        omega

/-- The Kruskal half: on a connected in-range input the algorithm returns
n-1 edges forming a minimum candidate spanning list. -/
theorem kruskal_out (n : Nat) (edges : List KEdge) (hn : 1 ≤ n)
    (hrange : ∀ e ∈ edges, e.1 < n ∧ e.2.1 < n)
    (hconn : ∀ a, a < n → KConn edges 0 a) :
    ∃ A2, kruskals_algorithm n edges = some (A2, weightSort edges) ∧
      A2.length = n - 1 ∧ CValid n edges (List.map kcanon A2) ∧
      ∃ M, MinSpan n edges M ∧ kweight A2 = kweight M := by
  have hFperm : (weightSort edges).Perm edges := weightSort_perm edges
  obtain ⟨A2, d2, hscan, hinv2, hI2, hFconn, hcount, hArange, hAnodup, hAF,
    hI8⟩ :=
    kruskalScan_spec n edges (weightSort edges) hFperm (weightSort edges)
      (dsuInit n) []
      (dsuInit_inv n)
      (by
        intro x y _ _
        constructor
        · rintro ⟨r, h1, h2⟩
          have h3 : r = x := (Root_init n x r).mp h1
          have h4 : r = y := (Root_init n y r).mp h2
          rw [← h3, ← h4]
          exact kconn_refl _ r
        · intro h
          rw [kconn_nil h]
          exact ⟨y, Root_self (pget_init n y), Root_self (pget_init n y)⟩)
      (fun e he => hrange e ((hFperm.mem_iff).mp he))
      (fun e he => he)
      (weightSort_sorted edges)
      (fun g hg => Or.inl hg)
      (by rw [rootCount_init]; rfl)
      (fun a ha => absurd ha (List.not_mem_nil a))
      List.nodup_nil
      (fun a ha => absurd ha (List.not_mem_nil a))
      (fun hex => by
        obtain ⟨M0, hM0⟩ := hex
        exact ⟨M0, hM0, List.nil_subperm⟩)
  have halg : kruskals_algorithm n edges = some (A2, weightSort edges) := by
    show (match kruskalScan (n + 1) (dsuInit n) (weightSort edges) [] with
      | none => none
      | some mst => some (mst, weightSort edges)) = _
    rw [hscan]
  have hspan : ∀ a, a < n → KConn A2 0 a := by
    intro a ha
    refine kconn_lift ?_ (hconn a ha)
    intro g hg
    exact hFconn g ((hFperm.mem_iff).mpr hg)
  have hroots_eq : ∀ i j, i < n → j < n → pget d2 i = i → pget d2 j = j →
      i = j := by
    intro i j hi hj hri hrj
    obtain ⟨r, hra, hrb⟩ := (hI2 i j hi hj).mpr
      (kconn_trans (kconn_symm (hspan i hi)) (hspan j hj))
    have h2 : r = i := Root_unique hra (Root_self hri)
    have h3 : r = j := Root_unique hrb (Root_self hrj)
    rw [← h2, ← h3]
  have hrc1 : rootCount d2 n = 1 := by
    have hle := rootCount_le_one d2 n hroots_eq
    have hge : 0 < rootCount d2 n := by
      obtain ⟨r, hr, hrn, -⟩ := Root_total n d2 hinv2 0 (by omega)
      exact rootCount_pos_of_root d2 n r hrn (Root_root hr)
    omega
  have hlen : A2.length = n - 1 := by omega
  have hsubbase : List.Subperm (List.map kcanon A2)
      (List.map kcanon edges) := by
    refine hAnodup.subperm ?_
    intro a ha
    rw [List.mem_map] at ha ⊢
    obtain ⟨a0, ha0, haeq⟩ := ha
    exact ⟨a0, (hFperm.mem_iff).mp (hAF a0 ha0), haeq⟩
  have hCV : CValid n edges (List.map kcanon A2) := by
    refine ⟨hsubbase, ?_, ?_⟩
    · intro a ha
      exact (kconn_canon_iff A2 0 a).mpr (hspan a ha)
    · rw [List.length_map]
      exact hlen
  obtain ⟨M, hMmin, hMsub⟩ := hI8 (minspan_exists n edges ⟨_, hCV⟩)
  have hMperm : (List.map kcanon A2).Perm M := by
    refine hMsub.perm_of_length_le ?_
    rw [List.length_map, hlen, hMmin.1.2.2]
  have hw : kweight A2 = kweight M := by
    rw [← kweight_map_canon A2]
    exact kweight_perm hMperm
  exact ⟨A2, halg, hlen, hCV, M, hMmin, hw⟩

/-! ### primes_algorithm (src/primes_algorithm.py)

The heap holds (weight, current_node, parent_node) tuples compared
lexicographically by heapq; parent -1 is the start sentinel.  IndexError
(visited[i] out of range) and KeyError (adjacency_list[u] missing) are
modelled as none. -/

/-- A heap entry (weight, current_node, parent_node). -/
abbrev PEntry : Type := Int × Nat × Int

/-- Lexicographic tuple comparison used by heapq. -/
def lex3Le (a b : PEntry) : Prop :=
  a.1 < b.1 ∨ (a.1 = b.1 ∧
    (a.2.1 < b.2.1 ∨ (a.2.1 = b.2.1 ∧ a.2.2 ≤ b.2.2)))

instance (a b : PEntry) : Decidable (lex3Le a b) := by
  unfold lex3Le
  infer_instance

theorem lex3Le_refl (a : PEntry) : lex3Le a a :=
  Or.inr ⟨rfl, Or.inr ⟨rfl, le_refl _⟩⟩

theorem lex3Le_trans {a b c : PEntry} (h1 : lex3Le a b) (h2 : lex3Le b c) :
    lex3Le a c := by
  unfold lex3Le at h1 h2 ⊢
  omega

theorem lex3Le_total (a b : PEntry) : lex3Le a b ∨ lex3Le b a := by
  unfold lex3Le
  omega

/-- Minimum of the heap list under the heapq tuple order. -/
def heapMin3 : List PEntry → Option PEntry
  | [] => none
  | e :: rest =>
      match heapMin3 rest with
      | none => some e
      | some m => if lex3Le e m then some e else some m

/-- Remove the first occurrence of an entry from the heap. -/
def heapErase3 : List PEntry → PEntry → List PEntry
  | [], _ => []
  | e :: rest, m => if e = m then rest else e :: heapErase3 rest m

theorem heapMin3_mem : ∀ (pq : List PEntry) (m : PEntry),
    heapMin3 pq = some m → m ∈ pq := by
  intro pq
  induction pq with
  | nil => intro m h; exact Option.noConfusion h
  | cons e rest ih =>
      intro m h
      rw [heapMin3] at h
      cases hr : heapMin3 rest with
      | none =>
          rw [hr] at h
          injection h with h2
          rw [← h2]
          exact List.mem_cons_self _ _
      | some m0 =>
          rw [hr] at h
          have h4 : (if lex3Le e m0 then some e else some m0) = some m := h
          by_cases hc : lex3Le e m0
          · rw [if_pos hc] at h4
            injection h4 with h2
            rw [← h2]
            exact List.mem_cons_self _ _
          · rw [if_neg hc] at h4
            injection h4 with h2
            rw [← h2]
            exact List.mem_cons_of_mem _ (ih m0 hr)

theorem heapMin3_le : ∀ (pq : List PEntry) (m : PEntry),
    heapMin3 pq = some m → ∀ e ∈ pq, lex3Le m e := by
  intro pq
  induction pq with
  | nil => intro m h; exact Option.noConfusion h
  | cons e0 rest ih =>
      intro m h e he
      rw [heapMin3] at h
      cases hr : heapMin3 rest with
      | none =>
          rw [hr] at h
          injection h with h2
          have hrnil : rest = [] := by
            cases rest with
            | nil => rfl
            | cons a t =>
                rw [heapMin3] at hr
                cases h3 : heapMin3 t with
                | none => rw [h3] at hr; exact Option.noConfusion hr
                | some mm =>
                    rw [h3] at hr
                    have hr4 : (if lex3Le a mm then some a else some mm) =
                        none := hr
                    by_cases hc : lex3Le a mm
                    · rw [if_pos hc] at hr4
                      exact Option.noConfusion hr4
                    · rw [if_neg hc] at hr4
                      exact Option.noConfusion hr4
          rw [hrnil] at he
          rw [List.mem_singleton] at he
          rw [he, ← h2]
          exact lex3Le_refl _
      | some m0 =>
          rw [hr] at h
          have h4 : (if lex3Le e0 m0 then some e0 else some m0) = some m := h
          by_cases hc : lex3Le e0 m0
          · rw [if_pos hc] at h4
            injection h4 with h2
            rw [← h2]
            rcases List.mem_cons.mp he with hh | hh
            · rw [hh]
              exact lex3Le_refl _
            · exact lex3Le_trans hc (ih m0 hr e hh)
          · rw [if_neg hc] at h4
            injection h4 with h2
            rw [← h2]
            rcases List.mem_cons.mp he with hh | hh
            · rw [hh]
              rcases lex3Le_total e0 m0 with ht | ht
              · exact absurd ht hc
              · exact ht
            · exact ih m0 hr e hh

theorem heapMin3_none : ∀ (pq : List PEntry), heapMin3 pq = none →
    pq = [] := by
  intro pq
  cases pq with
  | nil => intro _; rfl
  | cons e rest =>
      intro h
      rw [heapMin3] at h
      cases hr : heapMin3 rest with
      | none => rw [hr] at h; exact Option.noConfusion h
      | some m0 =>
          rw [hr] at h
          have h4 : (if lex3Le e m0 then some e else some m0) = none := h
          by_cases hc : lex3Le e m0
          · rw [if_pos hc] at h4
            exact Option.noConfusion h4
          · rw [if_neg hc] at h4
            exact Option.noConfusion h4

theorem heapErase3_subset : ∀ (pq : List PEntry) (m e : PEntry),
    e ∈ heapErase3 pq m → e ∈ pq := by
  intro pq
  induction pq with
  | nil => intro m e h; exact absurd h (List.not_mem_nil e)
  | cons e0 rest ih =>
      intro m e h
      rw [heapErase3] at h
      by_cases hc : e0 = m
      · rw [if_pos hc] at h
        exact List.mem_cons_of_mem _ h
      · rw [if_neg hc] at h
        rcases List.mem_cons.mp h with hh | hh
        · rw [hh]
          exact List.mem_cons_self _ _
        · exact List.mem_cons_of_mem _ (ih m e hh)

theorem heapErase3_mem_of_ne : ∀ (pq : List PEntry) (m e : PEntry),
    e ∈ pq → e ≠ m → e ∈ heapErase3 pq m := by
  intro pq
  induction pq with
  | nil => intro m e h _; exact absurd h (List.not_mem_nil e)
  | cons e0 rest ih =>
      intro m e h hne
      rw [heapErase3]
      by_cases hc : e0 = m
      · rw [if_pos hc]
        rcases List.mem_cons.mp h with hh | hh
        · exact absurd (hh.trans hc) hne
        · exact hh
      · rw [if_neg hc]
        rcases List.mem_cons.mp h with hh | hh
        · rw [hh]
          exact List.mem_cons_self _ _
        · exact List.mem_cons_of_mem _ (ih m e hh hne)

theorem heapErase3_length : ∀ (pq : List PEntry) (m : PEntry),
    m ∈ pq → (heapErase3 pq m).length + 1 = pq.length := by
  intro pq
  induction pq with
  | nil => intro m h; exact absurd h (List.not_mem_nil m)
  | cons e0 rest ih =>
      intro m h
      rw [heapErase3]
      by_cases hc : e0 = m
      · rw [if_pos hc]
        rfl
      · rw [if_neg hc]
        have hm : m ∈ rest := by
          rcases List.mem_cons.mp h with hh | hh
          · exact absurd hh.symm hc
          · exact hh
        rw [List.length_cons, List.length_cons, ih m hm]

/-- adjacency_list: node keyed dict of (weight, neighbor) lists. -/
abbrev PAdj : Type := List (Nat × List (Int × Nat))

def padjGet : PAdj → Nat → Option (List (Int × Nat))
  | [], _ => none
  | (k, l) :: rest, u => if k = u then some l else padjGet rest u

def padjSet : PAdj → Nat → List (Int × Nat) → PAdj
  | [], _, _ => []
  | (k, l) :: rest, u, l2 =>
      if k = u then (k, l2) :: rest else (k, l) :: padjSet rest u l2

/-- adjacency_list[u].append((weight, v)); adjacency_list[v].append((weight, u)).
A missing key (KeyError) is none. -/
def padjAddEdge (adj : PAdj) (e : KEdge) : Option PAdj :=
  match padjGet adj e.1 with
  | none => none
  | some lu =>
      match padjGet (padjSet adj e.1 (lu ++ [(e.2.2, e.2.1)])) e.2.1 with
      | none => none
      | some lv =>
          some (padjSet (padjSet adj e.1 (lu ++ [(e.2.2, e.2.1)])) e.2.1
            (lv ++ [(e.2.2, e.1)]))

def padjBuildGo : PAdj → List KEdge → Option PAdj
  | adj, [] => some adj
  | adj, e :: rest =>
      match padjAddEdge adj e with
      | none => none
      | some adj2 => padjBuildGo adj2 rest

/-- Number of visited flags set. -/
def visCount : List Bool → Nat
  | [] => 0
  | b :: r => (if b then 1 else 0) + visCount r

/-- Total adjacency size. -/
def degsum : PAdj → Nat
  | [] => 0
  | (_, l) :: rest => l.length + degsum rest

/-- Adjacency size over unvisited keys (the loop measure). -/
def degsumU (vis : List Bool) : PAdj → Nat
  | [] => 0
  | (k, l) :: rest =>
      (if vis.getD k false then 0 else l.length) + degsumU vis rest

/-- The inner neighbor loop: push (weight, target, current) for each
unvisited target; visited[target] raises IndexError out of range. -/
def primPush (vis : List Bool) (c : Nat) :
    List PEntry → List (Int × Nat) → Option (List PEntry)
  | hp, [] => some hp
  | hp, (w, t) :: rest =>
      match vis.get? t with
      | none => none
      | some true => primPush vis c hp rest
      | some false => primPush vis c (hp ++ [(w, t, (c : Int))]) rest

/-- The main while-loop of primes_algorithm; none only on fuel exhaustion
or a Python error. -/
def primLoop : Nat → PAdj → List Bool → List PEntry → List KEdge →
    Option (List KEdge)
  | 0, _, _, _, _ => none
  | fuel + 1, adj, vis, heap, mst =>
      match heapMin3 heap with
      | none => some mst
      | some e =>
          match vis.get? e.2.1 with
          | none => none
          | some true => primLoop fuel adj vis (heapErase3 heap e) mst
          | some false =>
              match padjGet adj e.2.1 with
              | none => none
              | some lc =>
                  match primPush (vis.set e.2.1 true) e.2.1
                      (heapErase3 heap e) lc with
                  | none => none
                  | some heap3 =>
                      primLoop fuel adj (vis.set e.2.1 true) heap3
                        (if e.2.2 = -1 then mst
                         else mst ++ [(e.2.2.toNat, e.2.1, e.1)])

/-- primes_algorithm(num_nodes, edges); the fuel 2|edges|+2 is proved
sufficient below. -/
def primes_algorithm (num_nodes : Nat) (edges : List KEdge) :
    Option (List KEdge) :=
  match padjBuildGo ((List.range num_nodes).map
      (fun i => (i, ([] : List (Int × Nat))))) edges with
  | none => none
  | some adj =>
      primLoop (2 * edges.length + 2) adj (List.replicate num_nodes false)
        [((0 : Int), 0, (-1 : Int))] []

theorem padjGet_set_self : ∀ (adj : PAdj) (u : Nat) (l0 l2 : List (Int × Nat)),
    padjGet adj u = some l0 → padjGet (padjSet adj u l2) u = some l2 := by
  intro adj
  induction adj with
  | nil => intro u l0 l2 h; exact Option.noConfusion h
  | cons p rest ih =>
      intro u l0 l2 h
      obtain ⟨k, l⟩ := p
      show padjGet (if k = u then (k, l2) :: rest
        else (k, l) :: padjSet rest u l2) u = some l2
      by_cases hc : k = u
      · rw [if_pos hc]
        show (if k = u then some l2 else padjGet rest u) = some l2
        rw [if_pos hc]
      · rw [if_neg hc]
        show (if k = u then some l else padjGet (padjSet rest u l2) u) =
          some l2
        rw [if_neg hc]
        have h2 : padjGet rest u = some l0 := by
          have h3 : (if k = u then some l else padjGet rest u) = some l0 := h
          rw [if_neg hc] at h3
          exact h3
        exact ih u l0 l2 h2

theorem padjGet_set_ne : ∀ (adj : PAdj) (u k2 : Nat) (l2 : List (Int × Nat)),
    k2 ≠ u → padjGet (padjSet adj u l2) k2 = padjGet adj k2 := by
  intro adj
  induction adj with
  | nil => intro u k2 l2 _; rfl
  | cons p rest ih =>
      intro u k2 l2 hne
      obtain ⟨k, l⟩ := p
      show padjGet (if k = u then (k, l2) :: rest
        else (k, l) :: padjSet rest u l2) k2 =
        (if k = k2 then some l else padjGet rest k2)
      by_cases hc : k = u
      · rw [if_pos hc]
        show (if k = k2 then some l2 else padjGet rest k2) = _
        by_cases hc2 : k = k2
        · exact absurd (hc2.symm.trans hc) hne
        · rw [if_neg hc2, if_neg hc2]
      · rw [if_neg hc]
        show (if k = k2 then some l else padjGet (padjSet rest u l2) k2) = _
        by_cases hc2 : k = k2
        · rw [if_pos hc2, if_pos hc2]
        · rw [if_neg hc2, if_neg hc2]
          exact ih u k2 l2 hne

theorem padjSet_keys : ∀ (adj : PAdj) (u : Nat) (l2 : List (Int × Nat)),
    (padjSet adj u l2).map Prod.fst = adj.map Prod.fst := by
  intro adj
  induction adj with
  | nil => intro u l2; rfl
  | cons p rest ih =>
      intro u l2
      obtain ⟨k, l⟩ := p
      show ((if k = u then (k, l2) :: rest
        else (k, l) :: padjSet rest u l2).map Prod.fst) = k :: rest.map Prod.fst
      by_cases hc : k = u
      · rw [if_pos hc]
        rfl
      · rw [if_neg hc]
        show k :: (padjSet rest u l2).map Prod.fst = k :: rest.map Prod.fst
        rw [ih u l2]

theorem padjGet_mem_keys : ∀ (adj : PAdj) (c : Nat) (l : List (Int × Nat)),
    padjGet adj c = some l → c ∈ adj.map Prod.fst := by
  intro adj
  induction adj with
  | nil => intro c l h; exact Option.noConfusion h
  | cons p rest ih =>
      intro c l h
      obtain ⟨k, l0⟩ := p
      have h2 : (if k = c then some l0 else padjGet rest c) = some l := h
      by_cases hc : k = c
      · rw [hc]
        exact List.mem_cons_self _ _
      · rw [if_neg hc] at h2
        exact List.mem_cons_of_mem _ (ih c l h2)

theorem padjGet_some_of_mem_keys : ∀ (adj : PAdj) (c : Nat),
    c ∈ adj.map Prod.fst → ∃ l, padjGet adj c = some l := by
  intro adj
  induction adj with
  | nil => intro c h; exact absurd h (List.not_mem_nil c)
  | cons p rest ih =>
      intro c h
      obtain ⟨k, l0⟩ := p
      show ∃ l, (if k = c then some l0 else padjGet rest c) = some l
      by_cases hc : k = c
      · exact ⟨l0, by rw [if_pos hc]⟩
      · rcases List.mem_cons.mp h with h1 | h1
        · exact absurd h1.symm hc
        · obtain ⟨l, hl⟩ := ih c h1
          exact ⟨l, by rw [if_neg hc]; exact hl⟩

theorem degsum_set : ∀ (adj : PAdj) (u : Nat) (l0 l2 : List (Int × Nat)),
    padjGet adj u = some l0 →
    degsum (padjSet adj u l2) + l0.length = degsum adj + l2.length := by
  intro adj
  induction adj with
  | nil => intro u l0 l2 h; exact Option.noConfusion h
  | cons p rest ih =>
      intro u l0 l2 h
      obtain ⟨k, l⟩ := p
      have h2 : (if k = u then some l else padjGet rest u) = some l0 := h
      show degsum (if k = u then (k, l2) :: rest
        else (k, l) :: padjSet rest u l2) + l0.length =
        l.length + degsum rest + l2.length
      by_cases hc : k = u
      · rw [if_pos hc] at h2
        injection h2 with h3
        rw [if_pos hc, h3]
        show l2.length + degsum rest + l0.length = _
        omega
      · rw [if_neg hc] at h2
        rw [if_neg hc]
        show l.length + degsum (padjSet rest u l2) + l0.length = _
        have h4 := ih u l0 l2 h2
        omega

theorem seedlist_keys : ∀ (ks : List Nat),
    ((ks.map (fun i => (i, ([] : List (Int × Nat))))).map Prod.fst) = ks := by
  intro ks
  induction ks with
  | nil => rfl
  | cons a t ih =>
      show a :: ((t.map (fun i => (i, ([] : List (Int × Nat))))).map
        Prod.fst) = a :: t
      rw [ih]

theorem padjGet_seedlist : ∀ (ks : List Nat) (u : Nat),
    padjGet (ks.map (fun i => (i, ([] : List (Int × Nat))))) u =
      if u ∈ ks then some [] else none := by
  intro ks
  induction ks with
  | nil =>
      intro u
      rw [if_neg (List.not_mem_nil u)]
      rfl
  | cons a t ih =>
      intro u
      show (if a = u then some [] else
        padjGet (t.map (fun i => (i, ([] : List (Int × Nat))))) u) = _
      by_cases h : a = u
      · rw [if_pos h, if_pos (by rw [← h]; exact List.mem_cons_self a t)]
      · rw [if_neg h, ih u]
        by_cases h2 : u ∈ t
        · rw [if_pos h2, if_pos (List.mem_cons_of_mem a h2)]
        · rw [if_neg h2, if_neg ?_]
          intro hc
          rcases List.mem_cons.mp hc with h3 | h3
          · exact h h3.symm
          · exact h2 h3

theorem degsum_seedlist : ∀ (ks : List Nat),
    degsum (ks.map (fun i => (i, ([] : List (Int × Nat))))) = 0 := by
  intro ks
  induction ks with
  | nil => rfl
  | cons a t ih =>
      show ([] : List (Int × Nat)).length +
        degsum (t.map (fun i => (i, ([] : List (Int × Nat))))) = 0
      rw [ih]
      rfl

theorem get?_of_getD {α : Type} : ∀ (l : List α) (i : Nat) (d : α),
    i < l.length → l.get? i = some (l.getD i d) := by
  intro l
  induction l with
  | nil => intro i d h; simp at h
  | cons a rest ih =>
      intro i d h
      cases i with
      | zero => rfl
      | succ j => exact ih j d (by simpa using h)

theorem visCount_set_true : ∀ (vis : List Bool) (i : Nat), i < vis.length →
    vis.getD i false = false →
    visCount (vis.set i true) = visCount vis + 1 := by
  intro vis
  induction vis with
  | nil => intro i h; simp at h
  | cons b r ih =>
      intro i hlen hfalse
      cases i with
      | zero =>
          have hb : b = false := hfalse
          show (if true then 1 else 0) + visCount r =
            (if b then 1 else 0) + visCount r + 1
          rw [hb, if_pos rfl, if_neg (by exact Bool.false_ne_true)]
          omega
      | succ j =>
          show (if b then 1 else 0) + visCount (r.set j true) =
            (if b then 1 else 0) + visCount r + 1
          rw [ih j (by simpa using hlen) hfalse]
          omega

theorem visCount_replicate_false : ∀ (n : Nat),
    visCount (List.replicate n false) = 0 := by
  intro n
  induction n with
  | zero => rfl
  | succ m ih =>
      show (if false then 1 else 0) + visCount (List.replicate m false) = 0
      rw [ih, if_neg (by exact Bool.false_ne_true)]

theorem visCount_eq_length : ∀ (vis : List Bool),
    (∀ i, i < vis.length → vis.getD i false = true) →
    visCount vis = vis.length := by
  intro vis
  induction vis with
  | nil => intro _; rfl
  | cons b r ih =>
      intro h
      have hb : b = true := h 0 (by simp)
      show (if b then 1 else 0) + visCount r = r.length + 1
      rw [hb, if_pos rfl, ih (fun i hi => h (i + 1) (by simpa using hi))]
      omega

theorem degsumU_replicate_false : ∀ (adj : PAdj) (n : Nat),
    degsumU (List.replicate n false) adj = degsum adj := by
  intro adj n
  induction adj with
  | nil => rfl
  | cons p rest ih =>
      obtain ⟨k, l⟩ := p
      have hk : (List.replicate n false).getD k false = false := by
        rw [getD_replicate]
        by_cases h : k < n
        · rw [if_pos h]
        · rw [if_neg h]
      show (if (List.replicate n false).getD k false then 0 else l.length) +
        degsumU (List.replicate n false) rest = l.length + degsum rest
      rw [hk, if_neg (by exact Bool.false_ne_true), ih]

theorem degsumU_ext : ∀ (adj : PAdj) (vis1 vis2 : List Bool),
    (∀ k ∈ adj.map Prod.fst, vis1.getD k false = vis2.getD k false) →
    degsumU vis1 adj = degsumU vis2 adj := by
  intro adj
  induction adj with
  | nil => intro vis1 vis2 _; rfl
  | cons p rest ih =>
      intro vis1 vis2 h
      obtain ⟨k, l⟩ := p
      show (if vis1.getD k false then 0 else l.length) + degsumU vis1 rest =
        (if vis2.getD k false then 0 else l.length) + degsumU vis2 rest
      rw [h k (List.mem_cons_self _ _),
        ih vis1 vis2 (fun k2 hk2 => h k2 (List.mem_cons_of_mem _ hk2))]

theorem degsumU_set_true : ∀ (adj : PAdj) (vis : List Bool) (c : Nat)
    (lc : List (Int × Nat)), (adj.map Prod.fst).Nodup →
    padjGet adj c = some lc → c < vis.length → vis.getD c false = false →
    degsumU (vis.set c true) adj + lc.length = degsumU vis adj := by
  intro adj
  induction adj with
  | nil => intro vis c lc _ h; exact Option.noConfusion h
  | cons p rest ih =>
      intro vis c lc hnd hget hlen hfalse
      obtain ⟨k, l⟩ := p
      have hnd2 := List.nodup_cons.mp hnd
      have hget2 : (if k = c then some l else padjGet rest c) = some lc := hget
      show (if (vis.set c true).getD k false then 0 else l.length) +
        degsumU (vis.set c true) rest + lc.length =
        (if vis.getD k false then 0 else l.length) + degsumU vis rest
      by_cases hc : k = c
      · rw [if_pos hc] at hget2
        injection hget2 with h3
        have hv1 : (vis.set c true).getD k false = true := by
          rw [hc]
          exact getD_set_self vis c true false hlen
        have hv2 : vis.getD k false = false := by
          rw [hc]
          exact hfalse
        have hrest : degsumU (vis.set c true) rest = degsumU vis rest := by
          refine degsumU_ext rest _ _ ?_
          intro k2 hk2
          have hk2c : k2 ≠ c := by
            intro hcc
            rw [← hcc] at hc
            rw [← hc] at hk2
            exact hnd2.1 hk2
          exact getD_set_ne vis c k2 true false (fun hcc => hk2c hcc.symm)
        rw [hv1, hv2, if_pos rfl, if_neg (by exact Bool.false_ne_true),
          hrest, h3]
        omega
      · rw [if_neg hc] at hget2
        have hv : (vis.set c true).getD k false = vis.getD k false :=
          getD_set_ne vis c k true false (fun hcc => hc hcc.symm)
        rw [hv]
        have h4 := ih vis c lc hnd2.2 hget2 hlen hfalse
        omega

theorem primPush_spec (vis : List Bool) (c : Nat) :
    ∀ (lc : List (Int × Nat)) (hp : List PEntry),
      (∀ p ∈ lc, p.2 < vis.length) →
      ∃ hp2, primPush vis c hp lc = some hp2 ∧
        hp2.length ≤ hp.length + lc.length ∧
        (∀ x, x ∈ hp2 ↔ x ∈ hp ∨ ∃ p ∈ lc,
          vis.getD p.2 false = false ∧ x = (p.1, p.2, (c : Int))) := by
  intro lc
  induction lc with
  | nil =>
      intro hp _
      refine ⟨hp, rfl, by omega, ?_⟩
      intro x
      simp
  | cons q rest ih =>
      intro hp hbound
      obtain ⟨w, t⟩ := q
      have htlen : t < vis.length := hbound (w, t) (List.mem_cons_self _ _)
      have hget : vis.get? t = some (vis.getD t false) :=
        get?_of_getD vis t false htlen
      by_cases hb : vis.getD t false = true
      · have hget2 : vis.get? t = some true := by rw [hget, hb]
        obtain ⟨hp2, heq, hlen, hmem⟩ :=
          ih hp (fun p hpmem => hbound p (List.mem_cons_of_mem _ hpmem))
        refine ⟨hp2, ?_, ?_, ?_⟩
        · show (match vis.get? t with
            | none => none
            | some true => primPush vis c hp rest
            | some false =>
                primPush vis c (hp ++ [(w, t, (c : Int))]) rest) = some hp2
          rw [hget2]
          exact heq
        · rw [List.length_cons]
          omega
        · intro x
          rw [hmem x]
          constructor
          · rintro (h1 | ⟨p, hp1, hp2c, hp3⟩)
            · exact Or.inl h1
            · exact Or.inr ⟨p, List.mem_cons_of_mem _ hp1, hp2c, hp3⟩
          · rintro (h1 | ⟨p, hp1, hp2c, hp3⟩)
            · exact Or.inl h1
            · rcases List.mem_cons.mp hp1 with h4 | h4
              · exfalso
                have hp2c2 : vis.getD t false = false := by
                  rw [h4] at hp2c
                  exact hp2c
                rw [hp2c2] at hb
                exact Bool.noConfusion hb
              · exact Or.inr ⟨p, h4, hp2c, hp3⟩
      · have hb2 : vis.getD t false = false := by
          cases h2 : vis.getD t false with
          | false => rfl
          | true => exact absurd h2 hb
        have hget2 : vis.get? t = some false := by rw [hget, hb2]
        obtain ⟨hp2, heq, hlen, hmem⟩ :=
          ih (hp ++ [(w, t, (c : Int))])
            (fun p hpmem => hbound p (List.mem_cons_of_mem _ hpmem))
        refine ⟨hp2, ?_, ?_, ?_⟩
        · show (match vis.get? t with
            | none => none
            | some true => primPush vis c hp rest
            | some false =>
                primPush vis c (hp ++ [(w, t, (c : Int))]) rest) = some hp2
          rw [hget2]
          exact heq
        · rw [List.length_append, List.length_singleton] at hlen
          rw [List.length_cons]
          omega
        · intro x
          rw [hmem x]
          constructor
          · rintro (h1 | ⟨p, hp1, hp2c, hp3⟩)
            · rcases List.mem_append.mp h1 with h2 | h2
              · exact Or.inl h2
              · refine Or.inr ⟨(w, t), List.mem_cons_self _ _, hb2, ?_⟩
                exact List.mem_singleton.mp h2
            · exact Or.inr ⟨p, List.mem_cons_of_mem _ hp1, hp2c, hp3⟩
          · rintro (h1 | ⟨p, hp1, hp2c, hp3⟩)
            · exact Or.inl (List.mem_append_left _ h1)
            · rcases List.mem_cons.mp hp1 with h4 | h4
              · refine Or.inl (List.mem_append_right _ ?_)
                rw [h4] at hp3
                exact List.mem_singleton.mpr hp3
              · exact Or.inr ⟨p, h4, hp2c, hp3⟩

/-- One edge insertion into the adjacency dict: both endpoint lists gain
the entry, nothing else changes. -/
theorem padjAddEdge_spec (n : Nat) (adj : PAdj) (e : KEdge)
    (hkeys : adj.map Prod.fst = List.range n)
    (h1 : e.1 < n) (h2 : e.2.1 < n) :
    ∃ adj2, padjAddEdge adj e = some adj2 ∧
      adj2.map Prod.fst = List.range n ∧
      degsum adj2 = degsum adj + 2 ∧
      (∀ c lc2, padjGet adj2 c = some lc2 → ∀ w0 t, ((w0, t) ∈ lc2 ↔
        (∃ lc, padjGet adj c = some lc ∧ (w0, t) ∈ lc) ∨
        (e.2.2 = w0 ∧
          ((e.1 = c ∧ e.2.1 = t) ∨ (e.1 = t ∧ e.2.1 = c))))) := by
  obtain ⟨lu, hgu⟩ := padjGet_some_of_mem_keys adj e.1
    (by rw [hkeys]; exact List.mem_range.mpr h1)
  have hkeys1 : (padjSet adj e.1 (lu ++ [(e.2.2, e.2.1)])).map Prod.fst =
      List.range n := by
    rw [padjSet_keys]
    exact hkeys
  obtain ⟨lv, hgv⟩ := padjGet_some_of_mem_keys
    (padjSet adj e.1 (lu ++ [(e.2.2, e.2.1)])) e.2.1
    (by rw [hkeys1]; exact List.mem_range.mpr h2)
  refine ⟨padjSet (padjSet adj e.1 (lu ++ [(e.2.2, e.2.1)])) e.2.1
    (lv ++ [(e.2.2, e.1)]), ?_, ?_, ?_, ?_⟩
  · show (match padjGet adj e.1 with
      | none => none
      | some lu =>
          match padjGet (padjSet adj e.1 (lu ++ [(e.2.2, e.2.1)]))
              e.2.1 with
          | none => none
          | some lv =>
              some (padjSet (padjSet adj e.1 (lu ++ [(e.2.2, e.2.1)]))
                e.2.1 (lv ++ [(e.2.2, e.1)]))) = _
    rw [hgu]
    show (match padjGet (padjSet adj e.1 (lu ++ [(e.2.2, e.2.1)]))
        e.2.1 with
      | none => none
      | some lv =>
          some (padjSet (padjSet adj e.1 (lu ++ [(e.2.2, e.2.1)]))
            e.2.1 (lv ++ [(e.2.2, e.1)]))) = _
    rw [hgv]
  · rw [padjSet_keys]
    exact hkeys1
  · have hd1 := degsum_set adj e.1 lu (lu ++ [(e.2.2, e.2.1)]) hgu
    have hd2 := degsum_set (padjSet adj e.1 (lu ++ [(e.2.2, e.2.1)]))
      e.2.1 lv (lv ++ [(e.2.2, e.1)]) hgv
    rw [List.length_append, List.length_singleton] at hd1 hd2
    omega
  · intro c lc2 hget2 w0 t
    by_cases hcv : e.2.1 = c
    · have hlc2 : lc2 = lv ++ [(e.2.2, e.1)] := by
        have h3 := padjGet_set_self
          (padjSet adj e.1 (lu ++ [(e.2.2, e.2.1)])) e.2.1 lv
          (lv ++ [(e.2.2, e.1)]) hgv
        rw [← hcv] at hget2
        rw [h3] at hget2
        injection hget2 with h4
        exact h4.symm
      rw [hlc2, List.mem_append, List.mem_singleton]
      by_cases hcu : e.1 = c
      · have hgetc : padjGet adj c = some lu := by
          rw [← hcu]
          exact hgu
        have hlv : lv = lu ++ [(e.2.2, e.2.1)] := by
          have h3 := padjGet_set_self adj e.1 lu
            (lu ++ [(e.2.2, e.2.1)]) hgu
          have h5 : e.2.1 = e.1 := hcv.trans hcu.symm
          nth_rewrite 2 [h5] at hgv
          rw [h3] at hgv
          injection hgv with h6
          exact h6.symm
        rw [hlv, List.mem_append, List.mem_singleton]
        constructor
        · rintro ((hmem | hq1) | hq2)
          · exact Or.inl ⟨lu, hgetc, hmem⟩
          · injection hq1 with hwq htq
            exact Or.inr ⟨hwq.symm, Or.inl ⟨hcu, htq.symm⟩⟩
          · injection hq2 with hwq htq
            exact Or.inr ⟨hwq.symm, Or.inr ⟨htq.symm, hcv⟩⟩
        · rintro (⟨lc, hgc, hmem⟩ | ⟨hw, (⟨huc, hvt⟩ | ⟨hut, hvc⟩)⟩)
          · have h5 : lc = lu := by
              rw [hgetc] at hgc
              injection hgc with h6
              exact h6.symm
            exact Or.inl (Or.inl (h5 ▸ hmem))
          · refine Or.inl (Or.inr ?_)
            rw [← hw, ← hvt]
          · refine Or.inr ?_
            rw [← hw, ← hut]
      · have hvne : e.2.1 ≠ e.1 := fun hcc => hcu (hcc ▸ hcv)
        have hgv2 : padjGet adj e.2.1 = some lv := by
          rw [← padjGet_set_ne adj e.1 e.2.1
            (lu ++ [(e.2.2, e.2.1)]) hvne]
          exact hgv
        have hgetc : padjGet adj c = some lv := by
          rw [← hcv]
          exact hgv2
        constructor
        · rintro (hmem | hq)
          · exact Or.inl ⟨lv, hgetc, hmem⟩
          · injection hq with hwq htq
            exact Or.inr ⟨hwq.symm, Or.inr ⟨htq.symm, hcv⟩⟩
        · rintro (⟨lc, hgc, hmem⟩ | ⟨hw, (⟨huc, hvt⟩ | ⟨hut, hvc⟩)⟩)
          · have h5 : lc = lv := by
              rw [hgetc] at hgc
              injection hgc with h6
              exact h6.symm
            exact Or.inl (h5 ▸ hmem)
          · exact absurd huc hcu
          · refine Or.inr ?_
            rw [← hw, ← hut]
    · have hga1 : padjGet (padjSet adj e.1 (lu ++ [(e.2.2, e.2.1)])) c =
          some lc2 := by
        rw [← padjGet_set_ne _ e.2.1 c (lv ++ [(e.2.2, e.1)])
          (fun hcc => hcv hcc.symm)]
        exact hget2
      by_cases hcu : e.1 = c
      · have hlc2 : lc2 = lu ++ [(e.2.2, e.2.1)] := by
          have h3 := padjGet_set_self adj e.1 lu
            (lu ++ [(e.2.2, e.2.1)]) hgu
          rw [← hcu] at hga1
          rw [h3] at hga1
          injection hga1 with h4
          exact h4.symm
        have hgetc : padjGet adj c = some lu := by
          rw [← hcu]
          exact hgu
        rw [hlc2, List.mem_append, List.mem_singleton]
        constructor
        · rintro (hmem | hq)
          · exact Or.inl ⟨lu, hgetc, hmem⟩
          · injection hq with hwq htq
            exact Or.inr ⟨hwq.symm, Or.inl ⟨hcu, htq.symm⟩⟩
        · rintro (⟨lc, hgc, hmem⟩ | ⟨hw, (⟨huc, hvt⟩ | ⟨hut, hvc⟩)⟩)
          · have h5 : lc = lu := by
              rw [hgetc] at hgc
              injection hgc with h6
              exact h6.symm
            exact Or.inl (h5 ▸ hmem)
          · refine Or.inr ?_
            rw [← hw, ← hvt]
          · exact absurd hvc hcv
      · have hgetc : padjGet adj c = some lc2 := by
          rw [← padjGet_set_ne adj e.1 c (lu ++ [(e.2.2, e.2.1)])
            (fun hcc => hcu hcc.symm)]
          exact hga1
        constructor
        · intro hmem
          exact Or.inl ⟨lc2, hgetc, hmem⟩
        · rintro (⟨lc, hgc, hmem⟩ | ⟨hw, (⟨huc, hvt⟩ | ⟨hut, hvc⟩)⟩)
          · have h5 : lc = lc2 := by
              rw [hgetc] at hgc
              injection hgc with h6
              exact h6.symm
            exact h5 ▸ hmem
          · exact absurd huc hcu
          · exact absurd hvc hcv

/-- The adjacency build of primes_algorithm over a list of edges. -/
theorem padjBuildGo_spec (n : Nat) : ∀ (es : List KEdge) (adj : PAdj),
    adj.map Prod.fst = List.range n →
    (∀ e ∈ es, e.1 < n ∧ e.2.1 < n) →
    ∃ adj2, padjBuildGo adj es = some adj2 ∧
      adj2.map Prod.fst = List.range n ∧
      degsum adj2 = degsum adj + 2 * es.length ∧
      (∀ c lc2, padjGet adj2 c = some lc2 → ∀ w0 t, ((w0, t) ∈ lc2 ↔
        (∃ lc, padjGet adj c = some lc ∧ (w0, t) ∈ lc) ∨
        (∃ e0 ∈ es, e0.2.2 = w0 ∧
          ((e0.1 = c ∧ e0.2.1 = t) ∨ (e0.1 = t ∧ e0.2.1 = c))))) := by
  intro es
  induction es with
  | nil =>
      intro adj hkeys _
      refine ⟨adj, rfl, hkeys, by rw [List.length_nil]; omega, ?_⟩
      intro c lc2 hget w0 t
      constructor
      · intro hmem
        exact Or.inl ⟨lc2, hget, hmem⟩
      · rintro (⟨lc, hgc, hmem⟩ | ⟨e0, he0, -⟩)
        · have h5 : lc = lc2 := by
            rw [hget] at hgc
            injection hgc with h6
            exact h6.symm
          exact h5 ▸ hmem
        · exact absurd he0 (List.not_mem_nil e0)
  | cons e rest ih =>
      intro adj hkeys hrange
      obtain ⟨adj1, heq1, hkeys1, hdeg1, hmem1⟩ :=
        padjAddEdge_spec n adj e hkeys (hrange e (List.mem_cons_self _ _)).1
          (hrange e (List.mem_cons_self _ _)).2
      obtain ⟨adj2, heq2, hkeys2, hdeg2, hmem2⟩ :=
        ih adj1 hkeys1 (fun e2 he2 => hrange e2 (List.mem_cons_of_mem _ he2))
      refine ⟨adj2, ?_, hkeys2, ?_, ?_⟩
      · show (match padjAddEdge adj e with
          | none => none
          | some adj3 => padjBuildGo adj3 rest) = some adj2
        rw [heq1]
        exact heq2
      · rw [List.length_cons]
        omega
      · intro c lc2 hget w0 t
        have hcn : c < n := by
          have h3 : c ∈ adj2.map Prod.fst := padjGet_mem_keys adj2 c lc2 hget
          rw [hkeys2] at h3
          exact List.mem_range.mp h3
        obtain ⟨lc1, hlc1⟩ := padjGet_some_of_mem_keys adj1 c
          (by rw [hkeys1]; exact List.mem_range.mpr hcn)
        rw [hmem2 c lc2 hget w0 t]
        constructor
        · rintro (⟨lc, hgc, hmem⟩ | ⟨e0, he0, h5, h6⟩)
          · have h7 : lc = lc1 := by
              rw [hlc1] at hgc
              injection hgc with h8
              exact h8.symm
            rw [h7] at hmem
            rw [hmem1 c lc1 hlc1 w0 t] at hmem
            rcases hmem with h9 | h9
            · exact Or.inl h9
            · exact Or.inr ⟨e, List.mem_cons_self _ _, h9.1, h9.2⟩
          · exact Or.inr ⟨e0, List.mem_cons_of_mem _ he0, h5, h6⟩
        · rintro (⟨lc, hgc, hmem⟩ | ⟨e0, he0, h5, h6⟩)
          · refine Or.inl ⟨lc1, hlc1, ?_⟩
            rw [hmem1 c lc1 hlc1 w0 t]
            exact Or.inl ⟨lc, hgc, hmem⟩
          · rcases List.mem_cons.mp he0 with h7 | h7
            · refine Or.inl ⟨lc1, hlc1, ?_⟩
              rw [hmem1 c lc1 hlc1 w0 t]
              rw [h7] at h5 h6
              exact Or.inr ⟨h5, h6⟩
            · exact Or.inr ⟨e0, h7, h5, h6⟩

theorem kconn_isolated {S : List KEdge} {c : Nat}
    (hS : ∀ g ∈ S, g.1 ≠ c ∧ g.2.1 ≠ c) {i : Nat} (h : KConn S c i) :
    i = c := by
  obtain ⟨vs, hw⟩ := h
  cases vs with
  | nil => exact (hw : c = i).symm
  | cons w ws =>
      obtain ⟨⟨g, hg, ho⟩, -⟩ := hw
      rcases ho with ⟨h1, -⟩ | ⟨-, h2⟩
      · exact absurd h1 (hS g hg).1
      · exact absurd h2 (hS g hg).2

theorem kcanon_orient (e0 : KEdge) (c t : Nat) (w0 : Int)
    (hw : e0.2.2 = w0)
    (ho : (e0.1 = c ∧ e0.2.1 = t) ∨ (e0.1 = t ∧ e0.2.1 = c)) :
    kcanon (c, t, w0) = kcanon e0 := by
  rcases ho with ⟨h1, h2⟩ | ⟨h1, h2⟩
  · rw [← h1, ← h2, ← hw]
  · rw [kcanon_flip, ← h1, ← h2, ← hw]

/-- The full invariant of the primes_algorithm while-loop: the visited set
is exactly the 0-component of the accepted edges, every heap entry records
a real edge out of a visited parent, every edge crossing the visited cut
has a live heap entry, and the accepted list stays embedded in some
minimum candidate. -/
theorem primLoop_spec (n : Nat) (edges : List KEdge) (hn : 1 ≤ n)
    (hrange : ∀ e ∈ edges, e.1 < n ∧ e.2.1 < n)
    (hconn : ∀ a, a < n → KConn edges 0 a)
    (adj : PAdj)
    (hadjkeys : adj.map Prod.fst = List.range n)
    (hadjmem : ∀ c lc, padjGet adj c = some lc → ∀ w0 t, ((w0, t) ∈ lc ↔
      ∃ e0 ∈ edges, e0.2.2 = w0 ∧
        ((e0.1 = c ∧ e0.2.1 = t) ∨ (e0.1 = t ∧ e0.2.1 = c)))) :
    ∀ (fuel : Nat) (vis : List Bool) (heap : List PEntry) (mst : List KEdge),
      vis.length = n →
      (∀ en ∈ heap, en.2.1 < n ∧ 0 ≤ en.2.2 ∧ en.2.2.toNat < n ∧
        vis.getD en.2.2.toNat false = true ∧ ¬ en.2.2 = -1 ∧
        kcanon (en.2.2.toNat, en.2.1, en.1) ∈ List.map kcanon edges) →
      (∀ i, i < n → (vis.getD i false = true ↔
        KConn (List.map kcanon mst) 0 i)) →
      (∀ g ∈ mst, g.1 < n ∧ g.2.1 < n ∧ vis.getD g.1 false = true ∧
        vis.getD g.2.1 false = true) →
      mst.length + 1 = visCount vis →
      (∃ M, MinSpan n edges M ∧ List.Subperm (List.map kcanon mst) M) →
      (∀ e0 ∈ edges, ∀ s t,
        ((e0.1 = s ∧ e0.2.1 = t) ∨ (e0.1 = t ∧ e0.2.1 = s)) →
        vis.getD s false = true → vis.getD t false = false →
        (e0.2.2, t, (s : Int)) ∈ heap) →
      heap.length + degsumU vis adj < fuel →
      ∃ mst2, primLoop fuel adj vis heap mst = some mst2 ∧
        mst2.length = n - 1 ∧
        ∃ M, MinSpan n edges M ∧ kweight mst2 = kweight M := by
  intro fuel
  induction fuel with
  | zero =>
      intro vis heap mst _ _ _ _ _ _ _ hfuel
      exact absurd hfuel (by omega)
  | succ f ih =>
      intro vis heap mst hvlen hheap hvisconn hmstrange hcnt hexM hP4 hfuel
      cases hpop : heapMin3 heap with
      | none =>
          have hempty : heap = [] := heapMin3_none heap hpop
          have hallvis : ∀ i, i < n → vis.getD i false = true := by
            intro i hi
            by_contra hni
            have hnc : ¬ KConn (List.map kcanon mst) 0 i :=
              fun hc => hni ((hvisconn i hi).mpr hc)
            obtain ⟨fc, hfcM, x, y, ho, hUx, hUy, -⟩ :=
              kcut_cross edges (List.map kcanon mst) 0 i hnc (hconn i hi)
            have h5 := hrange fc hfcM
            have hxy : x < n ∧ y < n := by
              rcases ho with ⟨h6, h7⟩ | ⟨h6, h7⟩
              · rw [← h6, ← h7]
                exact h5
              · rw [← h7, ← h6]
                exact ⟨h5.2, h5.1⟩
            have hxvis : vis.getD x false = true :=
              (hvisconn x hxy.1).mpr hUx
            have hyvis : vis.getD y false = false := by
              cases hb : vis.getD y false with
              | false => rfl
              | true => exact absurd ((hvisconn y hxy.2).mp hb) hUy
            have h8 := hP4 fc hfcM x y ho hxvis hyvis
            rw [hempty] at h8
            exact absurd h8 (List.not_mem_nil _)
          have hvc : visCount vis = n := by
            rw [visCount_eq_length vis
              (fun i hi => hallvis i (by rw [← hvlen]; exact hi))]
            exact hvlen
          obtain ⟨M, hMmin, hMsub⟩ := hexM
          have hlen2 : mst.length = n - 1 := by omega
          have hperm : (List.map kcanon mst).Perm M := by
            refine hMsub.perm_of_length_le ?_
            rw [List.length_map, hlen2, hMmin.1.2.2]
          refine ⟨mst, ?_, hlen2, M, hMmin, ?_⟩
          · show (match heapMin3 heap with
              | none => some mst
              | some e =>
                  match vis.get? e.2.1 with
                  | none => none
                  | some true => primLoop f adj vis (heapErase3 heap e) mst
                  | some false =>
                      match padjGet adj e.2.1 with
                      | none => none
                      | some lc =>
                          match primPush (vis.set e.2.1 true) e.2.1
                              (heapErase3 heap e) lc with
                          | none => none
                          | some heap3 =>
                              primLoop f adj (vis.set e.2.1 true) heap3
                                (if e.2.2 = -1 then mst
                                 else mst ++ [(e.2.2.toNat, e.2.1, e.1)])) =
              some mst
            rw [hpop]
          · rw [← kweight_map_canon mst]
            exact kweight_perm hperm
      | some e =>
          have hemem : e ∈ heap := heapMin3_mem heap e hpop
          have heprops := hheap e hemem
          have hclt : e.2.1 < n := heprops.1
          have hget : vis.get? e.2.1 = some (vis.getD e.2.1 false) :=
            get?_of_getD vis e.2.1 false (by rw [hvlen]; exact hclt)
          by_cases hvisited : vis.getD e.2.1 false = true
          · have hget2 : vis.get? e.2.1 = some true := by rw [hget, hvisited]
            have hheap2 : ∀ en ∈ heapErase3 heap e, en.2.1 < n ∧
                0 ≤ en.2.2 ∧ en.2.2.toNat < n ∧
                vis.getD en.2.2.toNat false = true ∧ ¬ en.2.2 = -1 ∧
                kcanon (en.2.2.toNat, en.2.1, en.1) ∈
                  List.map kcanon edges :=
              fun en hen => hheap en (heapErase3_subset heap e en hen)
            have hP42 : ∀ e0 ∈ edges, ∀ s t,
                ((e0.1 = s ∧ e0.2.1 = t) ∨ (e0.1 = t ∧ e0.2.1 = s)) →
                vis.getD s false = true → vis.getD t false = false →
                (e0.2.2, t, (s : Int)) ∈ heapErase3 heap e := by
              intro e0 he0 s t ho hs ht
              refine heapErase3_mem_of_ne heap e _ (hP4 e0 he0 s t ho hs ht)
                ?_
              intro hc
              have h6 : e.2.1 = t := by rw [← hc]
              rw [h6] at hvisited
              rw [hvisited] at ht
              exact Bool.noConfusion ht
            have hfuel2 : (heapErase3 heap e).length + degsumU vis adj <
                f := by
              have h5 := heapErase3_length heap e hemem
              omega
            obtain ⟨mst2, hloop, hlen2, hMfin⟩ :=
              ih vis (heapErase3 heap e) mst hvlen hheap2 hvisconn
                hmstrange hcnt hexM hP42 hfuel2
            refine ⟨mst2, ?_, hlen2, hMfin⟩
            show (match heapMin3 heap with
              | none => some mst
              | some e =>
                  match vis.get? e.2.1 with
                  | none => none
                  | some true => primLoop f adj vis (heapErase3 heap e) mst
                  | some false =>
                      match padjGet adj e.2.1 with
                      | none => none
                      | some lc =>
                          match primPush (vis.set e.2.1 true) e.2.1
                              (heapErase3 heap e) lc with
                          | none => none
                          | some heap3 =>
                              primLoop f adj (vis.set e.2.1 true) heap3
                                (if e.2.2 = -1 then mst
                                 else mst ++ [(e.2.2.toNat, e.2.1, e.1)])) =
              some mst2
            rw [hpop]
            show (match vis.get? e.2.1 with
              | none => none
              | some true => primLoop f adj vis (heapErase3 heap e) mst
              | some false =>
                  match padjGet adj e.2.1 with
                  | none => none
                  | some lc =>
                      match primPush (vis.set e.2.1 true) e.2.1
                          (heapErase3 heap e) lc with
                      | none => none
                      | some heap3 =>
                          primLoop f adj (vis.set e.2.1 true) heap3
                            (if e.2.2 = -1 then mst
                             else mst ++ [(e.2.2.toNat, e.2.1, e.1)])) =
              some mst2
            rw [hget2]
            exact hloop
          · have hfresh : vis.getD e.2.1 false = false := by
              cases hb : vis.getD e.2.1 false with
              | false => rfl
              | true => exact absurd hb hvisited
            have hget2 : vis.get? e.2.1 = some false := by rw [hget, hfresh]
            obtain ⟨lc, hlc⟩ := padjGet_some_of_mem_keys adj e.2.1
              (by rw [hadjkeys]; exact List.mem_range.mpr hclt)
            have hclen : e.2.1 < vis.length := by
              rw [hvlen]
              exact hclt
            have hpres : ∀ i, vis.getD i false = true →
                (vis.set e.2.1 true).getD i false = true := by
              intro i hi
              by_cases hic : i = e.2.1
              · rw [hic]
                exact getD_set_self vis e.2.1 true false hclen
              · rw [getD_set_ne vis e.2.1 i true false
                  (fun hcc => hic hcc.symm)]
                exact hi
            have hlcbound : ∀ p ∈ lc, p.2 < (vis.set e.2.1 true).length := by
              intro p hp
              rw [List.length_set, hvlen]
              obtain ⟨p1, p2⟩ := p
              obtain ⟨e0, he0, -, h6⟩ :=
                (hadjmem e.2.1 lc hlc p1 p2).mp hp
              have h7 := hrange e0 he0
              rcases h6 with ⟨h8, h9⟩ | ⟨h8, h9⟩
              · show p2 < n
                rw [← h9]
                exact h7.2
              · show p2 < n
                rw [← h8]
                exact h7.1
            obtain ⟨heap3, hpush, hpushlen, hpushmem⟩ :=
              primPush_spec (vis.set e.2.1 true) e.2.1 lc
                (heapErase3 heap e) hlcbound
            have hsent : ¬ e.2.2 = -1 := heprops.2.2.2.2.1
            have hslt : e.2.2.toNat < n := heprops.2.2.1
            have hsvis : vis.getD e.2.2.toNat false = true :=
              heprops.2.2.2.1
            have hconn0s : KConn (List.map kcanon mst) 0 e.2.2.toNat :=
              (hvisconn e.2.2.toNat hslt).mp hsvis
            have hnotc : ¬ KConn (List.map kcanon mst) 0 e.2.1 :=
              fun hc => hvisited ((hvisconn e.2.1 hclt).mpr hc)
            have hiso : ∀ g2 ∈ List.map kcanon mst,
                g2.1 ≠ e.2.1 ∧ g2.2.1 ≠ e.2.1 := by
              intro g2 hg2
              rw [List.mem_map] at hg2
              obtain ⟨g, hgm, hgeq⟩ := hg2
              have h5 := hmstrange g hgm
              have hne1 : g.1 ≠ e.2.1 := by
                intro hcc
                rw [hcc] at h5
                exact hvisited h5.2.2.1
              have hne2 : g.2.1 ≠ e.2.1 := by
                intro hcc
                rw [hcc] at h5
                exact hvisited h5.2.2.2
              rcases kcanon_ends g with ⟨p1, p2⟩ | ⟨p1, p2⟩ <;>
                rw [hgeq] at p1 p2
              · exact ⟨fun hcc => hne1 (p1.symm.trans hcc),
                  fun hcc => hne2 (p2.symm.trans hcc)⟩
              · exact ⟨fun hcc => hne2 (p1.symm.trans hcc),
                  fun hcc => hne1 (p2.symm.trans hcc)⟩
            have hRHS : ∀ i,
                KConn (List.map kcanon
                  (mst ++ [(e.2.2.toNat, e.2.1, e.1)])) 0 i ↔
                (KConn (List.map kcanon mst) 0 i ∨ i = e.2.1) := by
              intro i
              rw [List.map_append]
              show KConn (List.map kcanon mst ++
                [kcanon (e.2.2.toNat, e.2.1, e.1)]) 0 i ↔ _
              rw [kconn_snoc_iff]
              constructor
              · rintro (h | ⟨h1, h2⟩ | ⟨h1, h2⟩)
                · exact Or.inl h
                · rcases kcanon_ends ((e.2.2.toNat, e.2.1, e.1) : KEdge)
                    with ⟨p1, p2⟩ | ⟨p1, p2⟩
                  · rw [p2] at h2
                    exact Or.inr (kconn_isolated hiso h2)
                  · rw [p1] at h1
                    exact absurd h1 hnotc
                · rcases kcanon_ends ((e.2.2.toNat, e.2.1, e.1) : KEdge)
                    with ⟨p1, p2⟩ | ⟨p1, p2⟩
                  · rw [p2] at h1
                    exact absurd h1 hnotc
                  · rw [p1] at h2
                    exact Or.inr (kconn_isolated hiso h2)
              · rintro (h | h)
                · exact Or.inl h
                · rcases kcanon_ends ((e.2.2.toNat, e.2.1, e.1) : KEdge)
                    with ⟨p1, p2⟩ | ⟨p1, p2⟩
                  · refine Or.inr (Or.inl ⟨?_, ?_⟩)
                    · rw [p1]
                      exact hconn0s
                    · rw [p2, h]
                      exact kconn_refl _ e.2.1
                  · refine Or.inr (Or.inr ⟨?_, ?_⟩)
                    · rw [p2]
                      exact hconn0s
                    · rw [p1, h]
                      exact kconn_refl _ e.2.1
            have hvisconn2 : ∀ i, i < n →
                ((vis.set e.2.1 true).getD i false = true ↔
                  KConn (List.map kcanon
                    (mst ++ [(e.2.2.toNat, e.2.1, e.1)])) 0 i) := by
              intro i hi
              rw [hRHS i]
              by_cases hic : i = e.2.1
              · rw [hic]
                constructor
                · intro _
                  exact Or.inr rfl
                · intro _
                  exact getD_set_self vis e.2.1 true false hclen
              · rw [getD_set_ne vis e.2.1 i true false
                  (fun hcc => hic hcc.symm)]
                rw [hvisconn i hi]
                constructor
                · intro h5
                  exact Or.inl h5
                · rintro (h5 | h5)
                  · exact h5
                  · exact absurd h5 hic
            have hmstrange2 : ∀ g ∈ mst ++ [(e.2.2.toNat, e.2.1, e.1)],
                g.1 < n ∧ g.2.1 < n ∧
                (vis.set e.2.1 true).getD g.1 false = true ∧
                (vis.set e.2.1 true).getD g.2.1 false = true := by
              intro g hg
              rcases List.mem_append.mp hg with h5 | h5
              · have h6 := hmstrange g h5
                exact ⟨h6.1, h6.2.1, hpres g.1 h6.2.2.1,
                  hpres g.2.1 h6.2.2.2⟩
              · rw [List.mem_singleton.mp h5]
                exact ⟨hslt, hclt, hpres e.2.2.toNat hsvis,
                  getD_set_self vis e.2.1 true false hclen⟩
            have hcnt2 : (mst ++ [(e.2.2.toNat, e.2.1, e.1)]).length + 1 =
                visCount (vis.set e.2.1 true) := by
              rw [List.length_append, List.length_singleton,
                visCount_set_true vis e.2.1 hclen hfresh]
              omega
            have hexM2 : ∃ M, MinSpan n edges M ∧
                List.Subperm (List.map kcanon
                  (mst ++ [(e.2.2.toNat, e.2.1, e.1)])) M := by
              obtain ⟨M, hMmin, hMsub⟩ := hexM
              have hwb : ∀ fc x y, fc ∈ M →
                  ((fc.1 = x ∧ fc.2.1 = y) ∨ (fc.1 = y ∧ fc.2.1 = x)) →
                  KConn (List.map kcanon mst) 0 x →
                  ¬ KConn (List.map kcanon mst) 0 y →
                  ((e.2.2.toNat, e.2.1, e.1) : KEdge).2.2 ≤ fc.2.2 := by
                intro fc x y hfcM ho hUx hUy
                have hfbase : fc ∈ List.map kcanon edges :=
                  hMmin.1.1.subset hfcM
                rw [List.mem_map] at hfbase
                obtain ⟨e0, he0, he0eq⟩ := hfbase
                have h5 := kcanon_endpoints_lt (hrange e0 he0).1
                  (hrange e0 he0).2
                rw [he0eq] at h5
                have hxy : x < n ∧ y < n := by
                  rcases ho with ⟨h6, h7⟩ | ⟨h6, h7⟩
                  · rw [← h6, ← h7]
                    exact h5
                  · rw [← h7, ← h6]
                    exact ⟨h5.2, h5.1⟩
                have hxvis : vis.getD x false = true :=
                  (hvisconn x hxy.1).mpr hUx
                have hyvis : vis.getD y false = false := by
                  cases hb : vis.getD y false with
                  | false => rfl
                  | true => exact absurd ((hvisconn y hxy.2).mp hb) hUy
                have horient : (e0.1 = x ∧ e0.2.1 = y) ∨
                    (e0.1 = y ∧ e0.2.1 = x) := by
                  rcases kcanon_ends e0 with ⟨p1, p2⟩ | ⟨p1, p2⟩ <;>
                    rw [he0eq] at p1 p2 <;>
                    rcases ho with ⟨h6, h7⟩ | ⟨h6, h7⟩
                  · exact Or.inl ⟨p1.symm.trans h6, p2.symm.trans h7⟩
                  · exact Or.inr ⟨p1.symm.trans h6, p2.symm.trans h7⟩
                  · exact Or.inr ⟨p2.symm.trans h7, p1.symm.trans h6⟩
                  · exact Or.inl ⟨p2.symm.trans h7, p1.symm.trans h6⟩
                have hentry := hP4 e0 he0 x y horient hxvis hyvis
                have hwle : e.1 ≤ e0.2.2 := by
                  have h6 := heapMin3_le heap e hpop (e0.2.2, y, (x : Int))
                    hentry
                  rcases h6 with h7 | ⟨h7, -⟩
                  · exact le_of_lt h7
                  · exact le_of_eq h7
                have hfw : fc.2.2 = e0.2.2 := by
                  rw [← he0eq]
                  exact kcanon_weight e0
                show e.1 ≤ fc.2.2
                omega
              obtain ⟨M2, hM2min, hM2sub⟩ := exchange_step n edges
                (List.map kcanon mst) M (e.2.2.toNat, e.2.1, e.1) 0
                hMmin hMsub heprops.2.2.2.2.2 (by omega) hclt hconn0s
                hnotc hwb
              refine ⟨M2, hM2min, ?_⟩
              rw [List.map_append]
              exact hM2sub
            have hheap3 : ∀ en ∈ heap3, en.2.1 < n ∧ 0 ≤ en.2.2 ∧
                en.2.2.toNat < n ∧
                (vis.set e.2.1 true).getD en.2.2.toNat false = true ∧
                ¬ en.2.2 = -1 ∧
                kcanon (en.2.2.toNat, en.2.1, en.1) ∈
                  List.map kcanon edges := by
              intro en hen
              rcases (hpushmem en).mp hen with h5 | ⟨p, hplc, hpfresh, hpeq⟩
              · have h6 := hheap en (heapErase3_subset heap e en h5)
                exact ⟨h6.1, h6.2.1, h6.2.2.1, hpres _ h6.2.2.2.1,
                  h6.2.2.2.2.1, h6.2.2.2.2.2⟩
              · obtain ⟨p1, p2⟩ := p
                obtain ⟨e0, he0, hew, h6⟩ :=
                  (hadjmem e.2.1 lc hlc p1 p2).mp hplc
                have h7 := hrange e0 he0
                have hp2n : p2 < n := by
                  rcases h6 with ⟨h8, h9⟩ | ⟨h8, h9⟩
                  · rw [← h9]
                    exact h7.2
                  · rw [← h8]
                    exact h7.1
                have htn : ((e.2.1 : Int)).toNat = e.2.1 := by omega
                rw [hpeq]
                refine ⟨hp2n, ?_, ?_, ?_, ?_, ?_⟩
                · show (0 : Int) ≤ (e.2.1 : Int)
                  omega
                · show ((e.2.1 : Int)).toNat < n
                  rw [htn]
                  exact hclt
                · show (vis.set e.2.1 true).getD ((e.2.1 : Int)).toNat
                    false = true
                  rw [htn]
                  exact getD_set_self vis e.2.1 true false hclen
                · show ¬ ((e.2.1 : Int)) = -1
                  omega
                · show kcanon (((e.2.1 : Int)).toNat, p2, p1) ∈
                    List.map kcanon edges
                  rw [htn]
                  refine List.mem_map.mpr ⟨e0, he0, ?_⟩
                  exact (kcanon_orient e0 e.2.1 p2 p1 hew h6).symm
            have hP43 : ∀ e0 ∈ edges, ∀ s t,
                ((e0.1 = s ∧ e0.2.1 = t) ∨ (e0.1 = t ∧ e0.2.1 = s)) →
                (vis.set e.2.1 true).getD s false = true →
                (vis.set e.2.1 true).getD t false = false →
                (e0.2.2, t, (s : Int)) ∈ heap3 := by
              intro e0 he0 s t ho hs ht
              have htne : t ≠ e.2.1 := by
                intro hcc
                rw [hcc] at ht
                rw [getD_set_self vis e.2.1 true false hclen] at ht
                exact Bool.noConfusion ht
              have hvt : vis.getD t false = false := by
                rw [← getD_set_ne vis e.2.1 t true false
                  (fun hcc => htne hcc.symm)]
                exact ht
              by_cases hsc : s = e.2.1
              · refine (hpushmem _).mpr (Or.inr ⟨(e0.2.2, t), ?_, ht, ?_⟩)
                · refine (hadjmem e.2.1 lc hlc e0.2.2 t).mpr ?_
                  refine ⟨e0, he0, rfl, ?_⟩
                  rw [← hsc]
                  exact ho
                · rw [hsc]
              · have hvs : vis.getD s false = true := by
                  rw [← getD_set_ne vis e.2.1 s true false
                    (fun hcc => hsc hcc.symm)]
                  exact hs
                have h5 := hP4 e0 he0 s t ho hvs hvt
                refine (hpushmem _).mpr (Or.inl ?_)
                refine heapErase3_mem_of_ne heap e _ h5 ?_
                intro hcc
                have h6 : e.2.1 = t := by rw [← hcc]
                exact htne h6.symm
            have hfuel3 : heap3.length +
                degsumU (vis.set e.2.1 true) adj < f := by
              have h5 := heapErase3_length heap e hemem
              have h6 := degsumU_set_true adj vis e.2.1 lc
                (by rw [hadjkeys]; exact List.nodup_range n) hlc hclen hfresh
              omega
            obtain ⟨mst2, hloop, hlen2, hMfin⟩ :=
              ih (vis.set e.2.1 true) heap3
                (mst ++ [(e.2.2.toNat, e.2.1, e.1)])
                (by rw [List.length_set]; exact hvlen)
                hheap3 hvisconn2 hmstrange2 hcnt2 hexM2 hP43 hfuel3
            refine ⟨mst2, ?_, hlen2, hMfin⟩
            show (match heapMin3 heap with
              | none => some mst
              | some e =>
                  match vis.get? e.2.1 with
                  | none => none
                  | some true => primLoop f adj vis (heapErase3 heap e) mst
                  | some false =>
                      match padjGet adj e.2.1 with
                      | none => none
                      | some lc =>
                          match primPush (vis.set e.2.1 true) e.2.1
                              (heapErase3 heap e) lc with
                          | none => none
                          | some heap3 =>
                              primLoop f adj (vis.set e.2.1 true) heap3
                                (if e.2.2 = -1 then mst
                                 else mst ++ [(e.2.2.toNat, e.2.1, e.1)])) =
              some mst2
            rw [hpop]
            show (match vis.get? e.2.1 with
              | none => none
              | some true => primLoop f adj vis (heapErase3 heap e) mst
              | some false =>
                  match padjGet adj e.2.1 with
                  | none => none
                  | some lc =>
                      match primPush (vis.set e.2.1 true) e.2.1
                          (heapErase3 heap e) lc with
                      | none => none
                      | some heap3 =>
                          primLoop f adj (vis.set e.2.1 true) heap3
                            (if e.2.2 = -1 then mst
                             else mst ++ [(e.2.2.toNat, e.2.1, e.1)])) =
              some mst2
            rw [hget2]
            show (match padjGet adj e.2.1 with
              | none => none
              | some lc =>
                  match primPush (vis.set e.2.1 true) e.2.1
                      (heapErase3 heap e) lc with
                  | none => none
                  | some heap3 =>
                      primLoop f adj (vis.set e.2.1 true) heap3
                        (if e.2.2 = -1 then mst
                         else mst ++ [(e.2.2.toNat, e.2.1, e.1)])) =
              some mst2
            rw [hlc]
            show (match primPush (vis.set e.2.1 true) e.2.1
                (heapErase3 heap e) lc with
              | none => none
              | some heap3 =>
                  primLoop f adj (vis.set e.2.1 true) heap3
                    (if e.2.2 = -1 then mst
                     else mst ++ [(e.2.2.toNat, e.2.1, e.1)])) = some mst2
            rw [hpush, if_neg hsent]
            exact hloop

/-- primes_algorithm on a connected in-range input with at least one node
returns a minimum-weight result: the first loop iteration pops the seed
entry (0, 0, -1), marks node 0 and pushes its adjacency, establishing the
loop invariant of primLoop_spec. -/
theorem prim_out (n : Nat) (edges : List KEdge) (hn : 1 ≤ n)
    (hrange : ∀ e ∈ edges, e.1 < n ∧ e.2.1 < n)
    (hconn : ∀ a, a < n → KConn edges 0 a)
    (hex : ∃ M0, MinSpan n edges M0) :
    ∃ mp, primes_algorithm n edges = some mp ∧ mp.length = n - 1 ∧
      ∃ M, MinSpan n edges M ∧ kweight mp = kweight M := by
  obtain ⟨adj, hbuild, hakeys, hadeg, hamem⟩ :=
    padjBuildGo_spec n edges
      ((List.range n).map (fun i => (i, ([] : List (Int × Nat)))))
      (seedlist_keys (List.range n)) hrange
  have hadeg2 : degsum adj = 2 * edges.length := by
    rw [hadeg, degsum_seedlist (List.range n)]
    omega
  have hadjmem : ∀ c lc, padjGet adj c = some lc → ∀ w0 t,
      ((w0, t) ∈ lc ↔ ∃ e0 ∈ edges, e0.2.2 = w0 ∧
        ((e0.1 = c ∧ e0.2.1 = t) ∨ (e0.1 = t ∧ e0.2.1 = c))) := by
    intro c lc hget w0 t
    have h5 := hamem c lc hget w0 t
    constructor
    · intro h6
      rcases h5.mp h6 with ⟨lc0, hlc0, hmem0⟩ | h7
      · rw [padjGet_seedlist (List.range n) c] at hlc0
        by_cases hc : c ∈ List.range n
        · rw [if_pos hc] at hlc0
          rw [← Option.some.inj hlc0] at hmem0
          exact absurd hmem0 (List.not_mem_nil _)
        · rw [if_neg hc] at hlc0
          exact Option.noConfusion hlc0
      · exact h7
    · intro h6
      exact h5.mpr (Or.inr h6)
  have hv00 : (List.replicate n false).getD 0 false = false := by
    rw [getD_replicate false false n 0, if_pos (by omega)]
  have hget0 : (List.replicate n false).get? 0 = some false := by
    rw [get?_of_getD (List.replicate n false) 0 false
      (by rw [List.length_replicate]; omega), hv00]
  obtain ⟨l0, hl0⟩ := padjGet_some_of_mem_keys adj 0
    (by rw [hakeys]; exact List.mem_range.mpr (by omega))
  have hvlen1 : ((List.replicate n false).set 0 true).length = n := by
    rw [List.length_set, List.length_replicate]
  have hl0bound : ∀ p ∈ l0,
      p.2 < ((List.replicate n false).set 0 true).length := by
    intro p hp
    rw [hvlen1]
    obtain ⟨p1, p2⟩ := p
    obtain ⟨e0, he0, -, h6⟩ := (hadjmem 0 l0 hl0 p1 p2).mp hp
    have h7 := hrange e0 he0
    rcases h6 with ⟨h8, h9⟩ | ⟨h8, h9⟩
    · show p2 < n
      rw [← h9]
      exact h7.2
    · show p2 < n
      rw [← h8]
      exact h7.1
  obtain ⟨heap1, hpush, hpushlen, hpushmem⟩ :=
    primPush_spec ((List.replicate n false).set 0 true) 0 l0 [] hl0bound
  have hset0 : ((List.replicate n false).set 0 true).getD 0 false = true :=
    getD_set_self (List.replicate n false) 0 true false
      (by rw [List.length_replicate]; omega)
  have hsetne : ∀ i, i ≠ 0 →
      ((List.replicate n false).set 0 true).getD i false =
        (List.replicate n false).getD i false := by
    intro i hi
    exact getD_set_ne (List.replicate n false) 0 i true false
      (fun hcc => hi hcc.symm)
  have hrepl : ∀ i, (List.replicate n false).getD i false = false := by
    intro i
    rw [getD_replicate false false n i]
    by_cases h : i < n
    · rw [if_pos h]
    · rw [if_neg h]
  have hheap1 : ∀ en ∈ heap1, en.2.1 < n ∧ 0 ≤ en.2.2 ∧
      en.2.2.toNat < n ∧
      ((List.replicate n false).set 0 true).getD en.2.2.toNat false =
        true ∧ ¬ en.2.2 = -1 ∧
      kcanon (en.2.2.toNat, en.2.1, en.1) ∈ List.map kcanon edges := by
    intro en hen
    rcases (hpushmem en).mp hen with h5 | ⟨p, hplc, hpfresh, hpeq⟩
    · exact absurd h5 (List.not_mem_nil _)
    · obtain ⟨p1, p2⟩ := p
      obtain ⟨e0, he0, hew, h6⟩ := (hadjmem 0 l0 hl0 p1 p2).mp hplc
      have h7 := hrange e0 he0
      have hp2n : p2 < n := by
        rcases h6 with ⟨h8, h9⟩ | ⟨h8, h9⟩
        · rw [← h9]
          exact h7.2
        · rw [← h8]
          exact h7.1
      have htn : (((0 : Nat) : Int)).toNat = 0 := by omega
      rw [hpeq]
      refine ⟨hp2n, ?_, ?_, ?_, ?_, ?_⟩
      · show (0 : Int) ≤ (((0 : Nat)) : Int)
        omega
      · show ((((0 : Nat)) : Int)).toNat < n
        omega
      · show ((List.replicate n false).set 0 true).getD
          ((((0 : Nat)) : Int)).toNat false = true
        rw [htn]
        exact hset0
      · show ¬ ((((0 : Nat)) : Int)) = -1
        omega
      · show kcanon (((((0 : Nat)) : Int)).toNat, p2, p1) ∈
          List.map kcanon edges
        rw [htn]
        exact List.mem_map.mpr
          ⟨e0, he0, (kcanon_orient e0 0 p2 p1 hew h6).symm⟩
  have hvisconn1 : ∀ i, i < n →
      (((List.replicate n false).set 0 true).getD i false = true ↔
        KConn (List.map kcanon ([] : List KEdge)) 0 i) := by
    intro i hi
    by_cases hi0 : i = 0
    · rw [hi0]
      constructor
      · intro _
        exact kconn_refl _ 0
      · intro _
        exact hset0
    · rw [hsetne i hi0, hrepl i]
      constructor
      · intro h5
        exact Bool.noConfusion h5
      · intro h5
        exact absurd (kconn_nil h5).symm hi0
  have hcnt1 : ([] : List KEdge).length + 1 =
      visCount ((List.replicate n false).set 0 true) := by
    rw [visCount_set_true (List.replicate n false) 0
      (by rw [List.length_replicate]; omega) hv00,
      visCount_replicate_false n]
    rfl
  have hexM1 : ∃ M, MinSpan n edges M ∧
      List.Subperm (List.map kcanon ([] : List KEdge)) M := by
    obtain ⟨M0, hM0⟩ := hex
    exact ⟨M0, hM0, List.nil_subperm⟩
  have hP41 : ∀ e0 ∈ edges, ∀ s t,
      ((e0.1 = s ∧ e0.2.1 = t) ∨ (e0.1 = t ∧ e0.2.1 = s)) →
      ((List.replicate n false).set 0 true).getD s false = true →
      ((List.replicate n false).set 0 true).getD t false = false →
      (e0.2.2, t, (s : Int)) ∈ heap1 := by
    intro e0 he0 s t ho hs ht
    have hs0 : s = 0 := by
      by_contra hne
      rw [hsetne s hne, hrepl s] at hs
      exact Bool.noConfusion hs
    refine (hpushmem _).mpr (Or.inr ⟨(e0.2.2, t), ?_, ht, ?_⟩)
    · refine (hadjmem 0 l0 hl0 e0.2.2 t).mpr ⟨e0, he0, rfl, ?_⟩
      rw [← hs0]
      exact ho
    · rw [hs0]
  have hfuel1 : heap1.length +
      degsumU ((List.replicate n false).set 0 true) adj <
        2 * edges.length + 1 := by
    have h5 := degsumU_set_true adj (List.replicate n false) 0 l0
      (by rw [hakeys]; exact List.nodup_range n) hl0
      (by rw [List.length_replicate]; omega) hv00
    have h6 : degsumU (List.replicate n false) adj = degsum adj :=
      degsumU_replicate_false adj n
    have h7 : ([] : List PEntry).length = 0 := rfl
    omega
  obtain ⟨mst2, hloop, hlen2, hMfin⟩ :=
    primLoop_spec n edges hn hrange hconn adj hakeys hadjmem
      (2 * edges.length + 1) ((List.replicate n false).set 0 true) heap1 []
      hvlen1 hheap1 hvisconn1
      (by intro g hg; exact absurd hg (List.not_mem_nil g))
      hcnt1 hexM1 hP41 hfuel1
  refine ⟨mst2, ?_, hlen2, hMfin⟩
  show (match padjBuildGo ((List.range n).map
      (fun i => (i, ([] : List (Int × Nat))))) edges with
    | none => none
    | some adj =>
        primLoop (2 * edges.length + 2) adj (List.replicate n false)
          [((0 : Int), 0, (-1 : Int))] []) = some mst2
  rw [hbuild]
  show (match (List.replicate n false).get? (0 : Nat) with
    | none => none
    | some true => primLoop (2 * edges.length + 1) adj
        (List.replicate n false)
        (heapErase3 [((0 : Int), 0, (-1 : Int))] ((0 : Int), 0, (-1 : Int)))
        []
    | some false =>
        match padjGet adj (0 : Nat) with
        | none => none
        | some lc =>
            match primPush ((List.replicate n false).set (0 : Nat) true)
                (0 : Nat)
                (heapErase3 [((0 : Int), 0, (-1 : Int))]
                  ((0 : Int), 0, (-1 : Int))) lc with
            | none => none
            | some heap3 =>
                primLoop (2 * edges.length + 1) adj
                  ((List.replicate n false).set (0 : Nat) true) heap3
                  (if ((-1 : Int)) = -1 then ([] : List KEdge)
                   else [] ++ [((((-1 : Int))).toNat, (0 : Nat),
                     (0 : Int))])) = some mst2
  rw [hget0]
  show (match padjGet adj (0 : Nat) with
    | none => none
    | some lc =>
        match primPush ((List.replicate n false).set (0 : Nat) true)
            (0 : Nat)
            (heapErase3 [((0 : Int), 0, (-1 : Int))]
              ((0 : Int), 0, (-1 : Int))) lc with
        | none => none
        | some heap3 =>
            primLoop (2 * edges.length + 1) adj
              ((List.replicate n false).set (0 : Nat) true) heap3
              (if ((-1 : Int)) = -1 then ([] : List KEdge)
               else [] ++ [((((-1 : Int))).toNat, (0 : Nat),
                 (0 : Int))])) = some mst2
  rw [hl0]
  have herase : heapErase3 [((0 : Int), 0, (-1 : Int))]
      ((0 : Int), 0, (-1 : Int)) = [] := by
    show (if (((0 : Int), 0, (-1 : Int)) : PEntry) =
        ((0 : Int), 0, (-1 : Int)) then ([] : List PEntry)
      else ((0 : Int), 0, (-1 : Int)) :: heapErase3 [] ((0:Int),0,(-1:Int)))
      = []
    rw [if_pos rfl]
  show (match primPush ((List.replicate n false).set (0 : Nat) true)
      (0 : Nat)
      (heapErase3 [((0 : Int), 0, (-1 : Int))] ((0 : Int), 0, (-1 : Int)))
      l0 with
    | none => none
    | some heap3 =>
        primLoop (2 * edges.length + 1) adj
          ((List.replicate n false).set (0 : Nat) true) heap3
          (if ((-1 : Int)) = -1 then ([] : List KEdge)
           else [] ++ [((((-1 : Int))).toNat, (0 : Nat), (0 : Int))])) =
    some mst2
  rw [herase, hpush]
  show primLoop (2 * edges.length + 1) adj
    ((List.replicate n false).set 0 true) heap1 [] = some mst2
  exact hloop

/-- C6: on a connected graph whose node labels are all below num_nodes and
with at least one node, kruskals_algorithm succeeds and returns an MST list
with exactly num_nodes - 1 edges, primes_algorithm succeeds and returns an
MST list with exactly num_nodes - 1 edges, and the two lists have the same
total weight. -/
theorem kruskal_prim_agree (num_nodes : Nat) (edges : List KEdge)
    (hn : 1 ≤ num_nodes)
    (hrange : ∀ e ∈ edges, e.1 < num_nodes ∧ e.2.1 < num_nodes)
    (hconn : ∀ a, a < num_nodes → KConn edges 0 a) :
    ∃ mk rest mp,
      kruskals_algorithm num_nodes edges = some (mk, rest) ∧
      primes_algorithm num_nodes edges = some mp ∧
      mk.length = num_nodes - 1 ∧ mp.length = num_nodes - 1 ∧
      kweight mk = kweight mp := by
  obtain ⟨A2, hk, hklen, hkvalid, M1, hM1, hw1⟩ :=
    kruskal_out num_nodes edges hn hrange hconn
  obtain ⟨mp, hp, hplen, M2, hM2, hw2⟩ :=
    prim_out num_nodes edges hn hrange hconn ⟨M1, hM1⟩
  refine ⟨A2, weightSort edges, mp, hk, hp, hklen, hplen, ?_⟩
  rw [hw1, hw2]
  exact minspan_weight_eq hM1 hM2

/-- Witness for C6 on the 4-node graph
[(0,1,10),(0,2,6),(0,3,5),(1,3,15),(2,3,4)]. -/
theorem kruskal_prim_agree_witness :
    ∃ mk rest mp,
      kruskals_algorithm 4
        [(0, 1, 10), (0, 2, 6), (0, 3, 5), (1, 3, 15), (2, 3, 4)] =
        some (mk, rest) ∧
      primes_algorithm 4
        [(0, 1, 10), (0, 2, 6), (0, 3, 5), (1, 3, 15), (2, 3, 4)] =
        some mp ∧
      mk.length = 4 - 1 ∧ mp.length = 4 - 1 ∧
      kweight mk = kweight mp :=
  kruskal_prim_agree 4
    [(0, 1, 10), (0, 2, 6), (0, 3, 5), (1, 3, 15), (2, 3, 4)]
    (by decide) (by decide)
    (by
      intro a ha
      interval_cases a
      · exact ⟨[], rfl⟩
      · exact ⟨[1], ⟨(0, 1, 10), by decide, by decide⟩, rfl⟩
      · exact ⟨[2], ⟨(0, 2, 6), by decide, by decide⟩, rfl⟩
      · exact ⟨[3], ⟨(0, 3, 5), by decide, by decide⟩, rfl⟩)

end GT
